import Mathlib

/-! ## Sqex.Sqpack.Creator

A shallow embedding of the archive builder of
`XivAlexanderCommon/Sqex/Sqpack/Creator.h` and theorems about it, preceded by
the sound entries of `XivAlexanderCommon/Sqex_Sound_Writer.cpp`, whose
theorems stand at the end.

Conventions of the embedding.

* A `std::map` is a key-ordered association list; `find`, `emplace` and
  `erase` follow the container's contract for a comparator (lookup up to
  equivalence, no insertion when an equivalent key is present).
* An `EntryProvider*` stored in an `AddEntryResult` is represented by the
  provider it points to at the moment it is recorded.
* Exceptions raised inside the `try` block of `AddEntry` are the failures of
  the allocating operations; which operation fails, and with which message,
  is an explicit environment (`Env`), which also says whether the caller
  keeps a reference to the offered provider.
* Using an `Entry*` after the entry has been destroyed, or the raw provider
  pointer after the provider has been destroyed, is undefined behaviour:
  `AddEntry` returns `none` there.
* The two comparators of `EntryPathSpec` are declared outside the sources.
  The hash-only table is ordered by the three hashes; the full-path table by
  the three hashes and then by the path text, so that a PathSpec without
  path text finds the entry of its identity in either table. `Valid` is the
  invariant of the two tables that every operation keeps.
* Machine integers are natural numbers; a narrowing cast is an explicit
  `% 2 ^ 32`.
* The buffers of the index files are represented by their records, in the
  order in which they are serialised. The byte layout of a header or of a
  record is declared outside the sources: where bytes matter, the memory
  images are parameters (`HeaderImages`, `IndexImages`, `ChecksumImages`).
* A view over a data segment is a state machine: a read returns the bytes
  written to the caller's buffer together with the new hint of the view and
  the new state of the shared cache; a failed access is `none`.
-/

namespace Sqex.Sound

/-! ## `Sqex::Sound::ScdWriter::SoundEntry`

The sound entries of `XivAlexanderCommon/Sqex_Sound_Writer.cpp`. A byte is a
natural number; the host is little-endian. A `std::invalid_argument` is an
`Except.error` with its message; undefined behaviour is `none`. -/

/-- Modelled from the spec: `SoundEntryHeader::EntryFormat` (declared in
`Sqex_Sound.h`, which is not among the sources): the values that the writer
names. -/
inductive EntryFormat where
  | EntryFormat_Empty
  | EntryFormat_WaveFormatPcm
  | EntryFormat_WaveFormatAdpcm
  | EntryFormat_Ogg
  | Unset
deriving DecidableEq, Repr

/-- Modelled from the spec: `SoundEntryHeader` (declared in `Sqex_Sound.h`),
with the fields that the writer names. -/
structure SoundEntryHeader where
  StreamSize : Nat
  ChannelCount : Nat
  SamplingRate : Nat
  Format : EntryFormat
  LoopStartOffset : Nat
  LoopEndOffset : Nat
  StreamOffset : Nat
  AuxChunkCount : Nat
  Unknown_0x02E : Nat
deriving DecidableEq, Repr

/-- Modelled from the spec: `sizeof SoundEntryHeader` and the memory image of
a header (its layout is declared in `Sqex_Sound.h`). -/
structure SoundEntryImages where
  sizeofSoundEntryHeader : Nat
  header : SoundEntryHeader → List Nat
  header_size : ∀ h, (header h).length = sizeofSoundEntryHeader

namespace ScdWriter

/-- `ScdWriter::SoundEntry`: `AuxChunks` is a map from names to contents, kept
in iteration order; a name is the list of its characters. -/
structure SoundEntry where
  Header : SoundEntryHeader
  AuxChunks : List (List Nat × List Nat)
  ExtraData : List Nat
  Data : List Nat
deriving DecidableEq, Repr

/-- The four bytes of a `uint32_t` in memory. -/
def le32 (n : Nat) : List Nat :=
  [n % 256, n / 256 % 256, n / 65536 % 256, n / 16777216 % 256]

/-- The `uint32_t` whose four bytes stand at position `i`. -/
def u32At (bytes : List Nat) (i : Nat) : Nat :=
  bytes.getD i 0 + 256 * bytes.getD (i + 1) 0 + 65536 * bytes.getD (i + 2) 0 +
    16777216 * bytes.getD (i + 3) 0

/-- The `uint16_t` whose two bytes stand at position `i`. -/
def u16At (bytes : List Nat) (i : Nat) : Nat :=
  bytes.getD i 0 + 256 * bytes.getD (i + 1) 0

namespace SoundEntry

/-- `SoundEntry::CalculateEntrySize` (lines 200-206). -/
def CalculateEntrySize (image : SoundEntryImages) (e : SoundEntry) : Nat :=
  let auxLength := (e.AuxChunks.map (fun aux => 8 + aux.2.length)).sum
  image.sizeofSoundEntryHeader + auxLength + e.ExtraData.length + e.Data.length

/-- The loop of lines 221-227 of `ExportTo` over the aux chunks that are
left: the vector `res` after the loop, or the message of the exception
together with the vector as the throw leaves it. -/
def ExportTo.chunks : List (List Nat × List Nat) → List Nat →
    Except (String × List Nat) (List Nat)
  | [], res => Except.ok res
  | (name, aux) :: rest, res =>
    if name.length ≠ 4 then Except.error ("Length of name must be 4", res)
    else ExportTo.chunks rest (res ++ name ++ le32 ((8 + aux.length) % 2 ^ 32) ++ aux)

/-- The header that `ExportTo` writes (lines 213-217). -/
def ExportTo.hdr (image : SoundEntryImages) (e : SoundEntry) : SoundEntryHeader :=
  { e.Header with
    StreamOffset :=
      (CalculateEntrySize image e - e.Data.length - image.sizeofSoundEntryHeader) % 2 ^ 32
    StreamSize := e.Data.length % 2 ^ 32
    AuxChunkCount := e.AuxChunks.length % 2 ^ 32 }

/-- `SoundEntry::ExportTo(res)` (lines 208-230): the vector `res` after the
call, or the message of the exception together with the vector as the throw
leaves it. -/
def ExportTo (image : SoundEntryImages) (e : SoundEntry) (res : List Nat) :
    Except (String × List Nat) (List Nat) :=
  match ExportTo.chunks e.AuxChunks (res ++ image.header (ExportTo.hdr image e)) with
  | Except.error what => Except.error what
  | Except.ok written => Except.ok (written ++ e.ExtraData ++ e.Data)

/-- Modelled from the spec: the callback `reader(len, true)` of `FromWave` on
an input that is read sequentially: the next `len` bytes and the input behind
them, or the exception of an incomplete read. -/
def reader (input : List Nat) (len : Nat) : Except String (List Nat × List Nat) :=
  if len ≤ input.length then Except.ok (input.take len, input.drop len)
  else Except.error "incomplete read"

/-- The loop of lines 24-59 of `FromWave`: `wfbuf` holds the bytes read as
`WAVEFORMATEX`, `limit` is `hdr.RemainingSize + 8`, `pos` the variable of that
name and `input` what the reader has not handed out yet. The format tag, the
channel count and the sampling rate are the fields at the offsets 0, 2 and 4
of `WAVEFORMATEX`; reading them from a shorter `wfbuf` is undefined. The
header fields that the initialiser does not name are taken to be zero. -/
def FromWave.sections (wfbuf : List Nat) (limit : Nat) :
    Nat → List Nat → Option (Except String SoundEntry)
  | pos, c0 :: c1 :: c2 :: c3 :: l0 :: l1 :: l2 :: l3 :: rest =>
    if pos < limit then
      if u32At [c0, c1, c2, c3] 0 = 0x61746164 then
        match reader rest (u32At [l0, l1, l2, l3] 0) with
        | Except.error what => some (Except.error what)
        | Except.ok (r, _) =>
          if wfbuf.length < 8 then none
          else
            let res : SoundEntry :=
              { Header :=
                  { StreamSize := u32At [l0, l1, l2, l3] 0, ChannelCount := u16At wfbuf 2,
                    SamplingRate := u32At wfbuf 4, Format := EntryFormat.Unset,
                    LoopStartOffset := 0, LoopEndOffset := 0, StreamOffset := 0,
                    AuxChunkCount := 0, Unknown_0x02E := 0 }
                AuxChunks := [], ExtraData := [], Data := r }
            if u16At wfbuf 0 = 1 then
              some (Except.ok
                { res with
                  Header := { res.Header with Format := EntryFormat.EntryFormat_WaveFormatPcm } })
            else if u16At wfbuf 0 = 2 then
              some (Except.ok
                { res with
                  Header :=
                    { res.Header with Format := EntryFormat.EntryFormat_WaveFormatAdpcm }
                  ExtraData := wfbuf })
            else some (Except.error "wave format not supported")
      else
        FromWave.sections wfbuf limit (pos + 8 + u32At [l0, l1, l2, l3] 0) rest
    else some (Except.error "No data section found")
  | pos, _ =>
    if pos < limit then some (Except.error "incomplete read")
    else some (Except.error "No data section found")

/-- `SoundEntry::FromWave(reader)` (lines 4-61) on the input that the reader
hands out. `hdr.RemainingSize + 8` is a sum of 32-bit values. -/
def FromWave (input : List Nat) : Option (Except String SoundEntry) :=
  match reader input 20 with
  | Except.error what => some (Except.error what)
  | Except.ok (hdr, afterHdr) =>
    if u32At hdr 0 ≠ 0x46464952 ∨ u32At hdr 8 ≠ 0x45564157 ∨ u32At hdr 12 ≠ 0x20746D66 then
      some (Except.error "Bad file header")
    else
      match reader afterHdr (u32At hdr 16) with
      | Except.error what => some (Except.error what)
      | Except.ok (wfbuf, afterFmt) =>
        FromWave.sections wfbuf ((u32At hdr 4 + 8) % 2 ^ 32) (20 + u32At hdr 16) afterFmt

end SoundEntry

end ScdWriter

end Sqex.Sound

namespace Sqex.Sound.Example

open ScdWriter

/-- Stand-in for the memory image of a `SoundEntryHeader`: 32 bytes, the first
three being the stream offset, the stream size and the number of aux chunks,
reduced to a byte. -/
def entryImages : SoundEntryImages :=
  { sizeofSoundEntryHeader := 32
    header := fun h =>
      h.StreamOffset % 256 :: h.StreamSize % 256 :: h.AuxChunkCount % 256 :: List.replicate 29 0
    header_size := fun _ => by simp }

/-- A sound entry with two aux chunks, "MARK" with three bytes and "LOOP" with
none, one byte of extra data and two bytes of data. -/
def entry : SoundEntry :=
  { Header := ⟨0, 2, 44100, EntryFormat.EntryFormat_WaveFormatPcm, 0, 0, 0, 0, 0⟩
    AuxChunks := [([76, 79, 79, 80], []), ([77, 65, 82, 75], [1, 2, 3])]
    ExtraData := [7]
    Data := [8, 9] }

/-- The same entry with an aux chunk whose name has three characters. -/
def entryBadName : SoundEntry :=
  { entry with AuxChunks := [([76, 79, 79, 80], []), ([77, 65, 82], [1, 2, 3])] }

/-- The first 20 bytes of a RIFF/WAVE file: "RIFF", the remaining size, "WAVE",
"fmt " and the size 16 of the format. -/
def wavHeader (remaining : Nat) : List Nat :=
  [0x52, 0x49, 0x46, 0x46] ++ le32 remaining ++ [0x57, 0x41, 0x56, 0x45] ++
    [0x66, 0x6D, 0x74, 0x20] ++ le32 16

/-- A format of 16 bytes with the given format tag: two channels, 44100
samples per second, 16 bits. -/
def wavFormat (tag : Nat) : List Nat :=
  [tag, 0, 2, 0, 0x44, 0xAC, 0, 0, 0x10, 0xB1, 2, 0, 4, 0, 16, 0]

/-- A chunk: its code, the length of its payload and the payload. -/
def chunk (code payload : List Nat) : List Nat :=
  code ++ le32 payload.length ++ payload

/-- A PCM file whose data chunk follows the format. -/
def wavPlain : List Nat :=
  wavHeader 40 ++ wavFormat 1 ++ chunk [0x64, 0x61, 0x74, 0x61] [1, 2, 3, 4]

/-- An ADPCM file with a "fact" chunk of four bytes before the data chunk. -/
def wavWithFact : List Nat :=
  wavHeader 52 ++ wavFormat 2 ++ chunk [0x66, 0x61, 0x63, 0x74] [9, 0, 0, 0] ++
    chunk [0x64, 0x61, 0x74, 0x61] [1, 2, 3, 4]

/-- A PCM file with an empty "LIST" chunk before the data chunk. -/
def wavWithEmptyChunk : List Nat :=
  wavHeader 48 ++ wavFormat 1 ++ chunk [0x4C, 0x49, 0x53, 0x54] [] ++
    chunk [0x64, 0x61, 0x74, 0x61] [1, 2, 3, 4]

/-- A file whose first four bytes are not "RIFF". -/
def wavBadSignature : List Nat :=
  [0x52, 0x49, 0x46, 0x58] ++ wavPlain.drop 4

/-- A file with the format tag 3. -/
def wavFloat : List Nat :=
  wavHeader 40 ++ wavFormat 3 ++ chunk [0x64, 0x61, 0x74, 0x61] [1, 2, 3, 4]

/-- A file without data chunk. -/
def wavNoData : List Nat :=
  wavHeader 28 ++ wavFormat 1

end Sqex.Sound.Example

namespace Sqex.Sqpack

/-! ## Declarations of `Sqpack.h` and of the provider headers used by the builder -/

/-- Modelled from the spec: `EntryPathSpec` is declared in `Sqpack.h`, which is
not among the sources. Identity of a logical entry: the original path text
(empty when only the hashes are known) and the three hash values. -/
structure EntryPathSpec where
  Original : String
  PathHash : Nat
  NameHash : Nat
  FullPathHash : Nat
deriving DecidableEq, Repr

namespace EntryPathSpec

/-- Modelled from the spec: `EntryPathSpec::HasOriginal` (declared in
`Sqpack.h`): the PathSpec carries original path text. -/
def HasOriginal (p : EntryPathSpec) : Bool := !p.Original.isEmpty

/-- Lexicographic order on code-unit sequences, the order of `std::string`. -/
def textLt : List Nat → List Nat → Bool
  | [], [] => false
  | [], _ :: _ => true
  | _ :: _, [] => false
  | a :: as, b :: bs => decide (a < b) || (a == b && textLt as bs)

/-- Modelled from the spec: `EntryPathSpec::AllHashComparator` (declared in
`Sqpack.h`), the ordering of the hash-only table: it compares the three hash
values and nothing else. -/
def AllHashComparator (l r : EntryPathSpec) : Bool :=
  decide (l.FullPathHash < r.FullPathHash) ||
    (l.FullPathHash == r.FullPathHash &&
      (decide (l.PathHash < r.PathHash) ||
        (l.PathHash == r.PathHash && decide (l.NameHash < r.NameHash))))

/-- Modelled from the spec: `EntryPathSpec::FullPathComparator` (declared in
`Sqpack.h`), the ordering of the full-path table. The specification has the
PathSpec of a provider found when an entry of its identity exists in either
table (§4.1) and has a migrated entry reachable by hash-only and by full-path
lookup (§8): a PathSpec without path text is equivalent to a PathSpec with
the same three hashes. So the three hashes are compared first, and the path
text, taken as already normalised, decides between two PathSpecs that have
equal hashes and both carry path text. -/
def FullPathComparator (l r : EntryPathSpec) : Bool :=
  AllHashComparator l r ||
    (!AllHashComparator r l &&
      (l.HasOriginal && r.HasOriginal &&
        textLt (l.Original.data.map Char.toNat) (r.Original.data.map Char.toNat)))

/-- Modelled from the spec: `EntryPathSpec::Path` (declared in `Sqpack.h`), the
path text of a PathSpec, empty when only the hashes are known. -/
def Path (p : EntryPathSpec) : String := p.Original

end EntryPathSpec

/-- Modelled from the spec: the concrete provider classes are declared in
headers that are not among the sources; the builder only needs to tell the
variants apart. -/
inductive ProviderKind where
  | Binary
  | EmptyOrObfuscated
  | Texture
  | Model
  | HotSwappable
  | Other
deriving DecidableEq, Repr

/-- Modelled from the spec: `EntryProvider` (declared in `EntryProvider.h`) is
the capability "report the PathSpec, report the total length, produce a slice
of the content". `Data` is the whole content, one number per byte. -/
structure EntryProvider where
  PathSpec : EntryPathSpec
  Kind : ProviderKind
  Data : List Nat
deriving DecidableEq, Repr

namespace EntryProvider

/-- Modelled from the spec: `EntryProvider::StreamSize`, the total length. -/
def StreamSize (p : EntryProvider) : Nat := p.Data.length

/-- Modelled from the spec: `EntryProvider::UpdatePathSpec` (declared in
`EntryProvider.h`) upgrades the provider's PathSpec with path text that is
newly available: a provider that has no original path takes the text of `r`
when `r` has one; otherwise nothing changes. -/
def UpdatePathSpec (p : EntryProvider) (r : EntryPathSpec) : EntryProvider :=
  if !p.PathSpec.HasOriginal && r.HasOriginal then
    { p with PathSpec := { p.PathSpec with Original := r.Original } }
  else p

/-- Modelled from the spec: `RandomAccessStream::ReadStream(offset, buf,
length)` of a provider (declared in headers that are not among the sources):
it fills the whole length, or throws when the content ends before. -/
def ReadStream (p : EntryProvider) (offset length : Nat) : Option (List Nat) :=
  if offset + length ≤ p.Data.length then some ((p.Data.drop offset).take length) else none

end EntryProvider

/-- Modelled from the spec: `EmptyOrObfuscatedEntryProvider(pathSpec)`
(declared in `EmptyOrObfuscatedEntryProvider.h`), the placeholder provider
without content. -/
def EmptyOrObfuscatedEntryProvider (pathSpec : EntryPathSpec) : EntryProvider :=
  { PathSpec := pathSpec, Kind := ProviderKind.EmptyOrObfuscated, Data := [] }

/-- Modelled from the spec: `HotSwappableEntryProvider(pathSpec, reservedSize,
base)` (declared in `HotSwappableEntryProvider.h`), the fixed-size indirection:
its length is the reserved size, its content the base content padded with
zero bytes. -/
def HotSwappableEntryProvider (pathSpec : EntryPathSpec) (reservedSize : Nat)
    (base : EntryProvider) : EntryProvider :=
  { PathSpec := pathSpec, Kind := ProviderKind.HotSwappable,
    Data := (base.Data ++ List.replicate (reservedSize - base.Data.length) 0).take reservedSize }

namespace SqIndex

/-- Modelled from the spec: `SqIndex::LEDataLocator` (declared in `Sqpack.h`),
the pair (data-segment index, byte offset within the segment). -/
structure LEDataLocator where
  DatFileIndex : Nat
  DatFileOffset : Nat
deriving DecidableEq, Repr

/-- One record of the pass-through segment of an index file, kept as raw bytes. -/
structure Segment3Entry where
  Bytes : List Nat
deriving DecidableEq, Repr

/-- Modelled from the spec: the value of the `Locator` field of an index record
(`LEDataLocator`, declared in `Sqpack.h`): the locator of an entry, or the
reserved value `LEDataLocator::Synonym()`, "see the conflict table". -/
inductive LocatorField where
  | Data (value : LEDataLocator)
  | Synonym
deriving DecidableEq, Repr

/-- Modelled from the spec: `SqIndex::PairHashLocator` (declared in
`Sqpack.h`), the record of the primary table of the pair-hash index, with the
fields in the order of the initialiser of lines 371 and 373. -/
structure PairHashLocator where
  NameHash : Nat
  PathHash : Nat
  Locator : LocatorField
  Padding : Nat
deriving DecidableEq, Repr

/-- Modelled from the spec: `operator<` of `SqIndex::PairHashLocator` (declared
in `Sqpack.h`), the order `std::sort` uses: the composite key of the two
hashes with the path hash as the leading part, so that the records of one
folder are adjacent, as the folder scan of lines 671-682 expects. -/
def PairHashLocator.lt (l r : PairHashLocator) : Bool :=
  decide (l.PathHash < r.PathHash) ||
    (l.PathHash == r.PathHash && decide (l.NameHash < r.NameHash))

/-- Modelled from the spec: `SqIndex::FullHashLocator` (declared in
`Sqpack.h`), the record of the primary table of the full-hash index. -/
structure FullHashLocator where
  FullPathHash : Nat
  Locator : LocatorField
deriving DecidableEq, Repr

/-- Modelled from the spec: `operator<` of `SqIndex::FullHashLocator` (declared
in `Sqpack.h`): the order of the full-path hashes. -/
def FullHashLocator.lt (l r : FullHashLocator) : Bool :=
  decide (l.FullPathHash < r.FullPathHash)

/-- Modelled from the spec: `SqIndex::PairHashWithTextLocator` (declared in
`Sqpack.h`), the record of the conflict table of the pair-hash index.
`FullPath` is a fixed-width, null-padded field; the path text is taken to fit
it and stands for the field. -/
structure PairHashWithTextLocator where
  NameHash : Nat
  PathHash : Nat
  Locator : LocatorField
  ConflictIndex : Nat
  FullPath : String
deriving DecidableEq, Repr

/-- Modelled from the spec: `SqIndex::FullHashWithTextLocator` (declared in
`Sqpack.h`), the record of the conflict table of the full-hash index. -/
structure FullHashWithTextLocator where
  FullPathHash : Nat
  UnusedHash : Nat
  Locator : LocatorField
  ConflictIndex : Nat
  FullPath : String
deriving DecidableEq, Repr

/-- Modelled from the spec: `SqIndex::PathHashLocator` (declared in
`Sqpack.h`), the folder record, with the fields in the order of the
`emplace_back` of lines 674-678. -/
structure PathHashLocator where
  PathHash : Nat
  PairHashLocatorOffset : Nat
  PairHashLocatorSize : Nat
  Padding : Nat
deriving DecidableEq, Repr

/-- Modelled from the spec: a segment descriptor of `SqIndex::Header`
(declared in `Sqpack.h`), without its checksum. -/
structure SegmentDescriptor where
  Count : Nat
  Offset : Nat
  Size : Nat
deriving DecidableEq, Repr

end SqIndex

namespace SqData

/-- Modelled from the spec: the fields of `SqData::Header` (declared in
`Sqpack.h`) that the assembly loop reads and writes. -/
structure Header where
  HeaderSize : Nat
  Unknown1 : Nat
  DataSize : Nat
  SpanIndex : Nat
  MaxFileSize : Nat
deriving DecidableEq, Repr

/-- Modelled from the spec: `SqData::Header::MaxFileSize_MaxValue` (declared in
`Sqpack.h`), the format's absolute ceiling for a data file; the constructor's
error message gives it as 32GiB. -/
def Header.MaxFileSize_MaxValue : Nat := 32 * 2 ^ 30

end SqData

/-- Modelled from the spec: the constants of the file format that `Sqpack.h`
declares and the assembly code uses: `sizeof SqpackHeader`,
`sizeof SqData::Header`, the `Unknown1_Value` of a data header and the block
alignment `EntryAlignment`. -/
structure Format where
  sizeofSqpackHeader : Nat
  sizeofSqDataHeader : Nat
  Unknown1_Value : Nat
  EntryAlignment : Nat
deriving DecidableEq, Repr

/-- The values of the format the game client reads: both headers take 1024
bytes and entries are aligned to 128 bytes. -/
def Format.sqpack : Format :=
  { sizeofSqpackHeader := 1024, sizeofSqDataHeader := 1024, Unknown1_Value := 16,
    EntryAlignment := 128 }

/-- Result of `Align`. -/
structure AlignResult where
  Count : Nat
  Alloc : Nat
  Pad : Nat
deriving DecidableEq, Repr

/-- Modelled from the spec: `Align(value, by)` (declared in `Sqpack.h`) rounds
`value` up to the next multiple of `by`: `Count` blocks, `Alloc` bytes, `Pad`
bytes of padding. -/
def Align (value by_ : Nat) : AlignResult :=
  { Count := (value + by_ - 1) / by_,
    Alloc := (value + by_ - 1) / by_ * by_,
    Pad := (value + by_ - 1) / by_ * by_ - value }

/-! ## `Creator::Entry`, `Creator::AddEntryResult` and the two tables -/

/-- `Creator::Entry`. -/
structure Entry where
  EntrySize : Nat
  Locator : SqIndex.LEDataLocator
  Provider : EntryProvider
deriving DecidableEq, Repr

/-- `Creator::AddEntryResult`. -/
structure AddEntryResult where
  Added : List EntryProvider
  Replaced : List EntryProvider
  SkippedExisting : List EntryProvider
  Error : List (EntryPathSpec × String)
deriving DecidableEq, Repr

/-- A default-constructed `AddEntryResult`. -/
def AddEntryResult.empty : AddEntryResult :=
  { Added := [], Replaced := [], SkippedExisting := [], Error := [] }

/-- `AddEntryResult::operator+=(const AddEntryResult& r)` (lines 37-44): the
values of `*this` and of `r` after the call, `*this` and `r` being two
objects. -/
def AddEntryResult.addAssign (self r : AddEntryResult) : AddEntryResult × AddEntryResult :=
  ({ Added := self.Added ++ r.Added
     Replaced := self.Replaced ++ r.Replaced
     SkippedExisting := self.SkippedExisting ++ r.SkippedExisting
     Error := self.Error ++ r.Error }, r)

/-- `AddEntryResult::operator+=(AddEntryResult&& r)` (lines 46-57): the values
of `*this` and of `r` after the call; the four lists of `r` are cleared. -/
def AddEntryResult.addAssignMove (self r : AddEntryResult) :
    AddEntryResult × AddEntryResult :=
  ({ Added := self.Added ++ r.Added
     Replaced := self.Replaced ++ r.Replaced
     SkippedExisting := self.SkippedExisting ++ r.SkippedExisting
     Error := self.Error ++ r.Error },
   { Added := [], Replaced := [], SkippedExisting := [], Error := [] })

/-- A `std::map<EntryPathSpec, std::unique_ptr<Entry>, Comparator>`, in
iteration order. -/
abbrev Table := List (EntryPathSpec × Entry)

namespace Table

/-- Keys neither of which is ordered before the other. -/
def equiv (lt : EntryPathSpec → EntryPathSpec → Bool) (a b : EntryPathSpec) : Bool :=
  !lt a b && !lt b a

/-- `std::map::find`: the element whose key is equivalent to `k`. -/
def find (lt : EntryPathSpec → EntryPathSpec → Bool) (t : Table) (k : EntryPathSpec) :
    Option (EntryPathSpec × Entry) :=
  List.find? (fun kv => equiv lt kv.1 k) t

/-- `std::map::emplace`: nothing is inserted when an equivalent key is
present; otherwise the element goes behind the keys ordered before `k`. -/
def emplace (lt : EntryPathSpec → EntryPathSpec → Bool) (t : Table) (k : EntryPathSpec)
    (v : Entry) : Table :=
  if (find lt t k).isSome then t
  else t.takeWhile (fun kv => lt kv.1 k) ++ (k, v) :: t.dropWhile (fun kv => lt kv.1 k)

/-- `std::map::erase(it)` for the iterator `it` that `find(k)` returned. -/
def erase (lt : EntryPathSpec → EntryPathSpec → Bool) (t : Table) (k : EntryPathSpec) : Table :=
  List.eraseP (fun kv => equiv lt kv.1 k) t

/-- A write through `it->second` for the iterator `it` that `find(k)` returned. -/
def adjust (lt : EntryPathSpec → EntryPathSpec → Bool) (f : Entry → Entry) :
    Table → EntryPathSpec → Table
  | [], _ => []
  | (k', e) :: t, k =>
    if equiv lt k' k then (k', f e) :: t else (k', e) :: adjust lt f t k

end Table

/-- The state of a `Creator`. -/
structure Creator where
  m_maxFileSize : Nat
  DatExpac : String
  DatName : String
  m_hashOnlyEntries : Table
  m_fullEntries : Table
  m_sqpackIndexSegment3 : List SqIndex.Segment3Entry
  m_sqpackIndex2Segment3 : List SqIndex.Segment3Entry
deriving DecidableEq, Repr

namespace Creator

open EntryPathSpec

/-- `Creator::Creator(ex, name, maxFileSize)`: `Except.error` is the
`std::invalid_argument` that the constructor throws. -/
def new (ex name : String) (maxFileSize : Nat) : Except String Creator :=
  if maxFileSize > SqData.Header.MaxFileSize_MaxValue then
    Except.error "MaxFileSize cannot be more than 32GiB."
  else
    Except.ok
      { m_maxFileSize := maxFileSize, DatExpac := ex, DatName := name,
        m_hashOnlyEntries := [], m_fullEntries := [],
        m_sqpackIndexSegment3 := [], m_sqpackIndex2Segment3 := [] }

/-- The operations inside the `try` block of `AddEntry` that can raise a
`std::exception` (they allocate). -/
inductive Op where
  | UpdatePathSpec
  | Emplace
  | MakeEntry
  | PushAdded
  | PushReplaced
  | PushSkippedExisting
deriving DecidableEq, Repr

/-- The environment of one `AddEntry` call: for each fallible operation,
whether it raises and the `what()` of the exception; and whether the caller
keeps a `shared_ptr` to the offered provider of its own. The overload of
lines 221-225 and `AddEntriesFromSqPack` (line 238) hand their only reference
over, `AddEntryFromFile` (line 264) passes a copy. -/
structure Env where
  throws : Op → Option String
  callerKeepsProvider : Bool

/-- The environment in which nothing fails; the caller hands its reference
over. -/
def Env.quiet : Env := { throws := fun _ => none, callerKeepsProvider := false }

/-- How the `try` block of `AddEntry` ends. When it ends with an exception,
`providerAlive` says whether the object that `pProvider` points to still
exists when the handler is entered. -/
inductive TryOutcome where
  | completed (c : Creator) (result : AddEntryResult)
  | threw (c : Creator) (result : AddEntryResult) (what : String) (providerAlive : Bool)
  | undefinedBehaviour
deriving DecidableEq

/-- Which table the `Entry*` of `AddEntry` points into. -/
inductive Slot where
  | hashOnly
  | full
deriving DecidableEq, Repr

/-- A write through `pEntry`, the entry that the lookup of `k` returned in
table `s`. -/
def adjustSlot (c : Creator) (s : Slot) (k : EntryPathSpec) (f : Entry → Entry) : Creator :=
  match s with
  | Slot.hashOnly =>
    { c with m_hashOnlyEntries := Table.adjust AllHashComparator f c.m_hashOnlyEntries k }
  | Slot.full =>
    { c with m_fullEntries := Table.adjust FullPathComparator f c.m_fullEntries k }

/-- Lines 199-208 of `AddEntry`: `pEntry` is not null, it points to the entry
`e` that the lookup of the provider's PathSpec returns in table `s`. When one
of these lines raises, the offered provider is owned by the parameter
`provider` or, after line 205, by the entry. -/
def AddEntry.existing (env : Env) (c : Creator) (result : AddEntryResult)
    (provider : EntryProvider) (overwriteExisting : Bool)
    (s : Slot) (e : Entry) : TryOutcome :=
  if !overwriteExisting then
    match env.throws Op.UpdatePathSpec with
    | some what => TryOutcome.threw c result what true
    | none =>
      let c1 := adjustSlot c s provider.PathSpec
        (fun x => { x with Provider := x.Provider.UpdatePathSpec provider.PathSpec })
      match env.throws Op.PushSkippedExisting with
      | some what => TryOutcome.threw c1 result what true
      | none =>
        TryOutcome.completed c1
          { result with
            SkippedExisting :=
              result.SkippedExisting ++ [e.Provider.UpdatePathSpec provider.PathSpec] }
  else
    let c1 := adjustSlot c s provider.PathSpec (fun x => { x with Provider := provider })
    match env.throws Op.PushReplaced with
    | some what => TryOutcome.threw c1 result what true
    | none => TryOutcome.completed c1 { result with Replaced := result.Replaced ++ [provider] }

/-- Lines 210-215 of `AddEntry`: `pEntry` is null, a new entry is made. Line
210 moves the parameter `provider` into the entry that the local `entry`
owns. When `emplace` raises, the unwinding destroys `entry` and with it the
entry and its reference to the provider: the provider object is destroyed
unless the caller keeps a reference of its own. Once `emplace` has returned,
the table owns the entry. -/
def AddEntry.fresh (env : Env) (c : Creator) (result : AddEntryResult)
    (provider : EntryProvider) : TryOutcome :=
  match env.throws Op.MakeEntry with
  | some what => TryOutcome.threw c result what true
  | none =>
    let entry : Entry := { EntrySize := 0, Locator := ⟨0, 0⟩, Provider := provider }
    match env.throws Op.Emplace with
    | some what => TryOutcome.threw c result what env.callerKeepsProvider
    | none =>
      let c1 : Creator :=
        if provider.PathSpec.HasOriginal then
          { c with m_fullEntries :=
              Table.emplace FullPathComparator c.m_fullEntries provider.PathSpec entry }
        else
          { c with m_hashOnlyEntries :=
              Table.emplace AllHashComparator c.m_hashOnlyEntries provider.PathSpec entry }
      match env.throws Op.PushAdded with
      | some what => TryOutcome.threw c1 result what true
      | none => TryOutcome.completed c1 { result with Added := result.Added ++ [provider] }

/-- The `try` block of `AddEntry` (lines 186-215). In the migration branch the
entry is handed to `m_fullEntries.emplace` and the hash-only node is erased;
when the full-path table already holds an equivalent key nothing is inserted,
the entry is destroyed with the erased node and `pEntry` dangles, so the
dereference that follows is undefined. When a line of the migration branch
raises, the parameter `provider` still owns the offered provider. -/
def AddEntry.tryBlock (env : Env) (c : Creator) (result : AddEntryResult)
    (provider : EntryProvider) (overwriteExisting : Bool) : TryOutcome :=
  match Table.find AllHashComparator c.m_hashOnlyEntries provider.PathSpec with
  | some (_, e) =>
    if !e.Provider.PathSpec.HasOriginal && provider.PathSpec.HasOriginal then
      match env.throws Op.UpdatePathSpec with
      | some what => TryOutcome.threw c result what true
      | none =>
        let e1 : Entry := { e with Provider := e.Provider.UpdatePathSpec provider.PathSpec }
        match env.throws Op.Emplace with
        | some what =>
          TryOutcome.threw (adjustSlot c Slot.hashOnly provider.PathSpec (fun _ => e1)) result
            what true
        | none =>
          let inserted :=
            (Table.find FullPathComparator c.m_fullEntries provider.PathSpec).isNone
          let c1 : Creator :=
            { c with
              m_fullEntries :=
                Table.emplace FullPathComparator c.m_fullEntries provider.PathSpec e1
              m_hashOnlyEntries :=
                Table.erase AllHashComparator c.m_hashOnlyEntries provider.PathSpec }
          if inserted then
            AddEntry.existing env c1 result provider overwriteExisting Slot.full e1
          else TryOutcome.undefinedBehaviour
    else AddEntry.existing env c result provider overwriteExisting Slot.hashOnly e
  | none =>
    match Table.find FullPathComparator c.m_fullEntries provider.PathSpec with
    | some (_, e) => AddEntry.existing env c result provider overwriteExisting Slot.full e
    | none => AddEntry.fresh env c result provider

/-- `Creator::AddEntry(result, provider, overwriteExisting)`: the `try` block
and its handler (lines 216-218), which records
`(pProvider->PathSpec(), e.what())`. `pProvider` is the raw pointer taken at
line 183: reading through it after the provider object is destroyed is
undefined. The handler's own append is taken to succeed. The value `none`
stands for undefined behaviour. -/
def AddEntry (env : Env) (c : Creator) (result : AddEntryResult) (provider : EntryProvider)
    (overwriteExisting : Bool) : Option (Creator × AddEntryResult) :=
  match AddEntry.tryBlock env c result provider overwriteExisting with
  | TryOutcome.completed c1 r1 => some (c1, r1)
  | TryOutcome.threw c1 r1 what providerAlive =>
    if providerAlive then
      some (c1, { r1 with Error := r1.Error ++ [(provider.PathSpec, what)] })
    else none
  | TryOutcome.undefinedBehaviour => none

/-- `Creator::ReserveSwappableSpace(pathSpec, size)`. -/
def ReserveSwappableSpace (c : Creator) (pathSpec : EntryPathSpec) (size : Nat) : Creator :=
  match Table.find AllHashComparator c.m_hashOnlyEntries pathSpec with
  | some (_, e) =>
    let e1 : Entry := { e with EntrySize := max e.EntrySize size }
    if !e1.Provider.PathSpec.HasOriginal && pathSpec.HasOriginal then
      let e2 : Entry := { e1 with Provider := e1.Provider.UpdatePathSpec pathSpec }
      { c with
        m_fullEntries := Table.emplace FullPathComparator c.m_fullEntries pathSpec e2
        m_hashOnlyEntries := Table.erase AllHashComparator c.m_hashOnlyEntries pathSpec }
    else
      { c with
        m_hashOnlyEntries :=
          Table.adjust AllHashComparator (fun _ => e1) c.m_hashOnlyEntries pathSpec }
  | none =>
    match Table.find FullPathComparator c.m_fullEntries pathSpec with
    | some _ =>
      { c with
        m_fullEntries :=
          Table.adjust FullPathComparator
            (fun x => { x with EntrySize := max x.EntrySize size }) c.m_fullEntries pathSpec }
    | none =>
      let entry : Entry :=
        { EntrySize := size, Locator := ⟨0, 0⟩,
          Provider := EmptyOrObfuscatedEntryProvider pathSpec }
      if entry.Provider.PathSpec.HasOriginal then
        { c with m_fullEntries :=
            Table.emplace FullPathComparator c.m_fullEntries entry.Provider.PathSpec entry }
      else
        { c with m_hashOnlyEntries :=
            Table.emplace AllHashComparator c.m_hashOnlyEntries entry.Provider.PathSpec entry }

/-- `Creator::GetFile(pathSpec)`: the provider that the returned stream reads,
or the `std::out_of_range` that is thrown (its message, which formats the
PathSpec, is abbreviated). -/
def GetFile (c : Creator) (pathSpec : EntryPathSpec) : Except String EntryProvider :=
  match Table.find AllHashComparator c.m_hashOnlyEntries pathSpec with
  | some (_, e) => Except.ok e.Provider
  | none =>
    match Table.find FullPathComparator c.m_fullEntries pathSpec with
    | some (_, e) => Except.ok e.Provider
    | none => Except.error "PathSpec not found"

/-- The invariant of the two tables that the operations of the builder keep:
the keys of each table are pairwise inequivalent, as in every `std::map`, and
no key of the hash-only table has the three hashes of a key of the full-path
table. -/
structure Valid (c : Creator) : Prop where
  hashOnlyKeys : c.m_hashOnlyEntries.Pairwise
    (fun a b => Table.equiv AllHashComparator a.1 b.1 = false)
  fullKeys : c.m_fullEntries.Pairwise
    (fun a b => Table.equiv FullPathComparator a.1 b.1 = false)
  disjoint : ∀ a ∈ c.m_hashOnlyEntries, ∀ b ∈ c.m_fullEntries,
    Table.equiv AllHashComparator a.1 b.1 = false

/-! ## The segment-packing loops of the two terminal operations

The checksum fields of the headers and the index buffers are not part of
this section; it covers the order of the entries, their sizes, the data
subheaders and the locators. The number of data files is taken to fit the
32-bit `SpanIndex` and locator index, so those casts do not narrow. -/

/-- The local state of a packing loop: `dataSubheaders`, `dataEntryRanges`
(kept by `FinishToStreams` only) and the entries handled so far, in order,
with their locators. -/
structure Assembly where
  dataSubheaders : List SqData.Header
  dataEntryRanges : List (Nat × Nat)
  Entries : List Entry
deriving DecidableEq, Repr

/-- A write to `container.back()`. -/
def updateBack {α : Type} (f : α → α) : List α → List α
  | [] => []
  | [a] => [f a]
  | a :: b :: t => a :: updateBack f (b :: t)

/-- The test of lines 316-317 and 479-480: no segment is open, or the open
one cannot take `size` more bytes. -/
def needsNewSegment (fmt : Format) (dataSubheaders : List SqData.Header) (size : Nat) : Bool :=
  match dataSubheaders.getLast? with
  | none => true
  | some back =>
    decide (fmt.sizeofSqpackHeader + fmt.sizeofSqDataHeader + back.DataSize + size
      > back.MaxFileSize)

/-- Lines 316-346 and 479-522 without the bookkeeping of `dataEntryRanges`:
open a segment when needed, give the entry its locator and add `size` to the
`DataSize` of the open segment. -/
def placeEntry (fmt : Format) (maxFileSize : Nat) (st : Assembly) (entry : Entry)
    (size : Nat) : Assembly :=
  let opened := needsNewSegment fmt st.dataSubheaders size
  let subheaders :=
    if opened then
      st.dataSubheaders ++
        [{ HeaderSize := fmt.sizeofSqDataHeader, Unknown1 := fmt.Unknown1_Value, DataSize := 0,
           SpanIndex := st.dataSubheaders.length, MaxFileSize := maxFileSize }]
    else st.dataSubheaders
  let backDataSize := (subheaders.getLast?.map (fun h => h.DataSize)).getD 0
  let located : Entry :=
    { entry with
      Locator :=
        ⟨subheaders.length - 1, fmt.sizeofSqpackHeader + fmt.sizeofSqDataHeader + backDataSize⟩ }
  { dataSubheaders := updateBack (fun h => { h with DataSize := h.DataSize + size }) subheaders
    dataEntryRanges := st.dataEntryRanges
    Entries := st.Entries ++ [located] }

/-- Lines 311-314 of `FinishToStreams`: the resolved size of an entry, in
32-bit arithmetic, and the fixed-size indirection around its provider. -/
def resolveEntry (fmt : Format) (entry : Entry) : Entry :=
  let size :=
    (Align (max entry.EntrySize (entry.Provider.StreamSize % 2 ^ 32)) fmt.EntryAlignment).Alloc
      % 2 ^ 32
  { entry with
    EntrySize := size
    Provider := HotSwappableEntryProvider entry.Provider.PathSpec size entry.Provider }

/-- The loop of lines 310-348 over the entries from position `i` on; a new
segment starts a range `(i, 0)` and every entry counts in the last range
(lines 341 and 347). -/
def packStreams (fmt : Format) (maxFileSize : Nat) :
    Assembly → Nat → List Entry → Assembly
  | st, _, [] => st
  | st, i, entry :: rest =>
    let resolved := resolveEntry fmt entry
    let opened := needsNewSegment fmt st.dataSubheaders resolved.EntrySize
    let ranges := if opened then st.dataEntryRanges ++ [(i, 0)] else st.dataEntryRanges
    let placed := placeEntry fmt maxFileSize st resolved resolved.EntrySize
    packStreams fmt maxFileSize
      { placed with dataEntryRanges := updateBack (fun r => (r.1, r.2 + 1)) ranges }
      (i + 1) rest

/-- The loop of lines 474-523: the size used is `provider->StreamSize()`, the
entry keeps its `EntrySize`; `dataEntryRanges` does not exist in this
operation and stays empty. -/
def packFiles (fmt : Format) (maxFileSize : Nat) :
    Assembly → List Entry → Assembly
  | st, [] => st
  | st, entry :: rest =>
    packFiles fmt maxFileSize (placeEntry fmt maxFileSize st entry entry.Provider.StreamSize)
      rest

/-- The entries in the order of lines 297-300: the hash-only table, then the
full-path table. -/
def entriesForStreams (c : Creator) : List Entry :=
  c.m_hashOnlyEntries.map Prod.snd ++ c.m_fullEntries.map Prod.snd

/-- The entries in the order of lines 453-456: the full-path table, then the
hash-only table. -/
def entriesForFiles (c : Creator) : List Entry :=
  c.m_fullEntries.map Prod.snd ++ c.m_hashOnlyEntries.map Prod.snd

/-- `Creator::FinishToStreams`, up to the end of the packing loop. -/
def FinishToStreams (fmt : Format) (c : Creator) : Assembly :=
  packStreams fmt c.m_maxFileSize ⟨[], [], []⟩ 0 (entriesForStreams c)

/-- `Creator::FinishToFiles`, up to the end of the packing loop. -/
def FinishToFiles (fmt : Format) (c : Creator) : Assembly :=
  packFiles fmt c.m_maxFileSize ⟨[], [], []⟩ (entriesForFiles c)

/-- The bytes that the loop of `FinishToFiles` writes for the entry at
`entry.Locator`: the content of the provider, `StreamSize()` bytes. -/
def FinishToFiles.written (entry : Entry) : List Nat := entry.Provider.Data

/-! ## Segments of a packed sequence

The packing loops are described by the list of segments they have formed:
the entries of each data file, in order. -/

/-- The data subheaders that belong to a list of segments, the first segment
having the index `start`: `DataSize` is the sum of the sizes placed. -/
def headersOf (fmt : Format) (maxFileSize : Nat) (size : Entry → Nat) :
    Nat → List (List Entry) → List SqData.Header
  | _, [] => []
  | start, s :: rest =>
    { HeaderSize := fmt.sizeofSqDataHeader, Unknown1 := fmt.Unknown1_Value,
      DataSize := (s.map size).sum, SpanIndex := start, MaxFileSize := maxFileSize }
      :: headersOf fmt maxFileSize size (start + 1) rest

/-- The entry ranges `(first, count)` that belong to a list of segments, the
first segment starting at position `start` of the entry sequence. -/
def rangesOf : Nat → List (List Entry) → List (Nat × Nat)
  | _, [] => []
  | start, s :: rest => (start, s.length) :: rangesOf (start + s.length) rest

/-- The entries of one segment lie one behind the other from `offset` on, in
the data file `index`. -/
def locatedFrom (size : Entry → Nat) (index : Nat) : Nat → List Entry → Prop
  | _, [] => True
  | offset, e :: rest =>
    e.Locator = ⟨index, offset⟩ ∧ locatedFrom size index (offset + size e) rest

/-- Every segment starts behind the two headers and its entries lie one behind
the other; the first segment is the data file `index`. -/
def segmentsLocated (fmt : Format) (size : Entry → Nat) : Nat → List (List Entry) → Prop
  | _, [] => True
  | index, s :: rest =>
    locatedFrom size index (fmt.sizeofSqpackHeader + fmt.sizeofSqDataHeader) s ∧
      segmentsLocated fmt size (index + 1) rest

/-- The state of a packing loop is the one that belongs to the segments
`segs`. -/
structure Packed (fmt : Format) (maxFileSize : Nat) (size : Entry → Nat) (st : Assembly)
    (segs : List (List Entry)) : Prop where
  entries : st.Entries = segs.flatten
  headers : st.dataSubheaders = headersOf fmt maxFileSize size 0 segs
  located : segmentsLocated fmt size 0 segs
  nonempty : ∀ s ∈ segs, s ≠ []

/-- Every segment is within the cap, unless it is a single entry that alone,
behind the two headers, exceeds the cap. -/
def WithinCap (fmt : Format) (maxFileSize : Nat) (size : Entry → Nat)
    (segs : List (List Entry)) : Prop :=
  ∀ s ∈ segs,
    fmt.sizeofSqpackHeader + fmt.sizeofSqDataHeader + (s.map size).sum ≤ maxFileSize ∨
      ∃ e, s = [e] ∧ maxFileSize < fmt.sizeofSqpackHeader + fmt.sizeofSqDataHeader + size e

/-! ## The greedy segmentation, in the words of the specification

This section is not a translation of code: it is the segmentation that the
specification describes, to which the loop of `FinishToStreams` is compared. -/

/-- One step of the greedy segmentation over the sizes of the entries: a size
starts a new segment when no segment is open, or when the header size, the
sizes accumulated in the current segment and the size together exceed the
maximum; otherwise it joins the current segment. -/
def greedyStep (headerSize maxFileSize : Nat) (segments : List (List Nat)) (size : Nat) :
    List (List Nat) :=
  match segments.getLast? with
  | none => [[size]]
  | some current =>
    if headerSize + current.sum + size > maxFileSize then segments ++ [[size]]
    else segments.dropLast ++ [current ++ [size]]

/-- The greedy segmentation of a list of sizes, taken in order. -/
def greedySegments (headerSize maxFileSize : Nat) (sizes : List Nat) : List (List Nat) :=
  sizes.foldl (greedyStep headerSize maxFileSize) []

/-! ## The index tables of the two terminal operations and `ExportIndexFileData`

The checksums are not part of this section. A store into a 32-bit field is
an explicit `% 2 ^ 32`. The buffer that `ExportIndexFileData` returns is
represented by the segment descriptors of its index header and by the records
of its payload segments, in the order in which they are appended. -/

/-- Modelled from the spec: the constants of the index format that `Sqpack.h`
declares and the index code uses: `sizeof SqIndex::Header`, the sizes of the
five record types and the value `EndOfList` of the conflict records. -/
structure IndexFormat where
  sizeofSqIndexHeader : Nat
  sizeofPairHashLocator : Nat
  sizeofFullHashLocator : Nat
  sizeofPairHashWithTextLocator : Nat
  sizeofFullHashWithTextLocator : Nat
  sizeofSegment3Entry : Nat
  sizeofPathHashLocator : Nat
  EndOfList : Nat
deriving DecidableEq, Repr

/-- The values of the format the game client reads. -/
def IndexFormat.sqpack : IndexFormat :=
  { sizeofSqIndexHeader := 1024, sizeofPairHashLocator := 16, sizeofFullHashLocator := 8,
    sizeofPairHashWithTextLocator := 256, sizeofFullHashWithTextLocator := 256,
    sizeofSegment3Entry := 16, sizeofPathHashLocator := 16, EndOfList := 4294967295 }

/-- The statement `map[key].emplace_back(entry)` of lines 306-307 and 466-467
on a `std::map<K, std::vector<Entry*>>` kept in iteration order: the entry
joins the group of its key, which is created in key order when absent. -/
def groupInsert {K : Type} (lt : K → K → Bool) (key : K) (entry : Entry) :
    List (K × List Entry) → List (K × List Entry)
  | [] => [(key, [entry])]
  | (k, g) :: rest =>
    if lt key k then (key, [entry]) :: (k, g) :: rest
    else if lt k key then (k, g) :: groupInsert lt key entry rest
    else (k, g ++ [entry]) :: rest

/-- The grouping loop of lines 304-308 and 463-468 for one of the two maps.
The vectors hold pointers: `entries` are the entries as the loop sees them,
`pointees` the same entries, position by position, in the state in which the
index tables read them. -/
def hashGroups {K : Type} (lt : K → K → Bool) (key : EntryPathSpec → K)
    (entries pointees : List Entry) : List (K × List Entry) :=
  (List.zip entries pointees).foldl
    (fun m p => groupInsert lt (key p.1.Provider.PathSpec) p.2 m) []

/-- The order of `std::pair<uint32_t, uint32_t>`. -/
def pairLt (a b : Nat × Nat) : Bool :=
  decide (a.1 < b.1) || (a.1 == b.1 && decide (a.2 < b.2))

/-- The key of `pairHashes`: `std::make_pair(PathHash(), NameHash())`. -/
def pairKey (p : EntryPathSpec) : Nat × Nat := (p.PathHash, p.NameHash)

/-- The map `pairHashes` of lines 302 and 460 after the grouping loop. -/
def pairHashes (entries pointees : List Entry) : List ((Nat × Nat) × List Entry) :=
  hashGroups pairLt pairKey entries pointees

/-- The map `fullHashes` of lines 303 and 461 after the grouping loop. -/
def fullHashes (entries pointees : List Entry) : List (Nat × List Entry) :=
  hashGroups (fun a b => decide (a < b)) (fun p => p.FullPathHash) entries pointees

/-- The primary records that the loops of lines 369-386, 396-413, 548-565 and
575-592 emit, one for each group: the locator of the only entry of the group,
or `Synonym()` when the group has another size. `mk` builds the record from
the key and the locator. -/
def primaryRecords {K R : Type} (mk : K → SqIndex.LocatorField → R)
    (groups : List (K × List Entry)) : List R :=
  groups.map (fun g =>
    match g.2 with
    | [front] => mk g.1 (SqIndex.LocatorField.Data front.Locator)
    | _ => mk g.1 SqIndex.LocatorField.Synonym)

/-- The conflict records that the same loops emit for one group: none for a
group of one entry, otherwise one for each entry of the group, in order, with
the counter `i` of lines 374 and 401, a `uint32_t`, as conflict index. -/
def conflictRecordsOf {K R : Type} (mk : K → SqIndex.LocatorField → Nat → String → R)
    (g : K × List Entry) : List R :=
  match g.2 with
  | [_] => []
  | correspondingEntries =>
    correspondingEntries.enum.map (fun ie =>
      mk g.1 (SqIndex.LocatorField.Data ie.2.Locator) (ie.1 % 2 ^ 32)
        ie.2.Provider.PathSpec.Path)

/-- The conflict records of all groups, in the order of the groups, without
the terminating record. -/
def conflictRecords {K R : Type} (mk : K → SqIndex.LocatorField → Nat → String → R)
    (groups : List (K × List Entry)) : List R :=
  (groups.map (conflictRecordsOf mk)).flatten

/-- The four tables that a terminal operation hands to `ExportIndexFileData`. -/
structure IndexTables where
  fileEntries1 : List SqIndex.PairHashLocator
  conflictEntries1 : List SqIndex.PairHashWithTextLocator
  fileEntries2 : List SqIndex.FullHashLocator
  conflictEntries2 : List SqIndex.FullHashWithTextLocator
deriving DecidableEq, Repr

/-- Lines 367-419 and 546-598: the primary and the conflict table of each
index, the conflict tables closed by the record whose hash fields and conflict
index are `EndOfList` and whose locator is 0. -/
def indexTables (ifmt : IndexFormat) (entries pointees : List Entry) : IndexTables :=
  { fileEntries1 := primaryRecords (fun k l => ⟨k.2, k.1, l, 0⟩) (pairHashes entries pointees)
    conflictEntries1 :=
      conflictRecords (fun k l i path => ⟨k.2, k.1, l, i, path⟩) (pairHashes entries pointees) ++
        [⟨ifmt.EndOfList, ifmt.EndOfList, SqIndex.LocatorField.Data ⟨0, 0⟩, ifmt.EndOfList, ""⟩]
    fileEntries2 := primaryRecords (fun k l => ⟨k, l⟩) (fullHashes entries pointees)
    conflictEntries2 :=
      conflictRecords (fun k l i path => ⟨k, 0, l, i, path⟩) (fullHashes entries pointees) ++
        [⟨ifmt.EndOfList, ifmt.EndOfList, SqIndex.LocatorField.Data ⟨0, 0⟩, ifmt.EndOfList, ""⟩] }

/-- The tables of `FinishToStreams` (lines 367-419): the groups are formed
before the packing loop and read after it. -/
def FinishToStreams.tables (fmt : Format) (ifmt : IndexFormat) (c : Creator) : IndexTables :=
  indexTables ifmt (entriesForStreams c) (FinishToStreams fmt c).Entries

/-- The tables of `FinishToFiles` (lines 546-598). -/
def FinishToFiles.tables (fmt : Format) (ifmt : IndexFormat) (c : Creator) : IndexTables :=
  indexTables ifmt (entriesForFiles c) (FinishToFiles fmt c).Entries

/-- The result of `ExportIndexFileData`: the segment descriptors of the index
header and the payload segments in the order of lines 700-710. -/
structure IndexFileData (F C : Type) where
  HashLocatorSegment : SqIndex.SegmentDescriptor
  TextLocatorSegment : SqIndex.SegmentDescriptor
  UnknownSegment3 : SqIndex.SegmentDescriptor
  PathHashLocatorSegment : SqIndex.SegmentDescriptor
  fileSegment : List F
  conflictSegment : List C
  segment3 : List SqIndex.Segment3Entry
  folderSegment : List SqIndex.PathHashLocator

/-- Modelled from the spec: `std::sort` with the `operator<` of the record
type: the records in ascending order. Records that are equivalent under
`operator<` keep their relative order here; the tables of the terminal
operations have no two such records. -/
def sortRecords {F : Type} (lt : F → F → Bool) (fileSegment : List F) : List F :=
  fileSegment.insertionSort (fun a b => lt b a = false)

/-- The folder scan of lines 671-682 from position `i` on. -/
def folderLoop {F : Type} (offset sizeofEntry : Nat) (PathHash : F → Nat) :
    List SqIndex.PathHashLocator → Nat → List F → List SqIndex.PathHashLocator
  | folderSegment, _, [] => folderSegment
  | folderSegment, i, entry :: rest =>
    let opened :=
      match folderSegment.getLast? with
      | none => true
      | some back => back.PathHash != PathHash entry
    let next :=
      if opened then
        folderSegment ++
          [⟨PathHash entry, (offset + i * sizeofEntry) % 2 ^ 32, sizeofEntry % 2 ^ 32, 0⟩]
      else
        updateBack
          (fun back =>
            { back with
              PairHashLocatorSize := (back.PairHashLocatorSize + sizeofEntry) % 2 ^ 32 })
          folderSegment
    folderLoop offset sizeofEntry PathHash next (i + 1) rest

/-- `Creator::ExportIndexFileData`. Of the template parameters, `lt` is the
`operator<` of `FileEntryType`, the two sizes are `sizeof` of the two record
types, and `UseFolders` carries the accessor of the field `PathHash` that the
folder scan needs: `none` stands for `UseFolders = false`. -/
def ExportIndexFileData {F C : Type} (fmt : Format) (ifmt : IndexFormat)
    (lt : F → F → Bool) (sizeofFileEntry sizeofConflictEntry : Nat)
    (UseFolders : Option (F → Nat)) (dataFilesCount : Nat) (fileSegment : List F)
    (conflictSegment : List C) (segment3 : List SqIndex.Segment3Entry)
    (folderSegment : List SqIndex.PathHashLocator) : IndexFileData F C :=
  let sorted := sortRecords lt fileSegment
  let hashOffset := (fmt.sizeofSqpackHeader % 2 ^ 32 + ifmt.sizeofSqIndexHeader % 2 ^ 32) % 2 ^ 32
  let hashSize := (sorted.length * sizeofFileEntry) % 2 ^ 32
  let textOffset := (hashOffset + hashSize) % 2 ^ 32
  let textSize := (conflictSegment.length * sizeofConflictEntry) % 2 ^ 32
  let segment3Offset := (textOffset + textSize) % 2 ^ 32
  let segment3Size := (segment3.length * ifmt.sizeofSegment3Entry) % 2 ^ 32
  let folders :=
    match UseFolders with
    | some PathHash => folderLoop hashOffset sizeofFileEntry PathHash folderSegment 0 sorted
    | none => []
  { HashLocatorSegment := ⟨1, hashOffset, hashSize⟩
    TextLocatorSegment := ⟨dataFilesCount % 2 ^ 32, textOffset, textSize⟩
    UnknownSegment3 := ⟨0, segment3Offset, segment3Size⟩
    PathHashLocatorSegment :=
      ⟨0, (segment3Offset + segment3Size) % 2 ^ 32,
        match UseFolders with
        | some _ => (folders.length * ifmt.sizeofPathHashLocator) % 2 ^ 32
        | none => 0⟩
    fileSegment := sorted
    conflictSegment := conflictSegment
    segment3 := segment3
    folderSegment := folders }

/-- The buffer `Index1` of `FinishToStreams` (lines 429-430). -/
def FinishToStreams.Index1 (fmt : Format) (ifmt : IndexFormat) (c : Creator) :
    IndexFileData SqIndex.PairHashLocator SqIndex.PairHashWithTextLocator :=
  ExportIndexFileData fmt ifmt SqIndex.PairHashLocator.lt ifmt.sizeofPairHashLocator
    ifmt.sizeofPairHashWithTextLocator (some (fun r => r.PathHash))
    (FinishToStreams fmt c).dataSubheaders.length (FinishToStreams.tables fmt ifmt c).fileEntries1
    (FinishToStreams.tables fmt ifmt c).conflictEntries1 c.m_sqpackIndexSegment3 []

/-- The buffer `Index2` of `FinishToStreams` (lines 431-432). -/
def FinishToStreams.Index2 (fmt : Format) (ifmt : IndexFormat) (c : Creator) :
    IndexFileData SqIndex.FullHashLocator SqIndex.FullHashWithTextLocator :=
  ExportIndexFileData fmt ifmt SqIndex.FullHashLocator.lt ifmt.sizeofFullHashLocator
    ifmt.sizeofFullHashWithTextLocator none
    (FinishToStreams fmt c).dataSubheaders.length (FinishToStreams.tables fmt ifmt c).fileEntries2
    (FinishToStreams.tables fmt ifmt c).conflictEntries2 c.m_sqpackIndex2Segment3 []

/-- The buffer that `FinishToFiles` writes to the `.index` file (lines
600-602). -/
def FinishToFiles.Index1 (fmt : Format) (ifmt : IndexFormat) (c : Creator) :
    IndexFileData SqIndex.PairHashLocator SqIndex.PairHashWithTextLocator :=
  ExportIndexFileData fmt ifmt SqIndex.PairHashLocator.lt ifmt.sizeofPairHashLocator
    ifmt.sizeofPairHashWithTextLocator (some (fun r => r.PathHash))
    (FinishToFiles fmt c).dataSubheaders.length (FinishToFiles.tables fmt ifmt c).fileEntries1
    (FinishToFiles.tables fmt ifmt c).conflictEntries1 c.m_sqpackIndexSegment3 []

/-- The buffer that `FinishToFiles` writes to the `.index2` file (lines
604-606). -/
def FinishToFiles.Index2 (fmt : Format) (ifmt : IndexFormat) (c : Creator) :
    IndexFileData SqIndex.FullHashLocator SqIndex.FullHashWithTextLocator :=
  ExportIndexFileData fmt ifmt SqIndex.FullHashLocator.lt ifmt.sizeofFullHashLocator
    ifmt.sizeofFullHashWithTextLocator none
    (FinishToFiles fmt c).dataSubheaders.length (FinishToFiles.tables fmt ifmt c).fileEntries2
    (FinishToFiles.tables fmt ifmt c).conflictEntries2 c.m_sqpackIndex2Segment3 []

/-! ## `AddEntryFromFile`

The file system is represented by what the function reads from it: the size
of the file and the extension of its path, one number per UTF-8 code unit. -/

/-- The body of the loop of lines 250-252 for one code unit: an upper-case
ASCII letter becomes the lower-case one. -/
def AddEntryFromFile.lower (c : Nat) : Nat :=
  if 65 ≤ c ∧ c ≤ 90 then c + 32 else c

/-- The code units of an ASCII text. -/
def AddEntryFromFile.codeUnits (s : String) : List Nat := s.data.map Char.toNat

/-- Lines 249-263: the provider variant that `AddEntryFromFile` constructs for
a file of the given size whose path has the given extension. The on-the-fly
texture, model and binary providers are told apart by their kind. -/
def AddEntryFromFile.providerKind (fileSize : Nat) (extension : List Nat) : ProviderKind :=
  let extensionLower := extension.map AddEntryFromFile.lower
  if fileSize = 0 then ProviderKind.EmptyOrObfuscated
  else if extensionLower = AddEntryFromFile.codeUnits ".tex" ∨
      extensionLower = AddEntryFromFile.codeUnits ".atex" then ProviderKind.Texture
  else if extensionLower = AddEntryFromFile.codeUnits ".mdl" then ProviderKind.Model
  else ProviderKind.Binary

/-- The provider of lines 254-262; `served` is the content that an on-the-fly
provider serves for the file, the placeholder has none. -/
def AddEntryFromFile.provider (pathSpec : EntryPathSpec) (fileSize : Nat)
    (extension : List Nat) (served : List Nat) : EntryProvider :=
  if fileSize = 0 then EmptyOrObfuscatedEntryProvider pathSpec
  else
    { PathSpec := pathSpec, Kind := AddEntryFromFile.providerKind fileSize extension,
      Data := served }

/-- `Creator::AddEntryFromFile(pathSpec, path, overwriteExisting)`. Line 264
passes a copy of the local `provider`, which lives until the call returns. -/
def AddEntryFromFile (env : Env) (c : Creator) (pathSpec : EntryPathSpec) (fileSize : Nat)
    (extension : List Nat) (served : List Nat) (overwriteExisting : Bool) :
    Option (Creator × AddEntryResult) :=
  AddEntry { env with callerKeepsProvider := true } c AddEntryResult.empty
    (AddEntryFromFile.provider pathSpec fileSize extension served) overwriteExisting

/-- Two code units that are equal or are the two cases of one ASCII letter. -/
def sameUpToAsciiCase (a b : Nat) : Prop :=
  a = b ∨ (65 ≤ a ∧ a ≤ 90 ∧ b = a + 32) ∨ (65 ≤ b ∧ b ≤ 90 ∧ a = b + 32)

/-! ## `Creator::SqpackViewEntryCache` and `Creator::DataViewStream`

A view is identified by a number, which stands for its address; an `Entry*`
of a view is represented by the position of the entry in the slice of the
view, the slices of different views being disjoint. Offsets and lengths are
natural numbers: the reads considered have a non-negative offset and length.
A read that dereferences the end of the slice, or whose offset arithmetic
leaves the range of the slice, has no result (`none`), and neither has a read
in which a provider throws. -/

/-- A `SqpackViewEntryCache::BufferedEntry` that is not `Empty()`: the view
and the entry it belongs to and the bytes of `Buffer()`. -/
structure BufferedEntry where
  m_view : Nat
  m_entry : Nat
  Buffer : List Nat
deriving DecidableEq, Repr

/-- `Creator::SqpackViewEntryCache`: `m_lastActiveEntry`, `none` when it is
`Empty()`. -/
structure SqpackViewEntryCache where
  m_lastActiveEntry : Option BufferedEntry
deriving DecidableEq, Repr

/-- `SqpackViewEntryCache::LargeEntryBufferSizeMax` (line 121) of a 64-bit
build. -/
def SqpackViewEntryCache.LargeEntryBufferSizeMax : Nat := 1024 * 1048576

/-- `BufferedEntry::SetEntry` (lines 113-127) as `GetBuffer` calls it: the
buffer takes `EntrySize` bytes read from the provider at offset 0. -/
def SqpackViewEntryCache.SetEntry (view entryIndex : Nat) (entry : Entry) :
    Option (SqpackViewEntryCache × Option (List Nat)) :=
  match entry.Provider.ReadStream 0 entry.EntrySize with
  | some bytes => some (⟨some ⟨view, entryIndex, bytes⟩⟩, some bytes)
  | none => none

/-- `SqpackViewEntryCache::GetBuffer(view, entry)` (lines 139-148): the cache
after the call and the bytes of the buffer returned, `none` for `nullptr`. -/
def SqpackViewEntryCache.GetBuffer (cache : SqpackViewEntryCache) (view entryIndex : Nat)
    (entry : Entry) : Option (SqpackViewEntryCache × Option (List Nat)) :=
  match cache.m_lastActiveEntry with
  | some buffered =>
    if buffered.m_view = view ∧ buffered.m_entry = entryIndex then
      some (cache, some buffered.Buffer)
    else if entry.EntrySize > SqpackViewEntryCache.LargeEntryBufferSizeMax then some (cache, none)
    else SqpackViewEntryCache.SetEntry view entryIndex entry
  | none =>
    if entry.EntrySize > SqpackViewEntryCache.LargeEntryBufferSizeMax then some (cache, none)
    else SqpackViewEntryCache.SetEntry view entryIndex entry

/-- `SqpackViewEntryCache::Flush` (lines 150-152): `ClearEntry` leaves
`m_lastActiveEntry` without view and entry, so that it is `Empty()`. -/
def SqpackViewEntryCache.Flush (_cache : SqpackViewEntryCache) : SqpackViewEntryCache :=
  ⟨none⟩

/-- A default-constructed `SqpackViewEntryCache`: `m_lastActiveEntry` is
`Empty()`. -/
def SqpackViewEntryCache.empty : SqpackViewEntryCache := ⟨none⟩

/-- Modelled from the spec: the memory images of a `SqpackHeader` and of a
`SqData::Header` (their layout is declared in `Sqpack.h`): `sizeof` bytes
each. `SqpackHeader` is the image of the `dataHeader` of the operation. -/
structure HeaderImages (fmt : Format) where
  SqpackHeader : List Nat
  SqDataHeader : SqData.Header → List Nat
  SqpackHeader_size : SqpackHeader.length = fmt.sizeofSqpackHeader
  SqDataHeader_size : ∀ h, (SqDataHeader h).length = fmt.sizeofSqDataHeader

/-- `Creator::DataViewStream`: `m_header`, the subheader that `SubHeader()`
reads back from it, `m_entries` and `m_lastAccessedEntryIndex` (`none` for
`SIZE_MAX`). The shared cache `m_buffer` is passed to the operations. -/
structure DataViewStream where
  id : Nat
  m_header : List Nat
  SubHeader : SqData.Header
  m_entries : List Entry
  m_lastAccessedEntryIndex : Option Nat
deriving DecidableEq, Repr

/-- The constructor of `DataViewStream` (lines 736-740) with `Concat` (lines
724-730). -/
def DataViewStream.new {fmt : Format} (image : HeaderImages fmt) (id : Nat)
    (subheader : SqData.Header) (entries : List Entry) : DataViewStream :=
  { id := id
    m_header := image.SqpackHeader ++ image.SqDataHeader subheader
    SubHeader := subheader
    m_entries := entries
    m_lastAccessedEntryIndex := none }

/-- `DataViewStream::StreamSize` (lines 801-803). -/
def DataViewStream.StreamSize (v : DataViewStream) : Nat :=
  v.m_header.length + v.SubHeader.DataSize

/-- Modelled from the spec: `std::ranges::lower_bound` with the comparator of
lines 765-769, on entries in ascending order of their offsets: the position
of the first entry whose offset is not below `absoluteOffset`. -/
def DataViewStream.lowerBound (absoluteOffset : Nat) : List Entry → Nat
  | [] => 0
  | l :: rest =>
    if l.Locator.DatFileOffset < absoluteOffset then
      DataViewStream.lowerBound absoluteOffset rest + 1
    else 0

/-- The variables that the loop of lines 777-797 changes: the size of `out`,
the bytes stored so far, `m_lastAccessedEntryIndex` and the cache. -/
structure ReadState where
  out : Nat
  written : List Nat
  m_lastAccessedEntryIndex : Option Nat
  cache : Option SqpackViewEntryCache
deriving DecidableEq, Repr

/-- Line 781: `m_buffer ? m_buffer->GetBuffer(this, &entry) : nullptr`, with
the cache after the call. -/
def DataViewStream.getBuffer (view index : Nat) (entry : Entry)
    (m_buffer : Option SqpackViewEntryCache) :
    Option (Option SqpackViewEntryCache × Option (List Nat)) :=
  match m_buffer with
  | some cache => (cache.GetBuffer view index entry).map (fun r => (some r.1, r.2))
  | none => some (none, none)

/-- Lines 785-788: `available` bytes of the entry from `relativeOffset` on,
copied from the buffer of the cache or read from the provider. -/
def DataViewStream.copyOrRead (buf : Option (List Nat)) (entry : Entry)
    (relativeOffset available : Nat) : Option (List Nat) :=
  match buf with
  | some buffer => some ((buffer.drop relativeOffset).take available)
  | none => entry.Provider.ReadStream relativeOffset available

/-- The loop of lines 777-797 from the entry at `index` on, `entries` being
the entries from there to the end of the slice. -/
def DataViewStream.readEntries (view : Nat) :
    Nat → List Entry → Nat → ReadState → Option ReadState
  | _, [], _, st => some st
  | index, entry :: rest, relativeOffset, st =>
    match DataViewStream.getBuffer view index entry st.cache with
    | none => none
    | some (cache, buf) =>
      if relativeOffset < entry.EntrySize then
        let available := min st.out (entry.EntrySize - relativeOffset)
        match DataViewStream.copyOrRead buf entry relativeOffset available with
        | none => none
        | some bytes =>
          if st.out - available = 0 then
            some { out := 0, written := st.written ++ bytes,
                   m_lastAccessedEntryIndex := some index, cache := cache }
          else
            DataViewStream.readEntries view (index + 1) rest 0
              { out := st.out - available, written := st.written ++ bytes,
                m_lastAccessedEntryIndex := some index, cache := cache }
      else
        DataViewStream.readEntries view (index + 1) rest (relativeOffset - entry.EntrySize)
          { st with m_lastAccessedEntryIndex := some index, cache := cache }

/-- What a call of `ReadStreamPartial` leaves: the value returned, the bytes
stored into `buf`, `m_lastAccessedEntryIndex` and the cache. -/
structure ReadResult where
  returned : Nat
  written : List Nat
  m_lastAccessedEntryIndex : Option Nat
  cache : Option SqpackViewEntryCache
deriving DecidableEq, Repr

/-- Lines 760-798 of `ReadStreamPartial`: the part that follows the copy from
the header, with the bytes copied so far, the size of `out` and
`relativeOffset`. -/
def DataViewStream.readFromEntries (v : DataViewStream)
    (m_buffer : Option SqpackViewEntryCache) (copied : List Nat)
    (out relativeOffset length : Nat) : Option ReadResult :=
  let start := v.m_lastAccessedEntryIndex.getD 0
  match v.m_entries[start]? with
  | none => none
  | some first =>
    let absoluteOffset := relativeOffset + v.m_header.length
    let it :=
      if first.Locator.DatFileOffset > absoluteOffset ∨
          absoluteOffset ≥ first.Locator.DatFileOffset + first.EntrySize then
        if DataViewStream.lowerBound absoluteOffset v.m_entries ≠ 0 ∧
            (DataViewStream.lowerBound absoluteOffset v.m_entries = v.m_entries.length ∨
              ∃ e, v.m_entries[DataViewStream.lowerBound absoluteOffset v.m_entries]? = some e ∧
                e.Locator.DatFileOffset > absoluteOffset)
        then DataViewStream.lowerBound absoluteOffset v.m_entries - 1
        else DataViewStream.lowerBound absoluteOffset v.m_entries
      else start
    match v.m_entries[it]? with
    | none => some ⟨length - out, copied, v.m_lastAccessedEntryIndex, m_buffer⟩
    | some entry =>
      if entry.Locator.DatFileOffset < v.m_header.length ∨
          absoluteOffset < entry.Locator.DatFileOffset then none
      else
        match
          DataViewStream.readEntries v.id it (v.m_entries.drop it)
            (relativeOffset - (entry.Locator.DatFileOffset - v.m_header.length))
            ⟨out, copied, v.m_lastAccessedEntryIndex, m_buffer⟩ with
        | none => none
        | some st =>
          some ⟨length - st.out, st.written, st.m_lastAccessedEntryIndex, st.cache⟩

/-- `DataViewStream::ReadStreamPartial(offset, buf, length)` (lines 742-799)
with the cache `m_buffer`, `none` when no cache is attached. -/
def DataViewStream.ReadStreamPartial (v : DataViewStream)
    (m_buffer : Option SqpackViewEntryCache) (offset length : Nat) : Option ReadResult :=
  if length = 0 then some ⟨0, [], v.m_lastAccessedEntryIndex, m_buffer⟩
  else if offset < v.m_header.length then
    let src := v.m_header.drop offset
    let available := min length src.length
    if length - available = 0 then
      some ⟨length, src.take available, v.m_lastAccessedEntryIndex, m_buffer⟩
    else v.readFromEntries m_buffer (src.take available) (length - available) 0 length
  else v.readFromEntries m_buffer [] length (offset - v.m_header.length) length

/-- The views of lines 433-434: one for each data subheader, over the slice
`dataEntryRanges[i]` of the entries. -/
def FinishToStreams.Data (fmt : Format) (image : HeaderImages fmt) (c : Creator) :
    List DataViewStream :=
  (List.range (FinishToStreams fmt c).dataSubheaders.length).map (fun i =>
    DataViewStream.new image i
      ((FinishToStreams fmt c).dataSubheaders.getD i ⟨0, 0, 0, 0, 0⟩)
      (((FinishToStreams fmt c).Entries.drop
          ((FinishToStreams fmt c).dataEntryRanges.getD i (0, 0)).1).take
        ((FinishToStreams fmt c).dataEntryRanges.getD i (0, 0)).2))

/-! ## Views: the flat content and the well-formed states -/

/-- The flat sequence of a view: the bytes of its header followed, for each
entry of the slice in order, by `EntrySize` bytes of the content of its
provider. -/
def DataViewStream.flat (v : DataViewStream) : List Nat :=
  v.m_header ++ (v.m_entries.map (fun e => e.Provider.Data.take e.EntrySize)).flatten

/-- What holds of a view that `FinishToStreams` has made, in every state that
reads leave it in: the slice is not empty, every entry lies where the entries
before it end, its provider has `EntrySize` bytes, the `DataSize` of the
subheader is the sum of the sizes, and `m_lastAccessedEntryIndex` is
`SIZE_MAX` or a position of the slice. -/
structure DataViewStream.WellFormed (v : DataViewStream) : Prop where
  nonempty : v.m_entries ≠ []
  located : ∀ k e, v.m_entries[k]? = some e →
    e.Locator.DatFileOffset =
      v.m_header.length + ((v.m_entries.take k).map (fun e => e.EntrySize)).sum
  content : ∀ e ∈ v.m_entries, e.Provider.Data.length = e.EntrySize
  size : v.SubHeader.DataSize = (v.m_entries.map (fun e => e.EntrySize)).sum
  hint : ∀ i, v.m_lastAccessedEntryIndex = some i → i < v.m_entries.length

/-- What holds of a cache with respect to a view: a buffer that belongs to an
entry of the view holds the content of that entry. -/
def CacheValid (view : Nat) (entries : List Entry) (cache : Option SqpackViewEntryCache) :
    Prop :=
  ∀ ch b, cache = some ch → ch.m_lastActiveEntry = some b → b.m_view = view →
    ∃ e, entries[b.m_entry]? = some e ∧ b.Buffer = e.Provider.Data

/-- What holds of a cache that started empty, `entryAt view index` being the
entry that the pair of pointers stands for: `m_lastActiveEntry` is empty, or
the entry it names is not larger than `LargeEntryBufferSizeMax` and its buffer
is the first `EntrySize` bytes of the content of the provider of that
entry. -/
def SqpackViewEntryCache.Holds (entryAt : Nat → Nat → Option Entry)
    (cache : SqpackViewEntryCache) : Prop :=
  ∀ b, cache.m_lastActiveEntry = some b →
    ∃ e, entryAt b.m_view b.m_entry = some e ∧
      e.EntrySize ≤ SqpackViewEntryCache.LargeEntryBufferSizeMax ∧
      b.Buffer = e.Provider.Data.take e.EntrySize

/-! ## The bytes of an index buffer

The records and the two headers of an index file are stored as their memory
images, whose layout `Sqpack.h` declares; a pass-through record is its bytes. -/

/-- Modelled from the spec: the memory images of the two headers of an index
file, as they stand in the buffer returned, and of the records of its
segments (their layout is declared in `Sqpack.h`): `sizeof` bytes each. -/
structure IndexImages (fmt : Format) (ifmt : IndexFormat) (F C : Type)
    (sizeofFileEntry sizeofConflictEntry : Nat) where
  headers : IndexFileData F C → List Nat
  fileEntry : F → List Nat
  conflictEntry : C → List Nat
  folderEntry : SqIndex.PathHashLocator → List Nat
  headers_size : ∀ d, (headers d).length = fmt.sizeofSqpackHeader + ifmt.sizeofSqIndexHeader
  fileEntry_size : ∀ r, (fileEntry r).length = sizeofFileEntry
  conflictEntry_size : ∀ r, (conflictEntry r).length = sizeofConflictEntry
  folderEntry_size : ∀ r, (folderEntry r).length = ifmt.sizeofPathHashLocator

/-- The vector `data` that `ExportIndexFileData` returns: the two headers
(line 645) and the payloads appended by lines 700-710. -/
def IndexFileData.bytes {fmt : Format} {ifmt : IndexFormat} {F C : Type}
    {sizeofFileEntry sizeofConflictEntry : Nat}
    (image : IndexImages fmt ifmt F C sizeofFileEntry sizeofConflictEntry)
    (d : IndexFileData F C) : List Nat :=
  image.headers d ++
    ((d.fileSegment.map image.fileEntry).flatten ++
      ((d.conflictSegment.map image.conflictEntry).flatten ++
        ((d.segment3.map (fun s => s.Bytes)).flatten ++
          (d.folderSegment.map image.folderEntry).flatten)))

/-- The checksum fields of the four segment descriptors of `SqIndex::Header`. -/
structure SegmentChecksums where
  HashLocatorSegment : List Nat
  TextLocatorSegment : List Nat
  UnknownSegment3 : List Nat
  PathHashLocatorSegment : List Nat
deriving DecidableEq, Repr

/-- The checksum fields of the two headers of an index buffer: `Sha1` of the
archive header, `Sha1` of the index header and those of its descriptors. -/
structure IndexChecksums where
  SqpackHeader : List Nat
  SqIndexHeader : List Nat
  Segments : SegmentChecksums
deriving DecidableEq, Repr

/-- A checksum field that no statement has written: the zero bytes that
`data.resize` (line 645) put there. -/
def Sha1Value.zero : List Nat := List.replicate 20 0

/-- The descriptor checksums of the index header right after line 645. -/
def SegmentChecksums.zero : SegmentChecksums :=
  ⟨Sha1Value.zero, Sha1Value.zero, Sha1Value.zero, Sha1Value.zero⟩

/-! ### SHA-1

The digest that `Sha1Value::SetFromSpan` stores (declared in `Sqpack.h`); the
specification names it: SHA-1, the function of FIPS 180-4, on bytes. -/

namespace Sha1

/-- Rotation of a 32-bit word to the left. -/
def rotl (n x : Nat) : Nat := ((x <<< n) ||| (x >>> (32 - n))) % 2 ^ 32

/-- The big-endian bytes of a number, `n` of them. -/
def bigEndian : Nat → Nat → List Nat
  | 0, _ => []
  | n + 1, x => (x / 256 ^ n) % 256 :: bigEndian n x

/-- The message with its padding: the byte `0x80`, zero bytes up to 56 modulo
64, and the length in bits as 64-bit big-endian number. -/
def pad (message : List Nat) : List Nat :=
  message ++ 128 :: (List.replicate ((119 - message.length % 64) % 64) 0 ++
    bigEndian 8 (8 * message.length))

/-- The big-endian word of four bytes. -/
def word (bytes : List Nat) : Nat :=
  bytes.foldl (fun acc b => acc * 256 + b % 256) 0

/-- The sixteen words of a block of 64 bytes. -/
def blockWords (block : List Nat) : List Nat :=
  (List.range 16).map (fun i => word ((block.drop (4 * i)).take 4))

/-- The message schedule: the eighty words of a block. -/
def schedule (block : List Nat) : List Nat :=
  (List.range 64).foldl
    (fun w _ =>
      let t := w.length
      w ++ [rotl 1 (w.getD (t - 3) 0 ^^^ w.getD (t - 8) 0 ^^^ w.getD (t - 14) 0 ^^^
        w.getD (t - 16) 0)])
    (blockWords block)

/-- The five words of the state. -/
structure State where
  a : Nat
  b : Nat
  c : Nat
  d : Nat
  e : Nat
deriving DecidableEq, Repr

/-- The initial state. -/
def State.initial : State :=
  ⟨0x67452301, 0xEFCDAB89, 0x98BADCFE, 0x10325476, 0xC3D2E1F0⟩

/-- The function and the constant of round `t`. -/
def roundFunction (t b c d : Nat) : Nat × Nat :=
  if t < 20 then ((b &&& c) ||| ((b ^^^ 0xFFFFFFFF) &&& d), 0x5A827999)
  else if t < 40 then (b ^^^ c ^^^ d, 0x6ED9EBA1)
  else if t < 60 then ((b &&& c) ||| (b &&& d) ||| (c &&& d), 0x8F1BBCDC)
  else (b ^^^ c ^^^ d, 0xCA62C1D6)

/-- One round. -/
def round (s : State) (tw : Nat × Nat) : State :=
  let fk := roundFunction tw.1 s.b s.c s.d
  ⟨(rotl 5 s.a + fk.1 + s.e + fk.2 + tw.2) % 2 ^ 32, s.a, rotl 30 s.b, s.c, s.d⟩

/-- The state after a block. -/
def compress (h : State) (block : List Nat) : State :=
  let s := (schedule block).enum.foldl round h
  ⟨(h.a + s.a) % 2 ^ 32, (h.b + s.b) % 2 ^ 32, (h.c + s.c) % 2 ^ 32, (h.d + s.d) % 2 ^ 32,
    (h.e + s.e) % 2 ^ 32⟩

/-- The SHA-1 digest of a sequence of bytes: twenty bytes. -/
def digest (message : List Nat) : List Nat :=
  let padded := pad message
  let h := (List.range (padded.length / 64)).foldl
    (fun h i => compress h ((padded.drop (64 * i)).take 64)) State.initial
  bigEndian 4 h.a ++ bigEndian 4 h.b ++ bigEndian 4 h.c ++ bigEndian 4 h.d ++ bigEndian 4 h.e

end Sha1

/-- Modelled from the spec: `Sha1Value::SetFromSpan` (declared in `Sqpack.h`)
stores the SHA-1 digest of the bytes of the span. -/
def Sha1Value.SetFromSpan (bytes : List Nat) : List Nat := Sha1.digest bytes

/-- Modelled from the spec: what `Sha1Value::SetFromSpan` computes and what it
reads in the two headers (the layout is declared in `Sqpack.h`): the digest
function, the bytes of the archive header before its field `Sha1`, and the
bytes of the index header before its field `Sha1`, which hold the four
descriptors, each with its checksum. -/
structure ChecksumImages (F C : Type) where
  sha1 : List Nat → List Nat
  SqpackHeader : List Nat
  SqIndexHeader : IndexFileData F C → SegmentChecksums → List Nat

/-- The checksums that `ExportIndexFileData` stores when `strict` is set, in
the order of its statements: the one of the archive header (lines 652-653),
the one of the index header (line 687), computed while the checksums of the
descriptors are still zero, and then those of the descriptors of the segments
that are not empty (lines 688-697), each over `Size` bytes from the first
record on. Without `UseFolders` the folder segment is empty. -/
def ExportIndexFileData.strict {fmt : Format} {ifmt : IndexFormat} {F C : Type}
    {sizeofFileEntry sizeofConflictEntry : Nat}
    (image : IndexImages fmt ifmt F C sizeofFileEntry sizeofConflictEntry)
    (s : ChecksumImages F C) (out : IndexFileData F C) : IndexChecksums :=
  let header1 := s.sha1 s.SqpackHeader
  let header2 := s.sha1 (s.SqIndexHeader out SegmentChecksums.zero)
  let hash :=
    if out.fileSegment.isEmpty then Sha1Value.zero
    else s.sha1 (((out.fileSegment.map image.fileEntry).flatten).take out.HashLocatorSegment.Size)
  let text :=
    if out.conflictSegment.isEmpty then Sha1Value.zero
    else
      s.sha1
        (((out.conflictSegment.map image.conflictEntry).flatten).take out.TextLocatorSegment.Size)
  let unknown :=
    if out.segment3.isEmpty then Sha1Value.zero
    else
      s.sha1 (((out.segment3.map (fun e => e.Bytes)).flatten).take out.UnknownSegment3.Size)
  let folder :=
    if out.folderSegment.isEmpty then Sha1Value.zero
    else
      s.sha1
        (((out.folderSegment.map image.folderEntry).flatten).take
          out.PathHashLocatorSegment.Size)
  { SqpackHeader := header1, SqIndexHeader := header2, Segments := ⟨hash, text, unknown, folder⟩ }

/-! ## Groups and runs

The notions in which the index tables are described. -/

/-- A comparison function that is a strict total order. -/
structure StrictOrder {K : Type} (lt : K → K → Bool) : Prop where
  irrefl : ∀ a, lt a a = false
  trans : ∀ a b c, lt a b = true → lt b c = true → lt a c = true
  total : ∀ a b, lt a b = false → lt b a = false → a = b

/-- What a map of groups is with respect to the keyed entries inserted so
far: the keys are in order, every group holds the entries of its key in the
order of insertion, and every key inserted has a group. -/
structure Grouped {K : Type} [DecidableEq K] (lt : K → K → Bool) (kvs : List (K × Entry))
    (m : List (K × List Entry)) : Prop where
  sorted : (m.map Prod.fst).Pairwise (fun a b => lt a b = true)
  group : ∀ g ∈ m, g.2 = (kvs.filter (fun p => p.1 = g.1)).map Prod.snd ∧ g.2 ≠ []
  keys : ∀ p ∈ kvs, p.1 ∈ m.map Prod.fst

/-- The folder records that belong to a list of runs of primary records, the
first run starting at the record of index `i`: the path hash of the run, the
byte offset of its first record and the byte length of the run. -/
def folderRecords {F : Type} (offset sizeofEntry : Nat) (PathHash : F → Nat) :
    Nat → List (List F) → List SqIndex.PathHashLocator
  | _, [] => []
  | i, run :: runs =>
    ⟨(run.head?.map PathHash).getD 0, offset + i * sizeofEntry, run.length * sizeofEntry, 0⟩ ::
      folderRecords offset sizeofEntry PathHash (i + run.length) runs

/-! ## Concrete inputs used by the witnesses and the evaluations

Small numbers stand for the 32-bit hash values; a PathSpec with path text and
a hash-only PathSpec of the same file carry the same three values. -/

namespace Example

/-- The hash-only PathSpec of a file, as an existing archive gives it. -/
def specHash : EntryPathSpec := ⟨"", 1, 2, 3⟩

/-- The PathSpec of the same file made from its path text. -/
def specPath : EntryPathSpec := ⟨"a/b", 1, 2, 3⟩

/-- The PathSpec of another file, made from its path text. -/
def specOther : EntryPathSpec := ⟨"a/c", 1, 4, 5⟩

/-- A provider known by its hashes only. -/
def provHash : EntryProvider := ⟨specHash, ProviderKind.Binary, [7]⟩

/-- A provider of the same file known by its path. -/
def provPath : EntryProvider := ⟨specPath, ProviderKind.Binary, [8, 9]⟩

/-- An empty builder with the cap 2048. -/
def builder : Creator :=
  { m_maxFileSize := 2048, DatExpac := "ffxiv", DatName := "000000",
    m_hashOnlyEntries := [], m_fullEntries := [],
    m_sqpackIndexSegment3 := [], m_sqpackIndex2Segment3 := [] }

/-- The builder after `AddEntry(provHash)`. -/
def builderHash : Creator :=
  { builder with m_hashOnlyEntries := [(specHash, ⟨0, ⟨0, 0⟩, provHash⟩)] }

/-- A second provider for the path of `provPath`, with other content. -/
def provPathNew : EntryProvider := ⟨specPath, ProviderKind.Binary, [10, 11, 12]⟩

/-- An empty builder with the default cap. -/
def builderDefault : Creator :=
  { builder with m_maxFileSize := SqData.Header.MaxFileSize_MaxValue }

/-- A provider of 128 bytes for the path of `specPath`. -/
def provBlock : EntryProvider := ⟨specPath, ProviderKind.Binary, List.replicate 128 1⟩

/-- A provider of 128 bytes for another path. -/
def provBlockOther : EntryProvider := ⟨specOther, ProviderKind.Binary, List.replicate 128 2⟩

/-- An environment in which the map insertion fails; the caller has handed
its reference to the provider over, as the overload of lines 221-225 does. -/
def envNoMemory : Env :=
  { throws := fun op => if op = Op.Emplace then some "bad allocation" else none
    callerKeepsProvider := false }

/-- An environment in which the map insertion fails; the caller keeps a
reference to the provider. -/
def envNoMemoryKept : Env := { envNoMemory with callerKeepsProvider := true }

/-- A hash-only PathSpec of a third file. -/
def specHashOther : EntryPathSpec := ⟨"", 6, 7, 8⟩

/-- A provider of 256 bytes known by its hashes only. -/
def provHashBlock : EntryProvider := ⟨specHashOther, ProviderKind.Binary, List.replicate 256 3⟩

/-- The builder with the default cap after `AddEntry(provBlock)` and
`AddEntry(provHashBlock)`: one entry in each table. -/
def builderMixed : Creator :=
  { builderDefault with
    m_hashOnlyEntries := [(specHashOther, ⟨0, ⟨0, 0⟩, provHashBlock⟩)]
    m_fullEntries := [(specPath, ⟨0, ⟨0, 0⟩, provBlock⟩)] }

/-- The builder with the default cap after `AddEntry(provBlock)`,
`ReserveSwappableSpace(specPath, 256)` and `AddEntry(provBlockOther)`. -/
def builderReserved : Creator :=
  { builderDefault with
    m_fullEntries :=
      [(specPath, ⟨256, ⟨0, 0⟩, provBlock⟩), (specOther, ⟨0, ⟨0, 0⟩, provBlockOther⟩)] }

/-- The builder with the cap 2048 after `AddEntry(provBlock)`. -/
def builderSmallCap : Creator :=
  { builder with m_fullEntries := [(specPath, ⟨0, ⟨0, 0⟩, provBlock⟩)] }

/-- The builder `builderMixed` with the cap 2304: the two headers and 256
bytes of data. -/
def builderTwoSegments : Creator := { builderMixed with m_maxFileSize := 2304 }

/-- The PathSpec of a third file: its path hash and name hash are those of
`specPath`, its path text and full-path hash are not. -/
def specCollide : EntryPathSpec := ⟨"a/d", 1, 2, 9⟩

/-- The PathSpec of a fourth file: its full-path hash is that of `specOther`. -/
def specFullCollide : EntryPathSpec := ⟨"x/y", 7, 8, 5⟩

/-- A provider of one byte for the path of `specOther`. -/
def provOther : EntryProvider := ⟨specOther, ProviderKind.Binary, [4]⟩

/-- A provider of two bytes for the path of `specCollide`. -/
def provCollide : EntryProvider := ⟨specCollide, ProviderKind.Binary, [5, 6]⟩

/-- A provider of one byte for the path of `specFullCollide`. -/
def provFullCollide : EntryProvider := ⟨specFullCollide, ProviderKind.Binary, [7]⟩

/-- The builder with the default cap after `AddEntry` of `provPath`,
`provOther`, `provCollide` and `provFullCollide`: two files share the pair of
path hash and name hash, two files share the full-path hash. -/
def builderCollide : Creator :=
  { builderDefault with
    m_fullEntries :=
      [(specPath, ⟨0, ⟨0, 0⟩, provPath⟩), (specOther, ⟨0, ⟨0, 0⟩, provOther⟩),
        (specFullCollide, ⟨0, ⟨0, 0⟩, provFullCollide⟩),
        (specCollide, ⟨0, ⟨0, 0⟩, provCollide⟩)] }

/-- Stand-in images of the two headers for the format of the game client:
1024 bytes each, the first byte of the image of a subheader being its
`SpanIndex`. -/
def images : HeaderImages Format.sqpack :=
  { SqpackHeader := List.replicate 1024 0
    SqDataHeader := fun h => h.SpanIndex % 256 :: List.replicate 1023 0
    SqpackHeader_size := by rw [List.length_replicate]; rfl
    SqDataHeader_size := fun _ => by rw [List.length_cons, List.length_replicate]; rfl }

/-- The view of segment 1 that `FinishToStreams` makes at `builderTwoSegments`. -/
def viewSecond : DataViewStream :=
  DataViewStream.new images 1 ⟨1024, 16, 128, 1, 2304⟩
    [⟨128, ⟨1, 2048⟩, HotSwappableEntryProvider specPath 128 provBlock⟩]

/-- The view of segment 0 that `FinishToStreams` makes at `builderCollide`:
four entries of 128 bytes. -/
def viewCollide : DataViewStream :=
  DataViewStream.new images 0 ⟨1024, 16, 512, 0, SqData.Header.MaxFileSize_MaxValue⟩
    [⟨128, ⟨0, 2048⟩, HotSwappableEntryProvider specPath 128 provPath⟩,
      ⟨128, ⟨0, 2176⟩, HotSwappableEntryProvider specOther 128 provOther⟩,
      ⟨128, ⟨0, 2304⟩, HotSwappableEntryProvider specFullCollide 128 provFullCollide⟩,
      ⟨128, ⟨0, 2432⟩, HotSwappableEntryProvider specCollide 128 provCollide⟩]

/-- Stand-ins for the memory images of the pair-hash index: the headers are
2048 zero bytes; a record is its name hash, reduced to a byte, and zeroes. -/
def indexImages1 :
    IndexImages Format.sqpack IndexFormat.sqpack SqIndex.PairHashLocator
      SqIndex.PairHashWithTextLocator 16 256 :=
  { headers := fun _ => List.replicate 2048 0
    fileEntry := fun r => r.NameHash % 256 :: List.replicate 15 0
    conflictEntry := fun r => r.NameHash % 256 :: List.replicate 255 0
    folderEntry := fun r => r.PathHash % 256 :: List.replicate 15 0
    headers_size := fun _ => by rw [List.length_replicate]; rfl
    fileEntry_size := fun _ => by rw [List.length_cons, List.length_replicate]
    conflictEntry_size := fun _ => by rw [List.length_cons, List.length_replicate]
    folderEntry_size := fun _ => by rw [List.length_cons, List.length_replicate]; rfl }

/-- Stand-ins for the memory images of the full-hash index. -/
def indexImages2 :
    IndexImages Format.sqpack IndexFormat.sqpack SqIndex.FullHashLocator
      SqIndex.FullHashWithTextLocator 8 256 :=
  { headers := fun _ => List.replicate 2048 0
    fileEntry := fun r => r.FullPathHash % 256 :: List.replicate 7 0
    conflictEntry := fun r => r.FullPathHash % 256 :: List.replicate 255 0
    folderEntry := fun r => r.PathHash % 256 :: List.replicate 15 0
    headers_size := fun _ => by rw [List.length_replicate]; rfl
    fileEntry_size := fun _ => by rw [List.length_cons, List.length_replicate]
    conflictEntry_size := fun _ => by rw [List.length_cons, List.length_replicate]
    folderEntry_size := fun _ => by rw [List.length_cons, List.length_replicate]; rfl }

/-- The builder `builderCollide` with two pass-through records for the
pair-hash index and one for the full-hash index. -/
def builderPassthrough : Creator :=
  { builderCollide with
    m_sqpackIndexSegment3 := [⟨List.replicate 16 7⟩, ⟨List.replicate 16 8⟩]
    m_sqpackIndex2Segment3 := [⟨List.replicate 16 9⟩] }

/-- The checksum computation with SHA-1 as digest and stand-ins for the
layout: for the bytes of the index header before its field `Sha1`, the four
descriptor checksums, each behind its length. -/
def checksumImages1 :
    ChecksumImages SqIndex.PairHashLocator SqIndex.PairHashWithTextLocator :=
  { sha1 := Sha1Value.SetFromSpan
    SqpackHeader := []
    SqIndexHeader := fun _ c =>
      c.HashLocatorSegment.length :: (c.HashLocatorSegment ++
        (c.TextLocatorSegment.length :: (c.TextLocatorSegment ++
          (c.UnknownSegment3.length :: (c.UnknownSegment3 ++
            (c.PathHashLocatorSegment.length :: c.PathHashLocatorSegment)))))) }

/-- The PathSpec of a third file, made from its path text. -/
def specThird : EntryPathSpec := ⟨"b/d", 9, 10, 11⟩

/-- A provider of 1000 bytes for a PathSpec. -/
def provThousand (pathSpec : EntryPathSpec) : EntryProvider :=
  ⟨pathSpec, ProviderKind.Binary, List.replicate 1000 1⟩

/-- The builder with the cap 2048 after `AddEntry` of three providers of 1000
bytes under the paths "a/b", "a/c" and "b/d". -/
def builderThree : Creator :=
  { builder with
    m_fullEntries :=
      [(specPath, ⟨0, ⟨0, 0⟩, provThousand specPath⟩),
        (specOther, ⟨0, ⟨0, 0⟩, provThousand specOther⟩),
        (specThird, ⟨0, ⟨0, 0⟩, provThousand specThird⟩)] }

/-- The entries that the pointers of the view `viewCollide` stand for. -/
def entryAtCollide (view index : Nat) : Option Entry :=
  if view = 0 then viewCollide.m_entries[index]? else none

end Example

/-! ## Comparators and tables: basic facts -/

theorem textLt_irrefl (l : List Nat) : EntryPathSpec.textLt l l = false := by
  induction l with
  | nil => rfl
  | cons a t ih => simp [EntryPathSpec.textLt, ih]

theorem textLt_equiv_iff (l r : List Nat) :
    (EntryPathSpec.textLt l r = false ∧ EntryPathSpec.textLt r l = false) ↔ l = r := by
  induction l generalizing r with
  | nil => cases r <;> simp [EntryPathSpec.textLt]
  | cons a t ih =>
    cases r with
    | nil => simp [EntryPathSpec.textLt]
    | cons b u =>
      have h := ih u
      simp only [EntryPathSpec.textLt, Bool.or_eq_false_iff, decide_eq_false_iff_not,
        Bool.and_eq_false_imp, beq_iff_eq, List.cons.injEq]
      constructor
      · rintro ⟨⟨h1, h2⟩, h3, h4⟩
        have hab : a = b := by omega
        exact ⟨hab, h.1 ⟨h2 hab, h4 hab.symm⟩⟩
      · rintro ⟨rfl, rfl⟩
        simp [textLt_irrefl]

theorem String.data_map_toNat_inj (a b : String)
    (h : a.data.map Char.toNat = b.data.map Char.toNat) : a = b := by
  have hinj : Function.Injective Char.toNat := by
    intro x y hxy
    apply Char.ext
    apply UInt32.ext
    exact hxy
  have := List.map_injective_iff.mpr hinj h
  exact String.ext this

/-- Two PathSpecs are equivalent for the full-path table exactly when their
three hashes are equal and, if both carry path text, the texts are equal. -/
theorem equiv_FullPath_iff (a b : EntryPathSpec) :
    Table.equiv EntryPathSpec.FullPathComparator a b = true ↔
      (Table.equiv EntryPathSpec.AllHashComparator a b = true ∧
        (a.HasOriginal = true → b.HasOriginal = true → a.Original = b.Original)) := by
  have ht := textLt_equiv_iff (a.Original.data.map Char.toNat) (b.Original.data.map Char.toNat)
  have hs : a.Original.data.map Char.toNat = b.Original.data.map Char.toNat ↔
      a.Original = b.Original :=
    ⟨String.data_map_toNat_inj _ _, fun h => by rw [h]⟩
  rw [hs] at ht
  unfold Table.equiv EntryPathSpec.FullPathComparator
  cases hA : EntryPathSpec.AllHashComparator a b <;>
    cases hB : EntryPathSpec.AllHashComparator b a <;>
    cases ha : a.HasOriginal <;> cases hb : b.HasOriginal <;>
    simp [← ht]

theorem equiv_AllHash_iff (a b : EntryPathSpec) :
    Table.equiv EntryPathSpec.AllHashComparator a b = true ↔
      (a.FullPathHash = b.FullPathHash ∧ a.PathHash = b.PathHash ∧ a.NameHash = b.NameHash) := by
  unfold Table.equiv EntryPathSpec.AllHashComparator
  simp only [Bool.and_eq_true, Bool.not_eq_true', Bool.or_eq_false_iff, decide_eq_false_iff_not,
    Bool.and_eq_false_imp, beq_iff_eq]
  constructor
  · rintro ⟨⟨h1, h2⟩, h3, h4⟩
    have e1 : a.FullPathHash = b.FullPathHash := by omega
    have h2' := h2 e1
    have h4' := h4 e1.symm
    have e2 : a.PathHash = b.PathHash := by omega
    have := h2'.2 e2
    have := h4'.2 e2.symm
    exact ⟨e1, e2, by omega⟩
  · rintro ⟨e1, e2, e3⟩
    refine ⟨⟨by omega, fun _ => ⟨by omega, fun _ => by omega⟩⟩, by omega,
      fun _ => ⟨by omega, fun _ => by omega⟩⟩

theorem equiv_AllHash_self (a : EntryPathSpec) :
    Table.equiv EntryPathSpec.AllHashComparator a a = true :=
  (equiv_AllHash_iff a a).mpr ⟨rfl, rfl, rfl⟩

theorem equiv_FullPath_self (a : EntryPathSpec) :
    Table.equiv EntryPathSpec.FullPathComparator a a = true :=
  (equiv_FullPath_iff a a).mpr ⟨equiv_AllHash_self a, fun _ _ => rfl⟩

/-- A PathSpec without path text is equivalent, for the full-path table, to
every PathSpec with its three hashes. -/
theorem equiv_FullPath_of_no_text (a b : EntryPathSpec)
    (h : Table.equiv EntryPathSpec.AllHashComparator a b = true)
    (hb : a.HasOriginal = false ∨ b.HasOriginal = false) :
    Table.equiv EntryPathSpec.FullPathComparator a b = true := by
  refine (equiv_FullPath_iff a b).mpr ⟨h, fun h1 h2 => ?_⟩
  rcases hb with hb | hb
  · rw [hb] at h1; cases h1
  · rw [hb] at h2; cases h2


theorem Table.emplace_of_find_none (lt : EntryPathSpec → EntryPathSpec → Bool) (t : Table)
    (k : EntryPathSpec) (v : Entry) (h : Table.find lt t k = none) :
    ∃ before after, t = before ++ after ∧ Table.emplace lt t k v = before ++ (k, v) :: after := by
  refine ⟨t.takeWhile (fun kv => lt kv.1 k), t.dropWhile (fun kv => lt kv.1 k), ?_, ?_⟩
  · exact (List.takeWhile_append_dropWhile _ t).symm
  · simp [Table.emplace, h]

theorem Table.find_split {lt : EntryPathSpec → EntryPathSpec → Bool} {t : Table}
    {k k' : EntryPathSpec} {e : Entry} (h : Table.find lt t k = some (k', e)) :
    Table.equiv lt k' k = true ∧ ∃ before after, t = before ++ (k', e) :: after ∧
      ∀ x ∈ before, Table.equiv lt x.1 k = false := by
  unfold Table.find at h
  obtain ⟨h1, as, bs, h2, h3⟩ := List.find?_eq_some.mp h
  exact ⟨h1, as, bs, h2, fun x hx => by simpa using h3 x hx⟩

theorem Table.find_of_split (lt : EntryPathSpec → EntryPathSpec → Bool) (k k' : EntryPathSpec)
    (e : Entry) (before after : Table) (hb : ∀ x ∈ before, Table.equiv lt x.1 k = false)
    (hk : Table.equiv lt k' k = true) :
    Table.find lt (before ++ (k', e) :: after) k = some (k', e) := by
  induction before with
  | nil => simp [Table.find, hk]
  | cons x t ih =>
    have hx : Table.equiv lt x.1 k = false := hb x (List.mem_cons_self _ _)
    have := ih (fun y hy => hb y (List.mem_cons_of_mem _ hy))
    simp only [Table.find] at this ⊢
    simp [hx, this]

theorem Table.adjust_split (lt : EntryPathSpec → EntryPathSpec → Bool) (f : Entry → Entry)
    (k k' : EntryPathSpec) (e : Entry) (before after : Table)
    (hb : ∀ x ∈ before, Table.equiv lt x.1 k = false) (hk : Table.equiv lt k' k = true) :
    Table.adjust lt f (before ++ (k', e) :: after) k = before ++ (k', f e) :: after := by
  induction before with
  | nil => simp [Table.adjust, hk]
  | cons x t ih =>
    obtain ⟨xk, xe⟩ := x
    have hx : Table.equiv lt xk k = false := hb (xk, xe) (List.mem_cons_self _ _)
    have := ih (fun y hy => hb y (List.mem_cons_of_mem _ hy))
    simp [Table.adjust, hx, this]

theorem Table.erase_split (lt : EntryPathSpec → EntryPathSpec → Bool)
    (k k' : EntryPathSpec) (e : Entry) (before after : Table)
    (hb : ∀ x ∈ before, Table.equiv lt x.1 k = false) (hk : Table.equiv lt k' k = true) :
    Table.erase lt (before ++ (k', e) :: after) k = before ++ after := by
  induction before with
  | nil => simp [Table.erase, hk]
  | cons x t ih =>
    have hx : Table.equiv lt x.1 k = false := hb x (List.mem_cons_self _ _)
    have := ih (fun y hy => hb y (List.mem_cons_of_mem _ hy))
    simp only [Table.erase] at this ⊢
    simp [hx, this]

theorem Table.find_none_forall {lt : EntryPathSpec → EntryPathSpec → Bool} {t : Table}
    {k : EntryPathSpec} (h : Table.find lt t k = none) :
    ∀ x ∈ t, Table.equiv lt x.1 k = false := by
  unfold Table.find at h
  intro x hx
  simpa using (List.find?_eq_none.mp h) x hx

theorem Table.find_emplace_self (lt : EntryPathSpec → EntryPathSpec → Bool) (t : Table)
    (k : EntryPathSpec) (v : Entry) (h : Table.find lt t k = none)
    (hrefl : Table.equiv lt k k = true) :
    Table.find lt (Table.emplace lt t k v) k = some (k, v) := by
  have hall := Table.find_none_forall h
  simp only [Table.emplace, h, Option.isSome_none, Bool.false_eq_true, if_false]
  apply Table.find_of_split lt k k v _ _ _ hrefl
  intro x hx
  exact hall x ((List.takeWhile_sublist _).subset hx)

theorem UpdatePathSpec_idem (p : EntryProvider) (r : EntryPathSpec) :
    (p.UpdatePathSpec r).UpdatePathSpec r = p.UpdatePathSpec r := by
  unfold EntryProvider.UpdatePathSpec
  by_cases h : (!p.PathSpec.HasOriginal && r.HasOriginal) = true
  · simp only [h, if_true]
    have hr : r.HasOriginal = true := by
      simp only [Bool.and_eq_true] at h
      exact h.2
    have : (EntryPathSpec.HasOriginal { p.PathSpec with Original := r.Original }) = true := by
      simpa [EntryPathSpec.HasOriginal] using hr
    simp [this]
  · simp [h]

theorem UpdatePathSpec_of_hasOriginal (p : EntryProvider) (r : EntryPathSpec)
    (h : p.PathSpec.HasOriginal = true) : p.UpdatePathSpec r = p := by
  simp [EntryProvider.UpdatePathSpec, h]

theorem UpdatePathSpec_of_no_text (p : EntryProvider) (r : EntryPathSpec)
    (h : r.HasOriginal = false) : p.UpdatePathSpec r = p := by
  simp [EntryProvider.UpdatePathSpec, h]

/-- The `try` block of `AddEntry` does not touch the result lists before it
raises: every append to a result list is the last fallible step of its path. -/
theorem AddEntry.existing_threw {env : Env} {c : Creator} {result : AddEntryResult}
    {provider : EntryProvider} {overwriteExisting : Bool} {s : Slot}
    {e : Entry} {c1 : Creator} {r1 : AddEntryResult} {what : String} {alive : Bool}
    (h : AddEntry.existing env c result provider overwriteExisting s e
      = TryOutcome.threw c1 r1 what alive) : r1 = result := by
  unfold AddEntry.existing at h
  repeat' split at h
  all_goals first
    | (injection h with _ h2 _ _; exact h2.symm)
    | (exact absurd h (by simp))

theorem AddEntry.fresh_threw {env : Env} {c : Creator} {result : AddEntryResult}
    {provider : EntryProvider} {c1 : Creator} {r1 : AddEntryResult} {what : String}
    {alive : Bool}
    (h : AddEntry.fresh env c result provider = TryOutcome.threw c1 r1 what alive) :
    r1 = result := by
  unfold AddEntry.fresh at h
  repeat' split at h
  all_goals first
    | (injection h with _ h2 _ _; exact h2.symm)
    | (exact absurd h (by simp))

theorem AddEntry.tryBlock_threw {env : Env} {c : Creator} {result : AddEntryResult}
    {provider : EntryProvider} {overwriteExisting : Bool}
    {c1 : Creator} {r1 : AddEntryResult} {what : String} {alive : Bool}
    (h : AddEntry.tryBlock env c result provider overwriteExisting
      = TryOutcome.threw c1 r1 what alive) : r1 = result := by
  unfold AddEntry.tryBlock at h
  repeat' split at h
  all_goals try dsimp only at h
  all_goals repeat' split at h
  all_goals first
    | exact AddEntry.existing_threw h
    | exact AddEntry.fresh_threw h
    | (injection h with _ h2 _ _; exact h2.symm)
    | (exact absurd h (by simp))

theorem ReserveSwappableSpace_stay (c : Creator) (p : EntryPathSpec) (n : Nat)
    (k : EntryPathSpec) (e : Entry)
    (hH : Table.find EntryPathSpec.AllHashComparator c.m_hashOnlyEntries p = some (k, e))
    (hs : e.Provider.PathSpec.HasOriginal = true ∨ p.HasOriginal = false) :
    ∃ before after, c.m_hashOnlyEntries = before ++ (k, e) :: after ∧
      ReserveSwappableSpace c p n =
        { c with m_hashOnlyEntries :=
            before ++ (k, { e with EntrySize := max e.EntrySize n }) :: after } := by
  obtain ⟨hk, before, after, hsplit, hb⟩ := Table.find_split hH
  refine ⟨before, after, hsplit, ?_⟩
  have hcond : (!e.Provider.PathSpec.HasOriginal && p.HasOriginal) = false := by
    rcases hs with h | h <;> simp [h]
  unfold ReserveSwappableSpace
  simp only [hH, hcond, Bool.false_eq_true, if_false]
  rw [hsplit, Table.adjust_split _ _ _ _ _ _ _ hb hk]

theorem ReserveSwappableSpace_migrate (c : Creator) (p : EntryPathSpec) (n : Nat)
    (k : EntryPathSpec) (e : Entry)
    (hH : Table.find EntryPathSpec.AllHashComparator c.m_hashOnlyEntries p = some (k, e))
    (he : e.Provider.PathSpec.HasOriginal = false) (hp : p.HasOriginal = true)
    (hF : Table.find EntryPathSpec.FullPathComparator c.m_fullEntries p = none) :
    ∃ before after before' after',
      c.m_hashOnlyEntries = before ++ (k, e) :: after ∧ c.m_fullEntries = before' ++ after' ∧
      ReserveSwappableSpace c p n =
        { c with
          m_hashOnlyEntries := before ++ after
          m_fullEntries :=
            before' ++
              (p, { EntrySize := max e.EntrySize n, Locator := e.Locator,
                    Provider :=
                      { e.Provider with
                        PathSpec := { e.Provider.PathSpec with Original := p.Original } } })
              :: after' } := by
  obtain ⟨hk, before, after, hsplit, hb⟩ := Table.find_split hH
  obtain ⟨before', after', h1, h2⟩ :=
    Table.emplace_of_find_none EntryPathSpec.FullPathComparator c.m_fullEntries p
      { EntrySize := max e.EntrySize n, Locator := e.Locator,
        Provider :=
          { e.Provider with PathSpec := { e.Provider.PathSpec with Original := p.Original } } }
      hF
  refine ⟨before, after, before', after', hsplit, h1, ?_⟩
  unfold ReserveSwappableSpace
  simp only [hH, he, hp, Bool.not_false, Bool.and_self, if_true, EntryProvider.UpdatePathSpec]
  rw [h2]
  congr 1
  rw [hsplit, Table.erase_split _ _ _ _ _ _ hb hk]

theorem ReserveSwappableSpace_full (c : Creator) (p : EntryPathSpec) (n : Nat)
    (k : EntryPathSpec) (e : Entry)
    (hH : Table.find EntryPathSpec.AllHashComparator c.m_hashOnlyEntries p = none)
    (hF : Table.find EntryPathSpec.FullPathComparator c.m_fullEntries p = some (k, e)) :
    ∃ before after, c.m_fullEntries = before ++ (k, e) :: after ∧
      ReserveSwappableSpace c p n =
        { c with m_fullEntries :=
            before ++ (k, { e with EntrySize := max e.EntrySize n }) :: after } := by
  obtain ⟨hk, before, after, hsplit, hb⟩ := Table.find_split hF
  refine ⟨before, after, hsplit, ?_⟩
  unfold ReserveSwappableSpace
  simp only [hH, hF]
  rw [hsplit, Table.adjust_split _ _ _ _ _ _ _ hb hk]

theorem ReserveSwappableSpace_fresh (c : Creator) (p : EntryPathSpec) (n : Nat)
    (hH : Table.find EntryPathSpec.AllHashComparator c.m_hashOnlyEntries p = none)
    (hF : Table.find EntryPathSpec.FullPathComparator c.m_fullEntries p = none) :
    ∃ before after,
      (p.HasOriginal = true →
        c.m_fullEntries = before ++ after ∧
        ReserveSwappableSpace c p n =
          { c with m_fullEntries :=
              before ++ (p, ⟨n, ⟨0, 0⟩, EmptyOrObfuscatedEntryProvider p⟩) :: after }) ∧
      (p.HasOriginal = false →
        c.m_hashOnlyEntries = before ++ after ∧
        ReserveSwappableSpace c p n =
          { c with m_hashOnlyEntries :=
              before ++ (p, ⟨n, ⟨0, 0⟩, EmptyOrObfuscatedEntryProvider p⟩) :: after }) := by
  cases hO : p.HasOriginal with
  | true =>
    obtain ⟨before, after, h1, h2⟩ :=
      Table.emplace_of_find_none EntryPathSpec.FullPathComparator c.m_fullEntries p
        ⟨n, ⟨0, 0⟩, EmptyOrObfuscatedEntryProvider p⟩ hF
    refine ⟨before, after, fun _ => ⟨h1, ?_⟩, fun h => by simp at h⟩
    unfold ReserveSwappableSpace
    simp only [hH, hF, EmptyOrObfuscatedEntryProvider, hO, if_true]
    simp only [EmptyOrObfuscatedEntryProvider] at h2
    rw [h2]
  | false =>
    obtain ⟨before, after, h1, h2⟩ :=
      Table.emplace_of_find_none EntryPathSpec.AllHashComparator c.m_hashOnlyEntries p
        ⟨n, ⟨0, 0⟩, EmptyOrObfuscatedEntryProvider p⟩ hH
    refine ⟨before, after, fun h => by simp at h, fun _ => ⟨h1, ?_⟩⟩
    unfold ReserveSwappableSpace
    simp only [hH, hF, EmptyOrObfuscatedEntryProvider, hO, Bool.false_eq_true, if_false]
    simp only [EmptyOrObfuscatedEntryProvider] at h2
    rw [h2]

/-- With `overwriteExisting = false`, an entry found in the hash-only table
that does not migrate is reported and the builder is as before. -/
theorem AddEntry_skip_hashOnly (c : Creator) (result : AddEntryResult) (provider : EntryProvider)
    (k : EntryPathSpec) (e : Entry)
    (hH : Table.find EntryPathSpec.AllHashComparator c.m_hashOnlyEntries provider.PathSpec
      = some (k, e))
    (hcond : (!e.Provider.PathSpec.HasOriginal && provider.PathSpec.HasOriginal) = false) :
    AddEntry Env.quiet c result provider false
      = some (c, { result with SkippedExisting := result.SkippedExisting ++ [e.Provider] }) := by
  obtain ⟨hk, before, after, hsplit, hb⟩ := Table.find_split hH
  have hup : e.Provider.UpdatePathSpec provider.PathSpec = e.Provider := by
    simp [EntryProvider.UpdatePathSpec, hcond]
  have hadj : Table.adjust EntryPathSpec.AllHashComparator
      (fun x => { x with Provider := x.Provider.UpdatePathSpec provider.PathSpec })
      c.m_hashOnlyEntries provider.PathSpec = c.m_hashOnlyEntries := by
    rw [hsplit, Table.adjust_split _ _ _ _ _ _ _ hb hk, hup]
  simp [AddEntry, AddEntry.tryBlock, AddEntry.existing, adjustSlot, Env.quiet, hH, hcond, hadj,
    hup]

/-- With `overwriteExisting = false`, an entry found in the full-path table
whose provider already has its path text is reported and the builder is as
before. -/
theorem AddEntry_skip_full (c : Creator) (result : AddEntryResult) (provider : EntryProvider)
    (k : EntryPathSpec) (e : Entry)
    (hH : Table.find EntryPathSpec.AllHashComparator c.m_hashOnlyEntries provider.PathSpec = none)
    (hF : Table.find EntryPathSpec.FullPathComparator c.m_fullEntries provider.PathSpec
      = some (k, e))
    (hup : e.Provider.UpdatePathSpec provider.PathSpec = e.Provider) :
    AddEntry Env.quiet c result provider false
      = some (c, { result with SkippedExisting := result.SkippedExisting ++ [e.Provider] }) := by
  obtain ⟨hk, before, after, hsplit, hb⟩ := Table.find_split hF
  have hadj : Table.adjust EntryPathSpec.FullPathComparator
      (fun x => { x with Provider := x.Provider.UpdatePathSpec provider.PathSpec })
      c.m_fullEntries provider.PathSpec = c.m_fullEntries := by
    rw [hsplit, Table.adjust_split _ _ _ _ _ _ _ hb hk, hup]
  simp [AddEntry, AddEntry.tryBlock, AddEntry.existing, adjustSlot, Env.quiet, hH, hF, hadj, hup]

theorem equiv_AllHash_trans_false (a b k : EntryPathSpec)
    (hab : Table.equiv EntryPathSpec.AllHashComparator a b = false)
    (hak : Table.equiv EntryPathSpec.AllHashComparator a k = true) :
    Table.equiv EntryPathSpec.AllHashComparator b k = false := by
  rw [Bool.eq_false_iff] at hab ⊢
  intro hbk
  apply hab
  rw [equiv_AllHash_iff] at hak hbk ⊢
  obtain ⟨h1, h2, h3⟩ := hak
  obtain ⟨h4, h5, h6⟩ := hbk
  exact ⟨by omega, by omega, by omega⟩

/-- In a table with pairwise inequivalent keys, erasing the element found for
`k` leaves no element equivalent to `k`. -/
theorem Table.find_erase_none (t : Table) (k : EntryPathSpec)
    (hU : t.Pairwise (fun a b => Table.equiv EntryPathSpec.AllHashComparator a.1 b.1 = false)) :
    Table.find EntryPathSpec.AllHashComparator
      (Table.erase EntryPathSpec.AllHashComparator t k) k = none := by
  cases hF : Table.find EntryPathSpec.AllHashComparator t k with
  | none =>
    have hall := Table.find_none_forall hF
    have : Table.erase EntryPathSpec.AllHashComparator t k = t := by
      unfold Table.erase
      apply List.eraseP_of_forall_not
      intro a ha
      simp [hall a ha]
    rw [this, hF]
  | some ke =>
    obtain ⟨k', e⟩ := ke
    obtain ⟨hk, before, after, hsplit, hb⟩ := Table.find_split hF
    rw [hsplit, Table.erase_split _ _ _ _ _ _ hb hk]
    unfold Table.find
    rw [List.find?_eq_none]
    intro x hx
    rw [hsplit] at hU
    have hU' := List.pairwise_append.mp hU
    rcases List.mem_append.mp hx with h | h
    · simp [hb x h]
    · have := (List.pairwise_cons.mp hU'.2.1).1 x h
      simp [equiv_AllHash_trans_false _ _ _ this hk]

/-- After a call with `overwriteExisting = false` that is defined, a second
call with the same provider finds the entry in place and leaves the builder
as it is. -/
theorem AddEntry_skip_again (c : Creator) (result : AddEntryResult) (provider : EntryProvider)
    (hU : c.m_hashOnlyEntries.Pairwise
      (fun a b => Table.equiv EntryPathSpec.AllHashComparator a.1 b.1 = false))
    (c1 : Creator) (r1 : AddEntryResult)
    (h1 : AddEntry Env.quiet c result provider false = some (c1, r1)) :
    ∃ r2, AddEntry Env.quiet c1 r1 provider false = some (c1, r2) := by
  cases hH : Table.find EntryPathSpec.AllHashComparator c.m_hashOnlyEntries provider.PathSpec with
  | some ke =>
    obtain ⟨k, e⟩ := ke
    cases hcond : (!e.Provider.PathSpec.HasOriginal && provider.PathSpec.HasOriginal) with
    | false =>
      rw [AddEntry_skip_hashOnly c result provider k e hH hcond] at h1
      simp only [Option.some.injEq, Prod.mk.injEq] at h1
      obtain ⟨rfl, rfl⟩ := h1
      exact ⟨_, AddEntry_skip_hashOnly c _ provider k e hH hcond⟩
    | true =>
      have hprov : provider.PathSpec.HasOriginal = true := by
        simp only [Bool.and_eq_true] at hcond
        exact hcond.2
      cases hF : Table.find EntryPathSpec.FullPathComparator c.m_fullEntries provider.PathSpec with
      | some ke' =>
        simp [AddEntry, AddEntry.tryBlock, Env.quiet, hH, hcond, hF] at h1
      | none =>
        obtain ⟨before, after, hs1, hs2⟩ :=
          Table.emplace_of_find_none EntryPathSpec.FullPathComparator c.m_fullEntries
            provider.PathSpec
            { e with Provider := e.Provider.UpdatePathSpec provider.PathSpec } hF
        have hall := Table.find_none_forall hF
        have hbefore : ∀ x ∈ before,
            Table.equiv EntryPathSpec.FullPathComparator x.1 provider.PathSpec = false := by
          intro x hx
          apply hall x
          rw [hs1]
          exact List.mem_append_left _ hx
        have hrefl := equiv_FullPath_self provider.PathSpec
        have hadj := Table.adjust_split EntryPathSpec.FullPathComparator
          (fun x => { x with Provider := x.Provider.UpdatePathSpec provider.PathSpec })
          provider.PathSpec provider.PathSpec
          { e with Provider := e.Provider.UpdatePathSpec provider.PathSpec } before after
          hbefore hrefl
        simp only [UpdatePathSpec_idem] at hadj
        have hc1 : c1 =
            { c with
              m_fullEntries :=
                before ++ (provider.PathSpec,
                  { e with Provider := e.Provider.UpdatePathSpec provider.PathSpec }) :: after
              m_hashOnlyEntries :=
                Table.erase EntryPathSpec.AllHashComparator c.m_hashOnlyEntries
                  provider.PathSpec } := by
          simp only [AddEntry, AddEntry.tryBlock, AddEntry.existing, adjustSlot, Env.quiet, hH,
            hcond, hF, hs2, hadj, if_true, Option.isNone_none, Bool.not_false,
            Option.some.injEq, Prod.mk.injEq] at h1
          exact h1.1.symm
        subst hc1
        refine ⟨_, AddEntry_skip_full _ r1 provider provider.PathSpec
          { e with Provider := e.Provider.UpdatePathSpec provider.PathSpec } ?_ ?_ ?_⟩
        · exact Table.find_erase_none _ _ hU
        · exact Table.find_of_split _ _ _ _ _ _ hbefore hrefl
        · exact UpdatePathSpec_idem _ _
  | none =>
    cases hF : Table.find EntryPathSpec.FullPathComparator c.m_fullEntries provider.PathSpec with
    | some ke =>
      obtain ⟨k, e⟩ := ke
      obtain ⟨hk, before, after, hsplit, hb⟩ := Table.find_split hF
      have hadj := Table.adjust_split EntryPathSpec.FullPathComparator
        (fun x => { x with Provider := x.Provider.UpdatePathSpec provider.PathSpec })
        provider.PathSpec k e before after hb hk
      rw [← hsplit] at hadj
      have hc1 : c1 =
          { c with
            m_fullEntries :=
              before ++ (k, { e with Provider := e.Provider.UpdatePathSpec provider.PathSpec })
                :: after } := by
        simp only [AddEntry, AddEntry.tryBlock, AddEntry.existing, adjustSlot, Env.quiet, hH,
          hF, hadj, Bool.not_false, if_true, Option.some.injEq, Prod.mk.injEq] at h1
        exact h1.1.symm
      subst hc1
      exact ⟨_, AddEntry_skip_full _ r1 provider k
        { e with Provider := e.Provider.UpdatePathSpec provider.PathSpec } hH
        (Table.find_of_split _ _ _ _ _ _ hb hk) (UpdatePathSpec_idem _ _)⟩
    | none =>
      cases hO : provider.PathSpec.HasOriginal with
      | true =>
        have hc1 : c1 =
            { c with
              m_fullEntries :=
                Table.emplace EntryPathSpec.FullPathComparator c.m_fullEntries
                  provider.PathSpec ⟨0, ⟨0, 0⟩, provider⟩ } := by
          simp only [AddEntry, AddEntry.tryBlock, AddEntry.fresh, Env.quiet, hH, hF, hO,
            if_true, Option.some.injEq, Prod.mk.injEq] at h1
          exact h1.1.symm
        subst hc1
        exact ⟨_, AddEntry_skip_full _ r1 provider provider.PathSpec ⟨0, ⟨0, 0⟩, provider⟩ hH
          (Table.find_emplace_self _ _ _ _ hF (equiv_FullPath_self _))
          (UpdatePathSpec_of_hasOriginal _ _ hO)⟩
      | false =>
        have hc1 : c1 =
            { c with
              m_hashOnlyEntries :=
                Table.emplace EntryPathSpec.AllHashComparator c.m_hashOnlyEntries
                  provider.PathSpec ⟨0, ⟨0, 0⟩, provider⟩ } := by
          simp only [AddEntry, AddEntry.tryBlock, AddEntry.fresh, Env.quiet, hH, hF, hO,
            Bool.false_eq_true, if_false, Option.some.injEq, Prod.mk.injEq] at h1
          exact h1.1.symm
        subst hc1
        exact ⟨_, AddEntry_skip_hashOnly _ r1 provider provider.PathSpec ⟨0, ⟨0, 0⟩, provider⟩
          (Table.find_emplace_self _ _ _ _ hH (equiv_AllHash_self _))
          (by simp [hO])⟩

/-- The call is defined unless the hash-only entry found for the provider has
to migrate onto a key that the full-path table already holds. -/
theorem AddEntry_defined (c : Creator) (result : AddEntryResult) (provider : EntryProvider)
    (overwriteExisting : Bool)
    (hfree : ∀ k e,
      Table.find EntryPathSpec.AllHashComparator c.m_hashOnlyEntries provider.PathSpec
        = some (k, e) →
      e.Provider.PathSpec.HasOriginal = false → provider.PathSpec.HasOriginal = true →
      Table.find EntryPathSpec.FullPathComparator c.m_fullEntries provider.PathSpec = none) :
    ∃ c1 r1, AddEntry Env.quiet c result provider overwriteExisting = some (c1, r1) := by
  cases hH : Table.find EntryPathSpec.AllHashComparator c.m_hashOnlyEntries provider.PathSpec with
  | some ke =>
    obtain ⟨k, e⟩ := ke
    cases he : e.Provider.PathSpec.HasOriginal with
    | true =>
      cases overwriteExisting <;>
        simp [AddEntry, AddEntry.tryBlock, AddEntry.existing, Env.quiet, hH, he]
    | false =>
      cases hp : provider.PathSpec.HasOriginal with
      | false =>
        cases overwriteExisting <;>
          simp [AddEntry, AddEntry.tryBlock, AddEntry.existing, Env.quiet, hH, he, hp]
      | true =>
        have hF := hfree k e hH he hp
        cases overwriteExisting <;>
          simp [AddEntry, AddEntry.tryBlock, AddEntry.existing, Env.quiet, hH, he, hp, hF]
  | none =>
    cases hF : Table.find EntryPathSpec.FullPathComparator c.m_fullEntries provider.PathSpec with
    | some ke =>
      cases overwriteExisting <;>
        simp [AddEntry, AddEntry.tryBlock, AddEntry.existing, Env.quiet, hH, hF]
    | none =>
      simp [AddEntry, AddEntry.tryBlock, AddEntry.fresh, Env.quiet, hH, hF]

/-- `AddEntry` on an entry found in the hash-only table that does not
migrate. -/
theorem AddEntry_found_hashOnly (c : Creator) (result : AddEntryResult) (provider : EntryProvider)
    (overwriteExisting : Bool) (k : EntryPathSpec) (e : Entry)
    (hH : Table.find EntryPathSpec.AllHashComparator c.m_hashOnlyEntries provider.PathSpec
      = some (k, e))
    (hcond : (!e.Provider.PathSpec.HasOriginal && provider.PathSpec.HasOriginal) = false) :
    ∃ before after, c.m_hashOnlyEntries = before ++ (k, e) :: after ∧
      AddEntry Env.quiet c result provider overwriteExisting
        = some
          ({ c with
              m_hashOnlyEntries :=
                before ++
                  (k, { e with Provider := if overwriteExisting then provider else e.Provider })
                  :: after },
            if overwriteExisting then { result with Replaced := result.Replaced ++ [provider] }
            else { result with SkippedExisting := result.SkippedExisting ++ [e.Provider] }) := by
  obtain ⟨hk, before, after, hsplit, hb⟩ := Table.find_split hH
  refine ⟨before, after, hsplit, ?_⟩
  cases overwriteExisting with
  | false =>
    rw [AddEntry_skip_hashOnly c result provider k e hH hcond]
    simp [← hsplit]
  | true =>
    have hadj := Table.adjust_split EntryPathSpec.AllHashComparator
      (fun x => { x with Provider := provider }) provider.PathSpec k e before after hb hk
    rw [← hsplit] at hadj
    simp [AddEntry, AddEntry.tryBlock, AddEntry.existing, adjustSlot, Env.quiet, hH, hcond, hadj]

/-- `AddEntry` on a hash-only entry that lacks the path text the provider
carries, the full-path table holding no key equal to the provider's. -/
theorem AddEntry_migrates (c : Creator) (result : AddEntryResult) (provider : EntryProvider)
    (overwriteExisting : Bool) (k : EntryPathSpec) (e : Entry)
    (hH : Table.find EntryPathSpec.AllHashComparator c.m_hashOnlyEntries provider.PathSpec
      = some (k, e))
    (he : e.Provider.PathSpec.HasOriginal = false) (hp : provider.PathSpec.HasOriginal = true)
    (hF : Table.find EntryPathSpec.FullPathComparator c.m_fullEntries provider.PathSpec = none) :
    ∃ before after before' after',
      c.m_hashOnlyEntries = before ++ (k, e) :: after ∧ c.m_fullEntries = before' ++ after' ∧
      AddEntry Env.quiet c result provider overwriteExisting
        = some
          ({ c with
              m_hashOnlyEntries := before ++ after
              m_fullEntries :=
                before' ++
                  (provider.PathSpec,
                    { e with
                      Provider :=
                        if overwriteExisting then provider
                        else
                          { e.Provider with
                            PathSpec :=
                              { e.Provider.PathSpec with
                                Original := provider.PathSpec.Original } } })
                  :: after' },
            if overwriteExisting then { result with Replaced := result.Replaced ++ [provider] }
            else
              { result with
                SkippedExisting :=
                  result.SkippedExisting ++
                    [{ e.Provider with
                       PathSpec :=
                         { e.Provider.PathSpec with
                           Original := provider.PathSpec.Original } }] }) := by
  obtain ⟨hk, before, after, hsplit, hb⟩ := Table.find_split hH
  have hupd : e.Provider.UpdatePathSpec provider.PathSpec =
      { e.Provider with
        PathSpec := { e.Provider.PathSpec with Original := provider.PathSpec.Original } } := by
    simp [EntryProvider.UpdatePathSpec, he, hp]
  obtain ⟨before', after', hs1, hs2⟩ :=
    Table.emplace_of_find_none EntryPathSpec.FullPathComparator c.m_fullEntries
      provider.PathSpec { e with Provider := e.Provider.UpdatePathSpec provider.PathSpec } hF
  have hall := Table.find_none_forall hF
  have hbefore : ∀ x ∈ before',
      Table.equiv EntryPathSpec.FullPathComparator x.1 provider.PathSpec = false := by
    intro x hx
    apply hall x
    rw [hs1]
    exact List.mem_append_left _ hx
  have hrefl := equiv_FullPath_self provider.PathSpec
  have herase := Table.erase_split EntryPathSpec.AllHashComparator provider.PathSpec k e
    before after hb hk
  rw [← hsplit] at herase
  refine ⟨before, after, before', after', hsplit, hs1, ?_⟩
  cases overwriteExisting with
  | false =>
    have hadj := Table.adjust_split EntryPathSpec.FullPathComparator
      (fun x => { x with Provider := x.Provider.UpdatePathSpec provider.PathSpec })
      provider.PathSpec provider.PathSpec
      { e with Provider := e.Provider.UpdatePathSpec provider.PathSpec } before' after'
      hbefore hrefl
    simp only [UpdatePathSpec_idem] at hadj
    simp [AddEntry, AddEntry.tryBlock, AddEntry.existing, adjustSlot, Env.quiet, hH, he, hp, hF,
      hs2, hadj, herase, UpdatePathSpec_idem]
    simp [hupd]
  | true =>
    have hadj := Table.adjust_split EntryPathSpec.FullPathComparator
      (fun x => { x with Provider := provider })
      provider.PathSpec provider.PathSpec
      { e with Provider := e.Provider.UpdatePathSpec provider.PathSpec } before' after'
      hbefore hrefl
    simp [AddEntry, AddEntry.tryBlock, AddEntry.existing, adjustSlot, Env.quiet, hH, he, hp, hF,
      hs2, hadj, herase]

/-- `AddEntry` on an entry found in the full-path table only. -/
theorem AddEntry_found_full (c : Creator) (result : AddEntryResult) (provider : EntryProvider)
    (overwriteExisting : Bool) (k : EntryPathSpec) (e : Entry)
    (hH : Table.find EntryPathSpec.AllHashComparator c.m_hashOnlyEntries provider.PathSpec = none)
    (hF : Table.find EntryPathSpec.FullPathComparator c.m_fullEntries provider.PathSpec
      = some (k, e)) :
    ∃ before after, c.m_fullEntries = before ++ (k, e) :: after ∧
      AddEntry Env.quiet c result provider overwriteExisting
        = some
          ({ c with
              m_fullEntries :=
                before ++
                  (k, { e with
                        Provider :=
                          if overwriteExisting then provider
                          else e.Provider.UpdatePathSpec provider.PathSpec })
                  :: after },
            if overwriteExisting then { result with Replaced := result.Replaced ++ [provider] }
            else
              { result with
                SkippedExisting :=
                  result.SkippedExisting ++ [e.Provider.UpdatePathSpec provider.PathSpec] }) := by
  obtain ⟨hk, before, after, hsplit, hb⟩ := Table.find_split hF
  refine ⟨before, after, hsplit, ?_⟩
  cases overwriteExisting with
  | false =>
    have hadj := Table.adjust_split EntryPathSpec.FullPathComparator
      (fun x => { x with Provider := x.Provider.UpdatePathSpec provider.PathSpec })
      provider.PathSpec k e before after hb hk
    rw [← hsplit] at hadj
    simp [AddEntry, AddEntry.tryBlock, AddEntry.existing, adjustSlot, Env.quiet, hH, hF, hadj]
  | true =>
    have hadj := Table.adjust_split EntryPathSpec.FullPathComparator
      (fun x => { x with Provider := provider }) provider.PathSpec k e before after hb hk
    rw [← hsplit] at hadj
    simp [AddEntry, AddEntry.tryBlock, AddEntry.existing, adjustSlot, Env.quiet, hH, hF, hadj]

/-! ## The packing loops in terms of segments -/

theorem updateBack_concat {α : Type} (f : α → α) (l : List α) (a : α) :
    updateBack f (l ++ [a]) = l ++ [f a] := by
  induction l with
  | nil => rfl
  | cons x t ih =>
    cases t with
    | nil => rfl
    | cons y u =>
      simp only [List.cons_append] at ih ⊢
      simp only [updateBack, ih]

theorem headersOf_concat (fmt : Format) (m : Nat) (size : Entry → Nat) (start : Nat)
    (segs : List (List Entry)) (s : List Entry) :
    headersOf fmt m size start (segs ++ [s]) =
      headersOf fmt m size start segs ++
        [{ HeaderSize := fmt.sizeofSqDataHeader, Unknown1 := fmt.Unknown1_Value,
           DataSize := (s.map size).sum, SpanIndex := start + segs.length,
           MaxFileSize := m }] := by
  induction segs generalizing start with
  | nil => simp [headersOf]
  | cons x t ih =>
    have h : start + 1 + t.length = start + (t.length + 1) := by omega
    rw [List.cons_append]
    simp only [headersOf, List.length_cons]
    rw [ih (start + 1), h, List.cons_append]

theorem headersOf_length (fmt : Format) (m : Nat) (size : Entry → Nat) (start : Nat)
    (segs : List (List Entry)) : (headersOf fmt m size start segs).length = segs.length := by
  induction segs generalizing start with
  | nil => rfl
  | cons x t ih => simp [headersOf, ih]

theorem rangesOf_concat (start : Nat) (segs : List (List Entry)) (s : List Entry) :
    rangesOf start (segs ++ [s]) =
      rangesOf start segs ++ [(start + segs.flatten.length, s.length)] := by
  induction segs generalizing start with
  | nil => simp [rangesOf]
  | cons x t ih =>
    have h : start + x.length + t.flatten.length = start + (x.length + t.flatten.length) := by
      omega
    rw [List.cons_append]
    simp only [rangesOf, List.flatten_cons, List.length_append]
    rw [ih (start + x.length), h, List.cons_append]

theorem locatedFrom_concat (size : Entry → Nat) (index offset : Nat) (s : List Entry)
    (e : Entry) :
    locatedFrom size index offset (s ++ [e]) ↔
      locatedFrom size index offset s ∧ e.Locator = ⟨index, offset + (s.map size).sum⟩ := by
  induction s generalizing offset with
  | nil => simp [locatedFrom]
  | cons x t ih =>
    have h : offset + size x + (t.map size).sum = offset + (size x + (t.map size).sum) := by
      omega
    rw [List.cons_append]
    simp only [locatedFrom, List.map_cons, List.sum_cons]
    rw [ih (offset + size x), h, and_assoc]

theorem segmentsLocated_concat (fmt : Format) (size : Entry → Nat) (index : Nat)
    (segs : List (List Entry)) (s : List Entry) :
    segmentsLocated fmt size index (segs ++ [s]) ↔
      segmentsLocated fmt size index segs ∧
        locatedFrom size (index + segs.length)
          (fmt.sizeofSqpackHeader + fmt.sizeofSqDataHeader) s := by
  induction segs generalizing index with
  | nil => simp [segmentsLocated]
  | cons x t ih =>
    have h : index + 1 + t.length = index + (t.length + 1) := by omega
    rw [List.cons_append]
    simp only [segmentsLocated, List.length_cons]
    rw [ih (index + 1), h, and_assoc]


theorem needsNewSegment_nil (fmt : Format) (size : Nat) :
    needsNewSegment fmt [] size = true := rfl

theorem needsNewSegment_concat (fmt : Format) (hd : List SqData.Header) (b : SqData.Header)
    (size : Nat) :
    needsNewSegment fmt (hd ++ [b]) size =
      decide (fmt.sizeofSqpackHeader + fmt.sizeofSqDataHeader + b.DataSize + size
        > b.MaxFileSize) := by
  simp [needsNewSegment, List.getLast?_concat]

/-- One step of a packing loop in terms of segments: the entry opens a new
segment or joins the last one. -/
theorem Packed.placeEntry_step {fmt : Format} {m : Nat} {size : Entry → Nat} {st : Assembly}
    {segs : List (List Entry)} (hP : Packed fmt m size st segs) (e : Entry)
    (hsize : ∀ (x : Entry) (l : SqIndex.LEDataLocator), size { x with Locator := l } = size x) :
    ∃ (l : SqIndex.LEDataLocator) (segs' : List (List Entry)),
      Packed fmt m size (placeEntry fmt m st e (size e)) segs' ∧
      (placeEntry fmt m st e (size e)).Entries = st.Entries ++ [{ e with Locator := l }] ∧
      (placeEntry fmt m st e (size e)).dataEntryRanges = st.dataEntryRanges ∧
      ((needsNewSegment fmt st.dataSubheaders (size e) = true ∧
          segs' = segs ++ [[{ e with Locator := l }]]) ∨
        (needsNewSegment fmt st.dataSubheaders (size e) = false ∧
          ∃ init last, segs = init ++ [last] ∧
            segs' = init ++ [last ++ [{ e with Locator := l }]])) := by
  obtain ⟨hE, hH, hL, hN⟩ := hP
  rcases List.eq_nil_or_concat segs with hnil | ⟨init, last, hcat⟩
  · subst hnil
    have hH' : st.dataSubheaders = [] := by simpa [headersOf] using hH
    refine ⟨⟨0, fmt.sizeofSqpackHeader + fmt.sizeofSqDataHeader⟩, _, ?_, ?_, ?_,
      Or.inl ⟨by rw [hH']; rfl, rfl⟩⟩
    · refine ⟨?_, ?_, ?_, ?_⟩
      · simp [placeEntry, hH', needsNewSegment, hE]
      · simp [placeEntry, hH', needsNewSegment, headersOf, updateBack, hsize]
      · simp [segmentsLocated, locatedFrom]
      · simp
    · simp [placeEntry, hH', needsNewSegment]
    · simp [placeEntry]
  · rw [List.concat_eq_append] at hcat
    subst hcat
    rw [headersOf_concat] at hH
    simp only [Nat.zero_add] at hH
    have hlen : (headersOf fmt m size 0 init).length = init.length := headersOf_length _ _ _ _ _
    cases hopen : needsNewSegment fmt st.dataSubheaders (size e) with
    | true =>
      have hopen' := hopen
      rw [hH] at hopen'
      have hplace : placeEntry fmt m st e (size e) =
          { dataSubheaders :=
              headersOf fmt m size 0 init ++
                [{ HeaderSize := fmt.sizeofSqDataHeader, Unknown1 := fmt.Unknown1_Value,
                   DataSize := (last.map size).sum, SpanIndex := init.length,
                   MaxFileSize := m },
                 { HeaderSize := fmt.sizeofSqDataHeader, Unknown1 := fmt.Unknown1_Value,
                   DataSize := size e, SpanIndex := init.length + 1, MaxFileSize := m }]
            dataEntryRanges := st.dataEntryRanges
            Entries := st.Entries ++
              [{ e with
                 Locator :=
                   ⟨init.length + 1, fmt.sizeofSqpackHeader + fmt.sizeofSqDataHeader⟩ }] } := by
        unfold placeEntry
        simp only [hH, hopen', if_true]
        rw [updateBack_concat, List.getLast?_concat]
        simp [hlen]
      refine ⟨⟨init.length + 1, fmt.sizeofSqpackHeader + fmt.sizeofSqDataHeader⟩, _, ?_, ?_, ?_,
        Or.inl ⟨rfl, rfl⟩⟩
      · rw [hplace]
        refine ⟨?_, ?_, ?_, ?_⟩
        · simp [hE]
        · rw [headersOf_concat, headersOf_concat]
          simp [hsize]
        · rw [segmentsLocated_concat]
          refine ⟨hL, ?_⟩
          simp [locatedFrom]
        · intro s hs
          rcases List.mem_append.mp hs with h | h
          · exact hN s h
          · simp at h
            subst h
            simp
      · rw [hplace]
      · rw [hplace]
    | false =>
      have hopen' := hopen
      rw [hH] at hopen'
      have hplace : placeEntry fmt m st e (size e) =
          { dataSubheaders :=
              headersOf fmt m size 0 init ++
                [{ HeaderSize := fmt.sizeofSqDataHeader, Unknown1 := fmt.Unknown1_Value,
                   DataSize := (last.map size).sum + size e, SpanIndex := init.length,
                   MaxFileSize := m }]
            dataEntryRanges := st.dataEntryRanges
            Entries := st.Entries ++
              [{ e with
                 Locator :=
                   ⟨init.length,
                    fmt.sizeofSqpackHeader + fmt.sizeofSqDataHeader + (last.map size).sum⟩ }] } := by
        unfold placeEntry
        simp only [hH, hopen', Bool.false_eq_true, if_false]
        rw [updateBack_concat, List.getLast?_concat]
        simp [hlen]
      refine ⟨⟨init.length,
          fmt.sizeofSqpackHeader + fmt.sizeofSqDataHeader + (last.map size).sum⟩, _, ?_, ?_, ?_,
        Or.inr ⟨rfl, init, last, rfl, rfl⟩⟩
      · rw [hplace]
        refine ⟨?_, ?_, ?_, ?_⟩
        · simp [hE]
        · rw [headersOf_concat]
          simp [hsize]
        · rw [segmentsLocated_concat] at hL ⊢
          refine ⟨hL.1, ?_⟩
          rw [locatedFrom_concat]
          exact ⟨hL.2, by simp⟩
        · intro s hs
          rcases List.mem_append.mp hs with h | h
          · exact hN s (List.mem_append_left _ h)
          · simp at h
            subst h
            simp
      · rw [hplace]
      · rw [hplace]


theorem WithinCap.placeEntry_within {fmt : Format} {m : Nat} {size : Entry → Nat} {st : Assembly}
    {segs segs' : List (List Entry)} (hP : Packed fmt m size st segs)
    (hW : WithinCap fmt m size segs) (e e' : Entry) (he : size e' = size e)
    (hstep : (needsNewSegment fmt st.dataSubheaders (size e) = true ∧ segs' = segs ++ [[e']]) ∨
      (needsNewSegment fmt st.dataSubheaders (size e) = false ∧
        ∃ init last, segs = init ++ [last] ∧ segs' = init ++ [last ++ [e']])) :
    WithinCap fmt m size segs' := by
  rcases hstep with ⟨_, rfl⟩ | ⟨hno, init, last, rfl, rfl⟩
  · intro s hs
    rcases List.mem_append.mp hs with h | h
    · exact hW s h
    · simp only [List.mem_singleton] at h
      subst h
      by_cases hfit : fmt.sizeofSqpackHeader + fmt.sizeofSqDataHeader + size e ≤ m
      · left
        simpa [he] using hfit
      · right
        exact ⟨e', rfl, by rw [he]; omega⟩
  · intro s hs
    rcases List.mem_append.mp hs with h | h
    · exact hW s (List.mem_append_left _ h)
    · simp only [List.mem_singleton] at h
      subst h
      left
      have hH := hP.headers
      rw [headersOf_concat] at hH
      rw [hH, needsNewSegment_concat] at hno
      simp only [gt_iff_lt, decide_eq_false_iff_not, not_lt] at hno
      simp only [List.map_append, List.map_cons, List.map_nil, List.sum_append, List.sum_cons,
        List.sum_nil, he]
      omega

theorem Packed.empty (fmt : Format) (m : Nat) (size : Entry → Nat) :
    Packed fmt m size ⟨[], [], []⟩ [] :=
  ⟨rfl, rfl, trivial, by simp⟩

/-- The loop of `FinishToFiles` in terms of segments. -/
theorem packFiles_packed (fmt : Format) (m : Nat) (l : List Entry) :
    ∀ (st : Assembly) (segs : List (List Entry)),
      Packed fmt m (fun e => e.Provider.StreamSize) st segs →
      WithinCap fmt m (fun e => e.Provider.StreamSize) segs →
      ∃ segs', Packed fmt m (fun e => e.Provider.StreamSize) (packFiles fmt m st l) segs' ∧
        WithinCap fmt m (fun e => e.Provider.StreamSize) segs' ∧
        (packFiles fmt m st l).Entries.map (fun e => (e.EntrySize, e.Provider)) =
          st.Entries.map (fun e => (e.EntrySize, e.Provider)) ++
            l.map (fun e => (e.EntrySize, e.Provider)) := by
  induction l with
  | nil =>
    intro st segs hP hW
    exact ⟨segs, hP, hW, by simp [packFiles]⟩
  | cons e rest ih =>
    intro st segs hP hW
    obtain ⟨loc, segs1, hP1, hE1, _, hstep⟩ := Packed.placeEntry_step hP e (fun _ _ => rfl)
    have hW1 := WithinCap.placeEntry_within hP hW e { e with Locator := loc } rfl hstep
    obtain ⟨segs2, hP2, hW2, hE2⟩ := ih _ segs1 hP1 hW1
    refine ⟨segs2, hP2, hW2, ?_⟩
    simp only [packFiles]
    rw [hE2, hE1]
    simp


theorem Packed.setRanges {fmt : Format} {m : Nat} {size : Entry → Nat} {st : Assembly}
    {segs : List (List Entry)} (hP : Packed fmt m size st segs) (r : List (Nat × Nat)) :
    Packed fmt m size { st with dataEntryRanges := r } segs :=
  ⟨hP.entries, hP.headers, hP.located, hP.nonempty⟩

/-- The loop of `FinishToStreams` in terms of segments. -/
theorem packStreams_packed (fmt : Format) (m : Nat) (l : List Entry) :
    ∀ (st : Assembly) (i : Nat) (segs : List (List Entry)),
      Packed fmt m (fun e => e.EntrySize) st segs →
      WithinCap fmt m (fun e => e.EntrySize) segs →
      st.dataEntryRanges = rangesOf 0 segs → st.Entries.length = i →
      ∃ segs', Packed fmt m (fun e => e.EntrySize) (packStreams fmt m st i l) segs' ∧
        WithinCap fmt m (fun e => e.EntrySize) segs' ∧
        (packStreams fmt m st i l).dataEntryRanges = rangesOf 0 segs' ∧
        (packStreams fmt m st i l).Entries.map (fun e => (e.EntrySize, e.Provider)) =
          st.Entries.map (fun e => (e.EntrySize, e.Provider)) ++
            l.map (fun e => ((resolveEntry fmt e).EntrySize, (resolveEntry fmt e).Provider)) := by
  induction l with
  | nil =>
    intro st i segs hP hW hR _
    exact ⟨segs, hP, hW, hR, by simp [packStreams]⟩
  | cons e rest ih =>
    intro st i segs hP hW hR hi
    obtain ⟨loc, segs1, hP1, hE1, _, hstep⟩ :=
      @Packed.placeEntry_step fmt m (fun e => e.EntrySize) st segs hP (resolveEntry fmt e) (fun _ _ => rfl)
    have hW1 := WithinCap.placeEntry_within hP hW (resolveEntry fmt e)
      { resolveEntry fmt e with Locator := loc } rfl hstep
    have hlenE : st.Entries.length = segs.flatten.length := by rw [hP.entries]
    have hR1 :
        updateBack (fun r : Nat × Nat => (r.1, r.2 + 1))
          (if needsNewSegment fmt st.dataSubheaders (resolveEntry fmt e).EntrySize = true then
            st.dataEntryRanges ++ [(i, 0)] else st.dataEntryRanges) = rangesOf 0 segs1 := by
      rcases hstep with ⟨hopen, rfl⟩ | ⟨hno, init, last, rfl, rfl⟩
      · simp only [hopen, if_true]
        rw [updateBack_concat, rangesOf_concat, hR, ← hi, hlenE]
        simp
      · simp only [hno, Bool.false_eq_true, if_false]
        rw [hR, rangesOf_concat, updateBack_concat, rangesOf_concat]
        simp
    obtain ⟨segs2, hP2, hW2, hR2, hE2⟩ :=
      ih { placeEntry fmt m st (resolveEntry fmt e) (resolveEntry fmt e).EntrySize with
           dataEntryRanges :=
             updateBack (fun r : Nat × Nat => (r.1, r.2 + 1))
               (if needsNewSegment fmt st.dataSubheaders (resolveEntry fmt e).EntrySize = true
                then st.dataEntryRanges ++ [(i, 0)] else st.dataEntryRanges) }
        (i + 1) segs1 (hP1.setRanges _) hW1 hR1 (by simp [hE1, hi])
    refine ⟨segs2, ?_, hW2, ?_, ?_⟩
    · simpa only [packStreams] using hP2
    · simpa only [packStreams] using hR2
    · simp only [packStreams]
      rw [hE2]
      simp [hE1]


/-- `FinishToStreams` in terms of segments. -/
theorem FinishToStreams_segments (fmt : Format) (c : Creator) :
    ∃ segs, Packed fmt c.m_maxFileSize (fun e => e.EntrySize) (FinishToStreams fmt c) segs ∧
      WithinCap fmt c.m_maxFileSize (fun e => e.EntrySize) segs ∧
      (FinishToStreams fmt c).dataEntryRanges = rangesOf 0 segs ∧
      (FinishToStreams fmt c).Entries.map (fun e => (e.EntrySize, e.Provider)) =
        (entriesForStreams c).map
          (fun e => ((resolveEntry fmt e).EntrySize, (resolveEntry fmt e).Provider)) := by
  obtain ⟨segs, h1, h2, h3, h4⟩ :=
    packStreams_packed fmt c.m_maxFileSize (entriesForStreams c) ⟨[], [], []⟩ 0 []
      (Packed.empty _ _ _) (by intro s hs; simp at hs) rfl rfl
  exact ⟨segs, h1, h2, h3, by simpa using h4⟩

/-- `FinishToFiles` in terms of segments. -/
theorem FinishToFiles_segments (fmt : Format) (c : Creator) :
    ∃ segs,
      Packed fmt c.m_maxFileSize (fun e => e.Provider.StreamSize) (FinishToFiles fmt c) segs ∧
      WithinCap fmt c.m_maxFileSize (fun e => e.Provider.StreamSize) segs ∧
      (FinishToFiles fmt c).Entries.map (fun e => (e.EntrySize, e.Provider)) =
        (entriesForFiles c).map (fun e => (e.EntrySize, e.Provider)) := by
  obtain ⟨segs, h1, h2, h3⟩ :=
    packFiles_packed fmt c.m_maxFileSize (entriesForFiles c) ⟨[], [], []⟩ []
      (Packed.empty _ _ _) (by intro s hs; simp at hs)
  exact ⟨segs, h1, h2, by simpa using h3⟩

theorem headersOf_mem {fmt : Format} {m : Nat} {size : Entry → Nat} {start : Nat}
    {segs : List (List Entry)} {h : SqData.Header}
    (hh : h ∈ headersOf fmt m size start segs) :
    ∃ s ∈ segs, h.DataSize = (s.map size).sum ∧ h.MaxFileSize = m := by
  induction segs generalizing start with
  | nil => simp [headersOf] at hh
  | cons x t ih =>
    simp only [headersOf, List.mem_cons] at hh
    rcases hh with rfl | hh
    · exact ⟨x, List.mem_cons_self _ _, rfl, rfl⟩
    · obtain ⟨s, hs, h1, h2⟩ := ih hh
      exact ⟨s, List.mem_cons_of_mem _ hs, h1, h2⟩

theorem headersOf_sum (fmt : Format) (m : Nat) (size : Entry → Nat) (start : Nat)
    (segs : List (List Entry)) :
    ((headersOf fmt m size start segs).map (fun h => h.DataSize)).sum
      = (segs.flatten.map size).sum := by
  induction segs generalizing start with
  | nil => rfl
  | cons x t ih => simp [headersOf, ih]

theorem headersOf_getElem? (fmt : Format) (m : Nat) (size : Entry → Nat) (start : Nat)
    (segs : List (List Entry)) (N : Nat) :
    (headersOf fmt m size start segs)[N]? =
      (segs[N]?).map (fun s =>
        { HeaderSize := fmt.sizeofSqDataHeader, Unknown1 := fmt.Unknown1_Value,
          DataSize := (s.map size).sum, SpanIndex := start + N, MaxFileSize := m }) := by
  induction segs generalizing start N with
  | nil => simp [headersOf]
  | cons x t ih =>
    cases N with
    | zero => simp [headersOf]
    | succ n =>
      simp only [headersOf, List.getElem?_cons_succ, ih]
      have : start + 1 + n = start + (n + 1) := by omega
      rw [this]

theorem rangesOf_getElem? (start : Nat) (segs : List (List Entry)) (N : Nat) :
    (rangesOf start segs)[N]? =
      (segs[N]?).map (fun s => (start + (segs.take N).flatten.length, s.length)) := by
  induction segs generalizing start N with
  | nil => simp [rangesOf]
  | cons x t ih =>
    cases N with
    | zero => simp [rangesOf]
    | succ n =>
      simp only [rangesOf, List.getElem?_cons_succ, ih, List.take_succ_cons, List.flatten_cons,
        List.length_append]
      have : ∀ k, start + x.length + k = start + (x.length + k) := by intro k; omega
      simp only [this]

theorem flatten_slice (segs : List (List Entry)) (N : Nat) (s : List Entry)
    (hs : segs[N]? = some s) :
    (segs.flatten.drop (segs.take N).flatten.length).take s.length = s := by
  induction segs generalizing N with
  | nil => simp at hs
  | cons x t ih =>
    cases N with
    | zero =>
      simp only [List.getElem?_cons_zero, Option.some.injEq] at hs
      subst hs
      simp
    | succ n =>
      simp only [List.getElem?_cons_succ] at hs
      simp only [List.take_succ_cons, List.flatten_cons, List.length_append]
      rw [List.drop_append]
      simpa using ih n hs

theorem locatedFrom_index {size : Entry → Nat} {index offset : Nat} {s : List Entry}
    (h : locatedFrom size index offset s) : ∀ e ∈ s, e.Locator.DatFileIndex = index := by
  induction s generalizing offset with
  | nil => simp
  | cons x t ih =>
    intro e he
    rcases List.mem_cons.mp he with rfl | he
    · rw [h.1]
    · exact ih h.2 e he

theorem segmentsLocated_lower {fmt : Format} {size : Entry → Nat} {index : Nat}
    {segs : List (List Entry)} (h : segmentsLocated fmt size index segs) :
    ∀ e ∈ segs.flatten, index ≤ e.Locator.DatFileIndex := by
  induction segs generalizing index with
  | nil => simp
  | cons x t ih =>
    intro e he
    simp only [List.flatten_cons, List.mem_append] at he
    rcases he with he | he
    · rw [locatedFrom_index h.1 e he]
    · have := ih h.2 e he
      omega

theorem segmentsLocated_filter {fmt : Format} {size : Entry → Nat} {index : Nat}
    {segs : List (List Entry)} (h : segmentsLocated fmt size index segs) (N : Nat)
    (s : List Entry) (hs : segs[N]? = some s) :
    segs.flatten.filter (fun e => e.Locator.DatFileIndex == index + N) = s := by
  induction segs generalizing index N with
  | nil => simp at hs
  | cons x t ih =>
    have hx : ∀ e ∈ x, e.Locator.DatFileIndex = index := locatedFrom_index h.1
    have ht : ∀ e ∈ t.flatten, index + 1 ≤ e.Locator.DatFileIndex := segmentsLocated_lower h.2
    simp only [List.flatten_cons, List.filter_append]
    cases N with
    | zero =>
      simp only [List.getElem?_cons_zero, Option.some.injEq] at hs
      subst hs
      have h1 : x.filter (fun e => e.Locator.DatFileIndex == index + 0) = x := by
        rw [List.filter_eq_self]
        intro e he
        simp [hx e he]
      have h2 : t.flatten.filter (fun e => e.Locator.DatFileIndex == index + 0) = [] := by
        rw [List.filter_eq_nil_iff]
        intro e he
        have := ht e he
        simp
        omega
      rw [h1, h2, List.append_nil]
    | succ n =>
      simp only [List.getElem?_cons_succ] at hs
      have h1 : x.filter (fun e => e.Locator.DatFileIndex == index + (n + 1)) = [] := by
        rw [List.filter_eq_nil_iff]
        intro e he
        simp [hx e he]
      have h2 := ih h.2 n hs
      have h3 : index + 1 + n = index + (n + 1) := by omega
      rw [h3] at h2
      rw [h1, h2, List.nil_append]


/-- `Align(v, a).Alloc` is the least multiple of `a` that is at least `v`. -/
theorem Align_alloc_least (v a : Nat) (ha : 0 < a) :
    a ∣ (Align v a).Alloc ∧ v ≤ (Align v a).Alloc ∧ (Align v a).Alloc < v + a ∧
      ∀ k, a ∣ k → v ≤ k → (Align v a).Alloc ≤ k := by
  have hle : (v + a - 1) / a * a ≤ v + a - 1 := Nat.div_mul_le_self _ _
  have hlt : v + a - 1 < (v + a - 1) / a * a + a := Nat.lt_div_mul_add ha
  refine ⟨Dvd.intro_left _ rfl, ?_, ?_, ?_⟩
  · show v ≤ (v + a - 1) / a * a
    omega
  · show (v + a - 1) / a * a < v + a
    omega
  · intro k hk hv
    show (v + a - 1) / a * a ≤ k
    obtain ⟨q, rfl⟩ := hk
    have h1 : (v + a - 1) / a < q + 1 := by
      rw [Nat.div_lt_iff_lt_mul ha]
      have : (q + 1) * a = a * q + a := by ring
      omega
    have h2 : (v + a - 1) / a ≤ q := by omega
    calc (v + a - 1) / a * a ≤ q * a := Nat.mul_le_mul_right _ h2
      _ = a * q := Nat.mul_comm _ _

/-- The resolved size of an entry when the rounding fits 32 bits. -/
theorem resolveEntry_size (fmt : Format) (e : Entry) (ha : 0 < fmt.EntryAlignment)
    (hfit : max e.EntrySize e.Provider.StreamSize + fmt.EntryAlignment ≤ 2 ^ 32) :
    (resolveEntry fmt e).EntrySize =
      (Align (max e.EntrySize e.Provider.StreamSize) fmt.EntryAlignment).Alloc := by
  have hm := le_max_right e.EntrySize e.Provider.StreamSize
  have hs : e.Provider.StreamSize % 2 ^ 32 = e.Provider.StreamSize :=
    Nat.mod_eq_of_lt (by omega)
  have hlt := (Align_alloc_least (max e.EntrySize e.Provider.StreamSize) fmt.EntryAlignment
    ha).2.2.1
  show (Align (max e.EntrySize (e.Provider.StreamSize % 2 ^ 32)) fmt.EntryAlignment).Alloc
    % 2 ^ 32 = _
  rw [hs]
  exact Nat.mod_eq_of_lt (by omega)

/-- Two lists with equal images are related elementwise. -/
theorem forall₂_of_map_eq {α β γ : Type} (f : α → γ) (g : β → γ) (P : α → β → Prop) :
    ∀ (l₁ : List α) (l₂ : List β), l₁.map f = l₂.map g →
      (∀ a ∈ l₁, ∀ b ∈ l₂, f a = g b → P a b) → List.Forall₂ P l₁ l₂
  | [], [], _, _ => List.Forall₂.nil
  | [], _ :: _, h, _ => by simp at h
  | _ :: _, [], h, _ => by simp at h
  | a :: l₁, b :: l₂, h, hP => by
    simp only [List.map_cons, List.cons.injEq] at h
    exact List.Forall₂.cons
      (hP a (List.mem_cons_self _ _) b (List.mem_cons_self _ _) h.1)
      (forall₂_of_map_eq f g P l₁ l₂ h.2
        (fun x hx y hy => hP x (List.mem_cons_of_mem _ hx) y (List.mem_cons_of_mem _ hy)))

/-- The bound of every segment when every entry fits a segment of its own. -/
theorem headers_within_cap {fmt : Format} {m : Nat} {size : Entry → Nat} {st : Assembly}
    {segs : List (List Entry)} (hP : Packed fmt m size st segs)
    (hW : WithinCap fmt m size segs)
    (hfit : ∀ e ∈ st.Entries,
      fmt.sizeofSqpackHeader + fmt.sizeofSqDataHeader + size e ≤ m) :
    ∀ h ∈ st.dataSubheaders,
      fmt.sizeofSqpackHeader + fmt.sizeofSqDataHeader + h.DataSize ≤ m ∧ h.MaxFileSize = m := by
  intro h hh
  rw [hP.headers] at hh
  obtain ⟨s, hs, h1, h2⟩ := headersOf_mem hh
  refine ⟨?_, h2⟩
  rcases hW s hs with hle | ⟨e, rfl, hgt⟩
  · rw [h1]
    exact hle
  · have he : e ∈ st.Entries := by
      rw [hP.entries]
      exact List.mem_flatten.mpr ⟨[e], hs, List.mem_singleton_self e⟩
    have := hfit e he
    omega

/-! ## The index tables: groups, records and folders -/

theorem StrictOrder.ne_of_lt {K : Type} {lt : K → K → Bool} (h : StrictOrder lt) {a b : K}
    (hab : lt a b = true) : a ≠ b := by
  intro e
  subst e
  rw [h.irrefl] at hab
  exact Bool.noConfusion hab

theorem pairLt_strictOrder : StrictOrder pairLt := by
  refine ⟨?_, ?_, ?_⟩
  · intro a
    simp [pairLt]
  · intro a b c
    simp only [pairLt, Bool.or_eq_true, decide_eq_true_eq, Bool.and_eq_true, beq_iff_eq]
    omega
  · intro a b
    simp only [pairLt, Bool.or_eq_false_iff, decide_eq_false_iff_not, Bool.and_eq_false_imp,
      beq_iff_eq]
    intro h1 h2
    have : a.1 = b.1 := by omega
    have h3 := h1.2 this
    have h4 := h2.2 this.symm
    exact Prod.ext this (by omega)

theorem natLt_strictOrder : StrictOrder (fun a b : Nat => decide (a < b)) := by
  refine ⟨?_, ?_, ?_⟩
  · intro a
    simp
  · intro a b c
    simp only [decide_eq_true_eq]
    omega
  · intro a b
    simp only [decide_eq_false_iff_not]
    omega

/-- The keys of a map after `map[key].emplace_back(entry)`. -/
theorem groupInsert_keys {K : Type} {lt : K → K → Bool} (h : StrictOrder lt) (k : K)
    (v : Entry) (m : List (K × List Entry)) (x : K) :
    x ∈ (groupInsert lt k v m).map Prod.fst ↔ x = k ∨ x ∈ m.map Prod.fst := by
  induction m with
  | nil => simp [groupInsert]
  | cons g rest ih =>
    obtain ⟨k0, g0⟩ := g
    unfold groupInsert
    split
    · simp
    · split
      · simp only [List.map_cons, List.mem_cons, ih]
        tauto
      · rename_i h1 h2
        have hk : k = k0 := h.total k k0 (by simpa using h1) (by simpa using h2)
        subst hk
        simp

/-- The map stays in key order. -/
theorem groupInsert_sorted {K : Type} {lt : K → K → Bool} (h : StrictOrder lt) (k : K)
    (v : Entry) (m : List (K × List Entry))
    (hs : (m.map Prod.fst).Pairwise (fun a b => lt a b = true)) :
    ((groupInsert lt k v m).map Prod.fst).Pairwise (fun a b => lt a b = true) := by
  induction m with
  | nil => simp [groupInsert]
  | cons g rest ih =>
    obtain ⟨k0, g0⟩ := g
    simp only [List.map_cons, List.pairwise_cons] at hs
    unfold groupInsert
    split
    · rename_i h1
      simp only [List.map_cons, List.pairwise_cons, List.mem_cons]
      refine ⟨?_, hs.1, hs.2⟩
      intro x hx
      rcases hx with rfl | hx
      · exact h1
      · exact h.trans _ _ _ h1 (hs.1 x hx)
    · split
      · rename_i h1 h2
        simp only [List.map_cons, List.pairwise_cons]
        refine ⟨?_, ih hs.2⟩
        intro x hx
        rcases (groupInsert_keys h k v rest x).mp hx with rfl | hx
        · exact h2
        · exact hs.1 x hx
      · simp only [List.map_cons, List.pairwise_cons]
        exact hs

/-- The groups of a map after `map[key].emplace_back(entry)`. -/
theorem groupInsert_mem {K : Type} {lt : K → K → Bool} (h : StrictOrder lt) (k : K)
    (v : Entry) (m : List (K × List Entry))
    (hs : (m.map Prod.fst).Pairwise (fun a b => lt a b = true)) :
    ∀ g ∈ groupInsert lt k v m,
      (g ∈ m ∧ g.1 ≠ k) ∨
        (g.1 = k ∧ ((∃ g0 ∈ m, g0.1 = k ∧ g.2 = g0.2 ++ [v]) ∨
          (k ∉ m.map Prod.fst ∧ g.2 = [v]))) := by
  induction m with
  | nil =>
    intro g hg
    simp only [groupInsert, List.mem_singleton] at hg
    subst hg
    simp
  | cons g1 rest ih =>
    obtain ⟨k0, g0⟩ := g1
    simp only [List.map_cons, List.pairwise_cons] at hs
    intro g hg
    unfold groupInsert at hg
    split at hg
    · rename_i h1
      have hall : ∀ x ∈ (k0 :: rest.map Prod.fst), x ≠ k := by
        intro x hx
        rcases List.mem_cons.mp hx with rfl | hx
        · exact (h.ne_of_lt h1).symm
        · exact (h.ne_of_lt (h.trans _ _ _ h1 (hs.1 x hx))).symm
      rcases List.mem_cons.mp hg with rfl | hg
      · right
        refine ⟨rfl, Or.inr ⟨?_, rfl⟩⟩
        intro hk
        exact hall k (by simpa using hk) rfl
      · left
        refine ⟨hg, hall g.1 ?_⟩
        have := List.mem_map_of_mem Prod.fst hg
        simpa using this
    · split at hg
      · rename_i h1 h2
        rcases List.mem_cons.mp hg with rfl | hg
        · left
          exact ⟨List.mem_cons_self _ _, h.ne_of_lt h2⟩
        · rcases ih hs.2 g hg with ⟨hm, hne⟩ | ⟨hk, hcase⟩
          · left
            exact ⟨List.mem_cons_of_mem _ hm, hne⟩
          · right
            refine ⟨hk, ?_⟩
            rcases hcase with ⟨g2, hg2, hk2, he⟩ | ⟨hnot, he⟩
            · exact Or.inl ⟨g2, List.mem_cons_of_mem _ hg2, hk2, he⟩
            · refine Or.inr ⟨?_, he⟩
              simp only [List.map_cons, List.mem_cons, not_or]
              exact ⟨(h.ne_of_lt h2).symm, hnot⟩
      · rename_i h1 h2
        have hk : k = k0 := h.total k k0 (by simpa using h1) (by simpa using h2)
        subst hk
        rcases List.mem_cons.mp hg with rfl | hg
        · right
          exact ⟨rfl, Or.inl ⟨(k, g0), List.mem_cons_self _ _, rfl, rfl⟩⟩
        · left
          refine ⟨List.mem_cons_of_mem _ hg, ?_⟩
          have := hs.1 g.1 (List.mem_map_of_mem Prod.fst hg)
          exact (h.ne_of_lt this).symm

theorem Grouped.groupInsert_step {K : Type} [DecidableEq K] {lt : K → K → Bool} (h : StrictOrder lt)
    {kvs : List (K × Entry)} {m : List (K × List Entry)} (hG : Grouped lt kvs m) (k : K)
    (v : Entry) : Grouped lt (kvs ++ [(k, v)]) (groupInsert lt k v m) := by
  refine ⟨groupInsert_sorted h k v m hG.sorted, ?_, ?_⟩
  · intro g hg
    rcases groupInsert_mem h k v m hG.sorted g hg with ⟨hm, hne⟩ | ⟨hk, hcase⟩
    · obtain ⟨h1, h2⟩ := hG.group g hm
      refine ⟨?_, h2⟩
      have hne' : ¬ k = g.1 := fun e => hne e.symm
      simp [List.filter_append, List.filter_cons, hne', h1]
    · rcases hcase with ⟨g0, hg0, hk0, he⟩ | ⟨hnot, he⟩
      · obtain ⟨h1, _⟩ := hG.group g0 hg0
        refine ⟨?_, by rw [he]; simp⟩
        rw [he, h1, hk0, hk]
        simp [List.filter_append, List.filter_cons]
      · refine ⟨?_, by rw [he]; simp⟩
        have hnil : kvs.filter (fun p => p.1 = k) = [] := by
          rw [List.filter_eq_nil_iff]
          intro p hp
          have := hG.keys p hp
          intro hpk
          simp only [decide_eq_true_eq] at hpk
          rw [hpk] at this
          exact hnot this
        rw [he, hk]
        simp [List.filter_append, List.filter_cons, hnil]
  · intro p hp
    rw [groupInsert_keys h]
    rcases List.mem_append.mp hp with hp | hp
    · exact Or.inr (hG.keys p hp)
    · simp only [List.mem_singleton] at hp
      subst hp
      exact Or.inl rfl

theorem foldl_grouped {K α : Type} [DecidableEq K] {lt : K → K → Bool} (h : StrictOrder lt)
    (kv : α → K × Entry) :
    ∀ (l done : List α) (m : List (K × List Entry)), Grouped lt (done.map kv) m →
      Grouped lt ((done ++ l).map kv)
        (l.foldl (fun m p => groupInsert lt (kv p).1 (kv p).2 m) m) := by
  intro l
  induction l with
  | nil =>
    intro done m hG
    simpa using hG
  | cons a rest ih =>
    intro done m hG
    have h1 := hG.groupInsert_step h (kv a).1 (kv a).2
    have h2 : done.map kv ++ [((kv a).1, (kv a).2)] = (done ++ [a]).map kv := by simp
    rw [h2] at h1
    have h3 := ih (done ++ [a]) _ h1
    simpa using h3

theorem zip_map_of_map_eq {K : Type} (key : EntryPathSpec → K) :
    ∀ (entries pointees : List Entry),
      entries.map (fun e => e.Provider.PathSpec) = pointees.map (fun e => e.Provider.PathSpec) →
      (List.zip entries pointees).map (fun p => (key p.1.Provider.PathSpec, p.2)) =
        pointees.map (fun e => (key e.Provider.PathSpec, e))
  | [], [], _ => rfl
  | [], _ :: _, h => by simp at h
  | _ :: _, [], h => by simp at h
  | a :: l₁, b :: l₂, h => by
    simp only [List.map_cons, List.cons.injEq] at h
    simp only [List.zip_cons_cons, List.map_cons, List.cons.injEq]
    exact ⟨by rw [h.1], zip_map_of_map_eq key l₁ l₂ h.2⟩

/-- The map that the grouping loop builds: the keys are in strict order, each
group holds exactly the entries of its key, in the order of the entry
sequence, and every entry is in the group of its key. -/
theorem hashGroups_spec {K : Type} [DecidableEq K] {lt : K → K → Bool} (h : StrictOrder lt)
    (key : EntryPathSpec → K) (entries pointees : List Entry)
    (hp : entries.map (fun e => e.Provider.PathSpec) =
      pointees.map (fun e => e.Provider.PathSpec)) :
    ((hashGroups lt key entries pointees).map Prod.fst).Pairwise (fun a b => lt a b = true) ∧
      (∀ g ∈ hashGroups lt key entries pointees,
        g.2 = pointees.filter (fun e => key e.Provider.PathSpec = g.1) ∧ g.2 ≠ []) ∧
      ∀ e ∈ pointees,
        key e.Provider.PathSpec ∈ (hashGroups lt key entries pointees).map Prod.fst := by
  have hG := foldl_grouped h (fun p : Entry × Entry => (key p.1.Provider.PathSpec, p.2))
    (List.zip entries pointees) [] [] ⟨by simp, by simp, by simp⟩
  rw [List.nil_append, zip_map_of_map_eq key entries pointees hp] at hG
  refine ⟨hG.sorted, ?_, ?_⟩
  · intro g hg
    obtain ⟨h1, h2⟩ := hG.group g hg
    refine ⟨?_, h2⟩
    rw [h1, List.filter_map, List.map_map]
    simp [Function.comp_def]
  · intro e he
    exact hG.keys (key e.Provider.PathSpec, e) (List.mem_map_of_mem _ he)

theorem filter_key_eq_singleton {K V : Type} [DecidableEq K] :
    ∀ (m : List (K × V)), (m.map Prod.fst).Nodup → ∀ g ∈ m,
      m.filter (fun x => x.1 = g.1) = [g] := by
  intro m
  induction m with
  | nil => intro _ g hg; simp at hg
  | cons a rest ih =>
    intro hnd g hg
    simp only [List.map_cons, List.nodup_cons] at hnd
    rcases List.mem_cons.mp hg with rfl | hg
    · have : rest.filter (fun x => x.1 = g.1) = [] := by
        rw [List.filter_eq_nil_iff]
        intro x hx hxk
        simp only [decide_eq_true_eq] at hxk
        exact hnd.1 (hxk ▸ List.mem_map_of_mem Prod.fst hx)
      simp [List.filter_cons, this]
    · have hne : ¬ a.1 = g.1 := by
        intro e
        exact hnd.1 (e ▸ List.mem_map_of_mem Prod.fst hg)
      simp [List.filter_cons, hne, ih hnd.2 g hg]

theorem sorted_keys_nodup {K : Type} {lt : K → K → Bool} (h : StrictOrder lt) {l : List K}
    (hs : l.Pairwise (fun a b => lt a b = true)) : l.Nodup :=
  hs.imp (fun hab => h.ne_of_lt hab)

/-- The groups with a given key: the one group of the entries of that key,
when there are such entries, and none otherwise. -/
theorem hashGroups_filter_key {K : Type} [DecidableEq K] {lt : K → K → Bool}
    (h : StrictOrder lt) (key : EntryPathSpec → K) (entries pointees : List Entry)
    (hp : entries.map (fun e => e.Provider.PathSpec) =
      pointees.map (fun e => e.Provider.PathSpec)) (k : K) :
    (hashGroups lt key entries pointees).filter (fun x => x.1 = k) =
      if pointees.filter (fun e => key e.Provider.PathSpec = k) = [] then []
      else [(k, pointees.filter (fun e => key e.Provider.PathSpec = k))] := by
  obtain ⟨hs, hg, hk⟩ := hashGroups_spec h key entries pointees hp
  by_cases hmem : k ∈ (hashGroups lt key entries pointees).map Prod.fst
  · obtain ⟨g, hgm, hgk⟩ := List.mem_map.mp hmem
    obtain ⟨h1, h2⟩ := hg g hgm
    have h3 := filter_key_eq_singleton _ (sorted_keys_nodup h hs) g hgm
    rw [hgk] at h3 h1
    rw [← h1, if_neg h2, h3]
    cases g
    simp only at hgk
    rw [hgk]
  · have hnil : pointees.filter (fun e => key e.Provider.PathSpec = k) = [] := by
      rw [List.filter_eq_nil_iff]
      intro e he hek
      simp only [decide_eq_true_eq] at hek
      exact hmem (hek ▸ hk e he)
    rw [if_pos hnil, List.filter_eq_nil_iff]
    intro x hx hxk
    simp only [decide_eq_true_eq] at hxk
    exact hmem (hxk ▸ List.mem_map_of_mem Prod.fst hx)

theorem filter_map_key {K V R : Type} [DecidableEq K] (f : K × V → R) (keyOf : R → K)
    (hf : ∀ x, keyOf (f x) = x.1) (m : List (K × V)) (k : K) :
    (m.map f).filter (fun r => keyOf r = k) = (m.filter (fun x => x.1 = k)).map f := by
  rw [List.filter_map]
  congr 1
  apply List.filter_congr
  intro x _
  simp [hf]

theorem filter_flatten_key {K V R : Type} [DecidableEq K] (f : K × V → List R) (keyOf : R → K)
    (hf : ∀ x, ∀ r ∈ f x, keyOf r = x.1) (m : List (K × V)) (k : K) :
    ((m.map f).flatten).filter (fun r => keyOf r = k) =
      ((m.filter (fun x => x.1 = k)).map f).flatten := by
  induction m with
  | nil => simp
  | cons a rest ih =>
    simp only [List.map_cons, List.flatten_cons, List.filter_append, ih]
    by_cases hk : a.1 = k
    · have : (f a).filter (fun r => keyOf r = k) = f a := by
        rw [List.filter_eq_self]
        intro r hr
        simp [hf a r hr, hk]
      simp [List.filter_cons, hk, this]
    · have : (f a).filter (fun r => keyOf r = k) = [] := by
        rw [List.filter_eq_nil_iff]
        intro r hr
        simp [hf a r hr, hk]
      simp [List.filter_cons, hk, this]

/-- The primary records with a given key. -/
theorem primaryRecords_filter {K R : Type} [DecidableEq K] {lt : K → K → Bool}
    (h : StrictOrder lt) (key : EntryPathSpec → K) (entries pointees : List Entry)
    (hp : entries.map (fun e => e.Provider.PathSpec) =
      pointees.map (fun e => e.Provider.PathSpec))
    (mk : K → SqIndex.LocatorField → R) (keyOf : R → K) (hmk : ∀ k l, keyOf (mk k l) = k)
    (k : K) :
    (primaryRecords mk (hashGroups lt key entries pointees)).filter (fun r => keyOf r = k) =
      match pointees.filter (fun e => key e.Provider.PathSpec = k) with
      | [] => []
      | [front] => [mk k (SqIndex.LocatorField.Data front.Locator)]
      | _ => [mk k SqIndex.LocatorField.Synonym] := by
  unfold primaryRecords
  rw [filter_map_key _ keyOf _ _ k, hashGroups_filter_key h key entries pointees hp k]
  · generalize pointees.filter (fun e => decide (key e.Provider.PathSpec = k)) = grp
    rcases grp with _ | ⟨a, _ | ⟨b, t⟩⟩ <;> simp
  · intro x
    split <;> exact hmk _ _

/-- The conflict records with a given key. -/
theorem conflictRecords_filter {K R : Type} [DecidableEq K] {lt : K → K → Bool}
    (h : StrictOrder lt) (key : EntryPathSpec → K) (entries pointees : List Entry)
    (hp : entries.map (fun e => e.Provider.PathSpec) =
      pointees.map (fun e => e.Provider.PathSpec))
    (mk : K → SqIndex.LocatorField → Nat → String → R) (keyOf : R → K)
    (hmk : ∀ k l i p, keyOf (mk k l i p) = k) (k : K) :
    (conflictRecords mk (hashGroups lt key entries pointees)).filter (fun r => keyOf r = k) =
      conflictRecordsOf mk (k, pointees.filter (fun e => key e.Provider.PathSpec = k)) := by
  unfold conflictRecords
  rw [filter_flatten_key _ keyOf _ _ k, hashGroups_filter_key h key entries pointees hp k]
  · generalize pointees.filter (fun e => decide (key e.Provider.PathSpec = k)) = grp
    rcases grp with _ | ⟨a, t⟩
    · simp [conflictRecordsOf]
    · simp
  · intro x r hr
    unfold conflictRecordsOf at hr
    split at hr
    · simp at hr
    · obtain ⟨ie, _, rfl⟩ := List.mem_map.mp hr
      exact hmk _ _ _ _

theorem FinishToStreams_pathSpecs (fmt : Format) (c : Creator) :
    (entriesForStreams c).map (fun e => e.Provider.PathSpec) =
      (FinishToStreams fmt c).Entries.map (fun e => e.Provider.PathSpec) := by
  obtain ⟨_, _, _, _, h⟩ := FinishToStreams_segments fmt c
  have := congrArg (List.map (fun p : Nat × EntryProvider => p.2.PathSpec)) h
  simp only [List.map_map, Function.comp_def, resolveEntry, HotSwappableEntryProvider] at this
  exact this.symm

theorem FinishToFiles_pathSpecs (fmt : Format) (c : Creator) :
    (entriesForFiles c).map (fun e => e.Provider.PathSpec) =
      (FinishToFiles fmt c).Entries.map (fun e => e.Provider.PathSpec) := by
  obtain ⟨_, _, _, h⟩ := FinishToFiles_segments fmt c
  have := congrArg (List.map (fun p : Nat × EntryProvider => p.2.PathSpec)) h
  simp only [List.map_map, Function.comp_def] at this
  exact this.symm

/-- The number of primary records is the number of distinct keys. -/
theorem primaryRecords_length {K R : Type} [DecidableEq K] {lt : K → K → Bool}
    (h : StrictOrder lt) (key : EntryPathSpec → K) (entries pointees : List Entry)
    (hp : entries.map (fun e => e.Provider.PathSpec) =
      pointees.map (fun e => e.Provider.PathSpec))
    (mk : K → SqIndex.LocatorField → R) :
    (primaryRecords mk (hashGroups lt key entries pointees)).length =
      ((pointees.map (fun e => key e.Provider.PathSpec)).dedup).length := by
  obtain ⟨hs, hg, hk⟩ := hashGroups_spec h key entries pointees hp
  have hperm : List.Perm ((hashGroups lt key entries pointees).map Prod.fst)
      ((pointees.map (fun e => key e.Provider.PathSpec)).dedup) := by
    rw [List.perm_ext_iff_of_nodup (sorted_keys_nodup h hs) (List.nodup_dedup _)]
    intro k
    rw [List.mem_dedup]
    constructor
    · intro hmem
      obtain ⟨g, hgm, hgk⟩ := List.mem_map.mp hmem
      obtain ⟨h1, h2⟩ := hg g hgm
      rw [h1] at h2
      obtain ⟨e, he⟩ := List.exists_mem_of_ne_nil _ h2
      rw [List.mem_filter] at he
      have hek : key e.Provider.PathSpec = g.1 := by simpa using he.2
      rw [← hgk, ← hek]
      exact List.mem_map_of_mem _ he.1
    · intro hmem
      obtain ⟨e, he, hek⟩ := List.mem_map.mp hmem
      rw [← hek]
      exact hk e he
  have := hperm.length_eq
  simpa [primaryRecords] using this

/-- The tables of a group of one entry, for either index, and the number of
primary records. -/
theorem indexTables_single (ifmt : IndexFormat) (entries pointees : List Entry)
    (hp : entries.map (fun e => e.Provider.PathSpec) =
      pointees.map (fun e => e.Provider.PathSpec)) :
    (∀ (k : Nat × Nat) (e : Entry),
      pointees.filter (fun e => pairKey e.Provider.PathSpec = k) = [e] →
      (indexTables ifmt entries pointees).fileEntries1.filter
          (fun r => (r.PathHash, r.NameHash) = k) =
        [⟨k.2, k.1, SqIndex.LocatorField.Data e.Locator, 0⟩] ∧
      (indexTables ifmt entries pointees).conflictEntries1.dropLast.filter
          (fun r => (r.PathHash, r.NameHash) = k) = []) ∧
    (∀ (h : Nat) (e : Entry),
      pointees.filter (fun e => e.Provider.PathSpec.FullPathHash = h) = [e] →
      (indexTables ifmt entries pointees).fileEntries2.filter (fun r => r.FullPathHash = h) =
        [⟨h, SqIndex.LocatorField.Data e.Locator⟩] ∧
      (indexTables ifmt entries pointees).conflictEntries2.dropLast.filter
          (fun r => r.FullPathHash = h) = []) ∧
    (indexTables ifmt entries pointees).fileEntries1.length =
      ((pointees.map (fun e => pairKey e.Provider.PathSpec)).dedup).length ∧
    (indexTables ifmt entries pointees).fileEntries2.length =
      ((pointees.map (fun e => e.Provider.PathSpec.FullPathHash)).dedup).length := by
  refine ⟨?_, ?_, ?_, ?_⟩
  · intro k e hg
    constructor
    · have := primaryRecords_filter pairLt_strictOrder pairKey entries pointees hp
        (fun (k : Nat × Nat) l => (⟨k.2, k.1, l, 0⟩ : SqIndex.PairHashLocator))
        (fun r => (r.PathHash, r.NameHash)) (fun _ _ => rfl) k
      simp only [indexTables, pairHashes]
      rw [this, hg]
    · have := conflictRecords_filter pairLt_strictOrder pairKey entries pointees hp
        (fun (k : Nat × Nat) l i p => (⟨k.2, k.1, l, i, p⟩ : SqIndex.PairHashWithTextLocator))
        (fun r => (r.PathHash, r.NameHash)) (fun _ _ _ _ => rfl) k
      simp only [indexTables, pairHashes, List.dropLast_concat]
      rw [this, hg]
      rfl
  · intro k e hg
    constructor
    · have := primaryRecords_filter natLt_strictOrder (fun p => p.FullPathHash) entries pointees
        hp (fun (k : Nat) l => (⟨k, l⟩ : SqIndex.FullHashLocator))
        (fun r => r.FullPathHash) (fun _ _ => rfl) k
      simp only [indexTables, fullHashes]
      rw [this, hg]
    · have := conflictRecords_filter natLt_strictOrder (fun p => p.FullPathHash) entries
        pointees hp
        (fun (k : Nat) l i p => (⟨k, 0, l, i, p⟩ : SqIndex.FullHashWithTextLocator))
        (fun r => r.FullPathHash) (fun _ _ _ _ => rfl) k
      simp only [indexTables, fullHashes, List.dropLast_concat]
      rw [this, hg]
      rfl
  · exact primaryRecords_length pairLt_strictOrder pairKey entries pointees hp
      (fun (k : Nat × Nat) l => (⟨k.2, k.1, l, 0⟩ : SqIndex.PairHashLocator))
  · exact primaryRecords_length natLt_strictOrder (fun p => p.FullPathHash) entries pointees hp
      (fun (k : Nat) l => (⟨k, l⟩ : SqIndex.FullHashLocator))

/-- The conflict index of a record of a group is a position in that group. -/
theorem conflictRecords_index_lt {K R : Type} [DecidableEq K] {lt : K → K → Bool}
    (h : StrictOrder lt) (key : EntryPathSpec → K) (entries pointees : List Entry)
    (hp : entries.map (fun e => e.Provider.PathSpec) =
      pointees.map (fun e => e.Provider.PathSpec))
    (mk : K → SqIndex.LocatorField → Nat → String → R) (idx : R → Nat)
    (hidx : ∀ k l i p, idx (mk k l i p) = i) (hn : pointees.length ≤ 2 ^ 32) :
    ∀ r ∈ conflictRecords mk (hashGroups lt key entries pointees), idx r < pointees.length := by
  obtain ⟨_, hg, _⟩ := hashGroups_spec h key entries pointees hp
  intro r hr
  unfold conflictRecords at hr
  obtain ⟨rs, hrs, hrr⟩ := List.mem_flatten.mp hr
  obtain ⟨g, hgm, rfl⟩ := List.mem_map.mp hrs
  have hlen : g.2.length ≤ pointees.length := by
    rw [(hg g hgm).1]
    exact List.length_filter_le _ _
  unfold conflictRecordsOf at hrr
  split at hrr
  · simp at hrr
  · obtain ⟨ie, hie, rfl⟩ := List.mem_map.mp hrr
    have h1 := List.fst_lt_of_mem_enum hie
    rw [hidx, Nat.mod_eq_of_lt (by omega)]
    omega

/-- The output of `std::sort` is a permutation of its input in ascending
order, for an `operator<` that is a strict weak order. -/
theorem sortRecords_perm_sorted {F : Type} (lt : F → F → Bool)
    (htotal : ∀ a b, lt b a = false ∨ lt a b = false)
    (htrans : ∀ a b c, lt b a = false → lt c b = false → lt c a = false) (l : List F) :
    List.Perm (sortRecords lt l) l ∧
      (sortRecords lt l).Pairwise (fun a b => lt b a = false) := by
  haveI : IsTotal F (fun a b => lt b a = false) := ⟨htotal⟩
  haveI : IsTrans F (fun a b => lt b a = false) := ⟨htrans⟩
  exact ⟨List.perm_insertionSort _ l, List.sorted_insertionSort _ l⟩

theorem PairHashLocator_lt_false (a b : SqIndex.PairHashLocator) :
    SqIndex.PairHashLocator.lt b a = false ↔
      (a.PathHash < b.PathHash ∨ (a.PathHash = b.PathHash ∧ a.NameHash ≤ b.NameHash)) := by
  simp only [SqIndex.PairHashLocator.lt, Bool.or_eq_false_iff, decide_eq_false_iff_not,
    Bool.and_eq_false_imp, beq_iff_eq]
  constructor
  · intro ⟨h1, h2⟩
    by_cases h : b.PathHash = a.PathHash
    · have := h2 h
      omega
    · omega
  · intro h
    refine ⟨by omega, fun e => by omega⟩

theorem sortRecords_pairHash (l : List SqIndex.PairHashLocator) :
    List.Perm (sortRecords SqIndex.PairHashLocator.lt l) l ∧
      (sortRecords SqIndex.PairHashLocator.lt l).Pairwise (fun a b =>
        a.PathHash < b.PathHash ∨ (a.PathHash = b.PathHash ∧ a.NameHash ≤ b.NameHash)) := by
  have h := sortRecords_perm_sorted SqIndex.PairHashLocator.lt
    (by
      intro a b
      rw [PairHashLocator_lt_false, PairHashLocator_lt_false]
      omega)
    (by
      intro a b c
      rw [PairHashLocator_lt_false, PairHashLocator_lt_false, PairHashLocator_lt_false]
      omega) l
  exact ⟨h.1, h.2.imp (fun hab => (PairHashLocator_lt_false _ _).mp hab)⟩

theorem folderRecords_concat {F : Type} (off size : Nat) (ph : F → Nat) :
    ∀ (G : List (List F)) (i : Nat) (run : List F),
      folderRecords off size ph i (G ++ [run]) =
        folderRecords off size ph i G ++
          [⟨(run.head?.map ph).getD 0, off + (i + G.flatten.length) * size,
            run.length * size, 0⟩] := by
  intro G
  induction G with
  | nil => intro i run; simp [folderRecords]
  | cons x t ih =>
    intro i run
    rw [List.cons_append]
    simp only [folderRecords, ih, List.flatten_cons, List.length_append, List.cons_append]
    have : i + x.length + t.flatten.length = i + (x.length + t.flatten.length) := by omega
    rw [this]

theorem head_key_of_reverse {F : Type} (ph : F → Nat) (ag : F) (g : List F)
    (h : ∀ x ∈ g, ph x = ph ag) : (((ag :: g).reverse).head?.map ph).getD 0 = ph ag := by
  rw [List.head?_reverse, List.getLast?_eq_getLast _ (List.cons_ne_nil _ _)]
  simp only [Option.map_some', Option.getD_some]
  have hm := List.getLast_mem (List.cons_ne_nil ag g)
  rcases List.mem_cons.mp hm with e | hm
  · rw [e]
  · exact h _ hm

/-- The folder scan, started after a first run has been opened, in step with
the library function that splits a list into its maximal runs. -/
theorem folderLoop_splitBy_loop {F : Type} (off size : Nat) (ph : F → Nat) :
    ∀ (l : List F) (ag : F) (g : List F) (gs : List (List F)) (i : Nat),
      i = gs.reverse.flatten.length + (g.length + 1) →
      (∀ x ∈ g, ph x = ph ag) →
      off + (i + l.length) * size < 2 ^ 32 →
      folderLoop off size ph
          (folderRecords off size ph 0 (gs.reverse ++ [(ag :: g).reverse])) i l =
        folderRecords off size ph 0
          (List.splitBy.loop (fun a b => ph a == ph b) l ag g gs) := by
  intro l
  induction l with
  | nil =>
    intro ag g gs i _ _ _
    simp [folderLoop, List.splitBy.loop]
  | cons a rest ih =>
    intro ag g gs i hi hg hM
    have hkey := head_key_of_reverse ph ag g hg
    have hlen : ((ag :: g).reverse).length = g.length + 1 := by simp
    have hb1 : i * size ≤ (i + (a :: rest).length) * size :=
      Nat.mul_le_mul_right size (Nat.le_add_right _ _)
    have hb2 : size ≤ (i + (a :: rest).length) * size :=
      Nat.le_mul_of_pos_left size (by simp)
    have hb3 : (g.length + 1 + 1) * size ≤ (i + (a :: rest).length) * size :=
      Nat.mul_le_mul_right size (by simp only [List.length_cons]; omega)
    have e1 : i + 1 + rest.length = i + (a :: rest).length := by
      simp only [List.length_cons]
      omega
    have hM1 : off + (i + 1 + rest.length) * size < 2 ^ 32 := by
      rw [e1]
      exact hM
    have hflat : ((ag :: g).reverse :: gs).reverse.flatten.length =
        gs.reverse.flatten.length + (g.length + 1) := by
      rw [List.reverse_cons, List.flatten_append, List.length_append]
      simp
    rw [folderRecords_concat]
    unfold folderLoop
    simp only [List.getLast?_concat, hkey]
    cases hR : (ph ag == ph a) with
    | true =>
      have hRe : ph ag = ph a := by simpa using hR
      have hne : (ph ag != ph a) = false := by simp [hRe]
      simp only [hne, Bool.false_eq_true, if_false, updateBack_concat, hlen]
      have hsz : ((g.length + 1) * size + size) % 2 ^ 32 = (g.length + 1 + 1) * size := by
        have : (g.length + 1) * size + size = (g.length + 1 + 1) * size := by ring
        rw [this]
        exact Nat.mod_eq_of_lt (by omega)
      rw [hsz]
      have hstep : List.splitBy.loop (fun a b => ph a == ph b) (a :: rest) ag g gs =
          List.splitBy.loop (fun a b => ph a == ph b) rest a (ag :: g) gs := by
        simp [List.splitBy.loop, hR]
      rw [hstep, ← ih a (ag :: g) gs (i + 1) (by simp only [List.length_cons]; omega)
        (by
          intro x hx
          rcases List.mem_cons.mp hx with e | hx
          · rw [e, hRe]
          · rw [hg x hx, hRe])
        hM1]
      rw [folderRecords_concat]
      have hkey2 := head_key_of_reverse ph a (ag :: g) (by
          intro x hx
          rcases List.mem_cons.mp hx with e | hx
          · rw [e, hRe]
          · rw [hg x hx, hRe])
      rw [hkey2, hRe]
      simp
    | false =>
      have hne : (ph ag != ph a) = true := by simp [bne, hR]
      simp only [hne, if_true]
      have ho : (off + i * size) % 2 ^ 32 = off + i * size := Nat.mod_eq_of_lt (by omega)
      have hs : size % 2 ^ 32 = size := Nat.mod_eq_of_lt (by omega)
      rw [ho, hs]
      have hstep : List.splitBy.loop (fun a b => ph a == ph b) (a :: rest) ag g gs =
          List.splitBy.loop (fun a b => ph a == ph b) rest a [] ((ag :: g).reverse :: gs) := by
        simp [List.splitBy.loop, hR]
      rw [hstep, ← ih a [] ((ag :: g).reverse :: gs) (i + 1)
        (by rw [hflat, List.length_nil]; omega) (by simp) hM1]
      have hG : ((ag :: g).reverse :: gs).reverse = gs.reverse ++ [(ag :: g).reverse] := by simp
      rw [hG, folderRecords_concat (G := gs.reverse ++ [(ag :: g).reverse]),
        folderRecords_concat]
      have hi2 : 0 + (gs.reverse ++ [(ag :: g).reverse]).flatten.length = i := by
        rw [← hG, hflat]
        omega
      rw [hi2, hkey]
      simp

/-- The folder scan of an empty folder segment gives the folder records of
the maximal runs of equal path hash, when the primary segment ends below
`2^32`. -/
theorem folderLoop_eq_folderRecords {F : Type} (off size : Nat) (ph : F → Nat) (l : List F)
    (hM : off + l.length * size < 2 ^ 32) :
    folderLoop off size ph [] 0 l =
      folderRecords off size ph 0 (l.splitBy (fun a b => ph a == ph b)) := by
  cases l with
  | nil => simp [folderLoop, folderRecords]
  | cons a rest =>
    have hb : size ≤ (a :: rest).length * size := Nat.le_mul_of_pos_left size (by simp)
    have h1 := folderLoop_splitBy_loop off size ph rest a [] [] 1 (by simp) (by simp)
      (by
        have : 1 + rest.length = (a :: rest).length := by simp only [List.length_cons]; omega
        rw [this]
        exact hM)
    unfold folderLoop
    simp only [List.getLast?_nil, if_true, List.nil_append, Nat.zero_mul, Nat.add_zero,
      Nat.zero_add]
    have ho : off % 2 ^ 32 = off := Nat.mod_eq_of_lt (by omega)
    have hs : size % 2 ^ 32 = size := Nat.mod_eq_of_lt (by omega)
    rw [ho, hs]
    have h2 : folderRecords off size ph 0 ([].reverse ++ [[a].reverse]) =
        [⟨ph a, off, size, 0⟩] := by
      simp [folderRecords]
    rw [h2] at h1
    rw [h1]
    rfl

theorem folderRecords_size_sum {F : Type} (off size : Nat) (ph : F → Nat) :
    ∀ (runs : List (List F)) (i : Nat),
      ((folderRecords off size ph i runs).map (fun r => r.PairHashLocatorSize)).sum =
        runs.flatten.length * size := by
  intro runs
  induction runs with
  | nil => intro i; simp [folderRecords]
  | cons x t ih =>
    intro i
    simp only [folderRecords, List.map_cons, List.sum_cons, ih, List.flatten_cons,
      List.length_append]
    ring

theorem folderRecords_pathHash {F : Type} (off size : Nat) (ph : F → Nat) :
    ∀ (runs : List (List F)) (i : Nat),
      (folderRecords off size ph i runs).map (fun r => r.PathHash) =
        runs.map (fun run => (run.head?.map ph).getD 0) := by
  intro runs
  induction runs with
  | nil => intro i; simp [folderRecords]
  | cons x t ih =>
    intro i
    simp only [folderRecords, List.map_cons, ih]

theorem chain_const {F : Type} (ph : F → Nat) :
    ∀ (run : List F), run.Chain' (fun x y => (ph x == ph y) = true) →
      ∀ x ∈ run, ph x = (run.head?.map ph).getD 0 := by
  intro run
  induction run with
  | nil => intro _ x hx; simp at hx
  | cons a t ih =>
    intro hc x hx
    simp only [List.head?_cons, Option.map_some', Option.getD_some]
    rcases List.mem_cons.mp hx with e | hx
    · rw [e]
    · cases t with
      | nil => simp at hx
      | cons b t2 =>
        rw [List.chain'_cons] at hc
        have h1 := ih hc.2 x hx
        simp only [List.head?_cons, Option.map_some', Option.getD_some] at h1
        have h2 : ph a = ph b := by simpa using hc.1
        rw [h1, h2]

/-- The keys of the runs of a list that is in order of its keys increase
strictly. -/
theorem run_keys_strict {F : Type} (ph : F → Nat) :
    ∀ (runs : List (List F)), (∀ run ∈ runs, run ≠ []) →
      (∀ run ∈ runs, ∀ x ∈ run, ph x = (run.head?.map ph).getD 0) →
      runs.flatten.Pairwise (fun a b => ph a ≤ ph b) →
      runs.Chain' (fun r1 r2 => (r1.head?.map ph).getD 0 ≠ (r2.head?.map ph).getD 0) →
      (runs.map (fun run => (run.head?.map ph).getD 0)).Pairwise (fun a b => a < b) := by
  intro runs
  induction runs with
  | nil => intro _ _ _ _; simp
  | cons r rs ih =>
    intro hne hconst hsorted hchain
    rw [List.flatten_cons, List.pairwise_append] at hsorted
    have ihrs := ih (fun run h => hne run (List.mem_cons_of_mem _ h))
      (fun run h => hconst run (List.mem_cons_of_mem _ h)) hsorted.2.1 hchain.tail
    rw [List.map_cons, List.pairwise_cons]
    refine ⟨?_, ihrs⟩
    cases rs with
    | nil => intro k hk; simp at hk
    | cons r1 rs2 =>
      rw [List.chain'_cons] at hchain
      obtain ⟨x, hx⟩ := List.exists_mem_of_ne_nil r (hne r (List.mem_cons_self _ _))
      obtain ⟨y, hy⟩ := List.exists_mem_of_ne_nil r1
        (hne r1 (List.mem_cons_of_mem _ (List.mem_cons_self _ _)))
      have hle := hsorted.2.2 x hx y
        (List.mem_flatten.mpr ⟨r1, List.mem_cons_self _ _, hy⟩)
      rw [hconst r (List.mem_cons_self _ _) x hx,
        hconst r1 (List.mem_cons_of_mem _ (List.mem_cons_self _ _)) y hy] at hle
      have hlt : (r.head?.map ph).getD 0 < (r1.head?.map ph).getD 0 :=
        lt_of_le_of_ne hle hchain.1
      rw [List.map_cons, List.pairwise_cons] at ihrs
      intro k hk
      rcases List.mem_cons.mp hk with e | hk
      · rw [e]
        exact hlt
      · exact lt_trans hlt (ihrs.1 k hk)

/-- The runs that the library function forms: none is empty, all records of
a run have the path hash of its first record, and consecutive runs have
different path hashes. -/
theorem splitBy_runs {F : Type} (ph : F → Nat) (l : List F) :
    (l.splitBy (fun a b => ph a == ph b)).flatten = l ∧
      (∀ run ∈ l.splitBy (fun a b => ph a == ph b), run ≠ []) ∧
      (∀ run ∈ l.splitBy (fun a b => ph a == ph b),
        ∀ x ∈ run, ph x = (run.head?.map ph).getD 0) ∧
      (l.splitBy (fun a b => ph a == ph b)).Chain'
        (fun r1 r2 => (r1.head?.map ph).getD 0 ≠ (r2.head?.map ph).getD 0) := by
  have hconst : ∀ run ∈ l.splitBy (fun a b => ph a == ph b),
      ∀ x ∈ run, ph x = (run.head?.map ph).getD 0 :=
    fun run hrun => chain_const ph run (List.chain'_of_mem_splitBy hrun)
  refine ⟨List.flatten_splitBy _ l, fun run h => List.ne_nil_of_mem_splitBy _ h, hconst, ?_⟩
  have hc := List.Chain'.iff_mem.mp (List.chain'_getLast_head_splitBy (fun a b => ph a == ph b) l)
  refine hc.imp ?_
  intro r1 r2 ⟨h1, _, ha, hb, hR⟩
  have e1 := hconst r1 h1 _ (List.getLast_mem ha)
  have e2 : (r2.head?.map ph).getD 0 = ph (r2.head hb) := by
    rw [List.head?_eq_head hb]
    rfl
  rw [e2, ← e1]
  simpa using hR

/-! ## `AddEntryFromFile`: the case of the extension -/

theorem lower_sameUpToAsciiCase (a b : Nat) (h : sameUpToAsciiCase a b) :
    AddEntryFromFile.lower a = AddEntryFromFile.lower b := by
  unfold AddEntryFromFile.lower
  rcases h with h | ⟨h1, h2, h3⟩ | ⟨h1, h2, h3⟩
  · rw [h]
  · subst h3
    rw [if_pos ⟨h1, h2⟩, if_neg (by omega)]
  · subst h3
    rw [if_neg (by omega), if_pos ⟨h1, h2⟩]

theorem map_lower_sameUpToAsciiCase :
    ∀ (x y : List Nat), List.Forall₂ sameUpToAsciiCase x y →
      x.map AddEntryFromFile.lower = y.map AddEntryFromFile.lower
  | _, _, List.Forall₂.nil => rfl
  | _, _, List.Forall₂.cons h t => by
    simp only [List.map_cons]
    rw [lower_sameUpToAsciiCase _ _ h, map_lower_sameUpToAsciiCase _ _ t]

/-! ## Reads through a view -/

theorem ReadStream_all (p : EntryProvider) : p.ReadStream 0 p.Data.length = some p.Data := by
  simp [EntryProvider.ReadStream]

/-- The buffer that the cache hands out for an entry of the view holds the
content of the entry, and the cache stays valid. -/
theorem getBuffer_spec (view : Nat) (all : List Entry) (k : Nat) (e : Entry)
    (cache : Option SqpackViewEntryCache) (hk : all[k]? = some e)
    (hc : e.Provider.Data.length = e.EntrySize) (hv : CacheValid view all cache) :
    ∃ cache' buf, DataViewStream.getBuffer view k e cache = some (cache', buf) ∧
      CacheValid view all cache' ∧ (buf = none ∨ buf = some e.Provider.Data) ∧
      (cache' = cache ∨ ∃ b, cache' = some ⟨some b⟩ ∧ b.m_view = view) := by
  have hset : ∃ cache' buf,
      (SqpackViewEntryCache.SetEntry view k e).map (fun r => (some r.1, r.2)) =
        some (cache', buf) ∧
      CacheValid view all cache' ∧ (buf = none ∨ buf = some e.Provider.Data) ∧
      (cache' = cache ∨ ∃ b, cache' = some ⟨some b⟩ ∧ b.m_view = view) := by
    refine ⟨some ⟨some ⟨view, k, e.Provider.Data⟩⟩, some e.Provider.Data, ?_, ?_, Or.inr rfl,
      Or.inr ⟨_, rfl, rfl⟩⟩
    · simp [SqpackViewEntryCache.SetEntry, ← hc, ReadStream_all]
    · intro ch b h1 h2 _
      simp only [Option.some.injEq] at h1
      subst h1
      simp only [Option.some.injEq] at h2
      subst h2
      exact ⟨e, hk, rfl⟩
  cases cache with
  | none =>
    refine ⟨none, none, rfl, ?_, Or.inl rfl, Or.inl rfl⟩
    intro ch b h1
    simp at h1
  | some ch =>
    simp only [DataViewStream.getBuffer, SqpackViewEntryCache.GetBuffer]
    cases hb : ch.m_lastActiveEntry with
    | none =>
      simp only
      split
      · exact ⟨some ch, none, rfl, hv, Or.inl rfl, Or.inl rfl⟩
      · exact hset
    | some b =>
      simp only
      split
      · rename_i hhit
        obtain ⟨e', he', hbuf⟩ := hv ch b rfl hb hhit.1
        rw [hhit.2, hk] at he'
        simp only [Option.some.injEq] at he'
        subst he'
        exact ⟨some ch, some b.Buffer, rfl, hv, Or.inr (by rw [hbuf]), Or.inl rfl⟩
      · split
        · exact ⟨some ch, none, rfl, hv, Or.inl rfl, Or.inl rfl⟩
        · exact hset

theorem copyOrRead_spec (buf : Option (List Nat)) (e : Entry) (rel available : Nat)
    (hbuf : buf = none ∨ buf = some e.Provider.Data)
    (hle : rel + available ≤ e.Provider.Data.length) :
    DataViewStream.copyOrRead buf e rel available =
      some ((e.Provider.Data.drop rel).take available) := by
  rcases hbuf with rfl | rfl
  · simp [DataViewStream.copyOrRead, EntryProvider.ReadStream, hle]
  · rfl

/-- The loop of `ReadStreamPartial` over the entries from a position on:
when the bytes asked for lie within those entries, the loop stores exactly
them and leaves nothing to fill. -/
theorem readEntries_spec (view : Nat) (all : List Entry)
    (hcontent : ∀ e ∈ all, e.Provider.Data.length = e.EntrySize) :
    ∀ (es pre : List Entry) (rel : Nat) (st : ReadState), all = pre ++ es →
      CacheValid view all st.cache → 0 < st.out →
      rel + st.out ≤ (es.map (fun e => e.EntrySize)).sum →
      ∃ st', DataViewStream.readEntries view pre.length es rel st = some st' ∧
        st'.out = 0 ∧
        st'.written =
          st.written ++ (((es.map (fun e => e.Provider.Data)).flatten.drop rel).take st.out) ∧
        (∃ i, st'.m_lastAccessedEntryIndex = some i ∧ i < all.length) ∧
        CacheValid view all st'.cache ∧
        (st'.cache = st.cache ∨ ∃ b, st'.cache = some ⟨some b⟩ ∧ b.m_view = view) := by
  intro es
  induction es with
  | nil =>
    intro pre rel st _ _ hout hsum
    simp at hsum
    omega
  | cons e rest ih =>
    intro pre rel st hall hv hout hsum
    have hk : all[pre.length]? = some e := by
      rw [hall, List.getElem?_append_right (le_refl _)]
      simp
    have hmem : e ∈ all := by
      rw [hall]
      simp
    have hc := hcontent e hmem
    obtain ⟨cache', buf, hget, hv', hbuf, hstep⟩ :=
      getBuffer_spec view all pre.length e st.cache hk hc hv
    have hall' : all = (pre ++ [e]) ++ rest := by
      rw [hall]
      simp
    have hlen' : (pre ++ [e]).length = pre.length + 1 := by simp
    simp only [List.map_cons, List.sum_cons] at hsum
    simp only [List.map_cons, List.flatten_cons]
    unfold DataViewStream.readEntries
    rw [hget]
    simp only
    by_cases hrel : rel < e.EntrySize
    · rw [if_pos hrel]
      have hav : rel + min st.out (e.EntrySize - rel) ≤ e.Provider.Data.length := by
        rw [hc]
        omega
      rw [copyOrRead_spec buf e rel _ hbuf hav]
      simp only
      by_cases hdone : st.out - min st.out (e.EntrySize - rel) = 0
      · rw [if_pos hdone]
        have hmin : min st.out (e.EntrySize - rel) = st.out := by omega
        refine ⟨_, rfl, rfl, ?_, ⟨pre.length, rfl, ?_⟩, hv', hstep⟩
        · simp only [hmin]
          congr 1
          rw [List.drop_append_of_le_length (by omega),
            List.take_append_of_le_length (by rw [List.length_drop]; omega)]
        · rw [hall]
          simp
      · rw [if_neg hdone]
        have hmin : min st.out (e.EntrySize - rel) = e.EntrySize - rel := by omega
        obtain ⟨st', h1, h2, h3, h4, h5, h6⟩ := ih (pre ++ [e]) 0
          { out := st.out - min st.out (e.EntrySize - rel),
            written := st.written ++ (e.Provider.Data.drop rel).take
              (min st.out (e.EntrySize - rel)),
            m_lastAccessedEntryIndex := some pre.length, cache := cache' }
          hall' hv' (by simp only; omega) (by simp only; omega)
        rw [hlen'] at h1
        have h6' : st'.cache = st.cache ∨ ∃ b, st'.cache = some ⟨some b⟩ ∧ b.m_view = view := by
          rcases h6 with h6 | h6
          · simp only at h6
            rw [h6]
            exact hstep
          · exact Or.inr h6
        refine ⟨st', h1, h2, ?_, h4, h5, h6'⟩
        rw [h3]
        simp only [hmin, List.drop_zero, List.append_assoc]
        congr 1
        rw [List.drop_append_of_le_length (by omega), List.take_append_eq_append_take,
          List.length_drop, hc]
        congr 1
        rw [List.take_of_length_le (by rw [List.length_drop]; omega)]
        rw [List.take_of_length_le (by rw [List.length_drop]; omega)]
    · rw [if_neg hrel]
      obtain ⟨st', h1, h2, h3, h4, h5, h6⟩ := ih (pre ++ [e]) (rel - e.EntrySize)
        { st with m_lastAccessedEntryIndex := some pre.length, cache := cache' }
        hall' hv' hout (by simp only; omega)
      rw [hlen'] at h1
      have h6' : st'.cache = st.cache ∨ ∃ b, st'.cache = some ⟨some b⟩ ∧ b.m_view = view := by
        rcases h6 with h6 | h6
        · simp only at h6
          rw [h6]
          exact hstep
        · exact Or.inr h6
      refine ⟨st', h1, h2, ?_, h4, h5, h6'⟩
      rw [h3]
      simp only
      congr 2
      have hd : e.Provider.Data.drop rel = [] := List.drop_of_length_le (by omega)
      rw [List.drop_append_eq_append_drop, hd, hc, List.nil_append]

theorem lowerBound_le (abs : Nat) (l : List Entry) :
    DataViewStream.lowerBound abs l ≤ l.length := by
  induction l with
  | nil => simp [DataViewStream.lowerBound]
  | cons a t ih =>
    unfold DataViewStream.lowerBound
    split
    · simp only [List.length_cons]
      omega
    · omega

theorem lowerBound_lt (abs : Nat) (l : List Entry) :
    ∀ (j : Nat) (e : Entry), j < DataViewStream.lowerBound abs l → l[j]? = some e →
      e.Locator.DatFileOffset < abs := by
  induction l with
  | nil =>
    intro j e hj
    simp [DataViewStream.lowerBound] at hj
  | cons a t ih =>
    intro j e hj he
    unfold DataViewStream.lowerBound at hj
    split at hj
    · rename_i ha
      cases j with
      | zero =>
        simp only [List.getElem?_cons_zero, Option.some.injEq] at he
        rw [← he]
        exact ha
      | succ j => exact ih j e (by omega) (by simpa using he)
    · omega

theorem flatten_drop_take {α : Type} (L : List (List α)) (k : Nat) :
    L.flatten.drop (((L.take k).map List.length).sum) = (L.drop k).flatten := by
  induction L generalizing k with
  | nil => simp
  | cons a t ih =>
    cases k with
    | zero => simp
    | succ k =>
      simp only [List.take_succ_cons, List.map_cons, List.sum_cons, List.flatten_cons,
        List.drop_succ_cons]
      rw [List.drop_append_eq_append_drop, List.drop_of_length_le (by omega), List.nil_append]
      have : a.length + ((t.take k).map List.length).sum - a.length =
          ((t.take k).map List.length).sum := by omega
      rw [this, ih]

theorem map_data_take (es : List Entry)
    (h : ∀ e ∈ es, e.Provider.Data.length = e.EntrySize) :
    es.map (fun e => e.Provider.Data.take e.EntrySize) = es.map (fun e => e.Provider.Data) := by
  apply List.map_congr_left
  intro e he
  exact List.take_of_length_le (by rw [h e he])

theorem map_data_length (es : List Entry)
    (h : ∀ e ∈ es, e.Provider.Data.length = e.EntrySize) :
    (es.map (fun e => e.Provider.Data)).map List.length = es.map (fun e => e.EntrySize) := by
  rw [List.map_map]
  apply List.map_congr_left
  intro e he
  exact h e he

/-- The entry at which the loop of `ReadStreamPartial` starts lies in the
slice and does not begin behind the offset asked for. -/
theorem start_entry_spec (v : DataViewStream) (hw : v.WellFormed) (abs start : Nat)
    (first : Entry) (hfirst : v.m_entries[start]? = some first)
    (habs : v.m_header.length ≤ abs) :
    ∃ e, v.m_entries[
        if first.Locator.DatFileOffset > abs ∨
            abs ≥ first.Locator.DatFileOffset + first.EntrySize then
          if DataViewStream.lowerBound abs v.m_entries ≠ 0 ∧
              (DataViewStream.lowerBound abs v.m_entries = v.m_entries.length ∨
                ∃ e, v.m_entries[DataViewStream.lowerBound abs v.m_entries]? = some e ∧
                  e.Locator.DatFileOffset > abs)
          then DataViewStream.lowerBound abs v.m_entries - 1
          else DataViewStream.lowerBound abs v.m_entries
        else start]? = some e ∧ e.Locator.DatFileOffset ≤ abs := by
  have hle := lowerBound_le abs v.m_entries
  have hpos : 0 < v.m_entries.length := List.length_pos.mpr hw.nonempty
  split
  · split
    · rename_i hcond
      have hlt : DataViewStream.lowerBound abs v.m_entries - 1 < v.m_entries.length := by omega
      refine ⟨v.m_entries[DataViewStream.lowerBound abs v.m_entries - 1],
        List.getElem?_eq_getElem hlt, ?_⟩
      have := lowerBound_lt abs v.m_entries (DataViewStream.lowerBound abs v.m_entries - 1) _
        (by omega) (List.getElem?_eq_getElem hlt)
      omega
    · rename_i hcond
      rw [not_and_or] at hcond
      rcases hcond with h0 | hrest
      · have h0' : DataViewStream.lowerBound abs v.m_entries = 0 := by
          by_contra hne
          exact h0 hne
        rw [h0']
        refine ⟨v.m_entries[0], List.getElem?_eq_getElem hpos, ?_⟩
        have := hw.located 0 _ (List.getElem?_eq_getElem hpos)
        simp only [List.take_zero, List.map_nil, List.sum_nil, Nat.add_zero] at this
        omega
      · rw [not_or] at hrest
        have hlt : DataViewStream.lowerBound abs v.m_entries < v.m_entries.length := by
          have := hrest.1
          omega
        refine ⟨v.m_entries[DataViewStream.lowerBound abs v.m_entries],
          List.getElem?_eq_getElem hlt, ?_⟩
        by_contra hgt
        exact hrest.2 ⟨_, List.getElem?_eq_getElem hlt, by omega⟩
  · rename_i hcov
    refine ⟨first, hfirst, ?_⟩
    rw [not_or] at hcov
    omega

/-- The part of `ReadStreamPartial` that reads from the entries fills what is
left of the request with the content of the entries from `relativeOffset`
on. -/
theorem readFromEntries_spec (v : DataViewStream) (hw : v.WellFormed)
    (cache : Option SqpackViewEntryCache) (hv : CacheValid v.id v.m_entries cache)
    (copied : List Nat) (out rel length : Nat) (hout : 0 < out)
    (hsum : rel + out ≤ v.SubHeader.DataSize) :
    ∃ r, v.readFromEntries cache copied out rel length = some r ∧
      r.returned = length ∧
      r.written =
        copied ++ (((v.m_entries.map (fun e => e.Provider.Data)).flatten.drop rel).take out) ∧
      (∀ i, r.m_lastAccessedEntryIndex = some i → i < v.m_entries.length) ∧
      CacheValid v.id v.m_entries r.cache ∧
      (r.cache = cache ∨ ∃ b, r.cache = some ⟨some b⟩ ∧ b.m_view = v.id) := by
  have hpos : 0 < v.m_entries.length := List.length_pos.mpr hw.nonempty
  have hstart : v.m_lastAccessedEntryIndex.getD 0 < v.m_entries.length := by
    cases hh : v.m_lastAccessedEntryIndex with
    | none => simpa using hpos
    | some i => simpa using hw.hint i hh
  obtain ⟨e, he, hle⟩ := start_entry_spec v hw (rel + v.m_header.length)
    (v.m_lastAccessedEntryIndex.getD 0) _ (List.getElem?_eq_getElem hstart) (by omega)
  unfold DataViewStream.readFromEntries
  simp only [List.getElem?_eq_getElem hstart]
  generalize hit : (if (v.m_entries[v.m_lastAccessedEntryIndex.getD 0]).Locator.DatFileOffset >
        rel + v.m_header.length ∨
      rel + v.m_header.length ≥
        (v.m_entries[v.m_lastAccessedEntryIndex.getD 0]).Locator.DatFileOffset +
          (v.m_entries[v.m_lastAccessedEntryIndex.getD 0]).EntrySize then
      if DataViewStream.lowerBound (rel + v.m_header.length) v.m_entries ≠ 0 ∧
          (DataViewStream.lowerBound (rel + v.m_header.length) v.m_entries = v.m_entries.length ∨
            ∃ e, v.m_entries[DataViewStream.lowerBound (rel + v.m_header.length) v.m_entries]? =
                some e ∧ e.Locator.DatFileOffset > rel + v.m_header.length)
      then DataViewStream.lowerBound (rel + v.m_header.length) v.m_entries - 1
      else DataViewStream.lowerBound (rel + v.m_header.length) v.m_entries
    else v.m_lastAccessedEntryIndex.getD 0) = it at he ⊢
  simp only [he]
  have hloc := hw.located it e he
  rw [if_neg (by omega)]
  have hsplit : v.m_entries = v.m_entries.take it ++ v.m_entries.drop it :=
    (List.take_append_drop it v.m_entries).symm
  have hitlt : it < v.m_entries.length := by
    by_contra hge
    rw [List.getElem?_eq_none (by omega)] at he
    simp at he
  have htake : (v.m_entries.take it).length = it := by
    rw [List.length_take]
    omega
  have hsizes : (v.m_entries.map (fun e => e.EntrySize)).sum =
      ((v.m_entries.take it).map (fun e => e.EntrySize)).sum +
        ((v.m_entries.drop it).map (fun e => e.EntrySize)).sum := by
    conv_lhs => rw [hsplit]
    rw [List.map_append, List.sum_append]
  have hsz := hw.size
  obtain ⟨st', h1, h2, h3, h4, h5, h6⟩ := readEntries_spec v.id v.m_entries hw.content
    (v.m_entries.drop it) (v.m_entries.take it)
    (rel - (e.Locator.DatFileOffset - v.m_header.length))
    ⟨out, copied, v.m_lastAccessedEntryIndex, cache⟩ hsplit hv hout (by simp only; omega)
  rw [htake] at h1
  rw [h1]
  refine ⟨_, rfl, ?_, ?_, ?_, h5, h6⟩
  · simp only [h2]
    omega
  · simp only [h3]
    congr 2
    have hd := flatten_drop_take (v.m_entries.map (fun e => e.Provider.Data)) it
    rw [← List.map_take, map_data_length _ (fun e he => hw.content e
      (List.mem_of_mem_take he))] at hd
    rw [← List.map_drop] at hd
    rw [← hd, List.drop_drop]
    congr 1
    omega
  · intro i hi
    obtain ⟨j, hj, hjlt⟩ := h4
    simp only at hi
    rw [hj] at hi
    simp only [Option.some.injEq] at hi
    omega

/-- A read within the size of a well-formed view: it returns, the value
returned is the length asked for, the bytes stored are the slice of the flat
sequence, and the state left is again well formed. -/
theorem ReadStreamPartial_spec (v : DataViewStream) (hw : v.WellFormed)
    (cache : Option SqpackViewEntryCache) (hv : CacheValid v.id v.m_entries cache)
    (offset length : Nat) (hin : offset + length ≤ v.StreamSize) :
    ∃ r, v.ReadStreamPartial cache offset length = some r ∧
      r.returned = length ∧
      r.written = (v.flat.drop offset).take length ∧
      (∀ i, r.m_lastAccessedEntryIndex = some i → i < v.m_entries.length) ∧
      CacheValid v.id v.m_entries r.cache ∧
      (r.cache = cache ∨ ∃ b, r.cache = some ⟨some b⟩ ∧ b.m_view = v.id) := by
  have hflat : v.flat = v.m_header ++ (v.m_entries.map (fun e => e.Provider.Data)).flatten := by
    rw [DataViewStream.flat, map_data_take _ hw.content]
  unfold DataViewStream.StreamSize at hin
  unfold DataViewStream.ReadStreamPartial
  by_cases hl : length = 0
  · rw [if_pos hl]
    exact ⟨_, rfl, hl.symm, by simp [hl], hw.hint, hv, Or.inl rfl⟩
  · rw [if_neg hl]
    by_cases hh : offset < v.m_header.length
    · rw [if_pos hh]
      simp only [List.length_drop]
      by_cases hdone : length - min length (v.m_header.length - offset) = 0
      · rw [if_pos hdone]
        have hmin : min length (v.m_header.length - offset) = length := by omega
        refine ⟨_, rfl, rfl, ?_, hw.hint, hv, Or.inl rfl⟩
        simp only [hmin, hflat]
        rw [List.drop_append_of_le_length (by omega),
          List.take_append_of_le_length (by rw [List.length_drop]; omega)]
      · rw [if_neg hdone]
        have hmin : min length (v.m_header.length - offset) = v.m_header.length - offset := by
          omega
        obtain ⟨r, h1, h2, h3, h4, h5⟩ := readFromEntries_spec v hw cache hv
          ((v.m_header.drop offset).take (min length (v.m_header.length - offset)))
          (length - min length (v.m_header.length - offset)) 0 length (by omega) (by omega)
        refine ⟨r, h1, h2, ?_, h4, h5⟩
        rw [h3, hflat, hmin, List.drop_zero, List.drop_append_of_le_length (by omega),
          List.take_append_eq_append_take, List.length_drop]
        congr 1
        rw [List.take_of_length_le (by rw [List.length_drop]),
          List.take_of_length_le (by rw [List.length_drop]; omega)]
    · rw [if_neg hh]
      obtain ⟨r, h1, h2, h3, h4, h5⟩ := readFromEntries_spec v hw cache hv []
        length (offset - v.m_header.length) length (by omega) (by omega)
      refine ⟨r, h1, h2, ?_, h4, h5⟩
      have hd : v.m_header.drop offset = [] := List.drop_of_length_le (by omega)
      rw [h3, hflat, List.nil_append, List.drop_append_eq_append_drop, hd, List.nil_append]

theorem locatedFrom_getElem? {size : Entry → Nat} {index : Nat} :
    ∀ {s : List Entry} {offset : Nat}, locatedFrom size index offset s →
      ∀ (k : Nat) (e : Entry), s[k]? = some e →
        e.Locator.DatFileOffset = offset + ((s.take k).map size).sum := by
  intro s
  induction s with
  | nil => intro offset _ k e he; simp at he
  | cons a t ih =>
    intro offset h k e he
    cases k with
    | zero =>
      simp only [List.getElem?_cons_zero, Option.some.injEq] at he
      subst he
      rw [h.1]
      simp
    | succ k =>
      have := ih h.2 k e (by simpa using he)
      rw [this]
      simp only [List.take_succ_cons, List.map_cons, List.sum_cons]
      omega

theorem segmentsLocated_getElem? {fmt : Format} {size : Entry → Nat} :
    ∀ {segs : List (List Entry)} {index : Nat}, segmentsLocated fmt size index segs →
      ∀ (N : Nat) (s : List Entry), segs[N]? = some s →
        locatedFrom size (index + N) (fmt.sizeofSqpackHeader + fmt.sizeofSqDataHeader) s := by
  intro segs
  induction segs with
  | nil => intro index _ N s hs; simp at hs
  | cons a t ih =>
    intro index h N s hs
    cases N with
    | zero =>
      simp only [List.getElem?_cons_zero, Option.some.injEq] at hs
      subst hs
      exact h.1
    | succ N =>
      have := ih h.2 N s (by simpa using hs)
      have e : index + 1 + N = index + (N + 1) := by omega
      rw [← e]
      exact this

/-- Every entry that `FinishToStreams` has resolved has a provider of
`EntrySize` bytes. -/
theorem FinishToStreams_content (fmt : Format) (c : Creator) :
    ∀ e ∈ (FinishToStreams fmt c).Entries, e.Provider.Data.length = e.EntrySize := by
  obtain ⟨_, _, _, _, h⟩ := FinishToStreams_segments fmt c
  intro e he
  have hm : (e.EntrySize, e.Provider) ∈
      (FinishToStreams fmt c).Entries.map (fun e => (e.EntrySize, e.Provider)) :=
    List.mem_map_of_mem _ he
  rw [h] at hm
  obtain ⟨x, _, hx⟩ := List.mem_map.mp hm
  have h1 : (resolveEntry fmt x).EntrySize = e.EntrySize := congrArg Prod.fst hx
  have h2 : (resolveEntry fmt x).Provider = e.Provider := congrArg Prod.snd hx
  rw [← h1, ← h2]
  simp only [resolveEntry, HotSwappableEntryProvider, List.length_take, List.length_append,
    List.length_replicate]
  omega

/-- The view of the segment `N` after `FinishToStreams`: its parts, and that
it is well formed. -/
theorem FinishToStreams_Data_spec (fmt : Format) (image : HeaderImages fmt) (c : Creator)
    (N : Nat) (v : DataViewStream)
    (hN : (FinishToStreams.Data fmt image c)[N]? = some v) :
    ∃ h r, (FinishToStreams fmt c).dataSubheaders[N]? = some h ∧
      (FinishToStreams fmt c).dataEntryRanges[N]? = some r ∧
      v = DataViewStream.new image N h
        (((FinishToStreams fmt c).Entries.drop r.1).take r.2) ∧
      v.m_header.length = fmt.sizeofSqpackHeader + fmt.sizeofSqDataHeader ∧
      v.WellFormed := by
  obtain ⟨segs, hP, _, hR, _⟩ := FinishToStreams_segments fmt c
  unfold FinishToStreams.Data at hN
  rw [List.getElem?_map] at hN
  have hNlt : N < (FinishToStreams fmt c).dataSubheaders.length := by
    by_contra hge
    rw [List.getElem?_eq_none (by simp; omega)] at hN
    simp at hN
  rw [List.getElem?_range hNlt] at hN
  simp only [Option.map_some', Option.some.injEq] at hN
  have hlenH : (FinishToStreams fmt c).dataSubheaders.length = segs.length := by
    rw [hP.headers, headersOf_length]
  have hNs : N < segs.length := by omega
  have hs : segs[N]? = some segs[N] := List.getElem?_eq_getElem hNs
  have hH : (FinishToStreams fmt c).dataSubheaders[N]? =
      some { HeaderSize := fmt.sizeofSqDataHeader, Unknown1 := fmt.Unknown1_Value,
             DataSize := (segs[N].map (fun e => e.EntrySize)).sum, SpanIndex := 0 + N,
             MaxFileSize := c.m_maxFileSize } := by
    rw [hP.headers, headersOf_getElem?, hs]
    rfl
  have hRg : (FinishToStreams fmt c).dataEntryRanges[N]? =
      some (0 + (segs.take N).flatten.length, segs[N].length) := by
    rw [hR, rangesOf_getElem?, hs]
    rfl
  have hslice : (((FinishToStreams fmt c).Entries.drop
      (0 + (segs.take N).flatten.length)).take segs[N].length) = segs[N] := by
    rw [hP.entries, Nat.zero_add]
    exact flatten_slice segs N _ hs
  have hmem : ∀ e ∈ segs[N], e ∈ (FinishToStreams fmt c).Entries := by
    intro e he
    rw [hP.entries]
    exact List.mem_flatten.mpr ⟨_, List.getElem_mem hNs, he⟩
  have hloc := segmentsLocated_getElem? hP.located N _ hs
  refine ⟨_, _, hH, hRg, ?_, ?_, ?_⟩
  · rw [← hN, List.getD_eq_getElem?_getD, List.getD_eq_getElem?_getD, hH, hRg]
    rfl
  · rw [← hN]
    simp [DataViewStream.new, image.SqpackHeader_size, image.SqDataHeader_size]
  · rw [← hN, List.getD_eq_getElem?_getD, List.getD_eq_getElem?_getD, hH, hRg]
    simp only [Option.getD_some, hslice, DataViewStream.new]
    refine ⟨hP.nonempty _ (List.getElem_mem hNs), ?_, ?_, rfl, ?_⟩
    · intro k e he
      simp only [List.length_append, image.SqpackHeader_size, image.SqDataHeader_size]
      exact locatedFrom_getElem? hloc k e he
    · intro e he
      exact FinishToStreams_content fmt c e (hmem e he)
    · intro i hi
      simp at hi

theorem WellFormed_withHint (v : DataViewStream) (hw : v.WellFormed) (hint : Option Nat)
    (hhint : ∀ i, hint = some i → i < v.m_entries.length) :
    DataViewStream.WellFormed { v with m_lastAccessedEntryIndex := hint } :=
  ⟨hw.nonempty, hw.located, hw.content, hw.size, hhint⟩

/-! ## The layout of an index buffer -/

theorem flatten_map_length {α : Type} (f : α → List Nat) (n : Nat) (l : List α)
    (h : ∀ a ∈ l, (f a).length = n) : ((l.map f).flatten).length = l.length * n := by
  induction l with
  | nil => simp
  | cons a t ih =>
    simp only [List.map_cons, List.flatten_cons, List.length_append, List.length_cons]
    rw [h a (List.mem_cons_self _ _), ih (fun b hb => h b (List.mem_cons_of_mem _ hb))]
    ring

theorem drop_take_middle {α : Type} (a b c : List α) (n m : Nat) (hn : n = a.length)
    (hm : m = b.length) : ((a ++ (b ++ c)).drop n).take m = b := by
  subst hn hm
  simp

/-- The length of the buffer of `ExportIndexFileData`. -/
theorem IndexFileData.bytes_length {fmt : Format} {ifmt : IndexFormat} {F C : Type}
    {sizeofFileEntry sizeofConflictEntry : Nat}
    (image : IndexImages fmt ifmt F C sizeofFileEntry sizeofConflictEntry)
    (d : IndexFileData F C)
    (h3 : ∀ s ∈ d.segment3, s.Bytes.length = ifmt.sizeofSegment3Entry) :
    (IndexFileData.bytes image d).length =
      fmt.sizeofSqpackHeader + ifmt.sizeofSqIndexHeader +
        (d.fileSegment.length * sizeofFileEntry +
          (d.conflictSegment.length * sizeofConflictEntry +
            (d.segment3.length * ifmt.sizeofSegment3Entry +
              d.folderSegment.length * ifmt.sizeofPathHashLocator))) := by
  simp only [IndexFileData.bytes, List.length_append,
    flatten_map_length image.fileEntry sizeofFileEntry d.fileSegment
      (fun a _ => image.fileEntry_size a),
    flatten_map_length image.conflictEntry sizeofConflictEntry d.conflictSegment
      (fun a _ => image.conflictEntry_size a),
    flatten_map_length image.folderEntry ifmt.sizeofPathHashLocator d.folderSegment
      (fun a _ => image.folderEntry_size a),
    flatten_map_length (fun s : SqIndex.Segment3Entry => s.Bytes) ifmt.sizeofSegment3Entry
      d.segment3 h3,
    image.headers_size d]

/-- The descriptors of `ExportIndexFileData` when the buffer is shorter than
`2 ^ 32` bytes: no store into a 32-bit field narrows. -/
theorem ExportIndexFileData_descriptors {F C : Type} (fmt : Format) (ifmt : IndexFormat)
    (lt : F → F → Bool) (sizeofFileEntry sizeofConflictEntry : Nat)
    (image : IndexImages fmt ifmt F C sizeofFileEntry sizeofConflictEntry)
    (UseFolders : Option (F → Nat)) (dataFilesCount : Nat) (fileSegment : List F)
    (conflictSegment : List C) (segment3 : List SqIndex.Segment3Entry)
    (folderSegment : List SqIndex.PathHashLocator) (out : IndexFileData F C)
    (hout : out = ExportIndexFileData fmt ifmt lt sizeofFileEntry sizeofConflictEntry
      UseFolders dataFilesCount fileSegment conflictSegment segment3 folderSegment)
    (h3 : ∀ s ∈ segment3, s.Bytes.length = ifmt.sizeofSegment3Entry)
    (hfit : (IndexFileData.bytes image out).length < 2 ^ 32) :
    out.HashLocatorSegment.Offset = fmt.sizeofSqpackHeader + ifmt.sizeofSqIndexHeader ∧
    out.HashLocatorSegment.Size = out.fileSegment.length * sizeofFileEntry ∧
    out.TextLocatorSegment.Offset =
      out.HashLocatorSegment.Offset + out.HashLocatorSegment.Size ∧
    out.TextLocatorSegment.Size = out.conflictSegment.length * sizeofConflictEntry ∧
    out.UnknownSegment3.Offset =
      out.TextLocatorSegment.Offset + out.TextLocatorSegment.Size ∧
    out.UnknownSegment3.Size = out.segment3.length * ifmt.sizeofSegment3Entry ∧
    out.PathHashLocatorSegment.Offset =
      out.UnknownSegment3.Offset + out.UnknownSegment3.Size ∧
    out.PathHashLocatorSegment.Size = out.folderSegment.length * ifmt.sizeofPathHashLocator ∧
    out.segment3 = segment3 := by
  have hlen := IndexFileData.bytes_length image out (by rw [hout]; exact h3)
  rw [hlen] at hfit
  have e1 : out.HashLocatorSegment.Offset = fmt.sizeofSqpackHeader + ifmt.sizeofSqIndexHeader := by
    rw [hout]
    simp only [ExportIndexFileData]
    rw [Nat.mod_eq_of_lt (a := fmt.sizeofSqpackHeader) (by omega),
      Nat.mod_eq_of_lt (a := ifmt.sizeofSqIndexHeader) (by omega), Nat.mod_eq_of_lt (by omega)]
  have e2 : out.HashLocatorSegment.Size = out.fileSegment.length * sizeofFileEntry := by
    rw [hout]
    simp only [ExportIndexFileData]
    rw [hout] at hfit
    simp only [ExportIndexFileData] at hfit
    exact Nat.mod_eq_of_lt (by omega)
  have e3 : out.TextLocatorSegment.Offset =
      out.HashLocatorSegment.Offset + out.HashLocatorSegment.Size := by
    have : out.TextLocatorSegment.Offset =
        (out.HashLocatorSegment.Offset + out.HashLocatorSegment.Size) % 2 ^ 32 := by
      rw [hout]
      rfl
    rw [this, e1, e2]
    exact Nat.mod_eq_of_lt (by omega)
  have e4 : out.TextLocatorSegment.Size = out.conflictSegment.length * sizeofConflictEntry := by
    rw [hout]
    simp only [ExportIndexFileData]
    rw [hout] at hfit
    simp only [ExportIndexFileData] at hfit
    exact Nat.mod_eq_of_lt (by omega)
  have e5 : out.UnknownSegment3.Offset =
      out.TextLocatorSegment.Offset + out.TextLocatorSegment.Size := by
    have : out.UnknownSegment3.Offset =
        (out.TextLocatorSegment.Offset + out.TextLocatorSegment.Size) % 2 ^ 32 := by
      rw [hout]
      rfl
    rw [this, e3, e1, e2, e4]
    exact Nat.mod_eq_of_lt (by omega)
  have e6 : out.UnknownSegment3.Size = out.segment3.length * ifmt.sizeofSegment3Entry := by
    rw [hout]
    simp only [ExportIndexFileData]
    rw [hout] at hfit
    simp only [ExportIndexFileData] at hfit
    exact Nat.mod_eq_of_lt (by omega)
  have e7 : out.PathHashLocatorSegment.Offset =
      out.UnknownSegment3.Offset + out.UnknownSegment3.Size := by
    have : out.PathHashLocatorSegment.Offset =
        (out.UnknownSegment3.Offset + out.UnknownSegment3.Size) % 2 ^ 32 := by
      rw [hout]
      rfl
    rw [this, e5, e3, e1, e2, e4, e6]
    exact Nat.mod_eq_of_lt (by omega)
  have e8 : out.PathHashLocatorSegment.Size =
      out.folderSegment.length * ifmt.sizeofPathHashLocator := by
    rw [hout] at hfit ⊢
    simp only [ExportIndexFileData] at hfit ⊢
    cases UseFolders with
    | none => simp
    | some ph =>
      simp only at hfit ⊢
      exact Nat.mod_eq_of_lt (by omega)
  exact ⟨e1, e2, e3, e4, e5, e6, e7, e8, by rw [hout]; rfl⟩

/-- The pass-through records in the buffer of `ExportIndexFileData`. -/
theorem ExportIndexFileData_passthrough {F C : Type} (fmt : Format) (ifmt : IndexFormat)
    (lt : F → F → Bool) (sizeofFileEntry sizeofConflictEntry : Nat)
    (image : IndexImages fmt ifmt F C sizeofFileEntry sizeofConflictEntry)
    (UseFolders : Option (F → Nat)) (dataFilesCount : Nat) (fileSegment : List F)
    (conflictSegment : List C) (segment3 : List SqIndex.Segment3Entry)
    (folderSegment : List SqIndex.PathHashLocator) (out : IndexFileData F C)
    (hout : out = ExportIndexFileData fmt ifmt lt sizeofFileEntry sizeofConflictEntry
      UseFolders dataFilesCount fileSegment conflictSegment segment3 folderSegment)
    (h3 : ∀ s ∈ segment3, s.Bytes.length = ifmt.sizeofSegment3Entry)
    (hfit : (IndexFileData.bytes image out).length < 2 ^ 32) :
    ((IndexFileData.bytes image out).drop out.UnknownSegment3.Offset).take
      out.UnknownSegment3.Size = (segment3.map (fun s => s.Bytes)).flatten ∧
    out.UnknownSegment3.Size = ((segment3.map (fun s => s.Bytes)).flatten).length ∧
    out.UnknownSegment3.Offset + out.UnknownSegment3.Size ≤
      (IndexFileData.bytes image out).length := by
  obtain ⟨e1, e2, e3, e4, e5, e6, e7, e8, hs3⟩ :=
    ExportIndexFileData_descriptors fmt ifmt lt sizeofFileEntry sizeofConflictEntry image
      UseFolders dataFilesCount fileSegment conflictSegment segment3 folderSegment out hout h3
      hfit
  have hF := flatten_map_length image.fileEntry sizeofFileEntry out.fileSegment
    (fun a _ => image.fileEntry_size a)
  have hC := flatten_map_length image.conflictEntry sizeofConflictEntry out.conflictSegment
    (fun a _ => image.conflictEntry_size a)
  have hS := flatten_map_length (fun s : SqIndex.Segment3Entry => s.Bytes)
    ifmt.sizeofSegment3Entry out.segment3 (by rw [hs3]; exact h3)
  have hH := image.headers_size out
  have hlen := IndexFileData.bytes_length image out (by rw [hs3]; exact h3)
  refine ⟨?_, ?_, ?_⟩
  · rw [← hs3]
    unfold IndexFileData.bytes
    rw [← List.append_assoc, ← List.append_assoc]
    exact drop_take_middle _ _ _ _ _
      (by rw [e5, e3, e1, e2, e4, List.length_append, List.length_append, hH, hF, hC])
      (by rw [e6, hS])
  · rw [← hs3, hS, e6]
  · rw [hlen, e5, e3, e1, e2, e4, e6]
    omega

theorem length_prefixed_inj (a b r r' : List Nat)
    (h : a.length :: (a ++ r) = b.length :: (b ++ r')) : a = b ∧ r = r' := by
  injection h with h1 h2
  exact List.append_inj h2 h1

/-- The stand-in for the header bytes determines the descriptor checksums. -/
theorem checksumImages1_injective
    (d : IndexFileData SqIndex.PairHashLocator SqIndex.PairHashWithTextLocator)
    (a b : SegmentChecksums)
    (h : Example.checksumImages1.SqIndexHeader d a = Example.checksumImages1.SqIndexHeader d b) :
    a = b := by
  obtain ⟨a1, a2, a3, a4⟩ := a
  obtain ⟨b1, b2, b3, b4⟩ := b
  obtain ⟨e1, h⟩ := length_prefixed_inj _ _ _ _ h
  obtain ⟨e2, h⟩ := length_prefixed_inj _ _ _ _ h
  obtain ⟨e3, h⟩ := length_prefixed_inj _ _ _ _ h
  injection h with _ e4
  simp only at e1 e2 e3 e4
  rw [e1, e2, e3, e4]

/-- The conflict table of the pair-hash index is never empty. -/
theorem Index1_conflictSegment_ne_nil (fmt : Format) (ifmt : IndexFormat) (c : Creator) :
    (FinishToStreams.Index1 fmt ifmt c).conflictSegment ≠ [] := by
  unfold FinishToStreams.Index1 ExportIndexFileData FinishToStreams.tables indexTables
  simp

/-! ## Three entries that each open a segment -/

theorem perm_of_three {α : Type} [DecidableEq α] (l : List α) (a b c : α)
    (hab : a ≠ b) (hac : a ≠ c) (hbc : b ≠ c) (ha : a ∈ l) (hb : b ∈ l) (hc : c ∈ l)
    (hl : l.length = 3) : List.Perm l [a, b, c] := by
  have hnd : [a, b, c].Nodup := by simp [hab, hac, hbc]
  have hsub : [a, b, c] ⊆ l := by
    intro x hx
    simp only [List.mem_cons, List.mem_singleton, List.not_mem_nil, or_false] at hx
    rcases hx with rfl | rfl | rfl <;> assumption
  exact ((List.subperm_of_subset hnd hsub).perm_of_length_le (by simp [hl])).symm

/-- One step of the loop of `FinishToStreams` when the entry opens a segment. -/
theorem packStreams_opens (fmt : Format) (m : Nat) (st : Assembly) (i : Nat) (e : Entry)
    (rest : List Entry)
    (h : needsNewSegment fmt st.dataSubheaders (resolveEntry fmt e).EntrySize = true) :
    packStreams fmt m st i (e :: rest) =
      packStreams fmt m
        { dataSubheaders :=
            st.dataSubheaders ++
              [⟨fmt.sizeofSqDataHeader, fmt.Unknown1_Value, (resolveEntry fmt e).EntrySize,
                st.dataSubheaders.length, m⟩]
          dataEntryRanges := st.dataEntryRanges ++ [(i, 1)]
          Entries :=
            st.Entries ++
              [{ resolveEntry fmt e with
                 Locator :=
                   ⟨st.dataSubheaders.length,
                    fmt.sizeofSqpackHeader + fmt.sizeofSqDataHeader⟩ }] }
        (i + 1) rest := by
  simp only [packStreams, placeEntry, h, if_true, updateBack_concat, List.getLast?_concat,
    Option.map_some', Option.getD_some, List.length_append, List.length_singleton,
    Nat.add_sub_cancel, Nat.add_zero, Nat.zero_add]

/-- The packing loop of `FinishToStreams` on three entries of 1000 bytes with
the cap 2048: each opens a segment. -/
theorem FinishToStreams_three (fmt : Format) (c : Creator) (l1 l2 l3 : SqIndex.LEDataLocator)
    (p1 p2 p3 : EntryProvider)
    (hcap : c.m_maxFileSize = 2048) (hhash : c.m_hashOnlyEntries = [])
    (hfull : c.m_fullEntries.map Prod.snd = [⟨0, l1, p1⟩, ⟨0, l2, p2⟩, ⟨0, l3, p3⟩])
    (h1 : p1.StreamSize = 1000) (h2 : p2.StreamSize = 1000) (h3 : p3.StreamSize = 1000)
    (halign : fmt.EntryAlignment = 128)
    (hhdr : 0 < fmt.sizeofSqpackHeader + fmt.sizeofSqDataHeader) :
    FinishToStreams fmt c =
      { dataSubheaders :=
          [⟨fmt.sizeofSqDataHeader, fmt.Unknown1_Value, 1024, 0, 2048⟩,
            ⟨fmt.sizeofSqDataHeader, fmt.Unknown1_Value, 1024, 1, 2048⟩,
            ⟨fmt.sizeofSqDataHeader, fmt.Unknown1_Value, 1024, 2, 2048⟩]
        dataEntryRanges := [(0, 1), (1, 1), (2, 1)]
        Entries :=
          [⟨1024, ⟨0, fmt.sizeofSqpackHeader + fmt.sizeofSqDataHeader⟩,
              HotSwappableEntryProvider p1.PathSpec 1024 p1⟩,
            ⟨1024, ⟨1, fmt.sizeofSqpackHeader + fmt.sizeofSqDataHeader⟩,
              HotSwappableEntryProvider p2.PathSpec 1024 p2⟩,
            ⟨1024, ⟨2, fmt.sizeofSqpackHeader + fmt.sizeofSqDataHeader⟩,
              HotSwappableEntryProvider p3.PathSpec 1024 p3⟩] } := by
  have hr : ∀ (l : SqIndex.LEDataLocator) (p : EntryProvider), p.StreamSize = 1000 →
      resolveEntry fmt ⟨0, l, p⟩ = ⟨1024, l, HotSwappableEntryProvider p.PathSpec 1024 p⟩ := by
    intro l p hp
    have e : (Align (max 0 (p.StreamSize % 2 ^ 32)) fmt.EntryAlignment).Alloc % 2 ^ 32 = 1024 := by
      rw [hp, halign]
      simp only [Align]
      norm_num
    simp only [resolveEntry, e]
  have hn : ∀ (hd : List SqData.Header) (u v w : Nat) (e : Entry), e.EntrySize = 1024 →
      needsNewSegment fmt (hd ++ [⟨u, v, 1024, w, 2048⟩]) e.EntrySize = true := by
    intro hd u v w e he
    rw [needsNewSegment_concat, he, decide_eq_true_eq]
    show fmt.sizeofSqpackHeader + fmt.sizeofSqDataHeader + 1024 + 1024 > 2048
    omega
  unfold FinishToStreams entriesForStreams
  rw [hhash, hfull, hcap, List.map_nil, List.nil_append]
  rw [packStreams_opens fmt 2048 _ 0 _ _ (needsNewSegment_nil fmt _), hr l1 p1 h1]
  rw [packStreams_opens fmt 2048 _ 1 _ _ (by rw [hr l2 p2 h2]; exact hn [] _ _ _ _ rfl),
    hr l2 p2 h2]
  rw [packStreams_opens fmt 2048 _ 2 _ _ (by rw [hr l3 p3 h3]; exact hn [_] _ _ _ _ rfl),
    hr l3 p3 h3]
  rfl

/-! ## The greedy segmentation and the slices of the entries -/

/-- The test of the packing loop and the step of the greedy segmentation
agree on the state that belongs to the segments `segs`. -/
theorem greedyStep_of_packed {fmt : Format} {m : Nat} {size : Entry → Nat} {st : Assembly}
    {segs : List (List Entry)} (hP : Packed fmt m size st segs) (n : Nat) :
    (needsNewSegment fmt st.dataSubheaders n = true →
      greedyStep (fmt.sizeofSqpackHeader + fmt.sizeofSqDataHeader) m
        (segs.map (List.map size)) n = segs.map (List.map size) ++ [[n]]) ∧
    (needsNewSegment fmt st.dataSubheaders n = false →
      ∀ init last, segs = init ++ [last] →
        greedyStep (fmt.sizeofSqpackHeader + fmt.sizeofSqDataHeader) m
          (segs.map (List.map size)) n =
            init.map (List.map size) ++ [last.map size ++ [n]]) := by
  rcases List.eq_nil_or_concat segs with hnil | ⟨init, last, hcat⟩
  · subst hnil
    refine ⟨fun _ => rfl, ?_⟩
    intro _ init last h
    simp at h
  · rw [List.concat_eq_append] at hcat
    subst hcat
    have hH := hP.headers
    rw [headersOf_concat] at hH
    have hN : needsNewSegment fmt st.dataSubheaders n =
        decide (fmt.sizeofSqpackHeader + fmt.sizeofSqDataHeader + (last.map size).sum + n > m) := by
      rw [hH, needsNewSegment_concat]
    have hG : (List.map (List.map size) (init ++ [last])).getLast? = some (last.map size) := by
      rw [List.map_append, List.map_singleton, List.getLast?_concat]
    constructor
    · intro h
      rw [hN, decide_eq_true_eq] at h
      simp only [greedyStep, hG]
      rw [if_pos h]
    · intro h init' last' hcat
      obtain ⟨h1, h2⟩ := List.append_inj' hcat rfl
      simp only [List.cons.injEq, and_true] at h2
      subst h1 h2
      rw [hN, decide_eq_false_iff_not] at h
      simp only [greedyStep, hG]
      rw [if_neg h, List.map_append, List.map_singleton, List.dropLast_concat]

/-- The loop of `FinishToStreams` forms the segments of the greedy
segmentation. -/
theorem packStreams_greedy (fmt : Format) (m : Nat) (l : List Entry) :
    ∀ (st : Assembly) (i : Nat) (segs : List (List Entry)),
      Packed fmt m (fun e => e.EntrySize) st segs →
      st.dataEntryRanges = rangesOf 0 segs → st.Entries.length = i →
      ∃ segs', Packed fmt m (fun e => e.EntrySize) (packStreams fmt m st i l) segs' ∧
        (packStreams fmt m st i l).dataEntryRanges = rangesOf 0 segs' ∧
        segs'.map (List.map (fun e => e.EntrySize)) =
          (l.map (fun e => (resolveEntry fmt e).EntrySize)).foldl
            (greedyStep (fmt.sizeofSqpackHeader + fmt.sizeofSqDataHeader) m)
            (segs.map (List.map (fun e => e.EntrySize))) := by
  induction l with
  | nil =>
    intro st i segs hP hR _
    exact ⟨segs, hP, hR, rfl⟩
  | cons e rest ih =>
    intro st i segs hP hR hi
    obtain ⟨loc, segs1, hP1, hE1, _, hstep⟩ :=
      @Packed.placeEntry_step fmt m (fun e => e.EntrySize) st segs hP (resolveEntry fmt e)
        (fun _ _ => rfl)
    have hlenE : st.Entries.length = segs.flatten.length := by rw [hP.entries]
    have hG := greedyStep_of_packed hP (resolveEntry fmt e).EntrySize
    have hR1 :
        updateBack (fun r : Nat × Nat => (r.1, r.2 + 1))
          (if needsNewSegment fmt st.dataSubheaders (resolveEntry fmt e).EntrySize = true then
            st.dataEntryRanges ++ [(i, 0)] else st.dataEntryRanges) = rangesOf 0 segs1 := by
      rcases hstep with ⟨hopen, rfl⟩ | ⟨hno, init, last, rfl, rfl⟩
      · simp only [hopen, if_true]
        rw [updateBack_concat, rangesOf_concat, hR, ← hi, hlenE]
        simp
      · simp only [hno, Bool.false_eq_true, if_false]
        rw [hR, rangesOf_concat, updateBack_concat, rangesOf_concat]
        simp
    have hG1 : segs1.map (List.map (fun e => e.EntrySize)) =
        greedyStep (fmt.sizeofSqpackHeader + fmt.sizeofSqDataHeader) m
          (segs.map (List.map (fun e => e.EntrySize))) (resolveEntry fmt e).EntrySize := by
      rcases hstep with ⟨hopen, rfl⟩ | ⟨hno, init, last, hs, rfl⟩
      · rw [hG.1 hopen]
        simp
      · rw [hG.2 hno init last hs]
        simp
    obtain ⟨segs2, hP2, hR2, hG2⟩ :=
      ih { placeEntry fmt m st (resolveEntry fmt e) (resolveEntry fmt e).EntrySize with
           dataEntryRanges :=
             updateBack (fun r : Nat × Nat => (r.1, r.2 + 1))
               (if needsNewSegment fmt st.dataSubheaders (resolveEntry fmt e).EntrySize = true
                then st.dataEntryRanges ++ [(i, 0)] else st.dataEntryRanges) }
        (i + 1) segs1 (hP1.setRanges _) hR1 (by simp [hE1, hi])
    refine ⟨segs2, ?_, ?_, ?_⟩
    · simpa only [packStreams] using hP2
    · simpa only [packStreams] using hR2
    · rw [hG2, hG1]
      rfl


theorem greedyStep_flatten (hs m : Nat) (G : List (List Nat)) (n : Nat) :
    (greedyStep hs m G n).flatten = G.flatten ++ [n] ∧
      ((∀ g ∈ G, g ≠ []) → ∀ g ∈ greedyStep hs m G n, g ≠ []) := by
  rcases List.eq_nil_or_concat G with hnil | ⟨init, last, hcat⟩
  · subst hnil
    simp [greedyStep]
  · rw [List.concat_eq_append] at hcat
    subst hcat
    unfold greedyStep
    rw [List.getLast?_concat]
    simp only
    split
    · refine ⟨by simp, ?_⟩
      intro h g hg
      rcases List.mem_append.mp hg with hg | hg
      · exact h g hg
      · simp only [List.mem_singleton] at hg
        subst hg
        simp
    · rw [List.dropLast_concat]
      refine ⟨by simp, ?_⟩
      intro h g hg
      rcases List.mem_append.mp hg with hg | hg
      · exact h g (List.mem_append_left _ hg)
      · simp only [List.mem_singleton] at hg
        subst hg
        simp

theorem greedySegments_flatten (hs m : Nat) (sizes : List Nat) :
    (greedySegments hs m sizes).flatten = sizes ∧ ∀ g ∈ greedySegments hs m sizes, g ≠ [] := by
  unfold greedySegments
  induction sizes using List.reverseRecOn with
  | nil => simp
  | append_singleton l a ih =>
    rw [List.foldl_append]
    simp only [List.foldl_cons, List.foldl_nil]
    obtain ⟨h1, h2⟩ := greedyStep_flatten hs m (List.foldl (greedyStep hs m) [] l) a
    exact ⟨by rw [h1, ih.1], h2 ih.2⟩

/-- In the greedy segmentation the first size of a segment did not fit into
the segment before it, and every other size fitted into its segment. -/
theorem greedyStep_rule (hs m : Nat) (G : List (List Nat)) (n : Nat)
    (ha : ∀ (N : Nat) (p q : List Nat), G[N]? = some p → G[N + 1]? = some q →
      ∃ s, q[0]? = some s ∧ hs + p.sum + s > m)
    (hb : ∀ (g : List Nat) (j s : Nat), g ∈ G → 0 < j → g[j]? = some s →
      hs + (g.take j).sum + s ≤ m) :
    (∀ (N : Nat) (p q : List Nat), (greedyStep hs m G n)[N]? = some p →
      (greedyStep hs m G n)[N + 1]? = some q → ∃ s, q[0]? = some s ∧ hs + p.sum + s > m) ∧
    (∀ (g : List Nat) (j s : Nat), g ∈ greedyStep hs m G n → 0 < j → g[j]? = some s →
      hs + (g.take j).sum + s ≤ m) := by
  rcases List.eq_nil_or_concat G with hnil | ⟨init, last, hcat⟩
  · subst hnil
    simp only [greedyStep, List.getLast?_nil]
    constructor
    · intro N p q _ hq
      simp at hq
    · intro g j s hg hj hs'
      simp only [List.mem_singleton] at hg
      subst hg
      cases j with
      | zero => omega
      | succ j => simp at hs'
  · rw [List.concat_eq_append] at hcat
    subst hcat
    unfold greedyStep
    rw [List.getLast?_concat]
    simp only
    by_cases hov : hs + last.sum + n > m
    · rw [if_pos hov]
      constructor
      · intro N p q hp hq
        by_cases hN : N + 1 < (init ++ [last]).length
        · rw [List.getElem?_append_left (by omega)] at hp
          rw [List.getElem?_append_left hN] at hq
          exact ha N p q hp hq
        · have hlen : (init ++ [last]).length = init.length + 1 := by simp
          by_cases hN' : N + 1 = (init ++ [last]).length
          · rw [List.getElem?_append_left (by omega)] at hp
            have hNi : N = init.length := by omega
            rw [hNi, List.getElem?_append_right (le_refl _)] at hp
            simp only [Nat.sub_self, List.getElem?_cons_zero, Option.some.injEq] at hp
            rw [hN', List.getElem?_append_right (le_refl _)] at hq
            simp only [Nat.sub_self, List.getElem?_cons_zero, Option.some.injEq] at hq
            subst hp hq
            exact ⟨n, by simp, hov⟩
          · rw [List.getElem?_eq_none (by simp; omega)] at hq
            simp at hq
      · intro g j s hg hj hs'
        rcases List.mem_append.mp hg with hg | hg
        · exact hb g j s hg hj hs'
        · simp only [List.mem_singleton] at hg
          subst hg
          cases j with
          | zero => omega
          | succ j => simp at hs'
    · rw [if_neg hov, List.dropLast_concat]
      constructor
      · intro N p q hp hq
        by_cases hN : N + 1 < init.length
        · rw [List.getElem?_append_left (by omega)] at hp
          rw [List.getElem?_append_left hN] at hq
          exact ha N p q (by rw [List.getElem?_append_left (by omega)]; exact hp)
            (by rw [List.getElem?_append_left hN]; exact hq)
        · by_cases hN' : N + 1 = init.length
          · rw [List.getElem?_append_left (by omega)] at hp
            rw [hN', List.getElem?_append_right (le_refl _)] at hq
            simp only [Nat.sub_self, List.getElem?_cons_zero, Option.some.injEq] at hq
            subst hq
            obtain ⟨s, h1, h2⟩ := ha N p last
              (by rw [List.getElem?_append_left (by omega)]; exact hp)
              (by rw [hN', List.getElem?_append_right (le_refl _)]; simp)
            refine ⟨s, ?_, h2⟩
            have hpos : 0 < last.length := by
              by_contra hz
              rw [List.getElem?_eq_none (by omega)] at h1
              simp at h1
            rw [List.getElem?_append_left hpos]
            exact h1
          · rw [List.getElem?_eq_none (by simp; omega)] at hq
            simp at hq
      · intro g j s hg hj hs'
        rcases List.mem_append.mp hg with hg | hg
        · exact hb g j s (List.mem_append_left _ hg) hj hs'
        · simp only [List.mem_singleton] at hg
          subst hg
          by_cases hjl : j < last.length
          · rw [List.getElem?_append_left hjl] at hs'
            rw [List.take_append_of_le_length (by omega)]
            exact hb last j s (by simp) hj hs'
          · by_cases hje : j = last.length
            · rw [hje, List.getElem?_append_right (le_refl _)] at hs'
              simp only [Nat.sub_self, List.getElem?_cons_zero, Option.some.injEq] at hs'
              subst hs'
              rw [hje, List.take_append_of_le_length (le_refl _), List.take_length]
              omega
            · rw [List.getElem?_eq_none (by simp; omega)] at hs'
              simp at hs'

theorem greedySegments_rule (hs m : Nat) (sizes : List Nat) :
    (∀ (N : Nat) (p q : List Nat), (greedySegments hs m sizes)[N]? = some p →
      (greedySegments hs m sizes)[N + 1]? = some q →
      ∃ s, q[0]? = some s ∧ hs + p.sum + s > m) ∧
    (∀ (g : List Nat) (j s : Nat), g ∈ greedySegments hs m sizes → 0 < j → g[j]? = some s →
      hs + (g.take j).sum + s ≤ m) := by
  unfold greedySegments
  induction sizes using List.reverseRecOn with
  | nil =>
    constructor
    · intro N p q hp
      simp at hp
    · intro g j s hg
      simp at hg
  | append_singleton l a ih =>
    rw [List.foldl_append]
    simp only [List.foldl_cons, List.foldl_nil]
    exact greedyStep_rule hs m _ a ih.1 ih.2

/-- `FinishToStreams` in terms of segments that are those of the greedy
segmentation. -/
theorem FinishToStreams_greedy (fmt : Format) (c : Creator) :
    ∃ segs, Packed fmt c.m_maxFileSize (fun e => e.EntrySize) (FinishToStreams fmt c) segs ∧
      (FinishToStreams fmt c).dataEntryRanges = rangesOf 0 segs ∧
      segs.map (List.map (fun e => e.EntrySize)) =
        greedySegments (fmt.sizeofSqpackHeader + fmt.sizeofSqDataHeader) c.m_maxFileSize
          ((entriesForStreams c).map (fun e => (resolveEntry fmt e).EntrySize)) :=
  packStreams_greedy fmt c.m_maxFileSize (entriesForStreams c) ⟨[], [], []⟩ 0 []
    (Packed.empty _ _ _) rfl rfl

theorem take_map_flatten_length {α β : Type} (f : α → β) (segs : List (List α)) (N : Nat) :
    ((segs.map (List.map f)).take N).flatten.length = (segs.take N).flatten.length := by
  rw [← List.map_take, ← List.map_flatten, List.length_map]

theorem sum_take_le_sum_take (l : List Nat) (j k : Nat) (h : j ≤ k) :
    (l.take j).sum ≤ (l.take k).sum := by
  induction l generalizing j k with
  | nil => simp
  | cons a t ih =>
    cases j with
    | zero => simp
    | succ j =>
      cases k with
      | zero => omega
      | succ k =>
        simp only [List.take_succ_cons, List.sum_cons]
        have := ih j k (by omega)
        omega

theorem sum_take_succ (l : List Nat) (k : Nat) (a : Nat) (h : l[k]? = some a) :
    (l.take (k + 1)).sum = (l.take k).sum + a := by
  induction l generalizing k with
  | nil => simp at h
  | cons b t ih =>
    cases k with
    | zero =>
      simp only [List.getElem?_cons_zero, Option.some.injEq] at h
      subst h
      simp
    | succ k =>
      simp only [List.take_succ_cons, List.sum_cons]
      rw [ih k (by simpa using h)]
      omega

/-- The position `i` of a flattened list lies in exactly one of the lists. -/
theorem flatten_position {α : Type} (segs : List (List α)) (i : Nat) (a : α)
    (h : segs.flatten[i]? = some a) :
    ∃ N s, segs[N]? = some s ∧ (segs.take N).flatten.length ≤ i ∧
      i < (segs.take N).flatten.length + s.length ∧ a ∈ s := by
  induction segs generalizing i with
  | nil => simp at h
  | cons s t ih =>
    by_cases hi : i < s.length
    · refine ⟨0, s, by simp, by simp, by simpa using hi, ?_⟩
      rw [List.flatten_cons, List.getElem?_append_left hi] at h
      exact List.getElem?_mem h
    · rw [List.flatten_cons, List.getElem?_append_right (by omega)] at h
      obtain ⟨N, s', h1, h2, h3, h4⟩ := ih (i - s.length) h
      refine ⟨N + 1, s', by simpa using h1, ?_, ?_, h4⟩
      · simp only [List.take_succ_cons, List.flatten_cons, List.length_append]
        omega
      · simp only [List.take_succ_cons, List.flatten_cons, List.length_append]
        omega

/-- The slices of `FinishToStreams`: the range `N` cuts the segment `N` out of
the entries, the subheader `N` belongs to it, and it lies where the packing
loop has put it. -/
theorem FinishToStreams_slice (fmt : Format) (c : Creator) :
    ∃ segs, Packed fmt c.m_maxFileSize (fun e => e.EntrySize) (FinishToStreams fmt c) segs ∧
      WithinCap fmt c.m_maxFileSize (fun e => e.EntrySize) segs ∧
      (FinishToStreams fmt c).dataEntryRanges.length = segs.length ∧
      (FinishToStreams fmt c).dataSubheaders.length = segs.length ∧
      ∀ (N : Nat) (s : List Entry), segs[N]? = some s →
        (FinishToStreams fmt c).dataEntryRanges[N]? =
          some ((segs.take N).flatten.length, s.length) ∧
        ((FinishToStreams fmt c).Entries.drop (segs.take N).flatten.length).take s.length = s ∧
        (FinishToStreams fmt c).dataSubheaders[N]? =
          some { HeaderSize := fmt.sizeofSqDataHeader, Unknown1 := fmt.Unknown1_Value,
                 DataSize := (s.map (fun e => e.EntrySize)).sum, SpanIndex := N,
                 MaxFileSize := c.m_maxFileSize } ∧
        locatedFrom (fun e => e.EntrySize) N
          (fmt.sizeofSqpackHeader + fmt.sizeofSqDataHeader) s ∧
        s ≠ [] := by
  obtain ⟨segs, hP, hW, hR, _⟩ := FinishToStreams_segments fmt c
  have hlenR : ∀ (start : Nat) (l : List (List Entry)), (rangesOf start l).length = l.length := by
    intro start l
    induction l generalizing start with
    | nil => rfl
    | cons a t ih => simp [rangesOf, ih]
  refine ⟨segs, hP, hW, by rw [hR, hlenR], by rw [hP.headers, headersOf_length], ?_⟩
  intro N s hs
  have hloc := segmentsLocated_getElem? hP.located N s hs
  rw [Nat.zero_add] at hloc
  refine ⟨?_, ?_, ?_, hloc, hP.nonempty s (List.getElem?_mem hs)⟩
  · rw [hR, rangesOf_getElem?, hs]
    simp
  · rw [hP.entries]
    exact flatten_slice segs N s hs
  · rw [hP.headers, headersOf_getElem?, hs]
    simp

/-! ## Reads through a view: every request, and the entry accessed last -/

/-- The loop of `ReadStreamPartial` ends for every request, also one that
reaches behind the last entry, and leaves a position of the slice as
`m_lastAccessedEntryIndex` and a valid cache. -/
theorem readEntries_defined (view : Nat) (all : List Entry)
    (hcontent : ∀ e ∈ all, e.Provider.Data.length = e.EntrySize) :
    ∀ (es pre : List Entry) (rel : Nat) (st : ReadState), all = pre ++ es →
      CacheValid view all st.cache →
      (∀ i, st.m_lastAccessedEntryIndex = some i → i < all.length) →
      ∃ st', DataViewStream.readEntries view pre.length es rel st = some st' ∧
        (∀ i, st'.m_lastAccessedEntryIndex = some i → i < all.length) ∧
        CacheValid view all st'.cache := by
  intro es
  induction es with
  | nil =>
    intro pre rel st _ hv hh
    exact ⟨st, rfl, hh, hv⟩
  | cons e rest ih =>
    intro pre rel st hall hv hh
    have hk : all[pre.length]? = some e := by
      rw [hall, List.getElem?_append_right (le_refl _)]
      simp
    have hmem : e ∈ all := by
      rw [hall]
      simp
    have hc := hcontent e hmem
    obtain ⟨cache', buf, hget, hv', hbuf, _⟩ :=
      getBuffer_spec view all pre.length e st.cache hk hc hv
    have hall' : all = (pre ++ [e]) ++ rest := by
      rw [hall]
      simp
    have hlen' : (pre ++ [e]).length = pre.length + 1 := by simp
    have hpre : pre.length < all.length := by
      rw [hall]
      simp
    have hh' : ∀ i, some pre.length = some i → i < all.length := by
      intro i hi
      simp only [Option.some.injEq] at hi
      omega
    unfold DataViewStream.readEntries
    rw [hget]
    simp only
    by_cases hrel : rel < e.EntrySize
    · rw [if_pos hrel]
      have hav : rel + min st.out (e.EntrySize - rel) ≤ e.Provider.Data.length := by
        rw [hc]
        omega
      rw [copyOrRead_spec buf e rel _ hbuf hav]
      simp only
      by_cases hdone : st.out - min st.out (e.EntrySize - rel) = 0
      · rw [if_pos hdone]
        exact ⟨_, rfl, hh', hv'⟩
      · rw [if_neg hdone]
        obtain ⟨st', h1, h2, h3⟩ := ih (pre ++ [e]) 0
          { out := st.out - min st.out (e.EntrySize - rel),
            written := st.written ++ (e.Provider.Data.drop rel).take
              (min st.out (e.EntrySize - rel)),
            m_lastAccessedEntryIndex := some pre.length, cache := cache' }
          hall' hv' hh'
        rw [hlen'] at h1
        exact ⟨st', h1, h2, h3⟩
    · rw [if_neg hrel]
      obtain ⟨st', h1, h2, h3⟩ := ih (pre ++ [e]) (rel - e.EntrySize)
        { st with m_lastAccessedEntryIndex := some pre.length, cache := cache' }
        hall' hv' hh'
      rw [hlen'] at h1
      exact ⟨st', h1, h2, h3⟩

/-- The part of `ReadStreamPartial` behind the header has a result for every
request on a well-formed view: no entry is looked up outside the slice. -/
theorem readFromEntries_defined (v : DataViewStream) (hw : v.WellFormed)
    (cache : Option SqpackViewEntryCache) (hv : CacheValid v.id v.m_entries cache)
    (copied : List Nat) (out rel length : Nat) :
    ∃ r, v.readFromEntries cache copied out rel length = some r ∧
      (∀ i, r.m_lastAccessedEntryIndex = some i → i < v.m_entries.length) ∧
      CacheValid v.id v.m_entries r.cache := by
  have hpos : 0 < v.m_entries.length := List.length_pos.mpr hw.nonempty
  have hstart : v.m_lastAccessedEntryIndex.getD 0 < v.m_entries.length := by
    cases hh : v.m_lastAccessedEntryIndex with
    | none => simpa using hpos
    | some i => simpa using hw.hint i hh
  obtain ⟨e, he, hle⟩ := start_entry_spec v hw (rel + v.m_header.length)
    (v.m_lastAccessedEntryIndex.getD 0) _ (List.getElem?_eq_getElem hstart) (by omega)
  unfold DataViewStream.readFromEntries
  simp only [List.getElem?_eq_getElem hstart]
  generalize hit : (if (v.m_entries[v.m_lastAccessedEntryIndex.getD 0]).Locator.DatFileOffset >
        rel + v.m_header.length ∨
      rel + v.m_header.length ≥
        (v.m_entries[v.m_lastAccessedEntryIndex.getD 0]).Locator.DatFileOffset +
          (v.m_entries[v.m_lastAccessedEntryIndex.getD 0]).EntrySize then
      if DataViewStream.lowerBound (rel + v.m_header.length) v.m_entries ≠ 0 ∧
          (DataViewStream.lowerBound (rel + v.m_header.length) v.m_entries = v.m_entries.length ∨
            ∃ e, v.m_entries[DataViewStream.lowerBound (rel + v.m_header.length) v.m_entries]? =
                some e ∧ e.Locator.DatFileOffset > rel + v.m_header.length)
      then DataViewStream.lowerBound (rel + v.m_header.length) v.m_entries - 1
      else DataViewStream.lowerBound (rel + v.m_header.length) v.m_entries
    else v.m_lastAccessedEntryIndex.getD 0) = it at he ⊢
  simp only [he]
  have hloc := hw.located it e he
  rw [if_neg (by omega)]
  have hsplit : v.m_entries = v.m_entries.take it ++ v.m_entries.drop it :=
    (List.take_append_drop it v.m_entries).symm
  have hitlt : it < v.m_entries.length := by
    by_contra hge
    rw [List.getElem?_eq_none (by omega)] at he
    simp at he
  have htake : (v.m_entries.take it).length = it := by
    rw [List.length_take]
    omega
  obtain ⟨st', h1, h2, h3⟩ := readEntries_defined v.id v.m_entries hw.content
    (v.m_entries.drop it) (v.m_entries.take it)
    (rel - (e.Locator.DatFileOffset - v.m_header.length))
    ⟨out, copied, v.m_lastAccessedEntryIndex, cache⟩ hsplit hv hw.hint
  rw [htake] at h1
  rw [h1]
  exact ⟨_, rfl, h2, h3⟩

/-- `ReadStreamPartial` has a result for every offset and length on a
well-formed view, and the state it leaves is again well formed. -/
theorem ReadStreamPartial_defined (v : DataViewStream) (hw : v.WellFormed)
    (cache : Option SqpackViewEntryCache) (hv : CacheValid v.id v.m_entries cache)
    (offset length : Nat) :
    ∃ r, v.ReadStreamPartial cache offset length = some r ∧
      (∀ i, r.m_lastAccessedEntryIndex = some i → i < v.m_entries.length) ∧
      CacheValid v.id v.m_entries r.cache := by
  unfold DataViewStream.ReadStreamPartial
  split
  · exact ⟨_, rfl, hw.hint, hv⟩
  · split
    · simp only
      split
      · exact ⟨_, rfl, hw.hint, hv⟩
      · exact readFromEntries_defined v hw cache hv _ _ _ _
    · exact readFromEntries_defined v hw cache hv _ _ _ _


/-- The loop of `ReadStreamPartial` leaves as `m_lastAccessedEntryIndex` the
position of the entry that holds the last byte of the request. -/
theorem readEntries_hint (view : Nat) :
    ∀ (es : List Entry) (index rel : Nat) (st st' : ReadState),
      DataViewStream.readEntries view index es rel st = some st' → 0 < st.out →
      rel + st.out ≤ (es.map (fun e => e.EntrySize)).sum →
      ∃ i e, st'.m_lastAccessedEntryIndex = some (index + i) ∧ es[i]? = some e ∧
        ((es.take i).map (fun e => e.EntrySize)).sum ≤ rel + st.out - 1 ∧
        rel + st.out - 1 < ((es.take i).map (fun e => e.EntrySize)).sum + e.EntrySize := by
  intro es
  induction es with
  | nil =>
    intro index rel st st' _ hout hsum
    simp at hsum
    omega
  | cons e rest ih =>
    intro index rel st st' h hout hsum
    simp only [List.map_cons, List.sum_cons] at hsum
    unfold DataViewStream.readEntries at h
    cases hget : DataViewStream.getBuffer view index e st.cache with
    | none => simp [hget] at h
    | some p =>
      obtain ⟨cache', buf⟩ := p
      rw [hget] at h
      simp only at h
      by_cases hrel : rel < e.EntrySize
      · rw [if_pos hrel] at h
        cases hcopy : DataViewStream.copyOrRead buf e rel (min st.out (e.EntrySize - rel)) with
        | none => simp [hcopy] at h
        | some bytes =>
          rw [hcopy] at h
          simp only at h
          by_cases hdone : st.out - min st.out (e.EntrySize - rel) = 0
          · rw [if_pos hdone] at h
            simp only [Option.some.injEq] at h
            subst h
            refine ⟨0, e, rfl, by simp, ?_, ?_⟩
            · simp
            · simp only [List.take_zero, List.map_nil, List.sum_nil]
              omega
          · rw [if_neg hdone] at h
            obtain ⟨i, e', h1, h2, h3, h4⟩ := ih (index + 1) 0 _ st' h
              (by simp only; omega) (by simp only; omega)
            refine ⟨i + 1, e', ?_, by simpa using h2, ?_, ?_⟩
            · rw [h1]
              congr 1
              omega
            · simp only [List.take_succ_cons, List.map_cons, List.sum_cons]
              simp only at h3
              omega
            · simp only [List.take_succ_cons, List.map_cons, List.sum_cons]
              simp only at h4
              omega
      · rw [if_neg hrel] at h
        obtain ⟨i, e', h1, h2, h3, h4⟩ := ih (index + 1) (rel - e.EntrySize) _ st' h
          hout (by simp only; omega)
        refine ⟨i + 1, e', ?_, by simpa using h2, ?_, ?_⟩
        · rw [h1]
          congr 1
          omega
        · simp only [List.take_succ_cons, List.map_cons, List.sum_cons]
          simp only at h3
          omega
        · simp only [List.take_succ_cons, List.map_cons, List.sum_cons]
          simp only at h4
          omega

/-- The part of `ReadStreamPartial` that reads from the entries leaves as
`m_lastAccessedEntryIndex` the position of the entry in which the last byte
asked for lies. -/
theorem readFromEntries_hint (v : DataViewStream) (hw : v.WellFormed)
    (cache : Option SqpackViewEntryCache) (copied : List Nat) (out rel length : Nat)
    (hout : 0 < out) (hsum : rel + out ≤ v.SubHeader.DataSize) (r : ReadResult)
    (hr : v.readFromEntries cache copied out rel length = some r) :
    ∃ k e, r.m_lastAccessedEntryIndex = some k ∧ v.m_entries[k]? = some e ∧
      e.Locator.DatFileOffset ≤ v.m_header.length + rel + out - 1 ∧
      v.m_header.length + rel + out - 1 < e.Locator.DatFileOffset + e.EntrySize := by
  have hpos : 0 < v.m_entries.length := List.length_pos.mpr hw.nonempty
  have hstart : v.m_lastAccessedEntryIndex.getD 0 < v.m_entries.length := by
    cases hh : v.m_lastAccessedEntryIndex with
    | none => simpa using hpos
    | some i => simpa using hw.hint i hh
  obtain ⟨e, he, hle⟩ := start_entry_spec v hw (rel + v.m_header.length)
    (v.m_lastAccessedEntryIndex.getD 0) _ (List.getElem?_eq_getElem hstart) (by omega)
  unfold DataViewStream.readFromEntries at hr
  simp only [List.getElem?_eq_getElem hstart] at hr
  generalize hit : (if (v.m_entries[v.m_lastAccessedEntryIndex.getD 0]).Locator.DatFileOffset >
        rel + v.m_header.length ∨
      rel + v.m_header.length ≥
        (v.m_entries[v.m_lastAccessedEntryIndex.getD 0]).Locator.DatFileOffset +
          (v.m_entries[v.m_lastAccessedEntryIndex.getD 0]).EntrySize then
      if DataViewStream.lowerBound (rel + v.m_header.length) v.m_entries ≠ 0 ∧
          (DataViewStream.lowerBound (rel + v.m_header.length) v.m_entries = v.m_entries.length ∨
            ∃ e, v.m_entries[DataViewStream.lowerBound (rel + v.m_header.length) v.m_entries]? =
                some e ∧ e.Locator.DatFileOffset > rel + v.m_header.length)
      then DataViewStream.lowerBound (rel + v.m_header.length) v.m_entries - 1
      else DataViewStream.lowerBound (rel + v.m_header.length) v.m_entries
    else v.m_lastAccessedEntryIndex.getD 0) = it at he hr
  simp only [he] at hr
  have hloc := hw.located it e he
  rw [if_neg (by omega)] at hr
  have hsplit : v.m_entries = v.m_entries.take it ++ v.m_entries.drop it :=
    (List.take_append_drop it v.m_entries).symm
  have hsizes : (v.m_entries.map (fun e => e.EntrySize)).sum =
      ((v.m_entries.take it).map (fun e => e.EntrySize)).sum +
        ((v.m_entries.drop it).map (fun e => e.EntrySize)).sum := by
    conv_lhs => rw [hsplit]
    rw [List.map_append, List.sum_append]
  have hsz := hw.size
  cases hloop : DataViewStream.readEntries v.id it (v.m_entries.drop it)
      (rel - (e.Locator.DatFileOffset - v.m_header.length))
      ⟨out, copied, v.m_lastAccessedEntryIndex, cache⟩ with
  | none => simp [hloop] at hr
  | some st' =>
    rw [hloop] at hr
    simp only [Option.some.injEq] at hr
    subst hr
    obtain ⟨i, e', h1, h2, h3, h4⟩ := readEntries_hint v.id _ _ _ _ _ hloop hout
      (by simp only; omega)
    rw [List.getElem?_drop] at h2
    have hloc' := hw.located (it + i) e' h2
    have htk : ((v.m_entries.take (it + i)).map (fun e => e.EntrySize)).sum =
        ((v.m_entries.take it).map (fun e => e.EntrySize)).sum +
          (((v.m_entries.drop it).take i).map (fun e => e.EntrySize)).sum := by
      rw [List.take_add, List.map_append, List.sum_append]
    simp only at h3 h4
    refine ⟨it + i, e', h1, h2, ?_, ?_⟩
    · omega
    · omega

/-- What `ReadStreamPartial` leaves as `m_lastAccessedEntryIndex`: the value
it found when the read does not reach the entries, and otherwise the position
of the entry in which the last byte read lies. -/
theorem ReadStreamPartial_hint (v : DataViewStream) (hw : v.WellFormed)
    (cache : Option SqpackViewEntryCache) (offset length : Nat)
    (hin : offset + length ≤ v.StreamSize) (r : ReadResult)
    (hr : v.ReadStreamPartial cache offset length = some r) :
    ((length = 0 ∨ offset + length ≤ v.m_header.length) →
      r.m_lastAccessedEntryIndex = v.m_lastAccessedEntryIndex) ∧
    (length ≠ 0 → v.m_header.length < offset + length →
      ∃ k e, r.m_lastAccessedEntryIndex = some k ∧ v.m_entries[k]? = some e ∧
        e.Locator.DatFileOffset ≤ offset + length - 1 ∧
        offset + length - 1 < e.Locator.DatFileOffset + e.EntrySize) := by
  unfold DataViewStream.StreamSize at hin
  unfold DataViewStream.ReadStreamPartial at hr
  by_cases hl : length = 0
  · rw [if_pos hl] at hr
    simp only [Option.some.injEq] at hr
    subst hr
    exact ⟨fun _ => rfl, fun h => absurd hl h⟩
  · rw [if_neg hl] at hr
    by_cases hh : offset < v.m_header.length
    · rw [if_pos hh] at hr
      simp only [List.length_drop] at hr
      by_cases hdone : length - min length (v.m_header.length - offset) = 0
      · rw [if_pos hdone] at hr
        simp only [Option.some.injEq] at hr
        subst hr
        refine ⟨fun _ => rfl, ?_⟩
        intro _ hlt
        omega
      · rw [if_neg hdone] at hr
        obtain ⟨k, e, h1, h2, h3, h4⟩ := readFromEntries_hint v hw cache _ _ 0 length
          (by omega) (by omega) r hr
        refine ⟨?_, fun _ _ => ⟨k, e, h1, h2, by omega, by omega⟩⟩
        intro hc
        omega
    · rw [if_neg hh] at hr
      obtain ⟨k, e, h1, h2, h3, h4⟩ := readFromEntries_hint v hw cache _ _ _ length
        (by omega) (by omega) r hr
      refine ⟨?_, fun _ _ => ⟨k, e, h1, h2, by omega, by omega⟩⟩
      intro hc
      omega

/-! ## `AddEntry`: the sizes of the tables -/

theorem Table.adjust_length (lt : EntryPathSpec → EntryPathSpec → Bool) (f : Entry → Entry)
    (t : Table) (k : EntryPathSpec) : (Table.adjust lt f t k).length = t.length := by
  induction t with
  | nil => rfl
  | cons a t ih =>
    obtain ⟨k', e⟩ := a
    unfold Table.adjust
    split
    · rfl
    · simp [ih]

theorem Table.emplace_length (lt : EntryPathSpec → EntryPathSpec → Bool) (t : Table)
    (k : EntryPathSpec) (v : Entry) (h : Table.find lt t k = none) :
    (Table.emplace lt t k v).length = t.length + 1 := by
  obtain ⟨before, after, h1, h2⟩ := Table.emplace_of_find_none lt t k v h
  rw [h2, h1]
  simp
  omega

theorem Table.erase_length (lt : EntryPathSpec → EntryPathSpec → Bool) (t : Table)
    (k k' : EntryPathSpec) (e : Entry) (h : Table.find lt t k = some (k', e)) :
    (Table.erase lt t k).length + 1 = t.length := by
  obtain ⟨hk, before, after, h1, hb⟩ := Table.find_split h
  rw [h1, Table.erase_split lt k k' e before after hb hk]
  simp
  omega

theorem Table.equiv_symm (lt : EntryPathSpec → EntryPathSpec → Bool) (a b : EntryPathSpec) :
    Table.equiv lt a b = Table.equiv lt b a := by
  unfold Table.equiv
  exact Bool.and_comm _ _

theorem equiv_AllHash_trans (a b k : EntryPathSpec)
    (hab : Table.equiv AllHashComparator a b = true)
    (hbk : Table.equiv AllHashComparator b k = true) :
    Table.equiv AllHashComparator a k = true := by
  rw [equiv_AllHash_iff] at hab hbk ⊢
  obtain ⟨h1, h2, h3⟩ := hab
  obtain ⟨h4, h5, h6⟩ := hbk
  exact ⟨by omega, by omega, by omega⟩

theorem equiv_AllHash_of_FullPath (a b : EntryPathSpec)
    (h : Table.equiv FullPathComparator a b = true) :
    Table.equiv AllHashComparator a b = true :=
  ((equiv_FullPath_iff a b).mp h).1

theorem Table.adjust_keys (lt : EntryPathSpec → EntryPathSpec → Bool) (f : Entry → Entry)
    (t : Table) (k : EntryPathSpec) :
    (Table.adjust lt f t k).map Prod.fst = t.map Prod.fst := by
  induction t with
  | nil => rfl
  | cons a t ih =>
    obtain ⟨k', e⟩ := a
    unfold Table.adjust
    split
    · rfl
    · simp [ih]

theorem pairwise_keys_iff (R : EntryPathSpec → EntryPathSpec → Prop) (t : Table) :
    t.Pairwise (fun a b => R a.1 b.1) ↔ (t.map Prod.fst).Pairwise R := by
  rw [List.pairwise_map]

theorem mem_keys_iff (P : EntryPathSpec → Prop) (t : Table) :
    (∀ a ∈ t, P a.1) ↔ ∀ k ∈ t.map Prod.fst, P k := by
  simp

/-- Inserting a key that no key of the table is equivalent to keeps the keys
pairwise inequivalent. -/
theorem pairwise_insert (lt : EntryPathSpec → EntryPathSpec → Bool) (before after : Table)
    (k : EntryPathSpec) (v : Entry)
    (hP : (before ++ after).Pairwise (fun a b => Table.equiv lt a.1 b.1 = false))
    (hk : ∀ x ∈ before ++ after, Table.equiv lt x.1 k = false) :
    (before ++ (k, v) :: after).Pairwise (fun a b => Table.equiv lt a.1 b.1 = false) := by
  rw [List.pairwise_append] at hP ⊢
  obtain ⟨h1, h2, h3⟩ := hP
  refine ⟨h1, List.pairwise_cons.mpr ⟨fun b hb => ?_, h2⟩, fun a ha b hb => ?_⟩
  · rw [Table.equiv_symm]
    exact hk b (List.mem_append_right _ hb)
  · rcases List.mem_cons.mp hb with rfl | hb
    · exact hk a (List.mem_append_left _ ha)
    · exact h3 a ha b hb

theorem pairwise_remove (lt : EntryPathSpec → EntryPathSpec → Bool) (before after : Table)
    (x : EntryPathSpec × Entry)
    (hP : (before ++ x :: after).Pairwise (fun a b => Table.equiv lt a.1 b.1 = false)) :
    (before ++ after).Pairwise (fun a b => Table.equiv lt a.1 b.1 = false) :=
  hP.sublist (List.Sublist.append_left (List.sublist_cons_self x after) before)

/-- A write through `pEntry` keeps the invariant: the keys stay. -/
theorem Valid.of_adjustSlot {c : Creator} (hv : c.Valid) (s : Slot) (k : EntryPathSpec)
    (f : Entry → Entry) : (adjustSlot c s k f).Valid := by
  cases s with
  | hashOnly =>
    refine ⟨?_, hv.fullKeys, ?_⟩
    · have := hv.hashOnlyKeys
      rw [pairwise_keys_iff (fun a b => Table.equiv AllHashComparator a b = false)] at this ⊢
      simpa [Creator.adjustSlot, Table.adjust_keys] using this
    · have := hv.disjoint
      intro a ha b hb
      have hmem : a.1 ∈ c.m_hashOnlyEntries.map Prod.fst := by
        have : a.1 ∈ (Table.adjust AllHashComparator f c.m_hashOnlyEntries k).map Prod.fst :=
          List.mem_map_of_mem _ ha
        rwa [Table.adjust_keys] at this
      obtain ⟨a', ha', hfst⟩ := List.mem_map.mp hmem
      rw [← hfst]
      exact hv.disjoint a' ha' b hb
  | full =>
    refine ⟨hv.hashOnlyKeys, ?_, ?_⟩
    · have := hv.fullKeys
      rw [pairwise_keys_iff (fun a b => Table.equiv FullPathComparator a b = false)] at this ⊢
      simpa [Creator.adjustSlot, Table.adjust_keys] using this
    · intro a ha b hb
      have hmem : b.1 ∈ c.m_fullEntries.map Prod.fst := by
        have : b.1 ∈ (Table.adjust FullPathComparator f c.m_fullEntries k).map Prod.fst :=
          List.mem_map_of_mem _ hb
        rwa [Table.adjust_keys] at this
      obtain ⟨b', hb', hfst⟩ := List.mem_map.mp hmem
      rw [← hfst]
      exact hv.disjoint a ha b' hb'

/-- In a valid state the key of a migration is free in the full-path table:
the entry found in the hash-only table has the three hashes of the offered
PathSpec, and no key of the full-path table has them. -/
theorem Valid.migration_free {c : Creator} (hv : c.Valid) (p k : EntryPathSpec) (e : Entry)
    (hH : Table.find AllHashComparator c.m_hashOnlyEntries p = some (k, e)) :
    Table.find FullPathComparator c.m_fullEntries p = none := by
  obtain ⟨hk, before, after, hsplit, _⟩ := Table.find_split hH
  have hmem : (k, e) ∈ c.m_hashOnlyEntries := by rw [hsplit]; simp
  unfold Table.find
  rw [List.find?_eq_none]
  intro b hb
  have hd := hv.disjoint (k, e) hmem b hb
  simp only [Bool.not_eq_true]
  rw [Bool.eq_false_iff]
  intro hbp
  have h1 := equiv_AllHash_of_FullPath _ _ hbp
  rw [Table.equiv_symm] at h1
  have := equiv_AllHash_trans _ _ _ hk h1
  simp only at hd
  rw [hd] at this
  cases this

/-- A new entry for a PathSpec found in neither table keeps the invariant. -/
theorem Valid.of_emplace_fresh {c : Creator} (hv : c.Valid) (p : EntryPathSpec) (v : Entry)
    (hH : Table.find AllHashComparator c.m_hashOnlyEntries p = none)
    (hF : Table.find FullPathComparator c.m_fullEntries p = none) :
    (p.HasOriginal = true →
      Valid { c with m_fullEntries := Table.emplace FullPathComparator c.m_fullEntries p v }) ∧
    (p.HasOriginal = false →
      Valid { c with
        m_hashOnlyEntries := Table.emplace AllHashComparator c.m_hashOnlyEntries p v }) := by
  have hallH := Table.find_none_forall hH
  have hallF := Table.find_none_forall hF
  constructor
  · intro _
    obtain ⟨before, after, h1, h2⟩ :=
      Table.emplace_of_find_none FullPathComparator c.m_fullEntries p v hF
    refine ⟨hv.hashOnlyKeys, ?_, ?_⟩
    · simp only
      rw [h2]
      exact pairwise_insert _ _ _ _ _ (h1 ▸ hv.fullKeys) (h1 ▸ hallF)
    · intro a ha b hb
      simp only at ha hb
      rw [h2] at hb
      rcases List.mem_append.mp hb with hb | hb
      · exact hv.disjoint a ha b (by rw [h1]; exact List.mem_append_left _ hb)
      · rcases List.mem_cons.mp hb with rfl | hb
        · exact hallH a ha
        · exact hv.disjoint a ha b (by rw [h1]; exact List.mem_append_right _ hb)
  · intro hp
    obtain ⟨before, after, h1, h2⟩ :=
      Table.emplace_of_find_none AllHashComparator c.m_hashOnlyEntries p v hH
    refine ⟨?_, hv.fullKeys, ?_⟩
    · simp only
      rw [h2]
      exact pairwise_insert _ _ _ _ _ (h1 ▸ hv.hashOnlyKeys) (h1 ▸ hallH)
    · intro a ha b hb
      simp only at ha hb
      rw [h2] at ha
      have hnew : Table.equiv AllHashComparator p b.1 = false := by
        rw [Bool.eq_false_iff]
        intro h
        have h' : Table.equiv FullPathComparator b.1 p = true := by
          refine equiv_FullPath_of_no_text _ _ ?_ (Or.inr hp)
          rw [Table.equiv_symm]
          exact h
        rw [hallF b hb] at h'
        cases h'
      rcases List.mem_append.mp ha with ha | ha
      · exact hv.disjoint a (by rw [h1]; exact List.mem_append_left _ ha) b hb
      · rcases List.mem_cons.mp ha with rfl | ha
        · exact hnew
        · exact hv.disjoint a (by rw [h1]; exact List.mem_append_right _ ha) b hb

/-- The migration of the entry found for `p` keeps the invariant. -/
theorem Valid.of_migrate {c : Creator} (hv : c.Valid) (p k : EntryPathSpec) (e v : Entry)
    (hH : Table.find AllHashComparator c.m_hashOnlyEntries p = some (k, e)) :
    Valid { c with
      m_fullEntries := Table.emplace FullPathComparator c.m_fullEntries p v
      m_hashOnlyEntries := Table.erase AllHashComparator c.m_hashOnlyEntries p } := by
  have hF := hv.migration_free p k e hH
  have hallF := Table.find_none_forall hF
  obtain ⟨hk, before, after, hsplit, hb⟩ := Table.find_split hH
  obtain ⟨before', after', h1, h2⟩ :=
    Table.emplace_of_find_none FullPathComparator c.m_fullEntries p v hF
  have herase := Table.erase_split AllHashComparator p k e before after hb hk
  rw [← hsplit] at herase
  have hP := hv.hashOnlyKeys
  rw [hsplit] at hP
  have hrest : ∀ a ∈ before ++ after, Table.equiv AllHashComparator a.1 p = false := by
    intro a ha
    have hP' := List.pairwise_append.mp hP
    rcases List.mem_append.mp ha with ha | ha
    · exact hb a ha
    · have := (List.pairwise_cons.mp hP'.2.1).1 a ha
      exact equiv_AllHash_trans_false _ _ _ this hk
  refine ⟨?_, ?_, ?_⟩
  · simp only
    rw [herase]
    exact pairwise_remove _ _ _ _ hP
  · simp only
    rw [h2]
    exact pairwise_insert _ _ _ _ _ (h1 ▸ hv.fullKeys) (h1 ▸ hallF)
  · intro a ha b hb'
    simp only at ha hb'
    rw [herase] at ha
    rw [h2] at hb'
    have ha' : a ∈ c.m_hashOnlyEntries := by
      rw [hsplit]
      rcases List.mem_append.mp ha with ha | ha
      · exact List.mem_append_left _ ha
      · exact List.mem_append_right _ (List.mem_cons_of_mem _ ha)
    rcases List.mem_append.mp hb' with hb' | hb'
    · exact hv.disjoint a ha' b (by rw [h1]; exact List.mem_append_left _ hb')
    · rcases List.mem_cons.mp hb' with rfl | hb'
      · exact hrest a ha
      · exact hv.disjoint a ha' b (by rw [h1]; exact List.mem_append_right _ hb')

/-- Lines 199-208 keep the invariant, however they end. -/
theorem Valid.of_existing {c : Creator} (hv : c.Valid) (env : Env) (result : AddEntryResult)
    (provider : EntryProvider) (overwriteExisting : Bool) (s : Slot) (e : Entry) :
    (∀ c1 r1, AddEntry.existing env c result provider overwriteExisting s e =
        TryOutcome.completed c1 r1 → c1.Valid) ∧
    (∀ c1 r1 what alive, AddEntry.existing env c result provider overwriteExisting s e =
        TryOutcome.threw c1 r1 what alive → c1.Valid) ∧
    AddEntry.existing env c result provider overwriteExisting s e ≠
      TryOutcome.undefinedBehaviour := by
  unfold AddEntry.existing
  refine ⟨fun c1 r1 h => ?_, fun c1 r1 w a h => ?_, fun h => ?_⟩
  all_goals repeat' split at h
  all_goals cases h
  all_goals first
    | exact hv
    | exact hv.of_adjustSlot _ _ _

/-- Lines 210-215 keep the invariant, however they end. -/
theorem Valid.of_fresh {c : Creator} (hv : c.Valid) (env : Env) (result : AddEntryResult)
    (provider : EntryProvider)
    (hH : Table.find AllHashComparator c.m_hashOnlyEntries provider.PathSpec = none)
    (hF : Table.find FullPathComparator c.m_fullEntries provider.PathSpec = none) :
    (∀ c1 r1, AddEntry.fresh env c result provider = TryOutcome.completed c1 r1 → c1.Valid) ∧
    (∀ c1 r1 what alive, AddEntry.fresh env c result provider =
        TryOutcome.threw c1 r1 what alive → c1.Valid) ∧
    AddEntry.fresh env c result provider ≠ TryOutcome.undefinedBehaviour := by
  have hfresh := hv.of_emplace_fresh provider.PathSpec ⟨0, ⟨0, 0⟩, provider⟩ hH hF
  unfold AddEntry.fresh
  refine ⟨fun c1 r1 h => ?_, fun c1 r1 w a h => ?_, fun h => ?_⟩
  all_goals
    cases h1 : env.throws Op.MakeEntry <;> cases h2 : env.throws Op.Emplace <;>
      cases h3 : env.throws Op.PushAdded <;> simp only [h1, h2, h3] at h <;> cases h
  all_goals first
    | exact hv
    | (cases hp : provider.PathSpec.HasOriginal
       · simpa [hp] using hfresh.2 hp
       · simpa [hp] using hfresh.1 hp)

/-- The `try` block of `AddEntry` keeps the invariant, however it ends, and
in a valid state it does not reach the undefined dereference. -/
theorem Valid.of_tryBlock {c : Creator} (hv : c.Valid) (env : Env) (result : AddEntryResult)
    (provider : EntryProvider) (overwriteExisting : Bool) :
    (∀ c1 r1, AddEntry.tryBlock env c result provider overwriteExisting =
        TryOutcome.completed c1 r1 → c1.Valid) ∧
    (∀ c1 r1 what alive, AddEntry.tryBlock env c result provider overwriteExisting =
        TryOutcome.threw c1 r1 what alive → c1.Valid) ∧
    AddEntry.tryBlock env c result provider overwriteExisting ≠
      TryOutcome.undefinedBehaviour := by
  unfold AddEntry.tryBlock
  cases hH : Table.find AllHashComparator c.m_hashOnlyEntries provider.PathSpec with
  | some kv =>
    obtain ⟨k, e⟩ := kv
    simp only
    by_cases hcond : (!e.Provider.PathSpec.HasOriginal && provider.PathSpec.HasOriginal) = true
    · rw [if_pos hcond]
      have hF := hv.migration_free provider.PathSpec k e hH
      have hm := Valid.of_existing
        (hv.of_migrate provider.PathSpec k e
          { e with Provider := e.Provider.UpdatePathSpec provider.PathSpec } hH)
        env result provider overwriteExisting Slot.full
        { e with Provider := e.Provider.UpdatePathSpec provider.PathSpec }
      cases h1 : env.throws Op.UpdatePathSpec with
      | some what =>
        refine ⟨fun c1 r1 h => ?_, fun c1 r1 w a h => ?_, fun h => ?_⟩
        all_goals cases h
        exact hv
      | none =>
        cases h2 : env.throws Op.Emplace with
        | some what =>
          refine ⟨fun c1 r1 h => ?_, fun c1 r1 w a h => ?_, fun h => ?_⟩
          all_goals cases h
          exact hv.of_adjustSlot Slot.hashOnly _ _
        | none =>
          simp only [hF, Option.isNone_none, if_true]
          exact hm
    · rw [if_neg hcond]
      exact Valid.of_existing hv env result provider overwriteExisting Slot.hashOnly e
  | none =>
    simp only
    cases hF : Table.find FullPathComparator c.m_fullEntries provider.PathSpec with
    | some kv =>
      obtain ⟨k, e⟩ := kv
      exact Valid.of_existing hv env result provider overwriteExisting Slot.full e
    | none => exact Valid.of_fresh hv env result provider hH hF

/-- The builder that the constructor makes is valid. -/
theorem new_valid (ex name : String) (maxFileSize : Nat) (c : Creator)
    (h : new ex name maxFileSize = Except.ok c) : c.Valid := by
  unfold new at h
  split at h
  · cases h
  · injection h with h
    subst h
    exact ⟨List.Pairwise.nil, List.Pairwise.nil, fun a ha => by cases ha⟩

/-- `AddEntry` keeps the invariant, whatever fails. -/
theorem AddEntry_valid (env : Env) (c : Creator) (result : AddEntryResult)
    (provider : EntryProvider) (overwriteExisting : Bool) (hv : c.Valid)
    (c1 : Creator) (r1 : AddEntryResult)
    (h : AddEntry env c result provider overwriteExisting = some (c1, r1)) : c1.Valid := by
  obtain ⟨h1, h2, _⟩ := hv.of_tryBlock env result provider overwriteExisting
  unfold AddEntry at h
  cases ht : AddEntry.tryBlock env c result provider overwriteExisting with
  | completed c2 r2 =>
    rw [ht] at h
    simp only [Option.some.injEq, Prod.mk.injEq] at h
    exact h.1 ▸ h1 c2 r2 ht
  | threw c2 r2 what alive =>
    rw [ht] at h
    cases alive with
    | false => simp at h
    | true =>
      simp only [if_true, Option.some.injEq, Prod.mk.injEq] at h
      exact h.1 ▸ h2 c2 r2 what true ht
  | undefinedBehaviour =>
    rw [ht] at h
    cases h

/-- `ReserveSwappableSpace` keeps the invariant. -/
theorem ReserveSwappableSpace_valid (c : Creator) (p : EntryPathSpec) (n : Nat)
    (hv : c.Valid) : (ReserveSwappableSpace c p n).Valid := by
  unfold ReserveSwappableSpace
  cases hH : Table.find AllHashComparator c.m_hashOnlyEntries p with
  | some kv =>
    obtain ⟨k, e⟩ := kv
    simp only
    split
    · exact hv.of_migrate p k e _ hH
    · exact hv.of_adjustSlot Slot.hashOnly p _
  | none =>
    simp only
    cases hF : Table.find FullPathComparator c.m_fullEntries p with
    | some kv => exact hv.of_adjustSlot Slot.full p _
    | none =>
      simp only
      have hfresh := hv.of_emplace_fresh p ⟨n, ⟨0, 0⟩, EmptyOrObfuscatedEntryProvider p⟩ hH hF
      cases hp : p.HasOriginal with
      | true => simpa [EmptyOrObfuscatedEntryProvider, hp] using hfresh.1 hp
      | false => simpa [EmptyOrObfuscatedEntryProvider, hp] using hfresh.2 hp

theorem Valid.of_builderHash : Example.builderHash.Valid :=
  ⟨by simp [Example.builderHash], by simp [Example.builderHash, Example.builder],
    by simp [Example.builderHash, Example.builder]⟩


theorem Table.find_mem {lt : EntryPathSpec → EntryPathSpec → Bool} {t : Table}
    {k : EntryPathSpec} {kv : EntryPathSpec × Entry} (h : Table.find lt t k = some kv) :
    kv ∈ t :=
  List.mem_of_find?_eq_some h

theorem GetFile_of_lookup (c : Creator) (p k : EntryPathSpec) (e : Entry)
    (h : Table.find AllHashComparator c.m_hashOnlyEntries p = some (k, e) ∨
      (Table.find AllHashComparator c.m_hashOnlyEntries p = none ∧
        Table.find FullPathComparator c.m_fullEntries p = some (k, e))) :
    GetFile c p = Except.ok e.Provider := by
  rcases h with h | ⟨h1, h2⟩
  · simp [GetFile, h]
  · simp [GetFile, h1, h2]


theorem Table.find_adjust (lt : EntryPathSpec → EntryPathSpec → Bool) (f : Entry → Entry)
    (t : Table) (k : EntryPathSpec) :
    Table.find lt (Table.adjust lt f t k) k =
      (Table.find lt t k).map (fun kv => (kv.1, f kv.2)) := by
  induction t with
  | nil => rfl
  | cons a t ih =>
    obtain ⟨k', e⟩ := a
    unfold Table.adjust
    by_cases h : Table.equiv lt k' k = true
    · simp [Table.find, h]
    · simp only [h, Bool.false_eq_true, if_false]
      simp only [Table.find] at ih ⊢
      simp [h, ih]

/-- `AddEntry` on an entry that the lookups of lines 188 and 195 find, in a
valid state and with nothing failing: the call returns, the entry is found
again afterwards (in the full-path table when it has migrated) with its size
and locator and with the provider that the overwrite policy gives it, the
provider is reported, and the number of entries is as before. -/
theorem AddEntry_on_existing (c : Creator) (result : AddEntryResult) (provider : EntryProvider)
    (overwriteExisting : Bool) (k : EntryPathSpec) (e : Entry) (hv : c.Valid)
    (hfound :
      Table.find AllHashComparator c.m_hashOnlyEntries provider.PathSpec = some (k, e) ∨
      (Table.find AllHashComparator c.m_hashOnlyEntries provider.PathSpec = none ∧
        Table.find FullPathComparator c.m_fullEntries provider.PathSpec = some (k, e))) :
    ∃ c1 k1,
      AddEntry Env.quiet c result provider overwriteExisting =
        some (c1,
          if overwriteExisting then { result with Replaced := result.Replaced ++ [provider] }
          else
            { result with
              SkippedExisting :=
                result.SkippedExisting ++ [e.Provider.UpdatePathSpec provider.PathSpec] }) ∧
      (Table.find AllHashComparator c1.m_hashOnlyEntries provider.PathSpec =
          some (k1, { e with
            Provider :=
              if overwriteExisting then provider
              else e.Provider.UpdatePathSpec provider.PathSpec }) ∨
        (Table.find AllHashComparator c1.m_hashOnlyEntries provider.PathSpec = none ∧
          Table.find FullPathComparator c1.m_fullEntries provider.PathSpec =
            some (k1, { e with
              Provider :=
                if overwriteExisting then provider
                else e.Provider.UpdatePathSpec provider.PathSpec }))) ∧
      c1.m_hashOnlyEntries.length + c1.m_fullEntries.length =
        c.m_hashOnlyEntries.length + c.m_fullEntries.length := by
  have hfree : ∀ k e,
      Table.find AllHashComparator c.m_hashOnlyEntries provider.PathSpec = some (k, e) →
      e.Provider.PathSpec.HasOriginal = false → provider.PathSpec.HasOriginal = true →
      Table.find FullPathComparator c.m_fullEntries provider.PathSpec = none :=
    fun k e h _ _ => hv.migration_free _ k e h
  obtain ⟨c1, r1, h1⟩ := AddEntry_defined c result provider overwriteExisting hfree
  have h2 := h1
  rcases hfound with hH | ⟨hH, hF⟩
  · by_cases hcond :
        (!e.Provider.PathSpec.HasOriginal && provider.PathSpec.HasOriginal) = true
    · -- the entry migrates
      have hF := hv.migration_free provider.PathSpec k e hH
      have hfe := Table.find_emplace_self FullPathComparator c.m_fullEntries provider.PathSpec
        { e with Provider := e.Provider.UpdatePathSpec provider.PathSpec } hF
        (equiv_FullPath_self _)
      have hne := Table.find_erase_none c.m_hashOnlyEntries provider.PathSpec hv.hashOnlyKeys
      have hl1 := Table.emplace_length FullPathComparator c.m_fullEntries provider.PathSpec
        { e with Provider := e.Provider.UpdatePathSpec provider.PathSpec } hF
      have hl2 := Table.erase_length AllHashComparator c.m_hashOnlyEntries provider.PathSpec
        k e hH
      cases overwriteExisting with
      | false =>
        simp only [AddEntry, AddEntry.tryBlock, AddEntry.existing, Env.quiet, hH, hcond, hF,
          if_true, Option.isNone_none, Bool.not_false, UpdatePathSpec_idem,
          Option.some.injEq, Prod.mk.injEq] at h2
        obtain ⟨hc, hr⟩ := h2
        subst hc hr
        refine ⟨_, provider.PathSpec, h1, Or.inr ⟨?_, ?_⟩, ?_⟩
        · simpa [adjustSlot] using hne
        · simp only [adjustSlot, Table.find_adjust, hfe, Option.map_some', UpdatePathSpec_idem,
            Bool.false_eq_true, if_false]
        · simp only [adjustSlot, Table.adjust_length]
          omega
      | true =>
        simp only [AddEntry, AddEntry.tryBlock, AddEntry.existing, Env.quiet, hH, hcond, hF,
          if_true, Option.isNone_none, Bool.not_true, Bool.false_eq_true, if_false,
          Option.some.injEq, Prod.mk.injEq] at h2
        obtain ⟨hc, hr⟩ := h2
        subst hc hr
        refine ⟨_, provider.PathSpec, h1, Or.inr ⟨?_, ?_⟩, ?_⟩
        · simpa [adjustSlot] using hne
        · simp only [adjustSlot, Table.find_adjust, hfe, Option.map_some', if_true]
        · simp only [adjustSlot, Table.adjust_length]
          omega
    · have hup : e.Provider.UpdatePathSpec provider.PathSpec = e.Provider := by
        simp only [Bool.not_eq_true] at hcond
        simp [EntryProvider.UpdatePathSpec, hcond]
      cases overwriteExisting with
      | false =>
        simp only [AddEntry, AddEntry.tryBlock, AddEntry.existing, Env.quiet, hH, hcond,
          Bool.not_false, if_true, Bool.false_eq_true, if_false,
          Option.some.injEq, Prod.mk.injEq] at h2
        obtain ⟨hc, hr⟩ := h2
        subst hc hr
        refine ⟨_, k, h1, Or.inl ?_, ?_⟩
        · simp only [adjustSlot, Table.find_adjust, hH, Option.map_some', Bool.false_eq_true,
            if_false]
        · simp only [adjustSlot, Table.adjust_length]
      | true =>
        simp only [AddEntry, AddEntry.tryBlock, AddEntry.existing, Env.quiet, hH, hcond,
          Bool.not_true, Bool.false_eq_true, if_false, if_true,
          Option.some.injEq, Prod.mk.injEq] at h2
        obtain ⟨hc, hr⟩ := h2
        subst hc hr
        refine ⟨_, k, h1, Or.inl ?_, ?_⟩
        · simp only [adjustSlot, Table.find_adjust, hH, Option.map_some', if_true]
        · simp only [adjustSlot, Table.adjust_length]
  · cases overwriteExisting with
    | false =>
      simp only [AddEntry, AddEntry.tryBlock, AddEntry.existing, Env.quiet, hH, hF,
        Bool.not_false, if_true, Bool.false_eq_true, if_false,
        Option.some.injEq, Prod.mk.injEq] at h2
      obtain ⟨hc, hr⟩ := h2
      subst hc hr
      refine ⟨_, k, h1, Or.inr ⟨?_, ?_⟩, ?_⟩
      · simpa [adjustSlot] using hH
      · simp only [adjustSlot, Table.find_adjust, hF, Option.map_some', Bool.false_eq_true,
          if_false]
      · simp only [adjustSlot, Table.adjust_length]
    | true =>
      simp only [AddEntry, AddEntry.tryBlock, AddEntry.existing, Env.quiet, hH, hF,
        Bool.not_true, Bool.false_eq_true, if_false, if_true,
        Option.some.injEq, Prod.mk.injEq] at h2
      obtain ⟨hc, hr⟩ := h2
      subst hc hr
      refine ⟨_, k, h1, Or.inr ⟨?_, ?_⟩, ?_⟩
      · simpa [adjustSlot] using hH
      · simp only [adjustSlot, Table.find_adjust, hF, Option.map_some', if_true]
      · simp only [adjustSlot, Table.adjust_length]

/-- When lines 199-208 raise, the offered provider is alive. -/
theorem AddEntry.existing_threw_alive {env : Env} {c : Creator} {result : AddEntryResult}
    {provider : EntryProvider} {overwriteExisting : Bool} {s : Slot}
    {e : Entry} {c1 : Creator} {r1 : AddEntryResult} {what : String} {alive : Bool}
    (h : AddEntry.existing env c result provider overwriteExisting s e
      = TryOutcome.threw c1 r1 what alive) : alive = true := by
  unfold AddEntry.existing at h
  repeat' split at h
  all_goals cases h
  all_goals rfl

/-- The `try` block of `AddEntry` ends with an exception and the offered
provider destroyed in one case only: no entry is found for the PathSpec, the
new entry is made, its insertion into the map raises and the caller keeps no
reference to the provider. -/
theorem AddEntry.tryBlock_threw_destroyed {env : Env} {c : Creator} {result : AddEntryResult}
    {provider : EntryProvider} {overwriteExisting : Bool}
    {c1 : Creator} {r1 : AddEntryResult} {what : String}
    (h : AddEntry.tryBlock env c result provider overwriteExisting
      = TryOutcome.threw c1 r1 what false) :
    Table.find AllHashComparator c.m_hashOnlyEntries provider.PathSpec = none ∧
    Table.find FullPathComparator c.m_fullEntries provider.PathSpec = none ∧
    env.throws Op.MakeEntry = none ∧ env.throws Op.Emplace = some what ∧
    env.callerKeepsProvider = false ∧ c1 = c := by
  unfold AddEntry.tryBlock at h
  cases hH : Table.find AllHashComparator c.m_hashOnlyEntries provider.PathSpec with
  | some kv =>
    obtain ⟨k, e⟩ := kv
    rw [hH] at h
    simp only at h
    exfalso
    repeat' split at h
    all_goals first
      | cases h
      | cases AddEntry.existing_threw_alive h
  | none =>
    rw [hH] at h
    simp only at h
    cases hF : Table.find FullPathComparator c.m_fullEntries provider.PathSpec with
    | some kv =>
      obtain ⟨k, e⟩ := kv
      rw [hF] at h
      simp only at h
      cases AddEntry.existing_threw_alive h
    | none =>
      rw [hF] at h
      simp only at h
      unfold AddEntry.fresh at h
      cases h1 : env.throws Op.MakeEntry with
      | some w =>
        rw [h1] at h
        cases h
      | none =>
        rw [h1] at h
        simp only at h
        cases h2 : env.throws Op.Emplace with
        | none =>
          rw [h2] at h
          simp only at h
          split at h <;> cases h
        | some w =>
          rw [h2] at h
          simp only at h
          injection h with hc hr hw ha
          exact ⟨rfl, rfl, rfl, by rw [hw], ha, hc.symm⟩


/-! ## SHA-1: two known digests -/

set_option maxRecDepth 1000000 in
/-- The test vector "abc" of FIPS 180. -/
theorem Sha1.digest_abc :
    Sha1.digest [97, 98, 99] =
      [0xa9, 0x99, 0x3e, 0x36, 0x47, 0x06, 0x81, 0x6a, 0xba, 0x3e, 0x25, 0x71, 0x78, 0x50, 0xc2,
        0x6c, 0x9c, 0xd0, 0xd8, 0x9d] := by
  decide

set_option maxRecDepth 1000000 in
/-- The digest of the empty message. -/
theorem Sha1.digest_empty :
    Sha1.digest [] =
      [0xda, 0x39, 0xa3, 0xee, 0x5e, 0x6b, 0x4b, 0x0d, 0x32, 0x55, 0xbf, 0xef, 0x95, 0x60, 0x18,
        0x90, 0xaf, 0xd8, 0x07, 0x09] := by
  rfl

/-! ## Theorems -/

/-- C1: constructing a `Creator` with `maxFileSize` above
`SqData::Header::MaxFileSize_MaxValue` fails with the `invalid_argument`
message, and for every `maxFileSize` up to that ceiling the construction
succeeds with an empty builder whose segment cap is exactly `maxFileSize`. -/
theorem new_rejects_above_ceiling (ex name : String) (maxFileSize : Nat) :
    (SqData.Header.MaxFileSize_MaxValue < maxFileSize →
        new ex name maxFileSize = Except.error "MaxFileSize cannot be more than 32GiB.") ∧
      (maxFileSize ≤ SqData.Header.MaxFileSize_MaxValue →
        ∃ c, new ex name maxFileSize = Except.ok c ∧ c.m_maxFileSize = maxFileSize ∧
          c.DatExpac = ex ∧ c.DatName = name ∧
          c.m_hashOnlyEntries = [] ∧ c.m_fullEntries = []) := by
  constructor
  · intro h
    simp [new, h]
  · intro h
    have h' : ¬ maxFileSize > SqData.Header.MaxFileSize_MaxValue := by omega
    refine ⟨{ m_maxFileSize := maxFileSize, DatExpac := ex, DatName := name,
              m_hashOnlyEntries := [], m_fullEntries := [],
              m_sqpackIndexSegment3 := [], m_sqpackIndex2Segment3 := [] }, ?_,
            rfl, rfl, rfl, rfl, rfl⟩
    simp only [new, if_neg h']

/-- C2: when the provider's PathSpec is found in neither table, `AddEntry`
(no allocation failing) inserts exactly one new entry, with `EntrySize` 0 and
a zero locator, holding the provider: into the full-path table when the
PathSpec has original path text and into the hash-only table otherwise. Every
other entry and every other field of the builder is unchanged, and the
provider is appended to `Added` (the other result lists are unchanged). -/
theorem AddEntry_inserts_when_absent (c : Creator) (result : AddEntryResult)
    (provider : EntryProvider) (overwriteExisting : Bool)
    (hHash : Table.find EntryPathSpec.AllHashComparator c.m_hashOnlyEntries provider.PathSpec
      = none)
    (hFull : Table.find EntryPathSpec.FullPathComparator c.m_fullEntries provider.PathSpec
      = none) :
    ∃ c1 before after,
      AddEntry Env.quiet c result provider overwriteExisting
        = some (c1, { result with Added := result.Added ++ [provider] }) ∧
      (provider.PathSpec.HasOriginal = true →
        c.m_fullEntries = before ++ after ∧
        c1 = { c with
          m_fullEntries := before ++ (provider.PathSpec, ⟨0, ⟨0, 0⟩, provider⟩) :: after }) ∧
      (provider.PathSpec.HasOriginal = false →
        c.m_hashOnlyEntries = before ++ after ∧
        c1 = { c with
          m_hashOnlyEntries :=
            before ++ (provider.PathSpec, ⟨0, ⟨0, 0⟩, provider⟩) :: after }) := by
  cases hO : provider.PathSpec.HasOriginal with
  | true =>
    obtain ⟨before, after, h1, h2⟩ :=
      Table.emplace_of_find_none EntryPathSpec.FullPathComparator c.m_fullEntries
        provider.PathSpec ⟨0, ⟨0, 0⟩, provider⟩ hFull
    refine ⟨_, before, after, ?_, fun _ => ⟨h1, rfl⟩, fun h => by simp at h⟩
    simp [AddEntry, AddEntry.tryBlock, AddEntry.fresh, hHash, hFull, Env.quiet, hO, h2]
  | false =>
    obtain ⟨before, after, h1, h2⟩ :=
      Table.emplace_of_find_none EntryPathSpec.AllHashComparator c.m_hashOnlyEntries
        provider.PathSpec ⟨0, ⟨0, 0⟩, provider⟩ hHash
    refine ⟨_, before, after, ?_, fun h => by simp at h, fun _ => ⟨h1, rfl⟩⟩
    simp [AddEntry, AddEntry.tryBlock, AddEntry.fresh, hHash, hFull, Env.quiet, hO, h2]

/-- Witness of C2: a hash-only provider offered to the empty builder. -/
theorem AddEntry_inserts_when_absent_witness :
    Table.find EntryPathSpec.AllHashComparator Example.builder.m_hashOnlyEntries
        Example.provHash.PathSpec = none ∧
      Table.find EntryPathSpec.FullPathComparator Example.builder.m_fullEntries
        Example.provHash.PathSpec = none ∧
      ∃ c1 before after,
        AddEntry Env.quiet Example.builder AddEntryResult.empty Example.provHash true
          = some (c1, { AddEntryResult.empty with
              Added := AddEntryResult.empty.Added ++ [Example.provHash] }) ∧
        (Example.provHash.PathSpec.HasOriginal = true →
          Example.builder.m_fullEntries = before ++ after ∧
          c1 = { Example.builder with
            m_fullEntries :=
              before ++ (Example.provHash.PathSpec, ⟨0, ⟨0, 0⟩, Example.provHash⟩) :: after }) ∧
        (Example.provHash.PathSpec.HasOriginal = false →
          Example.builder.m_hashOnlyEntries = before ++ after ∧
          c1 = { Example.builder with
            m_hashOnlyEntries :=
              before ++ (Example.provHash.PathSpec, ⟨0, ⟨0, 0⟩, Example.provHash⟩) :: after }) :=
  ⟨rfl, rfl,
    AddEntry_inserts_when_absent Example.builder AddEntryResult.empty Example.provHash true
      rfl rfl⟩

/-- C3: in every builder state that satisfies the invariant of the two tables
(no operation of the builder leaves it) and in which the lookups of `AddEntry`
find an entry `e` for the provider's PathSpec, in the hash-only table or else
in the full-path table, `AddEntry` with `overwriteExisting = true` returns
and appends the new provider to `Replaced`, the other lists staying as they
were. Afterwards the lookups find, for the PathSpec, the entry with the
`EntrySize` and the locator of `e` and with the new provider, and `GetFile`
returns the new provider; the two tables together hold as many entries as
before; the invariant holds again. The last three parts give the state after
the call exactly, so every other entry is unchanged: the entry is updated in
place, unless it is a hash-only entry without path text and the provider
carries path text, in which case it moves to the full-path table under the
provider's PathSpec. -/
theorem AddEntry_overwrite_existing (c : Creator) (result : AddEntryResult)
    (provider : EntryProvider) (k : EntryPathSpec) (e : Entry) (hv : c.Valid)
    (hfound :
      Table.find AllHashComparator c.m_hashOnlyEntries provider.PathSpec = some (k, e) ∨
      (Table.find AllHashComparator c.m_hashOnlyEntries provider.PathSpec = none ∧
        Table.find FullPathComparator c.m_fullEntries provider.PathSpec = some (k, e))) :
    ∃ c1 k1,
      AddEntry Env.quiet c result provider true =
        some (c1, { result with Replaced := result.Replaced ++ [provider] }) ∧
      (Table.find AllHashComparator c1.m_hashOnlyEntries provider.PathSpec =
          some (k1, { e with Provider := provider }) ∨
        (Table.find AllHashComparator c1.m_hashOnlyEntries provider.PathSpec = none ∧
          Table.find FullPathComparator c1.m_fullEntries provider.PathSpec =
            some (k1, { e with Provider := provider }))) ∧
      GetFile c1 provider.PathSpec = Except.ok provider ∧
      c1.m_hashOnlyEntries.length + c1.m_fullEntries.length =
        c.m_hashOnlyEntries.length + c.m_fullEntries.length ∧
      c1.Valid ∧
      (Table.find AllHashComparator c.m_hashOnlyEntries provider.PathSpec = some (k, e) →
        (!e.Provider.PathSpec.HasOriginal && provider.PathSpec.HasOriginal) = false →
        ∃ before after, c.m_hashOnlyEntries = before ++ (k, e) :: after ∧
          c1 = { c with
            m_hashOnlyEntries := before ++ (k, { e with Provider := provider }) :: after }) ∧
      (Table.find AllHashComparator c.m_hashOnlyEntries provider.PathSpec = some (k, e) →
        e.Provider.PathSpec.HasOriginal = false → provider.PathSpec.HasOriginal = true →
        ∃ before after before' after',
          c.m_hashOnlyEntries = before ++ (k, e) :: after ∧
          c.m_fullEntries = before' ++ after' ∧
          c1 = { c with
            m_hashOnlyEntries := before ++ after
            m_fullEntries :=
              before' ++ (provider.PathSpec, { e with Provider := provider }) :: after' }) ∧
      (Table.find AllHashComparator c.m_hashOnlyEntries provider.PathSpec = none →
        ∃ before after, c.m_fullEntries = before ++ (k, e) :: after ∧
          c1 = { c with
            m_fullEntries := before ++ (k, { e with Provider := provider }) :: after }) := by
  obtain ⟨c1, k1, h1, h2, h3⟩ := AddEntry_on_existing c result provider true k e hv hfound
  simp only [if_true] at h1 h2
  refine ⟨c1, k1, h1, h2, ?_, h3, AddEntry_valid _ _ _ _ _ hv _ _ h1, ?_, ?_, ?_⟩
  · exact GetFile_of_lookup c1 provider.PathSpec k1 _ h2
  · intro hH hcond
    obtain ⟨before, after, hs, hval⟩ := AddEntry_found_hashOnly c result provider true k e hH hcond
    rw [h1] at hval
    simp only [if_true, Option.some.injEq, Prod.mk.injEq] at hval
    exact ⟨before, after, hs, hval.1⟩
  · intro hH he hp
    obtain ⟨before, after, before', after', hs, hs', hval⟩ :=
      AddEntry_migrates c result provider true k e hH he hp
        (hv.migration_free provider.PathSpec k e hH)
    rw [h1] at hval
    simp only [if_true, Option.some.injEq, Prod.mk.injEq] at hval
    exact ⟨before, after, before', after', hs, hs', hval.1⟩
  · intro hH
    have hF : Table.find FullPathComparator c.m_fullEntries provider.PathSpec = some (k, e) := by
      rcases hfound with h | h
      · rw [hH] at h; cases h
      · exact h.2
    obtain ⟨before, after, hs, hval⟩ := AddEntry_found_full c result provider true k e hH hF
    rw [h1] at hval
    simp only [if_true, Option.some.injEq, Prod.mk.injEq] at hval
    exact ⟨before, after, hs, hval.1⟩

/-- Witness of C3: the builder that holds a file under its hashes gets a
provider for the path of the file; the entry moves to the full-path table and
holds the new provider. -/
theorem AddEntry_overwrite_existing_witness :
    Example.builderHash.Valid ∧
    Table.find AllHashComparator Example.builderHash.m_hashOnlyEntries
      Example.provPathNew.PathSpec = some (Example.specHash, ⟨0, ⟨0, 0⟩, Example.provHash⟩) ∧
    ∃ c1,
      AddEntry Env.quiet Example.builderHash AddEntryResult.empty Example.provPathNew true =
        some (c1, { AddEntryResult.empty with Replaced := [Example.provPathNew] }) ∧
      GetFile c1 Example.provPathNew.PathSpec = Except.ok Example.provPathNew ∧
      c1.m_hashOnlyEntries.length + c1.m_fullEntries.length = 1 :=
  ⟨Valid.of_builderHash, rfl,
    (AddEntry_overwrite_existing Example.builderHash AddEntryResult.empty Example.provPathNew
      Example.specHash ⟨0, ⟨0, 0⟩, Example.provHash⟩ Valid.of_builderHash (Or.inl rfl)).elim
      (fun c1 h => h.elim (fun _ h => ⟨c1, h.1, h.2.2.1, h.2.2.2.1⟩))⟩

/-- C4: in every builder state that satisfies the invariant of the two tables
and in which the lookups of `AddEntry` find an entry `e` for the provider's
PathSpec, `AddEntry` with `overwriteExisting = false` returns and appends the
provider of the entry, not the offered one, to `SkippedExisting`, the other
lists staying as they were. The entry keeps its `EntrySize`, its locator and
its provider, which `UpdatePathSpec` has upgraded: kind, content and the three
hashes are as before, and the path text is as before unless the provider had
none, in which case it is now the offered text. The two tables together hold
as many entries as before and the invariant holds again. The last three parts
give the state after the call exactly, so every other entry is unchanged. -/
theorem AddEntry_skip_existing (c : Creator) (result : AddEntryResult)
    (provider : EntryProvider) (k : EntryPathSpec) (e : Entry) (hv : c.Valid)
    (hfound :
      Table.find AllHashComparator c.m_hashOnlyEntries provider.PathSpec = some (k, e) ∨
      (Table.find AllHashComparator c.m_hashOnlyEntries provider.PathSpec = none ∧
        Table.find FullPathComparator c.m_fullEntries provider.PathSpec = some (k, e))) :
    ∃ c1 k1,
      AddEntry Env.quiet c result provider false =
        some (c1, { result with
          SkippedExisting :=
            result.SkippedExisting ++ [e.Provider.UpdatePathSpec provider.PathSpec] }) ∧
      (Table.find AllHashComparator c1.m_hashOnlyEntries provider.PathSpec =
          some (k1, { e with Provider := e.Provider.UpdatePathSpec provider.PathSpec }) ∨
        (Table.find AllHashComparator c1.m_hashOnlyEntries provider.PathSpec = none ∧
          Table.find FullPathComparator c1.m_fullEntries provider.PathSpec =
            some (k1, { e with Provider := e.Provider.UpdatePathSpec provider.PathSpec }))) ∧
      ((e.Provider.UpdatePathSpec provider.PathSpec).Kind = e.Provider.Kind ∧
        (e.Provider.UpdatePathSpec provider.PathSpec).Data = e.Provider.Data ∧
        (e.Provider.UpdatePathSpec provider.PathSpec).PathSpec.PathHash =
          e.Provider.PathSpec.PathHash ∧
        (e.Provider.UpdatePathSpec provider.PathSpec).PathSpec.NameHash =
          e.Provider.PathSpec.NameHash ∧
        (e.Provider.UpdatePathSpec provider.PathSpec).PathSpec.FullPathHash =
          e.Provider.PathSpec.FullPathHash ∧
        ((e.Provider.UpdatePathSpec provider.PathSpec).PathSpec.Original =
            e.Provider.PathSpec.Original ∨
          (e.Provider.PathSpec.HasOriginal = false ∧
            (e.Provider.UpdatePathSpec provider.PathSpec).PathSpec.Original =
              provider.PathSpec.Original))) ∧
      c1.m_hashOnlyEntries.length + c1.m_fullEntries.length =
        c.m_hashOnlyEntries.length + c.m_fullEntries.length ∧
      c1.Valid ∧
      (Table.find AllHashComparator c.m_hashOnlyEntries provider.PathSpec = some (k, e) →
        (!e.Provider.PathSpec.HasOriginal && provider.PathSpec.HasOriginal) = false →
        c1 = c ∧ e.Provider.UpdatePathSpec provider.PathSpec = e.Provider) ∧
      (Table.find AllHashComparator c.m_hashOnlyEntries provider.PathSpec = some (k, e) →
        e.Provider.PathSpec.HasOriginal = false → provider.PathSpec.HasOriginal = true →
        ∃ before after before' after',
          c.m_hashOnlyEntries = before ++ (k, e) :: after ∧
          c.m_fullEntries = before' ++ after' ∧
          c1 = { c with
            m_hashOnlyEntries := before ++ after
            m_fullEntries :=
              before' ++
                (provider.PathSpec,
                  { e with Provider := e.Provider.UpdatePathSpec provider.PathSpec })
                :: after' }) ∧
      (Table.find AllHashComparator c.m_hashOnlyEntries provider.PathSpec = none →
        ∃ before after, c.m_fullEntries = before ++ (k, e) :: after ∧
          c1 = { c with
            m_fullEntries :=
              before ++ (k, { e with Provider := e.Provider.UpdatePathSpec provider.PathSpec })
                :: after }) := by
  obtain ⟨c1, k1, h1, h2, h3⟩ := AddEntry_on_existing c result provider false k e hv hfound
  simp only [Bool.false_eq_true, if_false] at h1 h2
  refine ⟨c1, k1, h1, h2, ?_, h3, AddEntry_valid _ _ _ _ _ hv _ _ h1, ?_, ?_, ?_⟩
  · unfold EntryProvider.UpdatePathSpec
    by_cases hc : (!e.Provider.PathSpec.HasOriginal && provider.PathSpec.HasOriginal) = true
    · rw [if_pos hc]
      simp only [Bool.and_eq_true, Bool.not_eq_true'] at hc
      exact ⟨rfl, rfl, rfl, rfl, rfl, Or.inr ⟨hc.1, rfl⟩⟩
    · rw [if_neg hc]
      exact ⟨rfl, rfl, rfl, rfl, rfl, Or.inl rfl⟩
  · intro hH hcond
    have hval := AddEntry_skip_hashOnly c result provider k e hH hcond
    rw [h1] at hval
    simp only [Option.some.injEq, Prod.mk.injEq] at hval
    exact ⟨hval.1, by simp [EntryProvider.UpdatePathSpec, hcond]⟩
  · intro hH he hp
    obtain ⟨before, after, before', after', hs, hs', hval⟩ :=
      AddEntry_migrates c result provider false k e hH he hp
        (hv.migration_free provider.PathSpec k e hH)
    rw [h1] at hval
    simp only [Bool.false_eq_true, if_false, Option.some.injEq, Prod.mk.injEq] at hval
    have hupd : e.Provider.UpdatePathSpec provider.PathSpec =
        { e.Provider with
          PathSpec := { e.Provider.PathSpec with Original := provider.PathSpec.Original } } := by
      simp [EntryProvider.UpdatePathSpec, he, hp]
    refine ⟨before, after, before', after', hs, hs', ?_⟩
    rw [hupd]
    exact hval.1
  · intro hH
    have hF : Table.find FullPathComparator c.m_fullEntries provider.PathSpec = some (k, e) := by
      rcases hfound with h | h
      · rw [hH] at h; cases h
      · exact h.2
    obtain ⟨before, after, hs, hval⟩ := AddEntry_found_full c result provider false k e hH hF
    rw [h1] at hval
    simp only [Bool.false_eq_true, if_false, Option.some.injEq, Prod.mk.injEq] at hval
    exact ⟨before, after, hs, hval.1⟩

/-- Witness of C4: the builder that holds a file under its hashes is offered
a provider for the path of the file; the entry keeps its provider, whose
PathSpec takes the path text, and that provider is reported. -/
theorem AddEntry_skip_existing_witness :
    Example.builderHash.Valid ∧
    Table.find AllHashComparator Example.builderHash.m_hashOnlyEntries
      Example.provPath.PathSpec = some (Example.specHash, ⟨0, ⟨0, 0⟩, Example.provHash⟩) ∧
    ∃ c1,
      AddEntry Env.quiet Example.builderHash AddEntryResult.empty Example.provPath false =
        some (c1, { AddEntryResult.empty with
          SkippedExisting := [⟨Example.specPath, ProviderKind.Binary, [7]⟩] }) ∧
      c1.m_hashOnlyEntries.length + c1.m_fullEntries.length = 1 :=
  ⟨Valid.of_builderHash, rfl,
    (AddEntry_skip_existing Example.builderHash AddEntryResult.empty Example.provPath
      Example.specHash ⟨0, ⟨0, 0⟩, Example.provHash⟩ Valid.of_builderHash (Or.inl rfl)).elim
      (fun c1 h => h.elim (fun _ h => ⟨c1, h.1, h.2.2.2.1⟩))⟩

/-- C5: for both values of `overwriteExisting`, in every builder state that
satisfies the invariant of the two tables: when the hash-only table holds,
for the PathSpec of the offered provider (that is, under its three hashes),
an entry whose provider has no original path, and the offered provider
carries path text, `AddEntry` returns; afterwards the entry is no longer in
the hash-only table, where the lookup of the PathSpec finds nothing, and it
is in the full-path table under the PathSpec of the provider, with its
`EntrySize` and locator; the number of entries is as before; with
`overwriteExisting = false` the entry holds its previous provider, whose
PathSpec has taken the path text, and with `overwriteExisting = true` the
offered one. Every other entry is unchanged and the invariant holds again. -/
theorem AddEntry_migration (c : Creator) (result : AddEntryResult) (provider : EntryProvider)
    (overwriteExisting : Bool) (k : EntryPathSpec) (e : Entry) (hv : c.Valid)
    (hH : Table.find AllHashComparator c.m_hashOnlyEntries provider.PathSpec = some (k, e))
    (he : e.Provider.PathSpec.HasOriginal = false)
    (hp : provider.PathSpec.HasOriginal = true) :
    ∃ c1 r1 before after before' after',
      AddEntry Env.quiet c result provider overwriteExisting = some (c1, r1) ∧
      c.m_hashOnlyEntries = before ++ (k, e) :: after ∧
      c.m_fullEntries = before' ++ after' ∧
      c1.m_hashOnlyEntries = before ++ after ∧
      c1.m_fullEntries =
        before' ++
          (provider.PathSpec,
            { e with
              Provider :=
                if overwriteExisting then provider
                else
                  { e.Provider with
                    PathSpec :=
                      { e.Provider.PathSpec with
                        Original := provider.PathSpec.Original } } })
          :: after' ∧
      Table.find AllHashComparator c1.m_hashOnlyEntries provider.PathSpec = none ∧
      Table.find FullPathComparator c1.m_fullEntries provider.PathSpec =
        some (provider.PathSpec,
          { e with
            Provider :=
              if overwriteExisting then provider
              else
                { e.Provider with
                  PathSpec :=
                    { e.Provider.PathSpec with
                      Original := provider.PathSpec.Original } } }) ∧
      c1.m_hashOnlyEntries.length + c1.m_fullEntries.length =
        c.m_hashOnlyEntries.length + c.m_fullEntries.length ∧
      c1.Valid := by
  have hF := hv.migration_free provider.PathSpec k e hH
  obtain ⟨before, after, before', after', h1, h2, h3⟩ :=
    AddEntry_migrates c result provider overwriteExisting k e hH he hp hF
  obtain ⟨c1, k1, h4, h5, h6⟩ :=
    AddEntry_on_existing c result provider overwriteExisting k e hv (Or.inl hH)
  have hupd : e.Provider.UpdatePathSpec provider.PathSpec =
      { e.Provider with
        PathSpec := { e.Provider.PathSpec with Original := provider.PathSpec.Original } } := by
    simp [EntryProvider.UpdatePathSpec, he, hp]
  rw [hupd] at h5
  have hval := h3
  rw [h4] at hval
  simp only [Option.some.injEq, Prod.mk.injEq] at hval
  have hc1 := hval.1
  have hhash : c1.m_hashOnlyEntries = before ++ after := by rw [hc1]
  have hfull : c1.m_fullEntries =
      before' ++
        (provider.PathSpec,
          { e with
            Provider :=
              if overwriteExisting then provider
              else
                { e.Provider with
                  PathSpec :=
                    { e.Provider.PathSpec with
                      Original := provider.PathSpec.Original } } })
        :: after' := by rw [hc1]
  have hall := Table.find_none_forall hF
  have hnone : Table.find AllHashComparator c1.m_hashOnlyEntries provider.PathSpec = none := by
    have herase := Table.find_erase_none c.m_hashOnlyEntries provider.PathSpec hv.hashOnlyKeys
    obtain ⟨hk, b0, a0, hs0, hb0⟩ := Table.find_split hH
    have := Table.erase_split AllHashComparator provider.PathSpec k e b0 a0 hb0 hk
    rw [← hs0] at this
    rcases h5 with h5 | h5
    · -- the lookup in the hash-only table cannot succeed after the migration
      exfalso
      have hk1 := (Table.find_split h5).1
      have hin := Table.find_mem h5
      rw [hhash] at hin
      have hP := hv.hashOnlyKeys
      rw [h1] at hP
      have hP' := List.pairwise_append.mp hP
      rcases List.mem_append.mp hin with hin | hin
      · have h7 := hP'.2.2 _ hin (k, e) (List.mem_cons_self _ _)
        simp only at h7
        have hk' := (Table.find_split hH).1
        rw [Table.equiv_symm] at hk'
        have := equiv_AllHash_trans _ _ _ hk1 hk'
        rw [h7] at this
        cases this
      · have h7 := (List.pairwise_cons.mp hP'.2.1).1 _ hin
        simp only at h7
        have hk' := (Table.find_split hH).1
        have := equiv_AllHash_trans_false _ _ _ h7 hk'
        rw [hk1] at this
        cases this
    · exact h5.1
  refine ⟨c1, _, before, after, before', after', h4, h1, h2, hhash, hfull, hnone, ?_, h6,
    AddEntry_valid _ _ _ _ _ hv _ _ h4⟩
  rw [hfull]
  apply Table.find_of_split _ _ _ _ _ _ _ (equiv_FullPath_self _)
  intro x hx
  apply hall x
  rw [h2]
  exact List.mem_append_left _ hx

/-- Witness of C5: the builder that holds a file under its hashes is offered,
without overwriting, a provider for the path of the file. -/
theorem AddEntry_migration_witness :
    Example.builderHash.Valid ∧
    Table.find AllHashComparator Example.builderHash.m_hashOnlyEntries
      Example.provPathNew.PathSpec = some (Example.specHash, ⟨0, ⟨0, 0⟩, Example.provHash⟩) ∧
    ∃ c1 r1,
      AddEntry Env.quiet Example.builderHash AddEntryResult.empty Example.provPathNew false =
        some (c1, r1) ∧
      c1.m_hashOnlyEntries = [] ∧
      c1.m_fullEntries =
        [(Example.specPath, ⟨0, ⟨0, 0⟩, ⟨Example.specPath, ProviderKind.Binary, [7]⟩⟩)] := by
  refine ⟨Valid.of_builderHash, rfl, ?_⟩
  obtain ⟨c1, r1, before, after, before', after', h1, h2, h3, h4, h5, _⟩ :=
    AddEntry_migration Example.builderHash AddEntryResult.empty Example.provPathNew false
      Example.specHash ⟨0, ⟨0, 0⟩, Example.provHash⟩ Valid.of_builderHash rfl rfl rfl
  have hval : AddEntry Env.quiet Example.builderHash AddEntryResult.empty Example.provPathNew
      false = some ({ Example.builder with
        m_fullEntries :=
          [(Example.specPath, ⟨0, ⟨0, 0⟩, ⟨Example.specPath, ProviderKind.Binary, [7]⟩⟩)] },
        { AddEntryResult.empty with
          SkippedExisting := [⟨Example.specPath, ProviderKind.Binary, [7]⟩] }) := by decide
  rw [hval] at h1
  simp only [Option.some.injEq, Prod.mk.injEq] at h1
  exact ⟨c1, r1, by rw [hval, h1.1, h1.2], by rw [← h1.1]; rfl, by rw [← h1.1]⟩

/-- C6: starting from a builder with empty tables, adding a provider `h` with
a hash-only PathSpec and then adding, with `overwriteExisting = true`, a
provider `p` whose PathSpec has the same three hashes and carries path text
leaves exactly one entry: the hash-only table is empty and the full-path
table holds one entry, keyed by the PathSpec of `p` and holding `p`.
`GetFile` succeeds for the full-path PathSpec and for the hash-only PathSpec
and both return the second provider, so both read its content. The first
provider is reported in `Added`, the second in `Replaced`. -/
theorem AddEntry_hash_upgrade (c : Creator) (result : AddEntryResult) (h p : EntryProvider)
    (overwriteFirst : Bool)
    (hHashOnly : c.m_hashOnlyEntries = []) (hFull : c.m_fullEntries = [])
    (hh : h.PathSpec.HasOriginal = false) (hp : p.PathSpec.HasOriginal = true)
    (hid : h.PathSpec.FullPathHash = p.PathSpec.FullPathHash ∧
      h.PathSpec.PathHash = p.PathSpec.PathHash ∧ h.PathSpec.NameHash = p.PathSpec.NameHash) :
    ∃ c1 r1 c2 r2,
      AddEntry Env.quiet c result h overwriteFirst = some (c1, r1) ∧
      AddEntry Env.quiet c1 r1 p true = some (c2, r2) ∧
      c2.m_hashOnlyEntries = [] ∧
      c2.m_fullEntries = [(p.PathSpec, ⟨0, ⟨0, 0⟩, p⟩)] ∧
      c2.m_hashOnlyEntries.length + c2.m_fullEntries.length = 1 ∧
      GetFile c2 p.PathSpec = Except.ok p ∧
      GetFile c2 h.PathSpec = Except.ok p ∧
      (GetFile c2 p.PathSpec).map (fun x => x.Data) = Except.ok p.Data ∧
      (GetFile c2 h.PathSpec).map (fun x => x.Data) = Except.ok p.Data ∧
      r2.Added = result.Added ++ [h] ∧ r2.Replaced = result.Replaced ++ [p] ∧
      r2.SkippedExisting = result.SkippedExisting ∧ r2.Error = result.Error := by
  have hhp : Table.equiv EntryPathSpec.AllHashComparator h.PathSpec p.PathSpec = true :=
    (equiv_AllHash_iff _ _).mpr hid
  have hpp : Table.equiv EntryPathSpec.FullPathComparator p.PathSpec p.PathSpec = true :=
    equiv_FullPath_self _
  have hph : Table.equiv EntryPathSpec.FullPathComparator p.PathSpec h.PathSpec = true := by
    refine equiv_FullPath_of_no_text _ _ ?_ (Or.inr hh)
    rw [Table.equiv_symm]
    exact hhp
  have hg1 : GetFile
      { c with m_hashOnlyEntries := [], m_fullEntries := [(p.PathSpec, ⟨0, ⟨0, 0⟩, p⟩)] }
      p.PathSpec = Except.ok p := by
    simp [GetFile, Table.find, hpp]
  have hg2 : GetFile
      { c with m_hashOnlyEntries := [], m_fullEntries := [(p.PathSpec, ⟨0, ⟨0, 0⟩, p⟩)] }
      h.PathSpec = Except.ok p := by
    simp [GetFile, Table.find, hph]
  refine ⟨{ c with m_hashOnlyEntries := [(h.PathSpec, ⟨0, ⟨0, 0⟩, h⟩)] },
    { result with Added := result.Added ++ [h] },
    { c with m_hashOnlyEntries := [], m_fullEntries := [(p.PathSpec, ⟨0, ⟨0, 0⟩, p⟩)] },
    { result with Added := result.Added ++ [h], Replaced := result.Replaced ++ [p] },
    ?_, ?_, rfl, rfl, rfl, hg1, hg2, ?_, ?_, rfl, rfl, rfl, rfl⟩
  · simp [AddEntry, AddEntry.tryBlock, AddEntry.fresh, Env.quiet, hHashOnly, hFull, hh,
      Table.find, Table.emplace]
  · simp [AddEntry, AddEntry.tryBlock, AddEntry.existing, adjustSlot, Env.quiet, hFull, hh, hp,
      Table.find, Table.emplace, Table.erase, Table.adjust, hhp, hpp, equiv_AllHash_self]
  · rw [hg1]; rfl
  · rw [hg2]; rfl

/-- Witness of C6 at the example providers. -/
theorem AddEntry_hash_upgrade_witness :
    ∃ c1 r1 c2 r2,
      AddEntry Env.quiet Example.builder AddEntryResult.empty Example.provHash false
        = some (c1, r1) ∧
      AddEntry Env.quiet c1 r1 Example.provPath true = some (c2, r2) ∧
      c2.m_hashOnlyEntries = [] ∧
      c2.m_fullEntries = [(Example.provPath.PathSpec, ⟨0, ⟨0, 0⟩, Example.provPath⟩)] ∧
      GetFile c2 Example.provPath.PathSpec = Except.ok Example.provPath ∧
      GetFile c2 Example.provHash.PathSpec = Except.ok Example.provPath :=
  (AddEntry_hash_upgrade Example.builder AddEntryResult.empty Example.provHash Example.provPath
    false rfl rfl rfl rfl ⟨rfl, rfl, rfl⟩).imp
    (fun _ h => h.imp (fun _ h => h.imp (fun _ h => h.imp
      (fun _ h => ⟨h.1, h.2.1, h.2.2.1, h.2.2.2.1, h.2.2.2.2.2.1, h.2.2.2.2.2.2.1⟩))))

/-- C7: for every builder state whose hash-only table has pairwise
inequivalent keys (the invariant of `std::map`) and every provider, calling
`AddEntry(provider, overwriteExisting = false)` twice gives the same builder
as calling it once: same tables with the same keys, providers and reserved
sizes, hence the same outcome of `FinishToStreams` and of `FinishToFiles`.
The equation is between the outcomes of the calls; where the first call is
undefined both sides are. The second part says when the calls are defined:
always, unless the hash-only entry found for the provider would have to
migrate onto a key already present in the full-path table. -/
theorem AddEntry_twice_same_as_once (fmt : Format) (c : Creator) (result : AddEntryResult)
    (provider : EntryProvider)
    (hU : c.m_hashOnlyEntries.Pairwise
      (fun a b => Table.equiv EntryPathSpec.AllHashComparator a.1 b.1 = false)) :
    (((AddEntry Env.quiet c result provider false).bind
          (fun s => AddEntry Env.quiet s.1 s.2 provider false)).map
        (fun s => (s.1, FinishToStreams fmt s.1, FinishToFiles fmt s.1))
      = (AddEntry Env.quiet c result provider false).map
        (fun s => (s.1, FinishToStreams fmt s.1, FinishToFiles fmt s.1))) ∧
    ((∀ k e,
        Table.find EntryPathSpec.AllHashComparator c.m_hashOnlyEntries provider.PathSpec
          = some (k, e) →
        e.Provider.PathSpec.HasOriginal = false → provider.PathSpec.HasOriginal = true →
        Table.find EntryPathSpec.FullPathComparator c.m_fullEntries provider.PathSpec = none) →
      ∃ c1 r1 r2,
        AddEntry Env.quiet c result provider false = some (c1, r1) ∧
        AddEntry Env.quiet c1 r1 provider false = some (c1, r2)) := by
  constructor
  · cases h1 : AddEntry Env.quiet c result provider false with
    | none => rfl
    | some s =>
      obtain ⟨c1, r1⟩ := s
      obtain ⟨r2, h2⟩ := AddEntry_skip_again c result provider hU c1 r1 h1
      simp [h2]
  · intro hfree
    obtain ⟨c1, r1, h1⟩ := AddEntry_defined c result provider false hfree
    obtain ⟨r2, h2⟩ := AddEntry_skip_again c result provider hU c1 r1 h1
    exact ⟨c1, r1, r2, h1, h2⟩

/-- Witness of C7: the path provider offered twice to the builder that holds
the file under its hashes; the first call migrates the entry, the second
finds it in the full-path table. -/
theorem AddEntry_twice_same_as_once_witness :
    Example.builderHash.m_hashOnlyEntries.Pairwise
        (fun a b => Table.equiv EntryPathSpec.AllHashComparator a.1 b.1 = false) ∧
      ((AddEntry Env.quiet Example.builderHash AddEntryResult.empty Example.provPath false).bind
          (fun s => AddEntry Env.quiet s.1 s.2 Example.provPath false)).map
        (fun s => (s.1, FinishToStreams Format.sqpack s.1, FinishToFiles Format.sqpack s.1))
      = (AddEntry Env.quiet Example.builderHash AddEntryResult.empty Example.provPath false).map
        (fun s => (s.1, FinishToStreams Format.sqpack s.1, FinishToFiles Format.sqpack s.1)) ∧
      (AddEntry Env.quiet Example.builderHash AddEntryResult.empty Example.provPath false).isSome
        = true :=
  ⟨by simp [Example.builderHash],
    (AddEntry_twice_same_as_once Format.sqpack Example.builderHash AddEntryResult.empty
      Example.provPath (by simp [Example.builderHash])).1,
    rfl⟩

/-- C8: the code breaks the claim where a new entry is made and its insertion
into the map raises. First part: on the empty builder, with the provider
owned by the argument alone, as the overload of lines 221-225 and
`AddEntriesFromSqPack` pass it, the `try` block ends with the exception and
the provider destroyed (the local `entry` of line 210 held the only
reference), and the handler's read through `pProvider` is undefined. Second
part: with a caller that keeps a reference the same failure is recorded as
the claim says. Third part, everywhere: when the `try` block raises with
message `what` and the provider is alive, the call returns normally,
`Added`, `Replaced` and `SkippedExisting` are as before the call, and exactly
one record, the offered provider's PathSpec with `what`, is appended to
`Error`; the provider is destroyed only on the path of the first part. -/
theorem AddEntry_records_failure :
    (AddEntry.tryBlock Example.envNoMemory Example.builder AddEntryResult.empty
        Example.provPath true =
        TryOutcome.threw Example.builder AddEntryResult.empty "bad allocation" false ∧
      AddEntry Example.envNoMemory Example.builder AddEntryResult.empty Example.provPath true
        = none) ∧
    AddEntry Example.envNoMemoryKept Example.builder AddEntryResult.empty Example.provPath true
      = some (Example.builder,
          { Added := [], Replaced := [], SkippedExisting := [],
            Error := [(Example.specPath, "bad allocation")] }) ∧
    (∀ (env : Env) (c : Creator) (result : AddEntryResult) (provider : EntryProvider)
        (overwriteExisting : Bool) (c1 : Creator) (r1 : AddEntryResult) (what : String)
        (alive : Bool),
      AddEntry.tryBlock env c result provider overwriteExisting =
        TryOutcome.threw c1 r1 what alive →
      (alive = true →
        AddEntry env c result provider overwriteExisting =
          some (c1, { Added := result.Added, Replaced := result.Replaced,
                      SkippedExisting := result.SkippedExisting,
                      Error := result.Error ++ [(provider.PathSpec, what)] })) ∧
      (alive = false →
        AddEntry env c result provider overwriteExisting = none ∧
        Table.find AllHashComparator c.m_hashOnlyEntries provider.PathSpec = none ∧
        Table.find FullPathComparator c.m_fullEntries provider.PathSpec = none ∧
        env.throws Op.MakeEntry = none ∧ env.throws Op.Emplace = some what ∧
        env.callerKeepsProvider = false)) := by
  refine ⟨⟨rfl, rfl⟩, rfl, ?_⟩
  intro env c result provider overwriteExisting c1 r1 what alive h
  have hr : r1 = result := AddEntry.tryBlock_threw h
  subst hr
  constructor
  · intro ha
    subst ha
    simp [AddEntry, h]
  · intro ha
    subst ha
    obtain ⟨h1, h2, h3, h4, h5, _⟩ := AddEntry.tryBlock_threw_destroyed h
    exact ⟨by simp [AddEntry, h], h1, h2, h3, h4, h5⟩

/-- C9, the claim as stated fails: in the builder that got a hash-only
provider, reserving space under the path PathSpec of the same file changes
the entry's provider, whose PathSpec takes the path text (line 271). -/
theorem ReserveSwappableSpace_changes_provider :
    AddEntry Env.quiet Example.builder AddEntryResult.empty Example.provHash true
      = some (Example.builderHash,
          { Added := [Example.provHash], Replaced := [], SkippedExisting := [],
            Error := [] }) ∧
    Table.find EntryPathSpec.AllHashComparator Example.builderHash.m_hashOnlyEntries
      Example.specPath = some (Example.specHash, ⟨0, ⟨0, 0⟩, Example.provHash⟩) ∧
    (ReserveSwappableSpace Example.builderHash Example.specPath 256).m_fullEntries
      = [(Example.specPath, ⟨256, ⟨0, 0⟩, ⟨Example.specPath, ProviderKind.Binary, [7]⟩⟩)] ∧
    (ReserveSwappableSpace Example.builderHash Example.specPath 256).m_hashOnlyEntries = [] ∧
    (⟨Example.specPath, ProviderKind.Binary, [7]⟩ : EntryProvider) ≠ Example.provHash := by
  refine ⟨rfl, rfl, rfl, rfl, ?_⟩
  decide

/-- C9 as amended: `ReserveSwappableSpace(p, n)`, provided that the full-path
table holds no key equal to `p` when the hash-only entry found for `p` has to
migrate. Afterwards an entry for `p` exists with `EntrySize >= n`. If the
hash-only table held an entry for `p` that does not migrate, or only the
full-path table held one, that entry's `EntrySize` becomes
`max(old EntrySize, n)` in place and nothing else changes. If the hash-only
entry lacks the path text that `p` carries, it leaves the hash-only table and
enters the full-path table under `p` with `EntrySize = max(old, n)`, its
provider keeping kind and content while its PathSpec takes the path text of
`p`. If no entry existed, exactly one placeholder entry with `EntrySize = n`
is created, in the full-path table iff `p` carries path text. All other
entries and fields are unchanged. -/
theorem ReserveSwappableSpace_reserves (c : Creator) (p : EntryPathSpec) (n : Nat)
    (hfree : ∀ k e,
      Table.find EntryPathSpec.AllHashComparator c.m_hashOnlyEntries p = some (k, e) →
      e.Provider.PathSpec.HasOriginal = false → p.HasOriginal = true →
      Table.find EntryPathSpec.FullPathComparator c.m_fullEntries p = none) :
    (∃ k e,
      (((k, e) ∈ (ReserveSwappableSpace c p n).m_hashOnlyEntries ∧
          Table.equiv EntryPathSpec.AllHashComparator k p = true) ∨
        ((k, e) ∈ (ReserveSwappableSpace c p n).m_fullEntries ∧
          Table.equiv EntryPathSpec.FullPathComparator k p = true)) ∧
      n ≤ e.EntrySize) ∧
    (∀ k e, Table.find EntryPathSpec.AllHashComparator c.m_hashOnlyEntries p = some (k, e) →
      (e.Provider.PathSpec.HasOriginal = true ∨ p.HasOriginal = false) →
      ∃ before after, c.m_hashOnlyEntries = before ++ (k, e) :: after ∧
        ReserveSwappableSpace c p n =
          { c with m_hashOnlyEntries :=
              before ++ (k, { e with EntrySize := max e.EntrySize n }) :: after }) ∧
    (∀ k e, Table.find EntryPathSpec.AllHashComparator c.m_hashOnlyEntries p = some (k, e) →
      e.Provider.PathSpec.HasOriginal = false → p.HasOriginal = true →
      ∃ before after before' after',
        c.m_hashOnlyEntries = before ++ (k, e) :: after ∧ c.m_fullEntries = before' ++ after' ∧
        ReserveSwappableSpace c p n =
          { c with
            m_hashOnlyEntries := before ++ after
            m_fullEntries :=
              before' ++
                (p, { EntrySize := max e.EntrySize n, Locator := e.Locator,
                      Provider :=
                        { e.Provider with
                          PathSpec := { e.Provider.PathSpec with Original := p.Original } } })
                :: after' }) ∧
    (Table.find EntryPathSpec.AllHashComparator c.m_hashOnlyEntries p = none →
      ∀ k e, Table.find EntryPathSpec.FullPathComparator c.m_fullEntries p = some (k, e) →
      ∃ before after, c.m_fullEntries = before ++ (k, e) :: after ∧
        ReserveSwappableSpace c p n =
          { c with m_fullEntries :=
              before ++ (k, { e with EntrySize := max e.EntrySize n }) :: after }) ∧
    (Table.find EntryPathSpec.AllHashComparator c.m_hashOnlyEntries p = none →
      Table.find EntryPathSpec.FullPathComparator c.m_fullEntries p = none →
      ∃ before after,
        (p.HasOriginal = true →
          c.m_fullEntries = before ++ after ∧
          ReserveSwappableSpace c p n =
            { c with m_fullEntries :=
                before ++ (p, ⟨n, ⟨0, 0⟩, EmptyOrObfuscatedEntryProvider p⟩) :: after }) ∧
        (p.HasOriginal = false →
          c.m_hashOnlyEntries = before ++ after ∧
          ReserveSwappableSpace c p n =
            { c with m_hashOnlyEntries :=
                before ++ (p, ⟨n, ⟨0, 0⟩, EmptyOrObfuscatedEntryProvider p⟩) :: after })) := by
  refine ⟨?_, fun k e hH hs => ReserveSwappableSpace_stay c p n k e hH hs,
    fun k e hH he hp => ReserveSwappableSpace_migrate c p n k e hH he hp (hfree k e hH he hp),
    fun hH k e hF => ReserveSwappableSpace_full c p n k e hH hF,
    fun hH hF => ReserveSwappableSpace_fresh c p n hH hF⟩
  cases hH : Table.find EntryPathSpec.AllHashComparator c.m_hashOnlyEntries p with
  | some ke =>
    obtain ⟨k, e⟩ := ke
    by_cases hm : e.Provider.PathSpec.HasOriginal = false ∧ p.HasOriginal = true
    · obtain ⟨_, _, before', after', _, _, h3⟩ :=
        ReserveSwappableSpace_migrate c p n k e hH hm.1 hm.2 (hfree k e hH hm.1 hm.2)
      refine ⟨p, { EntrySize := max e.EntrySize n, Locator := e.Locator,
                   Provider :=
                     { e.Provider with
                       PathSpec := { e.Provider.PathSpec with Original := p.Original } } },
        Or.inr ⟨?_, equiv_FullPath_self p⟩, le_max_right e.EntrySize n⟩
      rw [h3]
      simp
    · have hs : e.Provider.PathSpec.HasOriginal = true ∨ p.HasOriginal = false := by
        cases h1 : e.Provider.PathSpec.HasOriginal
        · cases h2 : p.HasOriginal
          · exact Or.inr rfl
          · exact absurd ⟨h1, h2⟩ hm
        · exact Or.inl rfl
      obtain ⟨before, after, _, h2⟩ := ReserveSwappableSpace_stay c p n k e hH hs
      refine ⟨k, { e with EntrySize := max e.EntrySize n },
        Or.inl ⟨?_, (Table.find_split hH).1⟩, le_max_right e.EntrySize n⟩
      rw [h2]
      simp
  | none =>
    cases hF : Table.find EntryPathSpec.FullPathComparator c.m_fullEntries p with
    | some ke =>
      obtain ⟨k, e⟩ := ke
      obtain ⟨before, after, _, h2⟩ := ReserveSwappableSpace_full c p n k e hH hF
      refine ⟨k, { e with EntrySize := max e.EntrySize n },
        Or.inr ⟨?_, (Table.find_split hF).1⟩, le_max_right e.EntrySize n⟩
      rw [h2]
      simp
    | none =>
      obtain ⟨before, after, h1, h2⟩ := ReserveSwappableSpace_fresh c p n hH hF
      cases hO : p.HasOriginal with
      | true =>
        refine ⟨p, ⟨n, ⟨0, 0⟩, EmptyOrObfuscatedEntryProvider p⟩,
          Or.inr ⟨?_, equiv_FullPath_self p⟩, le_refl n⟩
        rw [(h1 hO).2]
        simp
      | false =>
        refine ⟨p, ⟨n, ⟨0, 0⟩, EmptyOrObfuscatedEntryProvider p⟩,
          Or.inl ⟨?_, equiv_AllHash_self p⟩, le_refl n⟩
        rw [(h2 hO).2]
        simp

/-- Witness of the amended C9: the hash-only entry of the example migrates
into the empty full-path table with the reserved size 256. -/
theorem ReserveSwappableSpace_reserves_witness :
    (∀ k e,
      Table.find EntryPathSpec.AllHashComparator Example.builderHash.m_hashOnlyEntries
        Example.specPath = some (k, e) →
      e.Provider.PathSpec.HasOriginal = false → Example.specPath.HasOriginal = true →
      Table.find EntryPathSpec.FullPathComparator Example.builderHash.m_fullEntries
        Example.specPath = none) ∧
    ∃ k e,
      (((k, e) ∈ (ReserveSwappableSpace Example.builderHash Example.specPath 256).m_hashOnlyEntries ∧
          Table.equiv EntryPathSpec.AllHashComparator k Example.specPath = true) ∨
        ((k, e) ∈ (ReserveSwappableSpace Example.builderHash Example.specPath 256).m_fullEntries ∧
          Table.equiv EntryPathSpec.FullPathComparator k Example.specPath = true)) ∧
      256 ≤ e.EntrySize :=
  ⟨fun _ _ _ _ _ => rfl,
    (ReserveSwappableSpace_reserves Example.builderHash Example.specPath 256
      (fun _ _ _ _ _ => rfl)).1⟩

set_option maxRecDepth 20000 in
/-- C10: the code breaks the claim. A builder with the default cap gets a
128-byte entry for a path, a reservation of 256 bytes for that path and a
128-byte entry for another path. `FinishToStreams` gives the reserved entry
the block-aligned `max(reserved size, provider length)` = 256 bytes and puts
the next entry 256 bytes further (offsets 2048 and 2304, `DataSize` 384).
`FinishToFiles` uses `provider->StreamSize()` alone: it writes 128 bytes for
the reserved entry and puts the next entry 128 bytes further (offsets 2048
and 2176, `DataSize` 256). -/
theorem FinishToFiles_ignores_reserved_size :
    ∃ c1 r1 c2 r2,
      AddEntry Env.quiet Example.builderDefault AddEntryResult.empty Example.provBlock true
        = some (c1, r1) ∧
      AddEntry Env.quiet (ReserveSwappableSpace c1 Example.specPath 256) r1
        Example.provBlockOther true = some (c2, r2) ∧
      c2.m_fullEntries.map (fun kv => (kv.1, kv.2.EntrySize, kv.2.Provider.StreamSize))
        = [(Example.specPath, 256, 128), (Example.specOther, 0, 128)] ∧
      c2.m_hashOnlyEntries = [] ∧
      (FinishToStreams Format.sqpack c2).Entries.map (fun e => (e.EntrySize, e.Locator))
        = [(256, ⟨0, 2048⟩), (128, ⟨0, 2304⟩)] ∧
      (FinishToStreams Format.sqpack c2).dataSubheaders.map (fun h => h.DataSize) = [384] ∧
      (FinishToFiles Format.sqpack c2).Entries.map
          (fun e => ((FinishToFiles.written e).length, e.Locator))
        = [(128, ⟨0, 2048⟩), (128, ⟨0, 2176⟩)] ∧
      (FinishToFiles Format.sqpack c2).dataSubheaders.map (fun h => h.DataSize) = [256] :=
  ⟨_, _, _, _, rfl, rfl, rfl, rfl, rfl, rfl, rfl, rfl⟩

set_option maxRecDepth 20000 in
/-- C11: the code breaks the claim. `FinishToStreams` packs the entries of the
hash-only table before those of the full-path table (first part), but
`FinishToFiles` packs the entries of the full-path table first (second
part). At a builder that got a 128-byte entry under a path and a 256-byte
entry under hashes only, `FinishToStreams` puts the hash-only entry at offset
2048 and the path entry at 2304, while `FinishToFiles` puts the path entry at
2048 and the hash-only entry at 2176 (third part). -/
theorem FinishToFiles_packs_full_path_first :
    (∀ (fmt : Format) (c : Creator),
      (FinishToStreams fmt c).Entries.map (fun e => e.Provider.PathSpec) =
        c.m_hashOnlyEntries.map (fun kv => kv.2.Provider.PathSpec) ++
          c.m_fullEntries.map (fun kv => kv.2.Provider.PathSpec)) ∧
    (∀ (fmt : Format) (c : Creator),
      (FinishToFiles fmt c).Entries.map (fun e => e.Provider) =
        c.m_fullEntries.map (fun kv => kv.2.Provider) ++
          c.m_hashOnlyEntries.map (fun kv => kv.2.Provider)) ∧
    ((AddEntry Env.quiet Example.builderDefault AddEntryResult.empty Example.provBlock true).bind
          (fun s => AddEntry Env.quiet s.1 s.2 Example.provHashBlock true)
        = some (Example.builderMixed,
            { Added := [Example.provBlock, Example.provHashBlock], Replaced := [],
              SkippedExisting := [], Error := [] }) ∧
      (FinishToStreams Format.sqpack Example.builderMixed).Entries.map
          (fun e => (e.Provider.PathSpec, e.Locator))
        = [(Example.specHashOther, ⟨0, 2048⟩), (Example.specPath, ⟨0, 2304⟩)] ∧
      (FinishToFiles Format.sqpack Example.builderMixed).Entries.map
          (fun e => (e.Provider.PathSpec, e.Locator))
        = [(Example.specPath, ⟨0, 2048⟩), (Example.specHashOther, ⟨0, 2176⟩)]) := by
  refine ⟨?_, ?_, rfl, rfl, rfl⟩
  · intro fmt c
    obtain ⟨_, _, _, _, h⟩ := FinishToStreams_segments fmt c
    have := congrArg (List.map (fun p : Nat × EntryProvider => p.2.PathSpec)) h
    simpa [List.map_map, entriesForStreams, resolveEntry, HotSwappableEntryProvider,
      Function.comp_def] using this
  · intro fmt c
    obtain ⟨_, _, _, h⟩ := FinishToFiles_segments fmt c
    have := congrArg (List.map (fun p : Nat × EntryProvider => p.2)) h
    simpa [List.map_map, entriesForFiles, Function.comp_def] using this


/-- C12, the claim as stated fails: a reservation of `2^32 - 1` bytes is
representable in 32 bits, the least multiple of 128 above it is `2^32`, and
the 32-bit `EntrySize` that `FinishToStreams` stores is 0. -/
theorem FinishToStreams_size_wraps :
    (ReserveSwappableSpace Example.builderDefault Example.specPath 4294967295).m_fullEntries.map
        (fun kv => (kv.2.EntrySize, kv.2.Provider.StreamSize)) = [(4294967295, 0)] ∧
      (FinishToStreams Format.sqpack
          (ReserveSwappableSpace Example.builderDefault Example.specPath 4294967295)).Entries.map
        (fun e => e.EntrySize) = [0] :=
  ⟨rfl, rfl⟩

/-- C12 as amended: when the block alignment is positive and, for every entry
of the builder, `max(reserved EntrySize, provider StreamSize)` is at most
`2^32` minus the alignment, the entries of `FinishToStreams` correspond one to
one, in order, to the entries of the builder, and the resolved `EntrySize` of
each is the least multiple of the alignment that is at least that maximum: it
is a multiple of the alignment, it is not smaller than the reserved size nor
than the provider length, and no smaller multiple has this property. -/
theorem FinishToStreams_resolved_size (fmt : Format) (c : Creator)
    (ha : 0 < fmt.EntryAlignment)
    (hfit : ∀ e ∈ entriesForStreams c,
      max e.EntrySize e.Provider.StreamSize + fmt.EntryAlignment ≤ 2 ^ 32) :
    List.Forall₂
      (fun e r =>
        fmt.EntryAlignment ∣ r.EntrySize ∧ e.EntrySize ≤ r.EntrySize ∧
          e.Provider.StreamSize ≤ r.EntrySize ∧
          ∀ k, fmt.EntryAlignment ∣ k → max e.EntrySize e.Provider.StreamSize ≤ k →
            r.EntrySize ≤ k)
      (entriesForStreams c) (FinishToStreams fmt c).Entries := by
  obtain ⟨_, _, _, _, h⟩ := FinishToStreams_segments fmt c
  apply forall₂_of_map_eq _ _ _ _ _ h.symm
  intro e he r _ heq
  have hsz : r.EntrySize = (resolveEntry fmt e).EntrySize := (congrArg Prod.fst heq).symm
  rw [hsz, resolveEntry_size fmt e ha (hfit e he)]
  obtain ⟨h1, h2, _, h4⟩ :=
    Align_alloc_least (max e.EntrySize e.Provider.StreamSize) fmt.EntryAlignment ha
  exact ⟨h1, le_trans (le_max_left _ _) h2, le_trans (le_max_right _ _) h2, h4⟩


set_option maxRecDepth 20000 in
/-- Witness of the amended C12 at the builder with a reservation. -/
theorem FinishToStreams_resolved_size_witness :
    0 < Format.sqpack.EntryAlignment ∧
    (∀ e ∈ entriesForStreams Example.builderReserved,
      max e.EntrySize e.Provider.StreamSize + Format.sqpack.EntryAlignment ≤ 2 ^ 32) ∧
    List.Forall₂
      (fun e r =>
        Format.sqpack.EntryAlignment ∣ r.EntrySize ∧ e.EntrySize ≤ r.EntrySize ∧
          e.Provider.StreamSize ≤ r.EntrySize ∧
          ∀ k, Format.sqpack.EntryAlignment ∣ k →
            max e.EntrySize e.Provider.StreamSize ≤ k → r.EntrySize ≤ k)
      (entriesForStreams Example.builderReserved)
      (FinishToStreams Format.sqpack Example.builderReserved).Entries :=
  ⟨by decide, by decide,
    FinishToStreams_resolved_size Format.sqpack Example.builderReserved (by decide)
      (by decide)⟩

set_option maxRecDepth 20000 in
/-- C13, the claim as stated fails: with the cap 2048 and the two headers of
1024 bytes each, a single entry of 128 bytes opens a segment that is 2176
bytes long, in `FinishToStreams` and in `FinishToFiles`. -/
theorem segment_exceeds_cap :
    AddEntry Env.quiet Example.builder AddEntryResult.empty Example.provBlock true
        = some (Example.builderSmallCap,
            { Added := [Example.provBlock], Replaced := [], SkippedExisting := [],
              Error := [] }) ∧
      (FinishToStreams Format.sqpack Example.builderSmallCap).dataSubheaders.map
          (fun h => (h.DataSize, h.MaxFileSize)) = [(128, 2048)] ∧
      (FinishToFiles Format.sqpack Example.builderSmallCap).dataSubheaders.map
          (fun h => (h.DataSize, h.MaxFileSize)) = [(128, 2048)] ∧
      ¬ (Format.sqpack.sizeofSqpackHeader + Format.sqpack.sizeofSqDataHeader + 128 ≤ 2048) :=
  ⟨rfl, rfl, rfl, by decide⟩

/-- C13 as amended: if every entry, with the size the operation gives it
(the resolved `EntrySize` in `FinishToStreams`, the provider length in
`FinishToFiles`), fits behind the two headers within the cap, then every data
segment produced satisfies `headerSize + DataSize <= MaxFileSize`, and
`MaxFileSize` is the configured cap. -/
theorem segments_within_cap (fmt : Format) (c : Creator) :
    ((∀ e ∈ entriesForStreams c,
        fmt.sizeofSqpackHeader + fmt.sizeofSqDataHeader + (resolveEntry fmt e).EntrySize
          ≤ c.m_maxFileSize) →
      ∀ h ∈ (FinishToStreams fmt c).dataSubheaders,
        fmt.sizeofSqpackHeader + fmt.sizeofSqDataHeader + h.DataSize ≤ h.MaxFileSize ∧
          h.MaxFileSize = c.m_maxFileSize) ∧
    ((∀ e ∈ entriesForFiles c,
        fmt.sizeofSqpackHeader + fmt.sizeofSqDataHeader + e.Provider.StreamSize
          ≤ c.m_maxFileSize) →
      ∀ h ∈ (FinishToFiles fmt c).dataSubheaders,
        fmt.sizeofSqpackHeader + fmt.sizeofSqDataHeader + h.DataSize ≤ h.MaxFileSize ∧
          h.MaxFileSize = c.m_maxFileSize) := by
  constructor
  · intro hfit h hh
    obtain ⟨segs, hP, hW, _, hE⟩ := FinishToStreams_segments fmt c
    have hfit' : ∀ e ∈ (FinishToStreams fmt c).Entries,
        fmt.sizeofSqpackHeader + fmt.sizeofSqDataHeader + e.EntrySize ≤ c.m_maxFileSize := by
      intro e he
      have hm : (e.EntrySize, e.Provider) ∈
          (FinishToStreams fmt c).Entries.map (fun e => (e.EntrySize, e.Provider)) :=
        List.mem_map_of_mem _ he
      rw [hE] at hm
      obtain ⟨x, hx, hxe⟩ := List.mem_map.mp hm
      have := hfit x hx
      have h1 : (resolveEntry fmt x).EntrySize = e.EntrySize := congrArg Prod.fst hxe
      omega
    obtain ⟨h1, h2⟩ := headers_within_cap hP hW hfit' h hh
    exact ⟨by omega, h2⟩
  · intro hfit h hh
    obtain ⟨segs, hP, hW, hE⟩ := FinishToFiles_segments fmt c
    have hfit' : ∀ e ∈ (FinishToFiles fmt c).Entries,
        fmt.sizeofSqpackHeader + fmt.sizeofSqDataHeader + e.Provider.StreamSize
          ≤ c.m_maxFileSize := by
      intro e he
      have hm : (e.EntrySize, e.Provider) ∈
          (FinishToFiles fmt c).Entries.map (fun e => (e.EntrySize, e.Provider)) :=
        List.mem_map_of_mem _ he
      rw [hE] at hm
      obtain ⟨x, hx, hxe⟩ := List.mem_map.mp hm
      have := hfit x hx
      have h1 : x.Provider = e.Provider := congrArg Prod.snd hxe
      rw [← h1]
      exact this
    obtain ⟨h1, h2⟩ := headers_within_cap hP hW hfit' h hh
    exact ⟨by omega, h2⟩

set_option maxRecDepth 20000 in
/-- Witness of the amended C13 at the builder with the default cap. -/
theorem segments_within_cap_witness :
    (∀ e ∈ entriesForStreams Example.builderReserved,
      Format.sqpack.sizeofSqpackHeader + Format.sqpack.sizeofSqDataHeader +
        (resolveEntry Format.sqpack e).EntrySize ≤ Example.builderReserved.m_maxFileSize) ∧
    ∀ h ∈ (FinishToStreams Format.sqpack Example.builderReserved).dataSubheaders,
      Format.sqpack.sizeofSqpackHeader + Format.sqpack.sizeofSqDataHeader + h.DataSize
          ≤ h.MaxFileSize ∧
        h.MaxFileSize = Example.builderReserved.m_maxFileSize :=
  ⟨by decide, (segments_within_cap Format.sqpack Example.builderReserved).1 (by decide)⟩

set_option maxRecDepth 20000 in
/-- C14, the claim as stated fails: a file of 128 bytes with a reservation of
256 bytes and a second file of 128 bytes give, in `FinishToStreams`, one
segment with `DataSize` 384, while the lengths rounded up to the alignment
add up to 256. -/
theorem FinishToStreams_sum_counts_reservation :
    ((AddEntry Env.quiet (ReserveSwappableSpace Example.builderDefault Example.specPath 256)
          AddEntryResult.empty Example.provBlock true).bind
        (fun r => (AddEntry Env.quiet r.1 r.2 Example.provBlockOther true).map Prod.fst))
        = some Example.builderReserved ∧
      ((FinishToStreams Format.sqpack Example.builderReserved).dataSubheaders.map
          (fun h => h.DataSize)).sum = 384 ∧
      ((entriesForStreams Example.builderReserved).map
          (fun e => (Align e.Provider.StreamSize Format.sqpack.EntryAlignment).Alloc)).sum
        = 256 :=
  ⟨rfl, rfl, rfl⟩

/-- C14 as amended: in `FinishToStreams`, when no size computation leaves the
32-bit range, the `DataSize` fields of the produced segments add up to the
sum, over the entries of the builder, of the larger of the reserved size and
the provider length, rounded up to the block alignment. -/
theorem FinishToStreams_sum_of_DataSize (fmt : Format) (c : Creator)
    (ha : 0 < fmt.EntryAlignment)
    (hfit : ∀ e ∈ entriesForStreams c,
      max e.EntrySize e.Provider.StreamSize + fmt.EntryAlignment ≤ 2 ^ 32) :
    ((FinishToStreams fmt c).dataSubheaders.map (fun h => h.DataSize)).sum =
      ((entriesForStreams c).map
        (fun e => (Align (max e.EntrySize e.Provider.StreamSize) fmt.EntryAlignment).Alloc)).sum := by
  obtain ⟨segs, hP, _, _, hE⟩ := FinishToStreams_segments fmt c
  rw [hP.headers, headersOf_sum, ← hP.entries]
  have h1 := congrArg (List.map Prod.fst) hE
  simp only [List.map_map] at h1
  have h2 : (FinishToStreams fmt c).Entries.map (fun e => e.EntrySize) =
      (entriesForStreams c).map (fun e => (resolveEntry fmt e).EntrySize) := h1
  rw [h2]
  congr 1
  apply List.map_congr_left
  intro e he
  exact resolveEntry_size fmt e ha (hfit e he)

set_option maxRecDepth 20000 in
/-- Witness of the amended C14 at the builder with a reservation. -/
theorem FinishToStreams_sum_of_DataSize_witness :
    0 < Format.sqpack.EntryAlignment ∧
    (∀ e ∈ entriesForStreams Example.builderReserved,
      max e.EntrySize e.Provider.StreamSize + Format.sqpack.EntryAlignment ≤ 2 ^ 32) ∧
    ((FinishToStreams Format.sqpack Example.builderReserved).dataSubheaders.map
        (fun h => h.DataSize)).sum =
      ((entriesForStreams Example.builderReserved).map
        (fun e => (Align (max e.EntrySize e.Provider.StreamSize)
          Format.sqpack.EntryAlignment).Alloc)).sum :=
  ⟨by decide, by decide,
    FinishToStreams_sum_of_DataSize Format.sqpack Example.builderReserved (by decide)
      (by decide)⟩

/-- C15: after `FinishToStreams`, the header of segment `N` has `SpanIndex`
`N` and its `DataSize` is the sum of the resolved `EntrySize` of exactly the
entries whose locator names segment `N`; these entries are the slice
`dataEntryRanges[N]` of the entry sequence, the one handed to the view of
that segment. -/
theorem FinishToStreams_DataSize_of_segment (fmt : Format) (c : Creator) (N : Nat)
    (h : SqData.Header) (hN : (FinishToStreams fmt c).dataSubheaders[N]? = some h) :
    h.SpanIndex = N ∧
      h.DataSize =
        (((FinishToStreams fmt c).Entries.filter
          (fun e => e.Locator.DatFileIndex == N)).map (fun e => e.EntrySize)).sum ∧
      ∃ r, (FinishToStreams fmt c).dataEntryRanges[N]? = some r ∧
        ((FinishToStreams fmt c).Entries.drop r.1).take r.2 =
          (FinishToStreams fmt c).Entries.filter (fun e => e.Locator.DatFileIndex == N) := by
  obtain ⟨segs, hP, _, hR, _⟩ := FinishToStreams_segments fmt c
  rw [hP.headers, headersOf_getElem?] at hN
  cases hs : segs[N]? with
  | none => simp [hs] at hN
  | some s =>
    rw [hs] at hN
    simp only [Option.map_some', Option.some.injEq] at hN
    have hf := segmentsLocated_filter hP.located N s hs
    simp only [Nat.zero_add] at hf
    rw [hP.entries, hf]
    subst hN
    refine ⟨by simp, rfl, (0 + (segs.take N).flatten.length, s.length), ?_, ?_⟩
    · rw [hR, rangesOf_getElem?, hs]
      rfl
    · simp only [Nat.zero_add]
      exact flatten_slice segs N s hs

set_option maxRecDepth 20000 in
/-- Witness of C15: with the cap 2304 the file of 256 bytes fills segment 0
and the file of 128 bytes is alone in segment 1. -/
theorem FinishToStreams_DataSize_of_segment_witness :
    (FinishToStreams Format.sqpack Example.builderTwoSegments).dataSubheaders[1]? =
        some ⟨1024, 16, 128, 1, 2304⟩ ∧
      (1 = 1 ∧
        128 =
          (((FinishToStreams Format.sqpack Example.builderTwoSegments).Entries.filter
            (fun e => e.Locator.DatFileIndex == 1)).map (fun e => e.EntrySize)).sum ∧
        ∃ r, (FinishToStreams Format.sqpack Example.builderTwoSegments).dataEntryRanges[1]?
            = some r ∧
          ((FinishToStreams Format.sqpack Example.builderTwoSegments).Entries.drop r.1).take r.2 =
            (FinishToStreams Format.sqpack Example.builderTwoSegments).Entries.filter
              (fun e => e.Locator.DatFileIndex == 1)) :=
  ⟨rfl, FinishToStreams_DataSize_of_segment Format.sqpack Example.builderTwoSegments 1
    ⟨1024, 16, 128, 1, 2304⟩ rfl⟩

/-- C17: in both terminal operations, for every pair of path hash and name
hash that exactly one entry has, the primary table of the pair-hash index has
exactly one record with that pair, its locator is the locator of that entry,
and no record of the conflict table before the terminating one carries the
pair; the same holds for the full-hash index and a full-path hash that exactly
one entry has; and each primary table has as many records as there are
distinct keys among the entries. -/
theorem single_entry_gets_direct_record (fmt : Format) (ifmt : IndexFormat)
    (c : Creator) (E : List Entry) (T : IndexTables)
    (hop : (E = (FinishToStreams fmt c).Entries ∧ T = FinishToStreams.tables fmt ifmt c) ∨
      (E = (FinishToFiles fmt c).Entries ∧ T = FinishToFiles.tables fmt ifmt c)) :
    (∀ (k : Nat × Nat) (e : Entry),
      E.filter (fun e => pairKey e.Provider.PathSpec = k) = [e] →
      T.fileEntries1.filter (fun r => (r.PathHash, r.NameHash) = k) =
        [⟨k.2, k.1, SqIndex.LocatorField.Data e.Locator, 0⟩] ∧
      T.conflictEntries1.dropLast.filter (fun r => (r.PathHash, r.NameHash) = k) = []) ∧
    (∀ (h : Nat) (e : Entry),
      E.filter (fun e => e.Provider.PathSpec.FullPathHash = h) = [e] →
      T.fileEntries2.filter (fun r => r.FullPathHash = h) =
        [⟨h, SqIndex.LocatorField.Data e.Locator⟩] ∧
      T.conflictEntries2.dropLast.filter (fun r => r.FullPathHash = h) = []) ∧
    T.fileEntries1.length = ((E.map (fun e => pairKey e.Provider.PathSpec)).dedup).length ∧
    T.fileEntries2.length =
      ((E.map (fun e => e.Provider.PathSpec.FullPathHash)).dedup).length := by
  rcases hop with ⟨rfl, rfl⟩ | ⟨rfl, rfl⟩
  · exact indexTables_single ifmt _ _ (FinishToStreams_pathSpecs fmt c)
  · exact indexTables_single ifmt _ _ (FinishToFiles_pathSpecs fmt c)

set_option maxRecDepth 20000 in
/-- Witness of C17: the file "a/c" is the only one with the pair (1, 4); its
record in the primary table of `FinishToStreams` carries its locator, and the
four files give three records in each primary table. -/
theorem single_entry_gets_direct_record_witness :
    ((FinishToStreams Format.sqpack Example.builderCollide).Entries.filter
        (fun e => pairKey e.Provider.PathSpec = (1, 4))).map (fun e => e.Locator) =
      [⟨0, 2176⟩] ∧
    (FinishToStreams.tables Format.sqpack IndexFormat.sqpack
        Example.builderCollide).fileEntries1.filter
          (fun r => (r.PathHash, r.NameHash) = (1, 4)) =
        [⟨4, 1, SqIndex.LocatorField.Data ⟨0, 2176⟩, 0⟩] ∧
    (FinishToStreams.tables Format.sqpack IndexFormat.sqpack
        Example.builderCollide).fileEntries1.length = 3 :=
  ⟨by decide,
    ((single_entry_gets_direct_record Format.sqpack IndexFormat.sqpack Example.builderCollide
      _ _ (Or.inl ⟨rfl, rfl⟩)).1 (1, 4)
        ⟨128, ⟨0, 2176⟩,
          HotSwappableEntryProvider Example.specOther 128 Example.provOther⟩ (by decide)).1,
    ((single_entry_gets_direct_record Format.sqpack IndexFormat.sqpack Example.builderCollide
      _ _ (Or.inl ⟨rfl, rfl⟩)).2.2.1).trans (by decide)⟩

/-- C18: in both terminal operations, when the number of entries does not
exceed `EndOfList`, a 32-bit value, each of the two conflict tables is not
empty, its last record is the record whose hash fields and conflict index are
`EndOfList`, no record before the last one has the conflict index
`EndOfList`, and so exactly one record of the table has `EndOfList` in its
hash fields and its conflict index. -/
theorem conflict_table_ends_with_sentinel (fmt : Format) (ifmt : IndexFormat)
    (c : Creator) (E : List Entry) (T : IndexTables)
    (hop : (E = (FinishToStreams fmt c).Entries ∧ T = FinishToStreams.tables fmt ifmt c) ∨
      (E = (FinishToFiles fmt c).Entries ∧ T = FinishToFiles.tables fmt ifmt c))
    (hE : ifmt.EndOfList < 2 ^ 32) (hn : E.length ≤ ifmt.EndOfList) :
    (T.conflictEntries1 ≠ [] ∧
      T.conflictEntries1.getLast? =
        some ⟨ifmt.EndOfList, ifmt.EndOfList, SqIndex.LocatorField.Data ⟨0, 0⟩,
          ifmt.EndOfList, ""⟩ ∧
      (∀ r ∈ T.conflictEntries1.dropLast, r.ConflictIndex ≠ ifmt.EndOfList) ∧
      (T.conflictEntries1.filter (fun r =>
        r.NameHash = ifmt.EndOfList ∧ r.PathHash = ifmt.EndOfList ∧
          r.ConflictIndex = ifmt.EndOfList)).length = 1) ∧
    (T.conflictEntries2 ≠ [] ∧
      T.conflictEntries2.getLast? =
        some ⟨ifmt.EndOfList, ifmt.EndOfList, SqIndex.LocatorField.Data ⟨0, 0⟩,
          ifmt.EndOfList, ""⟩ ∧
      (∀ r ∈ T.conflictEntries2.dropLast, r.ConflictIndex ≠ ifmt.EndOfList) ∧
      (T.conflictEntries2.filter (fun r =>
        r.FullPathHash = ifmt.EndOfList ∧ r.UnusedHash = ifmt.EndOfList ∧
          r.ConflictIndex = ifmt.EndOfList)).length = 1) := by
  have key : ∀ (entries pointees : List Entry),
      entries.map (fun e => e.Provider.PathSpec) = pointees.map (fun e => e.Provider.PathSpec) →
      pointees.length ≤ ifmt.EndOfList →
      ((indexTables ifmt entries pointees).conflictEntries1 ≠ [] ∧
        (indexTables ifmt entries pointees).conflictEntries1.getLast? =
          some ⟨ifmt.EndOfList, ifmt.EndOfList, SqIndex.LocatorField.Data ⟨0, 0⟩,
            ifmt.EndOfList, ""⟩ ∧
        (∀ r ∈ (indexTables ifmt entries pointees).conflictEntries1.dropLast,
          r.ConflictIndex ≠ ifmt.EndOfList) ∧
        ((indexTables ifmt entries pointees).conflictEntries1.filter (fun r =>
          r.NameHash = ifmt.EndOfList ∧ r.PathHash = ifmt.EndOfList ∧
            r.ConflictIndex = ifmt.EndOfList)).length = 1) ∧
      ((indexTables ifmt entries pointees).conflictEntries2 ≠ [] ∧
        (indexTables ifmt entries pointees).conflictEntries2.getLast? =
          some ⟨ifmt.EndOfList, ifmt.EndOfList, SqIndex.LocatorField.Data ⟨0, 0⟩,
            ifmt.EndOfList, ""⟩ ∧
        (∀ r ∈ (indexTables ifmt entries pointees).conflictEntries2.dropLast,
          r.ConflictIndex ≠ ifmt.EndOfList) ∧
        ((indexTables ifmt entries pointees).conflictEntries2.filter (fun r =>
          r.FullPathHash = ifmt.EndOfList ∧ r.UnusedHash = ifmt.EndOfList ∧
            r.ConflictIndex = ifmt.EndOfList)).length = 1) := by
    intro entries pointees hp hlen
    have h1 := conflictRecords_index_lt pairLt_strictOrder pairKey entries pointees hp
      (fun (k : Nat × Nat) l i p => (⟨k.2, k.1, l, i, p⟩ : SqIndex.PairHashWithTextLocator))
      (fun r => r.ConflictIndex) (fun _ _ _ _ => rfl) (by omega)
    have h2 := conflictRecords_index_lt natLt_strictOrder (fun p => p.FullPathHash) entries
      pointees hp
      (fun (k : Nat) l i p => (⟨k, 0, l, i, p⟩ : SqIndex.FullHashWithTextLocator))
      (fun r => r.ConflictIndex) (fun _ _ _ _ => rfl) (by omega)
    have h1' : ∀ r ∈ conflictRecords
        (fun (k : Nat × Nat) l i p => (⟨k.2, k.1, l, i, p⟩ : SqIndex.PairHashWithTextLocator))
        (hashGroups pairLt pairKey entries pointees), r.ConflictIndex < pointees.length := h1
    have h2' : ∀ r ∈ conflictRecords
        (fun (k : Nat) l i p => (⟨k, 0, l, i, p⟩ : SqIndex.FullHashWithTextLocator))
        (hashGroups (fun a b => decide (a < b)) (fun p => p.FullPathHash) entries pointees),
        r.ConflictIndex < pointees.length := h2
    simp only [indexTables, pairHashes, fullHashes]
    refine ⟨⟨by simp, List.getLast?_concat _, ?_, ?_⟩, ⟨by simp, List.getLast?_concat _, ?_, ?_⟩⟩
    · rw [List.dropLast_concat]
      intro r hr
      have := h1' r hr
      omega
    · rw [List.filter_append, List.filter_eq_nil_iff.mpr]
      · simp
      · intro r hr
        have := h1' r hr
        simp only [decide_eq_true_eq, not_and]
        intro _ _
        omega
    · rw [List.dropLast_concat]
      intro r hr
      have := h2' r hr
      omega
    · rw [List.filter_append, List.filter_eq_nil_iff.mpr]
      · simp
      · intro r hr
        have := h2' r hr
        simp only [decide_eq_true_eq, not_and]
        intro _ _
        omega
  rcases hop with ⟨rfl, rfl⟩ | ⟨rfl, rfl⟩
  · exact key _ _ (FinishToStreams_pathSpecs fmt c) hn
  · exact key _ _ (FinishToFiles_pathSpecs fmt c) hn

set_option maxRecDepth 20000 in
/-- Witness of C18: the conflict tables of `FinishToStreams` at the builder
with the two collisions. -/
theorem conflict_table_ends_with_sentinel_witness :
    IndexFormat.sqpack.EndOfList < 2 ^ 32 ∧
    (FinishToStreams Format.sqpack Example.builderCollide).Entries.length
      ≤ IndexFormat.sqpack.EndOfList ∧
    (FinishToStreams.tables Format.sqpack IndexFormat.sqpack
        Example.builderCollide).conflictEntries1.getLast? =
      some ⟨4294967295, 4294967295, SqIndex.LocatorField.Data ⟨0, 0⟩, 4294967295, ""⟩ ∧
    ((FinishToStreams.tables Format.sqpack IndexFormat.sqpack
        Example.builderCollide).conflictEntries1.filter (fun r =>
          r.NameHash = IndexFormat.sqpack.EndOfList ∧ r.PathHash = IndexFormat.sqpack.EndOfList ∧
            r.ConflictIndex = IndexFormat.sqpack.EndOfList)).length = 1 :=
  ⟨by decide, by decide,
    (conflict_table_ends_with_sentinel Format.sqpack IndexFormat.sqpack Example.builderCollide
      _ _ (Or.inl ⟨rfl, rfl⟩) (by decide) (by decide)).1.2.1,
    (conflict_table_ends_with_sentinel Format.sqpack IndexFormat.sqpack Example.builderCollide
      _ _ (Or.inl ⟨rfl, rfl⟩) (by decide) (by decide)).1.2.2.2⟩

/-- C20: for the pair-hash index built with an empty folder segment, as both
terminal operations do, and a primary segment that ends below `2^32`, the
range of the 32-bit offsets: the folder records are, one to one and in order,
the records of the maximal runs of consecutive sorted primary records with
the same path hash. Each carries the path hash of its run, the offset of the
primary segment plus the index of the first record of the run times the record
size, and the number of records of the run times the record size. The runs
tile the primary segment, the lengths add up to the size of the primary
segment, and no path hash is in two folder records. -/
theorem ExportIndexFileData_folder_records (fmt : Format) (ifmt : IndexFormat)
    (dataFilesCount : Nat) (fileSegment : List SqIndex.PairHashLocator)
    (conflictSegment : List SqIndex.PairHashWithTextLocator)
    (segment3 : List SqIndex.Segment3Entry)
    (out : IndexFileData SqIndex.PairHashLocator SqIndex.PairHashWithTextLocator)
    (hout : out =
      ExportIndexFileData fmt ifmt SqIndex.PairHashLocator.lt ifmt.sizeofPairHashLocator
        ifmt.sizeofPairHashWithTextLocator (some (fun r => r.PathHash)) dataFilesCount
        fileSegment conflictSegment segment3 [])
    (hfit : fmt.sizeofSqpackHeader + ifmt.sizeofSqIndexHeader +
      fileSegment.length * ifmt.sizeofPairHashLocator < 2 ^ 32) :
    out.HashLocatorSegment.Offset = fmt.sizeofSqpackHeader + ifmt.sizeofSqIndexHeader ∧
    out.HashLocatorSegment.Size = out.fileSegment.length * ifmt.sizeofPairHashLocator ∧
    out.folderSegment =
      folderRecords out.HashLocatorSegment.Offset ifmt.sizeofPairHashLocator
        (fun r => r.PathHash) 0
        (out.fileSegment.splitBy (fun a b => a.PathHash == b.PathHash)) ∧
    ((out.fileSegment.splitBy (fun a b => a.PathHash == b.PathHash)).flatten = out.fileSegment ∧
      (∀ run ∈ out.fileSegment.splitBy (fun a b => a.PathHash == b.PathHash), run ≠ []) ∧
      (∀ run ∈ out.fileSegment.splitBy (fun a b => a.PathHash == b.PathHash),
        ∀ x ∈ run, x.PathHash = (run.head?.map (fun r => r.PathHash)).getD 0) ∧
      (out.fileSegment.splitBy (fun a b => a.PathHash == b.PathHash)).Chain'
        (fun r1 r2 =>
          (r1.head?.map (fun r => r.PathHash)).getD 0 ≠
            (r2.head?.map (fun r => r.PathHash)).getD 0)) ∧
    (out.folderSegment.map (fun r => r.PairHashLocatorSize)).sum =
      out.HashLocatorSegment.Size ∧
    (out.folderSegment.map (fun r => r.PathHash)).Nodup := by
  have hsort := sortRecords_pairHash fileSegment
  have hlen : (sortRecords SqIndex.PairHashLocator.lt fileSegment).length = fileSegment.length :=
    hsort.1.length_eq
  have hb : fileSegment.length * ifmt.sizeofPairHashLocator < 2 ^ 32 := by omega
  have hoff : (fmt.sizeofSqpackHeader % 2 ^ 32 + ifmt.sizeofSqIndexHeader % 2 ^ 32) % 2 ^ 32 =
      fmt.sizeofSqpackHeader + ifmt.sizeofSqIndexHeader := by
    rw [Nat.mod_eq_of_lt (a := fmt.sizeofSqpackHeader) (by omega),
      Nat.mod_eq_of_lt (a := ifmt.sizeofSqIndexHeader) (by omega), Nat.mod_eq_of_lt (by omega)]
  have hruns := splitBy_runs (fun r : SqIndex.PairHashLocator => r.PathHash)
    (sortRecords SqIndex.PairHashLocator.lt fileSegment)
  have hfolder := folderLoop_eq_folderRecords
    (fmt.sizeofSqpackHeader + ifmt.sizeofSqIndexHeader) ifmt.sizeofPairHashLocator
    (fun r : SqIndex.PairHashLocator => r.PathHash)
    (sortRecords SqIndex.PairHashLocator.lt fileSegment) (by rw [hlen]; exact hfit)
  subst hout
  simp only [ExportIndexFileData, hoff, hlen, Nat.mod_eq_of_lt hb, hfolder]
  refine ⟨trivial, trivial, trivial, hruns, ?_, ?_⟩
  · rw [folderRecords_size_sum, hruns.1, hlen]
  · rw [folderRecords_pathHash]
    have hs : (sortRecords SqIndex.PairHashLocator.lt fileSegment).Pairwise
        (fun a b => a.PathHash ≤ b.PathHash) :=
      hsort.2.imp (fun hab => by omega)
    rw [← hruns.1] at hs
    exact (run_keys_strict _ _ hruns.2.1 hruns.2.2.1 hs hruns.2.2.2).imp (fun hab => by omega)

set_option maxRecDepth 20000 in
/-- Witness of C20: the pair-hash index of `FinishToStreams` at the builder
with the two collisions has the primary records of the path hashes 1, 1 and 7
and the two folder records of the runs. -/
theorem ExportIndexFileData_folder_records_witness :
    Format.sqpack.sizeofSqpackHeader + IndexFormat.sqpack.sizeofSqIndexHeader +
        (FinishToStreams.tables Format.sqpack IndexFormat.sqpack
          Example.builderCollide).fileEntries1.length *
          IndexFormat.sqpack.sizeofPairHashLocator < 2 ^ 32 ∧
    (FinishToStreams.Index1 Format.sqpack IndexFormat.sqpack
        Example.builderCollide).fileSegment.map (fun r => r.PathHash) = [1, 1, 7] ∧
    (FinishToStreams.Index1 Format.sqpack IndexFormat.sqpack Example.builderCollide).folderSegment
      = [⟨1, 2048, 32, 0⟩, ⟨7, 2080, 16, 0⟩] :=
  ⟨by decide, by decide,
    ((ExportIndexFileData_folder_records Format.sqpack IndexFormat.sqpack _ _ _ _
      (FinishToStreams.Index1 Format.sqpack IndexFormat.sqpack Example.builderCollide) rfl
      (by decide)).2.2.1).trans (by decide)⟩

/-- C21: when the buffer that `ExportIndexFileData` returns is shorter than
`2 ^ 32` bytes (and every pass-through record has the size of its type), the
descriptor of the primary segment starts behind the two headers, the
descriptors of the conflict, the pass-through and the folder segment each
start where the one before ends, the buffer ends where the folder segment
ends, the bytes that each descriptor names are the images of the records of
its segment, and without `UseFolders` the folder segment has size 0 and no
record. -/
theorem ExportIndexFileData_segments_contiguous {F C : Type} (fmt : Format)
    (ifmt : IndexFormat) (lt : F → F → Bool) (sizeofFileEntry sizeofConflictEntry : Nat)
    (image : IndexImages fmt ifmt F C sizeofFileEntry sizeofConflictEntry)
    (UseFolders : Option (F → Nat)) (dataFilesCount : Nat) (fileSegment : List F)
    (conflictSegment : List C) (segment3 : List SqIndex.Segment3Entry)
    (folderSegment : List SqIndex.PathHashLocator) (out : IndexFileData F C)
    (hout : out = ExportIndexFileData fmt ifmt lt sizeofFileEntry sizeofConflictEntry
      UseFolders dataFilesCount fileSegment conflictSegment segment3 folderSegment)
    (h3 : ∀ s ∈ segment3, s.Bytes.length = ifmt.sizeofSegment3Entry)
    (hfit : (IndexFileData.bytes image out).length < 2 ^ 32) :
    out.HashLocatorSegment.Offset = fmt.sizeofSqpackHeader + ifmt.sizeofSqIndexHeader ∧
    out.TextLocatorSegment.Offset =
      out.HashLocatorSegment.Offset + out.HashLocatorSegment.Size ∧
    out.UnknownSegment3.Offset =
      out.TextLocatorSegment.Offset + out.TextLocatorSegment.Size ∧
    out.PathHashLocatorSegment.Offset =
      out.UnknownSegment3.Offset + out.UnknownSegment3.Size ∧
    (IndexFileData.bytes image out).length =
      out.PathHashLocatorSegment.Offset + out.PathHashLocatorSegment.Size ∧
    ((IndexFileData.bytes image out).drop out.HashLocatorSegment.Offset).take
      out.HashLocatorSegment.Size = (out.fileSegment.map image.fileEntry).flatten ∧
    ((IndexFileData.bytes image out).drop out.TextLocatorSegment.Offset).take
      out.TextLocatorSegment.Size = (out.conflictSegment.map image.conflictEntry).flatten ∧
    ((IndexFileData.bytes image out).drop out.UnknownSegment3.Offset).take
      out.UnknownSegment3.Size = (out.segment3.map (fun s => s.Bytes)).flatten ∧
    ((IndexFileData.bytes image out).drop out.PathHashLocatorSegment.Offset).take
      out.PathHashLocatorSegment.Size = (out.folderSegment.map image.folderEntry).flatten ∧
    (UseFolders = none → out.PathHashLocatorSegment.Size = 0 ∧ out.folderSegment = [] ∧
      (IndexFileData.bytes image out).length =
        out.UnknownSegment3.Offset + out.UnknownSegment3.Size) := by
  obtain ⟨e1, e2, e3, e4, e5, e6, e7, e8, hs3⟩ :=
    ExportIndexFileData_descriptors fmt ifmt lt sizeofFileEntry sizeofConflictEntry image
      UseFolders dataFilesCount fileSegment conflictSegment segment3 folderSegment out hout h3
      hfit
  have hF := flatten_map_length image.fileEntry sizeofFileEntry out.fileSegment
    (fun a _ => image.fileEntry_size a)
  have hC := flatten_map_length image.conflictEntry sizeofConflictEntry out.conflictSegment
    (fun a _ => image.conflictEntry_size a)
  have hP := flatten_map_length image.folderEntry ifmt.sizeofPathHashLocator out.folderSegment
    (fun a _ => image.folderEntry_size a)
  have hS := flatten_map_length (fun s : SqIndex.Segment3Entry => s.Bytes)
    ifmt.sizeofSegment3Entry out.segment3 (by rw [hs3]; exact h3)
  have hH := image.headers_size out
  have hlen := IndexFileData.bytes_length image out (by rw [hs3]; exact h3)
  have hend : (IndexFileData.bytes image out).length =
      out.PathHashLocatorSegment.Offset + out.PathHashLocatorSegment.Size := by
    rw [hlen, e7, e5, e3, e1, e2, e4, e6, e8]
    omega
  refine ⟨e1, e3, e5, e7, hend, ?_, ?_, ?_, ?_, ?_⟩
  · unfold IndexFileData.bytes
    exact drop_take_middle _ _ _ _ _ (by rw [e1, hH]) (by rw [e2, hF])
  · unfold IndexFileData.bytes
    rw [← List.append_assoc]
    exact drop_take_middle _ _ _ _ _
      (by rw [e3, e1, e2, List.length_append, hH, hF]) (by rw [e4, hC])
  · unfold IndexFileData.bytes
    rw [← List.append_assoc, ← List.append_assoc]
    exact drop_take_middle _ _ _ _ _
      (by rw [e5, e3, e1, e2, e4, List.length_append, List.length_append, hH, hF, hC])
      (by rw [e6, hS])
  · unfold IndexFileData.bytes
    rw [← List.append_assoc, ← List.append_assoc, ← List.append_assoc]
    rw [List.drop_append_of_le_length (by
      rw [e7, e5, e3, e1, e2, e4, e6]
      simp only [List.length_append, hH, hF, hC, hS]
      omega)]
    rw [List.drop_of_length_le (by
      rw [e7, e5, e3, e1, e2, e4, e6]
      simp only [List.length_append, hH, hF, hC, hS]
      omega)]
    rw [List.nil_append, List.take_of_length_le (by rw [e8, hP])]
  · intro hnone
    have hz : out.PathHashLocatorSegment.Size = 0 := by rw [hout, hnone]; rfl
    refine ⟨hz, by rw [hout, hnone]; rfl, ?_⟩
    rw [hend, hz, e7]
    rfl

set_option maxRecDepth 20000 in
/-- Witness of C21: the two index buffers of `FinishToStreams` for the builder
`builderPassthrough`. -/
theorem ExportIndexFileData_segments_contiguous_witness :
    ((FinishToStreams.Index1 Format.sqpack IndexFormat.sqpack
        Example.builderPassthrough).HashLocatorSegment.Offset = 2048 ∧
      (IndexFileData.bytes Example.indexImages1
        (FinishToStreams.Index1 Format.sqpack IndexFormat.sqpack
          Example.builderPassthrough)).length =
        (FinishToStreams.Index1 Format.sqpack IndexFormat.sqpack
            Example.builderPassthrough).PathHashLocatorSegment.Offset +
          (FinishToStreams.Index1 Format.sqpack IndexFormat.sqpack
            Example.builderPassthrough).PathHashLocatorSegment.Size) ∧
    ((FinishToStreams.Index2 Format.sqpack IndexFormat.sqpack
        Example.builderPassthrough).PathHashLocatorSegment.Size = 0 ∧
      (IndexFileData.bytes Example.indexImages2
        (FinishToStreams.Index2 Format.sqpack IndexFormat.sqpack
          Example.builderPassthrough)).length =
        (FinishToStreams.Index2 Format.sqpack IndexFormat.sqpack
            Example.builderPassthrough).UnknownSegment3.Offset +
          (FinishToStreams.Index2 Format.sqpack IndexFormat.sqpack
            Example.builderPassthrough).UnknownSegment3.Size) :=
  ⟨⟨(ExportIndexFileData_segments_contiguous Format.sqpack IndexFormat.sqpack _ 16 256
        Example.indexImages1 _ _ _ _ _ _
        (FinishToStreams.Index1 Format.sqpack IndexFormat.sqpack Example.builderPassthrough)
        rfl (by decide)
        (by rw [IndexFileData.bytes_length _ _ (by decide)]; decide)).1,
      (ExportIndexFileData_segments_contiguous Format.sqpack IndexFormat.sqpack _ 16 256
        Example.indexImages1 _ _ _ _ _ _
        (FinishToStreams.Index1 Format.sqpack IndexFormat.sqpack Example.builderPassthrough)
        rfl (by decide)
        (by rw [IndexFileData.bytes_length _ _ (by decide)]; decide)).2.2.2.2.1⟩,
    ⟨((ExportIndexFileData_segments_contiguous Format.sqpack IndexFormat.sqpack _ 8 256
        Example.indexImages2 _ _ _ _ _ _
        (FinishToStreams.Index2 Format.sqpack IndexFormat.sqpack Example.builderPassthrough)
        rfl (by decide)
        (by rw [IndexFileData.bytes_length _ _ (by decide)]; decide)).2.2.2.2.2.2.2.2.2 rfl).1,
      ((ExportIndexFileData_segments_contiguous Format.sqpack IndexFormat.sqpack _ 8 256
        Example.indexImages2 _ _ _ _ _ _
        (FinishToStreams.Index2 Format.sqpack IndexFormat.sqpack Example.builderPassthrough)
        rfl (by decide)
        (by rw [IndexFileData.bytes_length _ _ (by decide)]; decide)).2.2.2.2.2.2.2.2.2 rfl).2.2⟩⟩

/-- C22: in both terminal operations, when the two index buffers are shorter
than `2 ^ 32` bytes and every pass-through record of the builder has the size
of its type, the bytes of the first index buffer in the range that its
descriptor `UnknownSegment3` names are the bytes of the records of
`m_sqpackIndexSegment3`, in order, the `Size` of the descriptor is their
number, and the range lies within the buffer; the same holds for the second
index buffer and `m_sqpackIndex2Segment3`. -/
theorem passthrough_records_kept_verbatim (fmt : Format) (ifmt : IndexFormat) (c : Creator)
    (image1 : IndexImages fmt ifmt SqIndex.PairHashLocator SqIndex.PairHashWithTextLocator
      ifmt.sizeofPairHashLocator ifmt.sizeofPairHashWithTextLocator)
    (image2 : IndexImages fmt ifmt SqIndex.FullHashLocator SqIndex.FullHashWithTextLocator
      ifmt.sizeofFullHashLocator ifmt.sizeofFullHashWithTextLocator)
    (d1 : IndexFileData SqIndex.PairHashLocator SqIndex.PairHashWithTextLocator)
    (d2 : IndexFileData SqIndex.FullHashLocator SqIndex.FullHashWithTextLocator)
    (hop : (d1 = FinishToStreams.Index1 fmt ifmt c ∧ d2 = FinishToStreams.Index2 fmt ifmt c) ∨
      (d1 = FinishToFiles.Index1 fmt ifmt c ∧ d2 = FinishToFiles.Index2 fmt ifmt c))
    (h3 : ∀ s ∈ c.m_sqpackIndexSegment3, s.Bytes.length = ifmt.sizeofSegment3Entry)
    (h3' : ∀ s ∈ c.m_sqpackIndex2Segment3, s.Bytes.length = ifmt.sizeofSegment3Entry)
    (hfit1 : (IndexFileData.bytes image1 d1).length < 2 ^ 32)
    (hfit2 : (IndexFileData.bytes image2 d2).length < 2 ^ 32) :
    (((IndexFileData.bytes image1 d1).drop d1.UnknownSegment3.Offset).take
        d1.UnknownSegment3.Size = (c.m_sqpackIndexSegment3.map (fun s => s.Bytes)).flatten ∧
      d1.UnknownSegment3.Size =
        ((c.m_sqpackIndexSegment3.map (fun s => s.Bytes)).flatten).length ∧
      d1.UnknownSegment3.Offset + d1.UnknownSegment3.Size ≤
        (IndexFileData.bytes image1 d1).length) ∧
    (((IndexFileData.bytes image2 d2).drop d2.UnknownSegment3.Offset).take
        d2.UnknownSegment3.Size = (c.m_sqpackIndex2Segment3.map (fun s => s.Bytes)).flatten ∧
      d2.UnknownSegment3.Size =
        ((c.m_sqpackIndex2Segment3.map (fun s => s.Bytes)).flatten).length ∧
      d2.UnknownSegment3.Offset + d2.UnknownSegment3.Size ≤
        (IndexFileData.bytes image2 d2).length) := by
  rcases hop with ⟨h1, h2⟩ | ⟨h1, h2⟩
  · exact ⟨ExportIndexFileData_passthrough fmt ifmt _ _ _ image1 _ _ _ _ _ _ d1 h1 h3 hfit1,
      ExportIndexFileData_passthrough fmt ifmt _ _ _ image2 _ _ _ _ _ _ d2 h2 h3' hfit2⟩
  · exact ⟨ExportIndexFileData_passthrough fmt ifmt _ _ _ image1 _ _ _ _ _ _ d1 h1 h3 hfit1,
      ExportIndexFileData_passthrough fmt ifmt _ _ _ image2 _ _ _ _ _ _ d2 h2 h3' hfit2⟩

set_option maxRecDepth 20000 in
/-- Witness of C22: the builder `builderPassthrough` keeps two records for the
first index and one for the second; they stand at the offsets 2864 and 2840
of the two buffers of `FinishToStreams`. -/
theorem passthrough_records_kept_verbatim_witness :
    (FinishToStreams.Index1 Format.sqpack IndexFormat.sqpack
        Example.builderPassthrough).UnknownSegment3 = ⟨0, 2864, 32⟩ ∧
    (FinishToStreams.Index2 Format.sqpack IndexFormat.sqpack
        Example.builderPassthrough).UnknownSegment3 = ⟨0, 2840, 16⟩ ∧
    ((IndexFileData.bytes Example.indexImages1
          (FinishToStreams.Index1 Format.sqpack IndexFormat.sqpack
            Example.builderPassthrough)).drop
        (FinishToStreams.Index1 Format.sqpack IndexFormat.sqpack
          Example.builderPassthrough).UnknownSegment3.Offset).take
        (FinishToStreams.Index1 Format.sqpack IndexFormat.sqpack
          Example.builderPassthrough).UnknownSegment3.Size =
      List.replicate 16 7 ++ List.replicate 16 8 ∧
    ((IndexFileData.bytes Example.indexImages2
          (FinishToStreams.Index2 Format.sqpack IndexFormat.sqpack
            Example.builderPassthrough)).drop
        (FinishToStreams.Index2 Format.sqpack IndexFormat.sqpack
          Example.builderPassthrough).UnknownSegment3.Offset).take
        (FinishToStreams.Index2 Format.sqpack IndexFormat.sqpack
          Example.builderPassthrough).UnknownSegment3.Size =
      List.replicate 16 9 :=
  ⟨by decide, by decide,
    ((passthrough_records_kept_verbatim Format.sqpack IndexFormat.sqpack
      Example.builderPassthrough Example.indexImages1 Example.indexImages2 _ _
      (Or.inl ⟨rfl, rfl⟩) (by decide) (by decide)
      (by rw [IndexFileData.bytes_length _ _ (by decide)]; decide)
      (by rw [IndexFileData.bytes_length _ _ (by decide)]; decide)).1.1).trans (by decide),
    ((passthrough_records_kept_verbatim Format.sqpack IndexFormat.sqpack
      Example.builderPassthrough Example.indexImages1 Example.indexImages2 _ _
      (Or.inl ⟨rfl, rfl⟩) (by decide) (by decide)
      (by rw [IndexFileData.bytes_length _ _ (by decide)]; decide)
      (by rw [IndexFileData.bytes_length _ _ (by decide)]; decide)).2.1).trans (by decide)⟩

set_option maxRecDepth 1000000 in
/-- C23: the code breaks the claim for the checksum of the index header.
First part, for every builder, every layout of the records and of the header
and every digest function: with `strict` set, the checksum that
`ExportIndexFileData` stores in the index header of the first index of
`FinishToStreams` is the digest of the header bytes as they are at line 687,
with the four descriptor checksums still zero, while the checksum of the
conflict descriptor, stored afterwards, is the digest of its payload; so the
stored checksum is the digest of the final header bytes only if the digest
function gives the same value for the header bytes with zero checksums and
for the final header bytes, and these are different bytes whenever the header
bytes hold the descriptor checksums and the digest of the conflict table is
not the zero value. Second part, with SHA-1 at the empty builder (stand-ins
for the layout): the stored checksum begins 8b 75 e8 3e, the SHA-1 digest of
the final header bytes begins dd c2 a8 68. -/
theorem strict_index_header_checksum_is_stale :
    (∀ (fmt : Format) (ifmt : IndexFormat) (c : Creator)
        (image : IndexImages fmt ifmt SqIndex.PairHashLocator SqIndex.PairHashWithTextLocator
          ifmt.sizeofPairHashLocator ifmt.sizeofPairHashWithTextLocator)
        (s : ChecksumImages SqIndex.PairHashLocator SqIndex.PairHashWithTextLocator),
      (ExportIndexFileData.strict image s (FinishToStreams.Index1 fmt ifmt c)).SqIndexHeader =
        s.sha1 (s.SqIndexHeader (FinishToStreams.Index1 fmt ifmt c) SegmentChecksums.zero) ∧
      (ExportIndexFileData.strict image s
          (FinishToStreams.Index1 fmt ifmt c)).Segments.TextLocatorSegment =
        s.sha1
          ((((FinishToStreams.Index1 fmt ifmt c).conflictSegment.map
            image.conflictEntry).flatten).take
              (FinishToStreams.Index1 fmt ifmt c).TextLocatorSegment.Size) ∧
      ((ExportIndexFileData.strict image s (FinishToStreams.Index1 fmt ifmt c)).SqIndexHeader =
          s.sha1 (s.SqIndexHeader (FinishToStreams.Index1 fmt ifmt c)
            (ExportIndexFileData.strict image s (FinishToStreams.Index1 fmt ifmt c)).Segments) ↔
        s.sha1 (s.SqIndexHeader (FinishToStreams.Index1 fmt ifmt c) SegmentChecksums.zero) =
          s.sha1 (s.SqIndexHeader (FinishToStreams.Index1 fmt ifmt c)
            (ExportIndexFileData.strict image s (FinishToStreams.Index1 fmt ifmt c)).Segments)) ∧
      ((∀ a b, s.SqIndexHeader (FinishToStreams.Index1 fmt ifmt c) a =
          s.SqIndexHeader (FinishToStreams.Index1 fmt ifmt c) b → a = b) →
        s.sha1
          ((((FinishToStreams.Index1 fmt ifmt c).conflictSegment.map
            image.conflictEntry).flatten).take
              (FinishToStreams.Index1 fmt ifmt c).TextLocatorSegment.Size) ≠ Sha1Value.zero →
        s.SqIndexHeader (FinishToStreams.Index1 fmt ifmt c) SegmentChecksums.zero ≠
          s.SqIndexHeader (FinishToStreams.Index1 fmt ifmt c)
            (ExportIndexFileData.strict image s
              (FinishToStreams.Index1 fmt ifmt c)).Segments)) ∧
    ((ExportIndexFileData.strict Example.indexImages1 Example.checksumImages1
          (FinishToStreams.Index1 Format.sqpack IndexFormat.sqpack
            Example.builder)).SqIndexHeader =
        [139, 117, 232, 62, 18, 74, 71, 21, 51, 122, 135, 78, 38, 78, 248, 208, 219, 49, 213,
          107] ∧
      Sha1Value.SetFromSpan
          (Example.checksumImages1.SqIndexHeader
            (FinishToStreams.Index1 Format.sqpack IndexFormat.sqpack Example.builder)
            (ExportIndexFileData.strict Example.indexImages1 Example.checksumImages1
              (FinishToStreams.Index1 Format.sqpack IndexFormat.sqpack
                Example.builder)).Segments) =
        [221, 194, 168, 104, 28, 176, 49, 173, 128, 57, 163, 22, 122, 40, 208, 100, 177, 34,
          172, 183]) := by
  refine ⟨fun fmt ifmt c image s => ?_, by decide, by decide⟩
  have hne := Index1_conflictSegment_ne_nil fmt ifmt c
  have hE : (FinishToStreams.Index1 fmt ifmt c).conflictSegment.isEmpty = false := by
    cases h : (FinishToStreams.Index1 fmt ifmt c).conflictSegment with
    | nil => exact absurd h hne
    | cons a t => rfl
  have hstored : (ExportIndexFileData.strict image s
        (FinishToStreams.Index1 fmt ifmt c)).SqIndexHeader =
      s.sha1 (s.SqIndexHeader (FinishToStreams.Index1 fmt ifmt c) SegmentChecksums.zero) := rfl
  have htext : (ExportIndexFileData.strict image s
        (FinishToStreams.Index1 fmt ifmt c)).Segments.TextLocatorSegment =
      s.sha1
        ((((FinishToStreams.Index1 fmt ifmt c).conflictSegment.map
          image.conflictEntry).flatten).take
            (FinishToStreams.Index1 fmt ifmt c).TextLocatorSegment.Size) := by
    simp only [ExportIndexFileData.strict, hE, Bool.false_eq_true, if_false]
  refine ⟨hstored, htext, by rw [hstored], ?_⟩
  intro himage hdigest h
  have h1 := himage _ _ h
  have h2 := congrArg SegmentChecksums.TextLocatorSegment h1
  rw [htext] at h2
  exact hdigest h2.symm

set_option maxRecDepth 1000000 in
/-- Witness of C23: at the empty builder, with SHA-1 and the stand-in layout,
the header bytes hold the descriptor checksums and the SHA-1 digest of the
conflict table, which is the terminating record alone, is not the zero value;
so the bytes that were digested are not the final header bytes. -/
theorem strict_index_header_checksum_is_stale_witness :
    Example.checksumImages1.SqIndexHeader
        (FinishToStreams.Index1 Format.sqpack IndexFormat.sqpack Example.builder)
        SegmentChecksums.zero ≠
      Example.checksumImages1.SqIndexHeader
        (FinishToStreams.Index1 Format.sqpack IndexFormat.sqpack Example.builder)
        (ExportIndexFileData.strict Example.indexImages1 Example.checksumImages1
          (FinishToStreams.Index1 Format.sqpack IndexFormat.sqpack Example.builder)).Segments :=
  (strict_index_header_checksum_is_stale.1 Format.sqpack IndexFormat.sqpack Example.builder
    Example.indexImages1 Example.checksumImages1).2.2.2 (checksumImages1_injective _)
    (by decide)

/-- C24: for every view that `FinishToStreams` has made, in every state that
reads leave it in (any position of the slice as `m_lastAccessedEntryIndex`,
any valid cache or none), and every offset and length with
`offset + length <= StreamSize()`: `ReadStreamPartial` returns, and it
returns the length asked for, which is 0 only when the length is 0. -/
theorem ReadStreamPartial_returns_length (fmt : Format) (image : HeaderImages fmt)
    (c : Creator) (N : Nat) (v : DataViewStream)
    (hN : (FinishToStreams.Data fmt image c)[N]? = some v)
    (hint : Option Nat) (hhint : ∀ i, hint = some i → i < v.m_entries.length)
    (m_buffer : Option SqpackViewEntryCache) (hcache : CacheValid v.id v.m_entries m_buffer)
    (offset length : Nat) (hin : offset + length ≤ v.StreamSize) :
    ∃ r, DataViewStream.ReadStreamPartial { v with m_lastAccessedEntryIndex := hint }
        m_buffer offset length = some r ∧
      r.returned = length ∧ (r.returned = 0 ↔ length = 0) := by
  obtain ⟨_, _, _, _, _, _, hw⟩ := FinishToStreams_Data_spec fmt image c N v hN
  obtain ⟨r, h1, h2, _⟩ := ReadStreamPartial_spec _ (WellFormed_withHint v hw hint hhint)
    m_buffer hcache offset length hin
  exact ⟨r, h1, h2, by rw [h2]⟩

set_option maxRecDepth 20000 in
/-- Witness of C24: a read of 300 bytes from offset 2040 of the view with four
entries, with an empty cache attached and the last entry as the entry
accessed last. -/
theorem ReadStreamPartial_returns_length_witness :
    (FinishToStreams.Data Format.sqpack Example.images Example.builderCollide)[0]? =
      some Example.viewCollide ∧
    2040 + 300 ≤ Example.viewCollide.StreamSize ∧
    ∃ r, DataViewStream.ReadStreamPartial
        { Example.viewCollide with m_lastAccessedEntryIndex := some 3 }
        (some ⟨none⟩) 2040 300 = some r ∧
      r.returned = 300 ∧ (r.returned = 0 ↔ 300 = 0) :=
  ⟨rfl,
    by simp [DataViewStream.StreamSize, Example.viewCollide, DataViewStream.new, Example.images],
    ReadStreamPartial_returns_length Format.sqpack Example.images Example.builderCollide 0
      Example.viewCollide rfl (some 3)
      (by intro i hi; cases hi; decide) (some ⟨none⟩)
      (by intro ch b h1 h2; cases h1; cases h2) 2040 300
      (by simp [DataViewStream.StreamSize, Example.viewCollide, DataViewStream.new,
        Example.images])⟩

/-- C25: for every view that `FinishToStreams` has made, in every state that
reads leave it in, with or without a cache, and every offset and length with
`offset + length <= StreamSize()`: the bytes that `ReadStreamPartial` stores
are the slice from `offset` of the given length of the flat sequence of the
view, its header bytes followed by `EntrySize` bytes of each entry of the
slice in order; and the state that the read leaves is again such a state,
the cache staying valid for every other view as well. -/
theorem ReadStreamPartial_reads_flat_slice (fmt : Format) (image : HeaderImages fmt)
    (c : Creator) (N : Nat) (v : DataViewStream)
    (hN : (FinishToStreams.Data fmt image c)[N]? = some v)
    (hint : Option Nat) (hhint : ∀ i, hint = some i → i < v.m_entries.length)
    (m_buffer : Option SqpackViewEntryCache) (hcache : CacheValid v.id v.m_entries m_buffer)
    (offset length : Nat) (hin : offset + length ≤ v.StreamSize) :
    ∃ r, DataViewStream.ReadStreamPartial { v with m_lastAccessedEntryIndex := hint }
        m_buffer offset length = some r ∧
      r.written = (v.flat.drop offset).take length ∧
      (∀ i, r.m_lastAccessedEntryIndex = some i → i < v.m_entries.length) ∧
      CacheValid v.id v.m_entries r.cache ∧
      ∀ (other : Nat) (entries : List Entry), other ≠ v.id →
        CacheValid other entries m_buffer → CacheValid other entries r.cache := by
  obtain ⟨_, _, _, _, _, _, hw⟩ := FinishToStreams_Data_spec fmt image c N v hN
  obtain ⟨r, h1, _, h3, h4, h5, h6⟩ :=
    ReadStreamPartial_spec _ (WellFormed_withHint v hw hint hhint) m_buffer hcache offset
      length hin
  refine ⟨r, h1, h3, h4, h5, ?_⟩
  · intro other entries hne hval
    rcases h6 with h6 | ⟨b, hb, hbv⟩
    · rw [h6]
      exact hval
    · intro ch b' hch hb' hview
      rw [hb] at hch
      simp only [Option.some.injEq] at hch
      subst hch
      simp only [Option.some.injEq] at hb'
      subst hb'
      exact absurd (hbv.symm.trans hview).symm hne

set_option maxRecDepth 20000 in
/-- Witness of C25: the read of 300 bytes from offset 2040 takes the last 8
bytes of the header, the first two entries whole and 36 bytes of the third,
with an empty cache attached. -/
theorem ReadStreamPartial_reads_flat_slice_witness :
    (FinishToStreams.Data Format.sqpack Example.images Example.builderCollide)[0]? =
      some Example.viewCollide ∧
    2040 + 300 ≤ Example.viewCollide.StreamSize ∧
    ∃ r, DataViewStream.ReadStreamPartial
        { Example.viewCollide with m_lastAccessedEntryIndex := none }
        (some ⟨none⟩) 2040 300 = some r ∧
      r.written =
        List.replicate 8 0 ++ [8, 9] ++ List.replicate 126 0 ++ [4] ++ List.replicate 127 0 ++
          [7] ++ List.replicate 35 0 :=
  ⟨rfl,
    by simp [DataViewStream.StreamSize, Example.viewCollide, DataViewStream.new, Example.images],
    (ReadStreamPartial_reads_flat_slice Format.sqpack Example.images Example.builderCollide 0
      Example.viewCollide rfl none (by intro i hi; cases hi) (some ⟨none⟩)
      (by intro ch b h1 h2; cases h1; cases h2) 2040 300
      (by simp [DataViewStream.StreamSize, Example.viewCollide, DataViewStream.new,
        Example.images])).imp
      (fun _ h => ⟨h.1, h.2.1.trans (by decide)⟩)⟩

/-- C26: `StreamSize()` of a view is the length of its header buffer plus the
`DataSize` of its subheader; for the view of segment `N` that
`FinishToStreams` has made, the subheader is the data subheader `N`, the
header buffer has the size of the two headers, and `StreamSize()` is that size
plus the sum of the `EntrySize` of the entries of the slice of the view, the
slice `dataEntryRanges[N]` of the entries. -/
theorem DataViewStream_StreamSize (fmt : Format) (image : HeaderImages fmt)
    (c : Creator) (N : Nat) (v : DataViewStream)
    (hN : (FinishToStreams.Data fmt image c)[N]? = some v) :
    (∀ w : DataViewStream, w.StreamSize = w.m_header.length + w.SubHeader.DataSize) ∧
    (FinishToStreams fmt c).dataSubheaders[N]? = some v.SubHeader ∧
    v.m_header.length = fmt.sizeofSqpackHeader + fmt.sizeofSqDataHeader ∧
    v.StreamSize =
      fmt.sizeofSqpackHeader + fmt.sizeofSqDataHeader +
        (v.m_entries.map (fun e => e.EntrySize)).sum ∧
    ∃ r, (FinishToStreams fmt c).dataEntryRanges[N]? = some r ∧
      v.m_entries = ((FinishToStreams fmt c).Entries.drop r.1).take r.2 := by
  obtain ⟨h, r, hH, hR, hv, hlen, hw⟩ := FinishToStreams_Data_spec fmt image c N v hN
  refine ⟨fun _ => rfl, ?_, hlen, ?_, r, hR, ?_⟩
  · rw [hH, hv]
    rfl
  · rw [DataViewStream.StreamSize, hw.size, hlen]
  · rw [hv]
    rfl

set_option maxRecDepth 20000 in
/-- Witness of C26: the view of segment 1 at the builder with the cap 2304
has the size 2048 + 128. -/
theorem DataViewStream_StreamSize_witness :
    (FinishToStreams.Data Format.sqpack Example.images Example.builderTwoSegments)[1]? =
      some Example.viewSecond ∧
    Example.viewSecond.StreamSize =
      Format.sqpack.sizeofSqpackHeader + Format.sqpack.sizeofSqDataHeader +
        (Example.viewSecond.m_entries.map (fun e => e.EntrySize)).sum ∧
    Example.viewSecond.StreamSize = 2176 :=
  ⟨rfl,
    (DataViewStream_StreamSize Format.sqpack Example.images Example.builderTwoSegments 1
      Example.viewSecond rfl).2.2.2.1,
    by simp [DataViewStream.StreamSize, Example.viewSecond, DataViewStream.new, Example.images]⟩

/-- C27: `GetFile(p)` fails if and only if `p` is found neither in the
hash-only table nor in the full-path table, and then with the not-found
error; an entry found in the hash-only table gives the stream over its
provider, and otherwise an entry found in the full-path table gives the
stream over its provider. `GetFile` is a `const` member: it is a function of
the builder and yields no new builder state. -/
theorem GetFile_found_iff (c : Creator) (p : EntryPathSpec) :
    ((∀ provider, GetFile c p ≠ Except.ok provider) ↔
      (Table.find AllHashComparator c.m_hashOnlyEntries p = none ∧
        Table.find FullPathComparator c.m_fullEntries p = none)) ∧
    ((Table.find AllHashComparator c.m_hashOnlyEntries p = none ∧
        Table.find FullPathComparator c.m_fullEntries p = none) →
      GetFile c p = Except.error "PathSpec not found") ∧
    (∀ k e, Table.find AllHashComparator c.m_hashOnlyEntries p = some (k, e) →
      GetFile c p = Except.ok e.Provider) ∧
    (∀ k e, Table.find AllHashComparator c.m_hashOnlyEntries p = none →
      Table.find FullPathComparator c.m_fullEntries p = some (k, e) →
      GetFile c p = Except.ok e.Provider) := by
  refine ⟨?_, ?_, ?_, ?_⟩
  · unfold GetFile
    cases h1 : Table.find AllHashComparator c.m_hashOnlyEntries p with
    | some kv => simp
    | none =>
      cases h2 : Table.find FullPathComparator c.m_fullEntries p with
      | some kv => simp
      | none => simp
  · intro ⟨h1, h2⟩
    simp [GetFile, h1, h2]
  · intro k e h1
    simp [GetFile, h1]
  · intro k e h1 h2
    simp [GetFile, h1, h2]

/-- C28: the provider variant that `AddEntryFromFile` constructs depends on
the file size and the extension only. A file of size 0 gives the placeholder
for every extension; for another size the extensions `.tex` and `.atex` give
the texture provider, `.mdl` the model provider, and an extension whose
lower-case form is none of the three the binary provider; two extensions that
differ only in the case of ASCII letters give the same variant. -/
theorem AddEntryFromFile_provider_kind (pathSpec : EntryPathSpec) (fileSize : Nat)
    (extension : List Nat) (served : List Nat) :
    (AddEntryFromFile.provider pathSpec fileSize extension served).Kind =
      AddEntryFromFile.providerKind fileSize extension ∧
    AddEntryFromFile.providerKind 0 extension = ProviderKind.EmptyOrObfuscated ∧
    (fileSize ≠ 0 →
      AddEntryFromFile.providerKind fileSize (AddEntryFromFile.codeUnits ".tex") =
        ProviderKind.Texture ∧
      AddEntryFromFile.providerKind fileSize (AddEntryFromFile.codeUnits ".atex") =
        ProviderKind.Texture ∧
      AddEntryFromFile.providerKind fileSize (AddEntryFromFile.codeUnits ".mdl") =
        ProviderKind.Model ∧
      (extension.map AddEntryFromFile.lower ≠ AddEntryFromFile.codeUnits ".tex" →
        extension.map AddEntryFromFile.lower ≠ AddEntryFromFile.codeUnits ".atex" →
        extension.map AddEntryFromFile.lower ≠ AddEntryFromFile.codeUnits ".mdl" →
        AddEntryFromFile.providerKind fileSize extension = ProviderKind.Binary)) ∧
    (∀ other : List Nat, List.Forall₂ sameUpToAsciiCase extension other →
      AddEntryFromFile.providerKind fileSize other =
        AddEntryFromFile.providerKind fileSize extension) := by
  refine ⟨?_, ?_, ?_, ?_⟩
  · unfold AddEntryFromFile.provider
    split
    · rename_i h
      simp [EmptyOrObfuscatedEntryProvider, AddEntryFromFile.providerKind, h]
    · rfl
  · simp [AddEntryFromFile.providerKind]
  · intro hn
    refine ⟨?_, ?_, ?_, ?_⟩
    · simp only [AddEntryFromFile.providerKind, if_neg hn]
      decide
    · simp only [AddEntryFromFile.providerKind, if_neg hn]
      decide
    · simp only [AddEntryFromFile.providerKind, if_neg hn]
      decide
    · intro h1 h2 h3
      simp [AddEntryFromFile.providerKind, hn, h1, h2, h3]
  · intro other h
    simp only [AddEntryFromFile.providerKind, map_lower_sameUpToAsciiCase _ _ h]

set_option maxRecDepth 100000 in
/-- Evaluation for C29: three calls of `AddEntry` with providers of 1000 bytes
under three paths, on the empty builder with the cap 2048, give the builder
`builderThree`; in the format of the game client `FinishToStreams` opens three
data segments for it, not two, and the third entry lies in the data file 2. -/
theorem three_entries_open_three_segments :
    (((AddEntry Env.quiet Example.builder AddEntryResult.empty
        (Example.provThousand Example.specPath) true).bind
      (fun s => AddEntry Env.quiet s.1 s.2 (Example.provThousand Example.specOther) true)).bind
      (fun s => AddEntry Env.quiet s.1 s.2 (Example.provThousand Example.specThird) true)).map
        (fun s => s.1) = some Example.builderThree ∧
    Example.builderThree.m_maxFileSize = 2048 ∧
    (FinishToStreams Format.sqpack Example.builderThree).dataSubheaders.map
        (fun h => (h.SpanIndex, h.DataSize)) = [(0, 1024), (1, 1024), (2, 1024)] ∧
    (FinishToStreams Format.sqpack Example.builderThree).dataSubheaders.length ≠ 2 ∧
    (FinishToStreams Format.sqpack Example.builderThree).Entries.map (fun e => e.Locator) =
      [⟨0, 2048⟩, ⟨1, 2048⟩, ⟨2, 2048⟩] := by
  refine ⟨by decide, rfl, by decide, by decide, by decide⟩

/-- C29: for a builder with the cap 2048 whose three entries, all under path
identities with pairwise different hash pairs, have 1000 bytes each, in a
format with 128-byte alignment and headers of positive size, `FinishToStreams`
produces exactly three data segments of 1024 bytes, one for each entry in
order, every entry right behind the two headers of its own data file, and
the primary index has exactly three records, the direct records of the three
entries with these locators, in ascending order of the hash pair. -/
theorem three_entries_of_1000_bytes_at_cap_2048 (fmt : Format) (ifmt : IndexFormat)
    (c : Creator) (l1 l2 l3 : SqIndex.LEDataLocator) (p1 p2 p3 : EntryProvider)
    (hcap : c.m_maxFileSize = 2048) (hhash : c.m_hashOnlyEntries = [])
    (hfull : c.m_fullEntries.map Prod.snd = [⟨0, l1, p1⟩, ⟨0, l2, p2⟩, ⟨0, l3, p3⟩])
    (h1 : p1.StreamSize = 1000) (h2 : p2.StreamSize = 1000) (h3 : p3.StreamSize = 1000)
    (h12 : pairKey p1.PathSpec ≠ pairKey p2.PathSpec)
    (h13 : pairKey p1.PathSpec ≠ pairKey p3.PathSpec)
    (h23 : pairKey p2.PathSpec ≠ pairKey p3.PathSpec)
    (halign : fmt.EntryAlignment = 128)
    (hhdr : 0 < fmt.sizeofSqpackHeader + fmt.sizeofSqDataHeader) :
    (FinishToStreams fmt c).dataSubheaders.map (fun h => (h.SpanIndex, h.DataSize)) =
      [(0, 1024), (1, 1024), (2, 1024)] ∧
    (FinishToStreams fmt c).dataEntryRanges = [(0, 1), (1, 1), (2, 1)] ∧
    (FinishToStreams fmt c).Entries.map (fun e => (e.Provider.PathSpec, e.Locator)) =
      [(p1.PathSpec, ⟨0, fmt.sizeofSqpackHeader + fmt.sizeofSqDataHeader⟩),
        (p2.PathSpec, ⟨1, fmt.sizeofSqpackHeader + fmt.sizeofSqDataHeader⟩),
        (p3.PathSpec, ⟨2, fmt.sizeofSqpackHeader + fmt.sizeofSqDataHeader⟩)] ∧
    List.Perm (FinishToStreams.Index1 fmt ifmt c).fileSegment
      [⟨p1.PathSpec.NameHash, p1.PathSpec.PathHash,
          SqIndex.LocatorField.Data ⟨0, fmt.sizeofSqpackHeader + fmt.sizeofSqDataHeader⟩, 0⟩,
        ⟨p2.PathSpec.NameHash, p2.PathSpec.PathHash,
          SqIndex.LocatorField.Data ⟨1, fmt.sizeofSqpackHeader + fmt.sizeofSqDataHeader⟩, 0⟩,
        ⟨p3.PathSpec.NameHash, p3.PathSpec.PathHash,
          SqIndex.LocatorField.Data ⟨2, fmt.sizeofSqpackHeader + fmt.sizeofSqDataHeader⟩, 0⟩] ∧
    (FinishToStreams.Index1 fmt ifmt c).fileSegment.Pairwise (fun a b =>
      a.PathHash < b.PathHash ∨ (a.PathHash = b.PathHash ∧ a.NameHash ≤ b.NameHash)) := by
  have hA := FinishToStreams_three fmt c l1 l2 l3 p1 p2 p3 hcap hhash hfull h1 h2 h3 halign hhdr
  have hS := sortRecords_pairHash (FinishToStreams.tables fmt ifmt c).fileEntries1
  have hT := indexTables_single ifmt (entriesForStreams c) (FinishToStreams fmt c).Entries
    (FinishToStreams_pathSpecs fmt c)
  have hP1 : (HotSwappableEntryProvider p1.PathSpec 1024 p1).PathSpec = p1.PathSpec := rfl
  have hP2 : (HotSwappableEntryProvider p2.PathSpec 1024 p2).PathSpec = p2.PathSpec := rfl
  have hP3 : (HotSwappableEntryProvider p3.PathSpec 1024 p3).PathSpec = p3.PathSpec := rfl
  refine ⟨by rw [hA]; rfl, by rw [hA], by rw [hA]; rfl, ?_, hS.2⟩
  refine hS.1.trans ?_
  have hmem : ∀ (k : Nat × Nat) (e : Entry),
      (FinishToStreams fmt c).Entries.filter (fun e => pairKey e.Provider.PathSpec = k) = [e] →
      (⟨k.2, k.1, SqIndex.LocatorField.Data e.Locator, 0⟩ : SqIndex.PairHashLocator) ∈
        (FinishToStreams.tables fmt ifmt c).fileEntries1 := by
    intro k e he
    have := (hT.1 k e he).1
    have hm : (⟨k.2, k.1, SqIndex.LocatorField.Data e.Locator, 0⟩ : SqIndex.PairHashLocator) ∈
        (indexTables ifmt (entriesForStreams c) (FinishToStreams fmt c).Entries).fileEntries1.filter
          (fun r => (r.PathHash, r.NameHash) = k) := by
      rw [this]
      exact List.mem_singleton_self _
    exact (List.mem_filter.mp hm).1
  have hlen : (FinishToStreams.tables fmt ifmt c).fileEntries1.length = 3 := by
    have hd : ((FinishToStreams fmt c).Entries.map (fun e => pairKey e.Provider.PathSpec)).dedup
        = [pairKey p1.PathSpec, pairKey p2.PathSpec, pairKey p3.PathSpec] := by
      rw [hA]
      simp only [List.map_cons, List.map_nil, hP1, hP2, hP3]
      rw [List.dedup_cons_of_not_mem (by simp [h12, h13]),
        List.dedup_cons_of_not_mem (by simp [h23])]
      rfl
    have := hT.2.2.1
    rw [hd] at this
    exact this
  have h21 : pairKey p2.PathSpec ≠ pairKey p1.PathSpec := fun h => h12 h.symm
  have h31 : pairKey p3.PathSpec ≠ pairKey p1.PathSpec := fun h => h13 h.symm
  have h32 : pairKey p3.PathSpec ≠ pairKey p2.PathSpec := fun h => h23 h.symm
  have m1 := hmem (pairKey p1.PathSpec)
    ⟨1024, ⟨0, fmt.sizeofSqpackHeader + fmt.sizeofSqDataHeader⟩,
      HotSwappableEntryProvider p1.PathSpec 1024 p1⟩
    (by rw [hA]; simp [List.filter, hP1, hP2, hP3, h21, h31])
  have m2 := hmem (pairKey p2.PathSpec)
    ⟨1024, ⟨1, fmt.sizeofSqpackHeader + fmt.sizeofSqDataHeader⟩,
      HotSwappableEntryProvider p2.PathSpec 1024 p2⟩
    (by rw [hA]; simp [List.filter, hP1, hP2, hP3, h12, h32])
  have m3 := hmem (pairKey p3.PathSpec)
    ⟨1024, ⟨2, fmt.sizeofSqpackHeader + fmt.sizeofSqDataHeader⟩,
      HotSwappableEntryProvider p3.PathSpec 1024 p3⟩
    (by rw [hA]; simp [List.filter, hP1, hP2, hP3, h13, h23])
  refine perm_of_three _ _ _ _ ?_ ?_ ?_ m1 m2 m3 hlen
  · intro h
    injection h with _ _ h
    injection h with h
    injection h with h
    omega
  · intro h
    injection h with _ _ h
    injection h with h
    injection h with h
    omega
  · intro h
    injection h with _ _ h
    injection h with h
    injection h with h
    omega

set_option maxRecDepth 100000 in
/-- Witness of C29: the three files "a/b", "a/c" and "b/d" of 1000 bytes in the
game format. -/
theorem three_entries_of_1000_bytes_at_cap_2048_witness :
    (FinishToStreams Format.sqpack Example.builderThree).dataSubheaders.map
        (fun h => (h.SpanIndex, h.DataSize)) = [(0, 1024), (1, 1024), (2, 1024)] ∧
    (FinishToStreams.Index1 Format.sqpack IndexFormat.sqpack Example.builderThree).fileSegment =
      [⟨2, 1, SqIndex.LocatorField.Data ⟨0, 2048⟩, 0⟩,
        ⟨4, 1, SqIndex.LocatorField.Data ⟨1, 2048⟩, 0⟩,
        ⟨10, 9, SqIndex.LocatorField.Data ⟨2, 2048⟩, 0⟩] ∧
    (FinishToStreams.Index1 Format.sqpack IndexFormat.sqpack
      Example.builderThree).fileSegment.Pairwise (fun a b =>
        a.PathHash < b.PathHash ∨ (a.PathHash = b.PathHash ∧ a.NameHash ≤ b.NameHash)) :=
  ⟨(three_entries_of_1000_bytes_at_cap_2048 Format.sqpack IndexFormat.sqpack
      Example.builderThree ⟨0, 0⟩ ⟨0, 0⟩ ⟨0, 0⟩ (Example.provThousand Example.specPath)
      (Example.provThousand Example.specOther) (Example.provThousand Example.specThird)
      rfl rfl rfl (by decide) (by decide) (by decide) (by decide) (by decide) (by decide)
      rfl (by decide)).1,
    by decide,
    (three_entries_of_1000_bytes_at_cap_2048 Format.sqpack IndexFormat.sqpack
      Example.builderThree ⟨0, 0⟩ ⟨0, 0⟩ ⟨0, 0⟩ (Example.provThousand Example.specPath)
      (Example.provThousand Example.specOther) (Example.provThousand Example.specThird)
      rfl rfl rfl (by decide) (by decide) (by decide) (by decide) (by decide) (by decide)
      rfl (by decide)).2.2.2.2⟩

/-- C30: `AddEntryResult` is summable. After `a += b` each of the four lists
of `a` is its previous contents followed by the list of `b`; the copying
overload leaves `b` as it was and the moving overload leaves the four lists
of `b` empty, with the same `a`; `+=` is associative and the empty result is
its identity on both sides. -/
theorem AddEntryResult_addAssign_appends (a b c : AddEntryResult) :
    ((AddEntryResult.addAssign a b).1.Added = a.Added ++ b.Added ∧
      (AddEntryResult.addAssign a b).1.Replaced = a.Replaced ++ b.Replaced ∧
      (AddEntryResult.addAssign a b).1.SkippedExisting =
        a.SkippedExisting ++ b.SkippedExisting ∧
      (AddEntryResult.addAssign a b).1.Error = a.Error ++ b.Error) ∧
    (AddEntryResult.addAssign a b).2 = b ∧
    (AddEntryResult.addAssignMove a b).1 = (AddEntryResult.addAssign a b).1 ∧
    (AddEntryResult.addAssignMove a b).2 = AddEntryResult.empty ∧
    (AddEntryResult.addAssign (AddEntryResult.addAssign a b).1 c).1 =
      (AddEntryResult.addAssign a (AddEntryResult.addAssign b c).1).1 ∧
    (AddEntryResult.addAssign a AddEntryResult.empty).1 = a ∧
    (AddEntryResult.addAssign AddEntryResult.empty a).1 = a := by
  refine ⟨⟨rfl, rfl, rfl, rfl⟩, rfl, rfl, rfl, ?_, ?_, ?_⟩
  · simp [AddEntryResult.addAssign, List.append_assoc]
  · simp [AddEntryResult.addAssign, AddEntryResult.empty]
  · simp [AddEntryResult.addAssign, AddEntryResult.empty]

/-- C31: after `FinishToStreams`, in the slice `dataEntryRanges[N]` of the
entries the first entry lies right behind the two headers, every later entry
lies where the entry before it ends (its offset plus its resolved
`EntrySize`), so that an entry ends before or where every later entry of the
slice begins, and every entry of the slice has `N` as the data file of its
locator; every entry lies in a slice. -/
theorem entries_of_a_segment_are_contiguous (fmt : Format) (c : Creator) (N : Nat)
    (r : Nat × Nat) (hN : (FinishToStreams fmt c).dataEntryRanges[N]? = some r) :
    (∀ e : Entry, (((FinishToStreams fmt c).Entries.drop r.1).take r.2)[0]? = some e →
      e.Locator.DatFileOffset = fmt.sizeofSqpackHeader + fmt.sizeofSqDataHeader) ∧
    (∀ (k : Nat) (a b : Entry),
      (((FinishToStreams fmt c).Entries.drop r.1).take r.2)[k]? = some a →
      (((FinishToStreams fmt c).Entries.drop r.1).take r.2)[k + 1]? = some b →
      b.Locator.DatFileOffset = a.Locator.DatFileOffset + a.EntrySize) ∧
    (∀ (j k : Nat) (a b : Entry), j < k →
      (((FinishToStreams fmt c).Entries.drop r.1).take r.2)[j]? = some a →
      (((FinishToStreams fmt c).Entries.drop r.1).take r.2)[k]? = some b →
      a.Locator.DatFileOffset ≤ b.Locator.DatFileOffset ∧
        a.Locator.DatFileOffset + a.EntrySize ≤ b.Locator.DatFileOffset) ∧
    (∀ e ∈ ((FinishToStreams fmt c).Entries.drop r.1).take r.2, e.Locator.DatFileIndex = N) ∧
    (∀ (i : Nat) (e : Entry), (FinishToStreams fmt c).Entries[i]? = some e →
      ∃ (M : Nat) (q : Nat × Nat), (FinishToStreams fmt c).dataEntryRanges[M]? = some q ∧ q.1 ≤ i ∧
        i < q.1 + q.2 ∧ e.Locator.DatFileIndex = M) := by
  obtain ⟨segs, hP, _, hlenR, _, hall⟩ := FinishToStreams_slice fmt c
  have hNlt : N < segs.length := by
    by_contra hge
    rw [List.getElem?_eq_none (by omega)] at hN
    simp at hN
  obtain ⟨hR, hslice, _, hloc, _⟩ := hall N segs[N] (List.getElem?_eq_getElem hNlt)
  rw [hN] at hR
  simp only [Option.some.injEq] at hR
  subst hR
  simp only [hslice]
  have hoff := fun (k : Nat) (e : Entry) (h : segs[N][k]? = some e) => locatedFrom_getElem? hloc k e h
  have hsz : ∀ (k : Nat) (e : Entry), segs[N][k]? = some e →
      (segs[N].map (fun e => e.EntrySize))[k]? = some e.EntrySize := by
    intro k e h
    rw [List.getElem?_map, h]
    rfl
  refine ⟨?_, ?_, ?_, locatedFrom_index hloc, ?_⟩
  · intro e he
    rw [hoff 0 e he]
    simp
  · intro k a b ha hb
    rw [hoff k a ha, hoff (k + 1) b hb, List.map_take, List.map_take,
      sum_take_succ _ k _ (hsz k a ha)]
    omega
  · intro j k a b hjk ha hb
    rw [hoff j a ha, hoff k b hb, List.map_take, List.map_take]
    have h1 := sum_take_succ _ j _ (hsz j a ha)
    have h2 := sum_take_le_sum_take (segs[N].map (fun e => e.EntrySize)) (j + 1) k (by omega)
    omega
  · intro i e he
    rw [hP.entries] at he
    obtain ⟨M, s, h1, h2, h3, h4⟩ := flatten_position segs i e he
    obtain ⟨hR', _, _, hloc', _⟩ := hall M s h1
    exact ⟨M, _, hR', h2, h3, locatedFrom_index hloc' e h4⟩

set_option maxRecDepth 20000 in
/-- Witness of C31: the four entries of 128 bytes of `builderCollide` lie in
the segment 0 at the offsets 2048, 2176, 2304 and 2432. -/
theorem entries_of_a_segment_are_contiguous_witness :
    (FinishToStreams Format.sqpack Example.builderCollide).dataEntryRanges[0]? = some (0, 4) ∧
    (((FinishToStreams Format.sqpack Example.builderCollide).Entries.drop 0).take 4).map
        (fun e => (e.Locator, e.EntrySize)) =
      [(⟨0, 2048⟩, 128), (⟨0, 2176⟩, 128), (⟨0, 2304⟩, 128), (⟨0, 2432⟩, 128)] ∧
    ∀ e ∈ ((FinishToStreams Format.sqpack Example.builderCollide).Entries.drop 0).take 4,
      e.Locator.DatFileIndex = 0 :=
  ⟨by decide, by decide,
    (entries_of_a_segment_are_contiguous Format.sqpack Example.builderCollide 0 (0, 4)
      (by decide)).2.2.2.1⟩

/-- C32: the segmentation of `FinishToStreams` is the greedy segmentation of
the resolved sizes of the entries, taken in order, with the header size and
the cap of the builder: the segment `N` has the `SpanIndex` `N`, the cap as
`MaxFileSize` and the sum of the sizes of the greedy segment `N` as `DataSize`;
its entry range starts where the ranges before it end and counts the sizes of
the greedy segment `N`; the greedy segments are not empty and, one behind the
other, are the sizes of all entries in order; the first size of a segment did
not fit behind the sizes of the segment before it, and every other size
fitted behind the sizes before it in its segment. -/
theorem FinishToStreams_segmentation_is_greedy (fmt : Format) (c : Creator) :
    (FinishToStreams fmt c).Entries.map (fun e => e.EntrySize) =
      (entriesForStreams c).map (fun e => (resolveEntry fmt e).EntrySize) ∧
    (∀ N : Nat, (FinishToStreams fmt c).dataSubheaders[N]? =
      ((greedySegments (fmt.sizeofSqpackHeader + fmt.sizeofSqDataHeader) c.m_maxFileSize
          ((entriesForStreams c).map (fun e => (resolveEntry fmt e).EntrySize)))[N]?).map
        (fun g =>
          ({ HeaderSize := fmt.sizeofSqDataHeader, Unknown1 := fmt.Unknown1_Value,
             DataSize := g.sum, SpanIndex := N, MaxFileSize := c.m_maxFileSize } :
            SqData.Header))) ∧
    (∀ N : Nat, (FinishToStreams fmt c).dataEntryRanges[N]? =
      ((greedySegments (fmt.sizeofSqpackHeader + fmt.sizeofSqDataHeader) c.m_maxFileSize
          ((entriesForStreams c).map (fun e => (resolveEntry fmt e).EntrySize)))[N]?).map
        (fun g =>
          (((greedySegments (fmt.sizeofSqpackHeader + fmt.sizeofSqDataHeader) c.m_maxFileSize
              ((entriesForStreams c).map
                (fun e => (resolveEntry fmt e).EntrySize))).take N).flatten.length,
            g.length))) ∧
    (greedySegments (fmt.sizeofSqpackHeader + fmt.sizeofSqDataHeader) c.m_maxFileSize
        ((entriesForStreams c).map (fun e => (resolveEntry fmt e).EntrySize))).flatten =
      (entriesForStreams c).map (fun e => (resolveEntry fmt e).EntrySize) ∧
    (∀ g ∈ greedySegments (fmt.sizeofSqpackHeader + fmt.sizeofSqDataHeader) c.m_maxFileSize
        ((entriesForStreams c).map (fun e => (resolveEntry fmt e).EntrySize)), g ≠ []) ∧
    (∀ (N : Nat) (p q : List Nat),
      (greedySegments (fmt.sizeofSqpackHeader + fmt.sizeofSqDataHeader) c.m_maxFileSize
        ((entriesForStreams c).map (fun e => (resolveEntry fmt e).EntrySize)))[N]? = some p →
      (greedySegments (fmt.sizeofSqpackHeader + fmt.sizeofSqDataHeader) c.m_maxFileSize
        ((entriesForStreams c).map (fun e => (resolveEntry fmt e).EntrySize)))[N + 1]? =
          some q →
      ∃ s, q[0]? = some s ∧
        fmt.sizeofSqpackHeader + fmt.sizeofSqDataHeader + p.sum + s > c.m_maxFileSize) ∧
    (∀ (g : List Nat) (j s : Nat),
      g ∈ greedySegments (fmt.sizeofSqpackHeader + fmt.sizeofSqDataHeader) c.m_maxFileSize
        ((entriesForStreams c).map (fun e => (resolveEntry fmt e).EntrySize)) →
      0 < j → g[j]? = some s →
      fmt.sizeofSqpackHeader + fmt.sizeofSqDataHeader + (g.take j).sum + s ≤
        c.m_maxFileSize) := by
  obtain ⟨segs, hP, hR, hG⟩ := FinishToStreams_greedy fmt c
  obtain ⟨hrule1, hrule2⟩ := greedySegments_rule
    (fmt.sizeofSqpackHeader + fmt.sizeofSqDataHeader) c.m_maxFileSize
    ((entriesForStreams c).map (fun e => (resolveEntry fmt e).EntrySize))
  obtain ⟨hF, hne⟩ := greedySegments_flatten
    (fmt.sizeofSqpackHeader + fmt.sizeofSqDataHeader) c.m_maxFileSize
    ((entriesForStreams c).map (fun e => (resolveEntry fmt e).EntrySize))
  refine ⟨?_, ?_, ?_, hF, hne, hrule1, hrule2⟩
  · rw [← hF, ← hG, hP.entries, List.map_flatten]
  · intro N
    rw [← hG, hP.headers, headersOf_getElem?, List.getElem?_map]
    cases segs[N]? with
    | none => rfl
    | some s => simp
  · intro N
    rw [← hG, hR, rangesOf_getElem?, List.getElem?_map, take_map_flatten_length]
    cases segs[N]? with
    | none => rfl
    | some s => simp

set_option maxRecDepth 20000 in
/-- Evaluation for C32: with the cap 2304 the sizes 256 and 128 give the
greedy segments [256] and [128], and `FinishToStreams` forms the entry ranges
(0, 1) and (1, 1). -/
theorem FinishToStreams_segmentation_is_greedy_example :
    greedySegments 2048 2304 [256, 128] = [[256], [128]] ∧
    greedySegments 2048 2432 [256, 128] = [[256, 128]] ∧
    (FinishToStreams Format.sqpack Example.builderTwoSegments).dataEntryRanges =
      [(0, 1), (1, 1)] := by
  refine ⟨by decide, by decide, by decide⟩

/-- C33: for every view that `FinishToStreams` has made, every in-range offset
and length, and any two states that reads leave the view in (any position of
the slice as `m_lastAccessedEntryIndex` or none, any valid cache or none):
`ReadStreamPartial` returns the same count and stores the same bytes in both;
the value it leaves as `m_lastAccessedEntryIndex` is again a position of the
slice; when the read reaches the entries it is the position of the entry in
which the last byte read lies, and otherwise it is the value found. -/
theorem ReadStreamPartial_independent_of_hint (fmt : Format) (image : HeaderImages fmt)
    (c : Creator) (N : Nat) (v : DataViewStream)
    (hN : (FinishToStreams.Data fmt image c)[N]? = some v)
    (hint hint' : Option Nat) (hhint : ∀ i, hint = some i → i < v.m_entries.length)
    (hhint' : ∀ i, hint' = some i → i < v.m_entries.length)
    (m_buffer m_buffer' : Option SqpackViewEntryCache)
    (hcache : CacheValid v.id v.m_entries m_buffer)
    (hcache' : CacheValid v.id v.m_entries m_buffer')
    (offset length : Nat) (hin : offset + length ≤ v.StreamSize) :
    ∃ r r', DataViewStream.ReadStreamPartial { v with m_lastAccessedEntryIndex := hint }
        m_buffer offset length = some r ∧
      DataViewStream.ReadStreamPartial { v with m_lastAccessedEntryIndex := hint' }
        m_buffer' offset length = some r' ∧
      r.returned = r'.returned ∧ r.written = r'.written ∧
      (∀ i, r.m_lastAccessedEntryIndex = some i → i < v.m_entries.length) ∧
      ((length = 0 ∨ offset + length ≤ v.m_header.length) →
        r.m_lastAccessedEntryIndex = hint) ∧
      (length ≠ 0 → v.m_header.length < offset + length →
        ∃ k e, r.m_lastAccessedEntryIndex = some k ∧ v.m_entries[k]? = some e ∧
          e.Locator.DatFileOffset ≤ offset + length - 1 ∧
          offset + length - 1 < e.Locator.DatFileOffset + e.EntrySize) := by
  obtain ⟨_, _, _, _, _, _, hw⟩ := FinishToStreams_Data_spec fmt image c N v hN
  obtain ⟨r, h1, h2, h3, h4, _, _⟩ :=
    ReadStreamPartial_spec _ (WellFormed_withHint v hw hint hhint) m_buffer hcache offset
      length hin
  obtain ⟨r', h1', h2', h3', _, _, _⟩ :=
    ReadStreamPartial_spec _ (WellFormed_withHint v hw hint' hhint') m_buffer' hcache' offset
      length hin
  obtain ⟨h5, h6⟩ :=
    ReadStreamPartial_hint _ (WellFormed_withHint v hw hint hhint) m_buffer offset length hin
      r h1
  refine ⟨r, r', h1, h1', by rw [h2, h2'], ?_, h4, h5, h6⟩
  rw [h3, h3']
  rfl

set_option maxRecDepth 20000 in
/-- Witness of C33: the read of 300 bytes from offset 2040 of the view with
four entries, once with no entry accessed before and once with the last entry
as the entry accessed last. -/
theorem ReadStreamPartial_independent_of_hint_witness :
    (FinishToStreams.Data Format.sqpack Example.images Example.builderCollide)[0]? =
      some Example.viewCollide ∧
    2040 + 300 ≤ Example.viewCollide.StreamSize ∧
    ∃ r r', DataViewStream.ReadStreamPartial
        { Example.viewCollide with m_lastAccessedEntryIndex := none }
        (some ⟨none⟩) 2040 300 = some r ∧
      DataViewStream.ReadStreamPartial
        { Example.viewCollide with m_lastAccessedEntryIndex := some 3 }
        none 2040 300 = some r' ∧
      r.returned = r'.returned ∧ r.written = r'.written ∧
      ∃ k e, r.m_lastAccessedEntryIndex = some k ∧ Example.viewCollide.m_entries[k]? = some e ∧
        e.Locator.DatFileOffset ≤ 2040 + 300 - 1 ∧
        2040 + 300 - 1 < e.Locator.DatFileOffset + e.EntrySize :=
  ⟨rfl,
    by simp [DataViewStream.StreamSize, Example.viewCollide, DataViewStream.new, Example.images],
    (ReadStreamPartial_independent_of_hint Format.sqpack Example.images Example.builderCollide 0
      Example.viewCollide rfl none (some 3) (by intro i hi; cases hi)
      (by intro i hi; cases hi; decide) (some ⟨none⟩) none
      (by intro ch b h1 h2; cases h1; cases h2) (by intro ch b h1; cases h1) 2040 300
      (by simp [DataViewStream.StreamSize, Example.viewCollide, DataViewStream.new,
        Example.images])).imp
      (fun _ h => h.imp (fun _ h => ⟨h.1, h.2.1, h.2.2.1, h.2.2.2.1,
        h.2.2.2.2.2.2 (by decide)
          (by simp [Example.viewCollide, DataViewStream.new, Example.images])⟩))⟩

/-- C34: a cache has one slot, `m_lastActiveEntry`. The empty cache holds
nothing. For a cache that started empty and an entry whose provider has
`EntrySize` bytes: when `EntrySize` exceeds `LargeEntryBufferSizeMax`,
`GetBuffer(view, entry)` returns no buffer and leaves the cache as it was;
otherwise it returns the slot, which then names exactly this view and entry
and whose buffer has `EntrySize` bytes, the content of the provider from
offset 0; in both cases the cache is again one that started empty, so that it
never holds an entry above the ceiling; after `Flush` the slot is empty. -/
theorem GetBuffer_holds_one_entry (entryAt : Nat → Nat → Option Entry)
    (cache : SqpackViewEntryCache) (view index : Nat) (e : Entry)
    (hcache : cache.Holds entryAt) (he : entryAt view index = some e)
    (hprov : e.EntrySize ≤ e.Provider.Data.length) :
    SqpackViewEntryCache.empty.Holds entryAt ∧
    (e.EntrySize > SqpackViewEntryCache.LargeEntryBufferSizeMax →
      cache.GetBuffer view index e = some (cache, none)) ∧
    (e.EntrySize ≤ SqpackViewEntryCache.LargeEntryBufferSizeMax →
      ∃ cache' buffer, cache.GetBuffer view index e = some (cache', some buffer) ∧
        cache'.m_lastActiveEntry = some ⟨view, index, buffer⟩ ∧
        buffer.length = e.EntrySize ∧ buffer = e.Provider.Data.take e.EntrySize) ∧
    (∀ cache' buf, cache.GetBuffer view index e = some (cache', buf) →
      cache'.Holds entryAt) ∧
    cache.Flush.m_lastActiveEntry = none ∧ cache.Flush.Holds entryAt := by
  have hempty : SqpackViewEntryCache.empty.Holds entryAt := by
    intro b hb
    simp [SqpackViewEntryCache.empty] at hb
  have hread : e.Provider.ReadStream 0 e.EntrySize = some (e.Provider.Data.take e.EntrySize) := by
    simp [EntryProvider.ReadStream, hprov]
  have hlen : (e.Provider.Data.take e.EntrySize).length = e.EntrySize := by
    rw [List.length_take]
    omega
  have hset : SqpackViewEntryCache.SetEntry view index e =
      some (⟨some ⟨view, index, e.Provider.Data.take e.EntrySize⟩⟩,
        some (e.Provider.Data.take e.EntrySize)) := by
    simp [SqpackViewEntryCache.SetEntry, hread]
  have hhit : ∀ b, cache.m_lastActiveEntry = some b → b.m_view = view ∧ b.m_entry = index →
      e.EntrySize ≤ SqpackViewEntryCache.LargeEntryBufferSizeMax ∧
        b = ⟨view, index, e.Provider.Data.take e.EntrySize⟩ := by
    intro b hb hvi
    obtain ⟨e', h1, h2, h3⟩ := hcache b hb
    rw [hvi.1, hvi.2, he] at h1
    simp only [Option.some.injEq] at h1
    subst h1
    refine ⟨h2, ?_⟩
    cases b
    simp only at hvi h3
    rw [hvi.1, hvi.2, h3]
  refine ⟨hempty, ?_, ?_, ?_, rfl, ?_⟩
  · intro hbig
    unfold SqpackViewEntryCache.GetBuffer
    cases hb : cache.m_lastActiveEntry with
    | none => simp [hbig]
    | some b =>
      simp only
      split
      · rename_i hvi
        have := (hhit b hb hvi).1
        omega
      · simp [hbig]
  · intro hsmall
    unfold SqpackViewEntryCache.GetBuffer
    cases hb : cache.m_lastActiveEntry with
    | none =>
      simp only
      rw [if_neg (by omega), hset]
      exact ⟨_, _, rfl, rfl, hlen, rfl⟩
    | some b =>
      simp only
      split
      · rename_i hvi
        have hbe := (hhit b hb hvi).2
        refine ⟨cache, e.Provider.Data.take e.EntrySize, ?_, ?_, hlen, rfl⟩
        · rw [hbe]
        · rw [hb, hbe]
      · rw [if_neg (by omega), hset]
        exact ⟨_, _, rfl, rfl, hlen, rfl⟩
  · intro cache' buf h
    have hnew : (⟨some ⟨view, index, e.Provider.Data.take e.EntrySize⟩⟩ :
        SqpackViewEntryCache).Holds entryAt →
        ∀ cache'' buf', SqpackViewEntryCache.SetEntry view index e = some (cache'', buf') →
          cache''.Holds entryAt := by
      intro hh cache'' buf' hs
      rw [hset] at hs
      simp only [Option.some.injEq, Prod.mk.injEq] at hs
      rw [← hs.1]
      exact hh
    unfold SqpackViewEntryCache.GetBuffer at h
    cases hb : cache.m_lastActiveEntry with
    | none =>
      rw [hb] at h
      simp only at h
      split at h
      · simp only [Option.some.injEq, Prod.mk.injEq] at h
        rw [← h.1]
        exact hcache
      · rename_i hsmall
        refine hnew ?_ cache' buf h
        intro b' hb'
        simp only [Option.some.injEq] at hb'
        subst hb'
        exact ⟨e, he, by omega, rfl⟩
    | some b =>
      rw [hb] at h
      simp only at h
      split at h
      · simp only [Option.some.injEq, Prod.mk.injEq] at h
        rw [← h.1]
        exact hcache
      · split at h
        · simp only [Option.some.injEq, Prod.mk.injEq] at h
          rw [← h.1]
          exact hcache
        · rename_i hsmall
          refine hnew ?_ cache' buf h
          intro b' hb'
          simp only [Option.some.injEq] at hb'
          subst hb'
          exact ⟨e, he, by omega, rfl⟩
  · intro b hb
    simp [SqpackViewEntryCache.Flush] at hb

set_option maxRecDepth 20000 in
/-- Witness of C34: the empty cache asked for the second entry of the view
`viewCollide` then holds that entry, with its 128 bytes. -/
theorem GetBuffer_holds_one_entry_witness :
    Example.entryAtCollide 0 1 =
      some ⟨128, ⟨0, 2176⟩,
        HotSwappableEntryProvider Example.specOther 128 Example.provOther⟩ ∧
    ∃ cache' buffer,
      SqpackViewEntryCache.empty.GetBuffer 0 1
          ⟨128, ⟨0, 2176⟩, HotSwappableEntryProvider Example.specOther 128 Example.provOther⟩ =
        some (cache', some buffer) ∧
      cache'.m_lastActiveEntry = some ⟨0, 1, buffer⟩ ∧ buffer.length = 128 ∧
      buffer = 4 :: List.replicate 127 0 :=
  ⟨by decide,
    ((GetBuffer_holds_one_entry Example.entryAtCollide SqpackViewEntryCache.empty 0 1
      ⟨128, ⟨0, 2176⟩, HotSwappableEntryProvider Example.specOther 128 Example.provOther⟩
      (by intro b hb; cases hb) (by decide) (by decide)).2.2.1 (by decide)).imp
      (fun _ h => h.imp (fun _ h => ⟨h.1, h.2.1, h.2.2.1, h.2.2.2.trans (by decide)⟩))⟩

/-- C36: after `FinishToStreams` there are as many entry ranges as data
subheaders, every range has at least one entry and lies within the entries;
the slice of every view is not empty, and `ReadStreamPartial` of a view, in
every state that reads leave it in and for every offset and length, has a
result: no entry is looked up outside the slice, and the state left is again
such a state. For a builder without entries there is no data subheader and no
view, the primary and the folder segment of both index buffers are empty, the
conflict segment is the terminating record, and the pass-through segment is
what the builder retains. -/
theorem every_segment_has_an_entry (fmt : Format) (ifmt : IndexFormat)
    (image : HeaderImages fmt) (c : Creator) :
    (FinishToStreams fmt c).dataEntryRanges.length =
      (FinishToStreams fmt c).dataSubheaders.length ∧
    (FinishToStreams.Data fmt image c).length = (FinishToStreams fmt c).dataSubheaders.length ∧
    (∀ (N : Nat) (r : Nat × Nat), (FinishToStreams fmt c).dataEntryRanges[N]? = some r →
      0 < r.2 ∧ r.1 + r.2 ≤ (FinishToStreams fmt c).Entries.length) ∧
    (∀ (N : Nat) (v : DataViewStream), (FinishToStreams.Data fmt image c)[N]? = some v →
      v.m_entries ≠ [] ∧
      ∀ (hint : Option Nat) (m_buffer : Option SqpackViewEntryCache) (offset length : Nat),
        (∀ i, hint = some i → i < v.m_entries.length) →
        CacheValid v.id v.m_entries m_buffer →
        (∃ first, v.m_entries[hint.getD 0]? = some first) ∧
        ∃ r, DataViewStream.ReadStreamPartial { v with m_lastAccessedEntryIndex := hint }
            m_buffer offset length = some r ∧
          (∀ i, r.m_lastAccessedEntryIndex = some i → i < v.m_entries.length) ∧
          CacheValid v.id v.m_entries r.cache) ∧
    (c.m_hashOnlyEntries = [] → c.m_fullEntries = [] →
      FinishToStreams fmt c = ⟨[], [], []⟩ ∧ FinishToStreams.Data fmt image c = [] ∧
      (FinishToStreams.Index1 fmt ifmt c).fileSegment = [] ∧
      (FinishToStreams.Index1 fmt ifmt c).conflictSegment =
        [⟨ifmt.EndOfList, ifmt.EndOfList, SqIndex.LocatorField.Data ⟨0, 0⟩, ifmt.EndOfList,
          ""⟩] ∧
      (FinishToStreams.Index1 fmt ifmt c).segment3 = c.m_sqpackIndexSegment3 ∧
      (FinishToStreams.Index1 fmt ifmt c).folderSegment = [] ∧
      (FinishToStreams.Index2 fmt ifmt c).fileSegment = [] ∧
      (FinishToStreams.Index2 fmt ifmt c).conflictSegment =
        [⟨ifmt.EndOfList, ifmt.EndOfList, SqIndex.LocatorField.Data ⟨0, 0⟩, ifmt.EndOfList,
          ""⟩] ∧
      (FinishToStreams.Index2 fmt ifmt c).segment3 = c.m_sqpackIndex2Segment3 ∧
      (FinishToStreams.Index2 fmt ifmt c).folderSegment = []) := by
  obtain ⟨segs, hP, _, hR, _⟩ := FinishToStreams_segments fmt c
  have hlenR : ∀ (start : Nat) (l : List (List Entry)), (rangesOf start l).length = l.length := by
    intro start l
    induction l generalizing start with
    | nil => rfl
    | cons a t ih => simp [rangesOf, ih]
  refine ⟨by rw [hR, hlenR, hP.headers, headersOf_length], by simp [FinishToStreams.Data],
    ?_, ?_, ?_⟩
  · intro N r hN
    rw [hR, rangesOf_getElem?] at hN
    cases hs : segs[N]? with
    | none => simp [hs] at hN
    | some s =>
      rw [hs] at hN
      simp only [Option.map_some', Option.some.injEq] at hN
      subst hN
      simp only [Nat.zero_add]
      have hne := hP.nonempty s (List.getElem?_mem hs)
      refine ⟨List.length_pos.mpr hne, ?_⟩
      have hsl := congrArg List.length (flatten_slice segs N s hs)
      rw [List.length_take, List.length_drop, ← hP.entries] at hsl
      have hpos := List.length_pos.mpr hne
      omega
  · intro N v hN
    obtain ⟨_, _, _, _, _, _, hw⟩ := FinishToStreams_Data_spec fmt image c N v hN
    refine ⟨hw.nonempty, ?_⟩
    intro hint m_buffer offset length hhint hcache
    constructor
    · have hpos : 0 < v.m_entries.length := List.length_pos.mpr hw.nonempty
      have hstart : hint.getD 0 < v.m_entries.length := by
        cases hint with
        | none => simpa using hpos
        | some i => simpa using hhint i rfl
      exact ⟨_, List.getElem?_eq_getElem hstart⟩
    · exact ReadStreamPartial_defined _ (WellFormed_withHint v hw hint hhint) m_buffer hcache
        offset length
  · intro h1 h2
    have hE : entriesForStreams c = [] := by simp [entriesForStreams, h1, h2]
    have hA : FinishToStreams fmt c = ⟨[], [], []⟩ := by
      unfold FinishToStreams
      rw [hE]
      rfl
    refine ⟨hA, ?_, ?_, ?_, ?_, ?_, ?_, ?_, ?_, ?_⟩
    · simp [FinishToStreams.Data, hA]
    · simp only [FinishToStreams.Index1, ExportIndexFileData, FinishToStreams.tables, hE, hA]
      rfl
    · simp only [FinishToStreams.Index1, ExportIndexFileData, FinishToStreams.tables, hE, hA]
      rfl
    · rfl
    · simp only [FinishToStreams.Index1, ExportIndexFileData, FinishToStreams.tables, hE, hA]
      rfl
    · simp only [FinishToStreams.Index2, ExportIndexFileData, FinishToStreams.tables, hE, hA]
      rfl
    · simp only [FinishToStreams.Index2, ExportIndexFileData, FinishToStreams.tables, hE, hA]
      rfl
    · rfl
    · rfl

/-- C37: in `FinishToStreams`, if every entry with its resolved size fits
behind the two headers within the cap, every data segment satisfies
`headerSize + DataSize <= maxFileSize`; and in every case a data segment that
exceeds the cap has exactly one entry, whose resolved size is the `DataSize`
of the segment, so that this entry alone does not fit. -/
theorem segment_exceeds_cap_only_with_single_entry (fmt : Format) (c : Creator) :
    ((∀ e ∈ entriesForStreams c,
        fmt.sizeofSqpackHeader + fmt.sizeofSqDataHeader + (resolveEntry fmt e).EntrySize
          ≤ c.m_maxFileSize) →
      ∀ h ∈ (FinishToStreams fmt c).dataSubheaders,
        fmt.sizeofSqpackHeader + fmt.sizeofSqDataHeader + h.DataSize ≤ c.m_maxFileSize) ∧
    (∀ (N : Nat) (h : SqData.Header), (FinishToStreams fmt c).dataSubheaders[N]? = some h →
      fmt.sizeofSqpackHeader + fmt.sizeofSqDataHeader + h.DataSize > c.m_maxFileSize →
      ∃ i e, (FinishToStreams fmt c).dataEntryRanges[N]? = some (i, 1) ∧
        (FinishToStreams fmt c).Entries[i]? = some e ∧ h.DataSize = e.EntrySize ∧
        fmt.sizeofSqpackHeader + fmt.sizeofSqDataHeader + e.EntrySize > c.m_maxFileSize) := by
  obtain ⟨segs, hP, hW, _, hlenH, hall⟩ := FinishToStreams_slice fmt c
  constructor
  · intro hfit h hh
    obtain ⟨_, _, _, _, hE⟩ := FinishToStreams_segments fmt c
    have hfit' : ∀ e ∈ (FinishToStreams fmt c).Entries,
        fmt.sizeofSqpackHeader + fmt.sizeofSqDataHeader + e.EntrySize ≤ c.m_maxFileSize := by
      intro e he
      have hm : (e.EntrySize, e.Provider) ∈
          (FinishToStreams fmt c).Entries.map (fun e => (e.EntrySize, e.Provider)) :=
        List.mem_map_of_mem _ he
      rw [hE] at hm
      obtain ⟨x, hx, hxe⟩ := List.mem_map.mp hm
      have := hfit x hx
      have h1 : (resolveEntry fmt x).EntrySize = e.EntrySize := congrArg Prod.fst hxe
      omega
    exact (headers_within_cap hP hW hfit' h hh).1
  · intro N h hN hgt
    have hNlt : N < segs.length := by
      by_contra hge
      rw [List.getElem?_eq_none (by omega)] at hN
      simp at hN
    obtain ⟨hR, hslice, hH, _, _⟩ := hall N segs[N] (List.getElem?_eq_getElem hNlt)
    rw [hN] at hH
    simp only [Option.some.injEq] at hH
    subst hH
    simp only at hgt ⊢
    rcases hW segs[N] (List.getElem_mem hNlt) with hle | ⟨e, he, hbig⟩
    · omega
    · rw [he] at hR hslice
      refine ⟨_, e, hR, ?_, by rw [he]; simp, hbig⟩
      have := congrArg (fun l : List Entry => l[0]?) hslice
      simp only [List.length_singleton, List.getElem?_take, List.getElem?_drop] at this
      simpa using this

set_option maxRecDepth 20000 in
/-- Evaluation for C37: with the cap 2048 a single entry of 128 bytes forms a
segment of 2048 + 128 bytes, and it is the only entry of that segment. -/
theorem segment_exceeds_cap_only_with_single_entry_example :
    (FinishToStreams Format.sqpack Example.builderSmallCap).dataSubheaders.map
        (fun h => h.DataSize) = [128] ∧
    (FinishToStreams Format.sqpack Example.builderSmallCap).dataEntryRanges = [(0, 1)] := by
  refine ⟨by decide, by decide⟩

end Creator

end Sqex.Sqpack

/-! ## Theorems about `Sqex::Sound::ScdWriter::SoundEntry` -/

namespace Sqex.Sound.ScdWriter.SoundEntry

/-- The bytes that the loop of `ExportTo` appends for the aux chunks. -/
theorem ExportTo.chunks_ok :
    ∀ (chunks : List (List Nat × List Nat)) (res : List Nat),
      (∀ a ∈ chunks, a.1.length = 4) →
      ∃ bytes, ExportTo.chunks chunks res = Except.ok (res ++ bytes) ∧
        bytes = (chunks.map (fun a => a.1 ++ le32 ((8 + a.2.length) % 2 ^ 32) ++ a.2)).flatten ∧
        bytes.length = (chunks.map (fun aux => 8 + aux.2.length)).sum := by
  intro chunks
  induction chunks with
  | nil =>
    intro res _
    exact ⟨[], by simp [ExportTo.chunks], rfl, rfl⟩
  | cons a t ih =>
    intro res h
    obtain ⟨name, aux⟩ := a
    have hn : name.length = 4 := h (name, aux) (List.mem_cons_self _ _)
    obtain ⟨bytes, h1, h2, h3⟩ := ih (res ++ name ++ le32 ((8 + aux.length) % 2 ^ 32) ++ aux)
      (fun b hb => h b (List.mem_cons_of_mem _ hb))
    refine ⟨name ++ le32 ((8 + aux.length) % 2 ^ 32) ++ aux ++ bytes, ?_, ?_, ?_⟩
    · unfold ExportTo.chunks
      rw [if_neg (by omega), h1]
      simp [List.append_assoc]
    · rw [h2]
      simp [List.append_assoc]
    · simp only [List.length_append, h3, hn, List.map_cons, List.sum_cons, le32,
        List.length_cons, List.length_nil]

/-- The loop of `ExportTo` throws when a name has not four characters. -/
theorem ExportTo.chunks_error :
    ∀ (chunks : List (List Nat × List Nat)) (res : List Nat),
      (∃ a ∈ chunks, a.1.length ≠ 4) →
      ∃ left, ExportTo.chunks chunks res = Except.error ("Length of name must be 4", left) := by
  intro chunks
  induction chunks with
  | nil =>
    intro res h
    obtain ⟨a, ha, _⟩ := h
    simp at ha
  | cons a t ih =>
    intro res h
    obtain ⟨name, aux⟩ := a
    unfold ExportTo.chunks
    by_cases hn : name.length = 4
    · rw [if_neg (by omega)]
      apply ih
      obtain ⟨b, hb, hne⟩ := h
      rcases List.mem_cons.mp hb with rfl | hb
      · exact absurd hn hne
      · exact ⟨b, hb, hne⟩
    · rw [if_pos hn]
      exact ⟨res, rfl⟩

/-- C38: when every aux chunk has a name of four characters, `ExportTo` keeps
the bytes of the vector and appends the image of the header, for each aux
chunk its name, its size and its content, the extra data and the data,
`CalculateEntrySize()` bytes in all; the `StreamSize` of the header written
is the length of the data and its `StreamOffset` is the length of the aux
chunks, 8 bytes and the content for each, plus the length of the extra data,
when these fit 32 bits; when some aux chunk has a name of another length,
`ExportTo` throws `std::invalid_argument`. -/
theorem ExportTo_appends_CalculateEntrySize_bytes (image : SoundEntryImages) (e : SoundEntry)
    (res : List Nat) :
    ((∀ a ∈ e.AuxChunks, a.1.length = 4) →
      ∃ bytes, ExportTo image e res = Except.ok (res ++ bytes) ∧
        bytes.length = CalculateEntrySize image e ∧
        bytes =
          image.header (ExportTo.hdr image e) ++
            (e.AuxChunks.map
              (fun a => a.1 ++ le32 ((8 + a.2.length) % 2 ^ 32) ++ a.2)).flatten ++
            e.ExtraData ++ e.Data) ∧
    (e.Data.length < 2 ^ 32 → (ExportTo.hdr image e).StreamSize = e.Data.length) ∧
    ((e.AuxChunks.map (fun aux => 8 + aux.2.length)).sum + e.ExtraData.length < 2 ^ 32 →
      (ExportTo.hdr image e).StreamOffset =
        (e.AuxChunks.map (fun aux => 8 + aux.2.length)).sum + e.ExtraData.length) ∧
    ((∃ a ∈ e.AuxChunks, a.1.length ≠ 4) →
      ∃ left, ExportTo image e res = Except.error ("Length of name must be 4", left)) := by
  refine ⟨?_, ?_, ?_, ?_⟩
  · intro h
    obtain ⟨bytes, h1, h2, h3⟩ :=
      ExportTo.chunks_ok e.AuxChunks (res ++ image.header (ExportTo.hdr image e)) h
    refine ⟨image.header (ExportTo.hdr image e) ++ bytes ++ e.ExtraData ++ e.Data, ?_, ?_, ?_⟩
    · unfold ExportTo
      rw [h1]
      simp [List.append_assoc]
    · simp only [List.length_append, image.header_size, h3, CalculateEntrySize]
    · rw [h2]
  · intro h
    exact Nat.mod_eq_of_lt h
  · intro h
    simp only [ExportTo.hdr, CalculateEntrySize]
    rw [Nat.mod_eq_of_lt (by omega)]
    omega
  · intro h
    obtain ⟨left, h1⟩ :=
      ExportTo.chunks_error e.AuxChunks (res ++ image.header (ExportTo.hdr image e)) h
    exact ⟨left, by unfold ExportTo; rw [h1]⟩

/-- Evaluation for C38: an entry with two aux chunks appended to a vector of
two bytes, and the same entry with a name of three characters. -/
theorem ExportTo_appends_CalculateEntrySize_bytes_example :
    CalculateEntrySize Example.entryImages Example.entry = 54 ∧
    ExportTo Example.entryImages Example.entry [5, 6] =
      Except.ok ([5, 6] ++ (20 :: 2 :: 2 :: List.replicate 29 0) ++
        [76, 79, 79, 80, 8, 0, 0, 0] ++ [77, 65, 82, 75, 11, 0, 0, 0, 1, 2, 3] ++ [7] ++ [8, 9]) ∧
    ExportTo Example.entryImages Example.entryBadName [5, 6] =
      Except.error ("Length of name must be 4",
        [5, 6] ++ (20 :: 2 :: 2 :: List.replicate 29 0) ++ [76, 79, 79, 80, 8, 0, 0, 0]) := by
  refine ⟨by decide, rfl, rfl⟩

/-- C39: `FromWave` returns the payload of the data chunk when the data chunk
follows the format, and also when an empty chunk lies between them; when a
chunk with a payload precedes the data chunk, `pos` is advanced by the length
of that chunk but the reader is not, the payload is taken for the next chunk
header, and the call ends with "No data section found" although the file has
a data chunk. A wrong signature, a format tag other than PCM and ADPCM, and a
file without data chunk are rejected. -/
theorem FromWave_does_not_skip_chunk_payload :
    FromWave Example.wavPlain =
      some (Except.ok
        { Header := ⟨4, 2, 44100, EntryFormat.EntryFormat_WaveFormatPcm, 0, 0, 0, 0, 0⟩
          AuxChunks := [], ExtraData := [], Data := [1, 2, 3, 4] }) ∧
    FromWave Example.wavWithEmptyChunk =
      some (Except.ok
        { Header := ⟨4, 2, 44100, EntryFormat.EntryFormat_WaveFormatPcm, 0, 0, 0, 0, 0⟩
          AuxChunks := [], ExtraData := [], Data := [1, 2, 3, 4] }) ∧
    FromWave Example.wavWithFact = some (Except.error "No data section found") ∧
    FromWave Example.wavBadSignature = some (Except.error "Bad file header") ∧
    FromWave Example.wavFloat = some (Except.error "wave format not supported") ∧
    FromWave Example.wavNoData = some (Except.error "No data section found") := by
  refine ⟨rfl, rfl, rfl, rfl, rfl, rfl⟩

end Sqex.Sound.ScdWriter.SoundEntry
